import Mathlib

/-!
# Packet loss concealment for SCO speech frames (`audio_msbc_plc.c`)

A shallow embedding of the pitch-synchronous concealer of
`src/log_parse/plc/plc/audio_msbc_plc.c` (declarations in
`src/plc/plc/audio_msbc_plc.h`) and the properties of it that are proved.

Conventions of the embedding.

* `Float` is the C typedef `Float`; its values are rational numbers and its
  arithmetic is exact.  The functions whose name ends in `_fl` are written once
  more with a rounding applied to the result of every operation on `Float`s, for
  the statements that hold in the arithmetic of C whatever the rounding is.
  Division by zero, which is infinite or NaN in C, gives `0` here; it can occur
  in `lpc_analysis`, in `g711plc_findpitch` for a `sqrt` that returns 0, and in
  `cvsd_g711plc_construct` when `fading_count` is 0.
* `short` and `int` values are integers without wrap-around.  The conversion
  `(short) t` of a `Float` is `toShort`: truncation toward zero, with no result
  (`none`) when the truncated value is not a 16-bit value, which C leaves
  undefined.
* A C array is a function from indices to values; a pointer is an array with an
  offset.  Where two pointer arguments of one call point into the same array the
  read-only one is passed as `Src.dst`, so that each read sees the writes made
  before it, as in C.
* A loop whose trip count is known on entry is a `forLoop`; any other loop runs
  on fuel and has no result (`none`) when the fuel does not suffice.
* The preprocessor switches `G711_ADAPTIVE_PLC`, `COMFORT_NOISE` and
  `NONLINEAR_ATTEN`, the global `fading_count` and the C library functions
  `sqrt`, `log10f` and `powf` are the fields of `Env`.  The values of
  `rand() / (float)RAND_MAX` drawn in one call are an argument of that call.
-/

namespace PLC

/-! ## Types and constants -/

/-- The typedef `Float` of `audio_msbc_plc.h`, in exact arithmetic. -/
abbrev Float := ℚ

/-- The C type `short`. -/
abbrev short := ℤ

def HISTORYLEN_MAX : Int := 780
def POVERLAPMAX_ : Int := 60
def FRAMESZ_MAX : Int := 120
def G711_ATT_FADE_COUNT : Int := 10
def LPC_ORDER : Int := 8
def NOISE_HISTORY : Int := 32
def COMFORT_NOISE_START : Int := 30
def CNG_GAIN_SCALE : Float := 2 / 10

/-- A C array: its value at every index. -/
structure Arr (α : Type) where
  get : Int → α

instance {α : Type} : CoeFun (Arr α) (fun _ => Int → α) := ⟨Arr.get⟩

/-- The assignment `a[i] = v`. -/
def Arr.set {α : Type} (a : Arr α) (i : Int) (v : α) : Arr α :=
  ⟨fun j => if j = i then v else a.get j⟩

/-- The array that holds `v` at every index. -/
def Arr.const {α : Type} (v : α) : Arr α := ⟨fun _ => v⟩

/-- Build switches, the global `fading_count`, and the C library. -/
structure Env where
  G711_ADAPTIVE_PLC : Bool
  COMFORT_NOISE : Bool
  NONLINEAR_ATTEN : Bool
  fading_count : Int
  sqrt : Float → Float
  log10f : Float → Float
  powf : Float → Float → Float

structure ComfortNoiseGenerator where
  lpc_coeff : Arr Float
  energy_history : Arr Float
  noise_floor : Float
  hist_index : Int

structure PitchCandidate where
  corr : Float
  index : Int

/-- The struct `LowcFE_c`.  `pitchbufend` and `pitchbufstart` are offsets into
`pitchbuf`. -/
structure LowcFE where
  pitch_min : Int
  pitch_max : Int
  pitchdiff : Int
  poverlapmax : Int
  historylen : Int
  ndec : Int
  corrlen : Int
  corrbuflen : Int
  corrminpower : Float
  eoverlapincr : Int
  framesz : Int
  attenfac : Float
  attenincr : Float
  erasecnt : Int
  poverlap : Int
  poffset : Int
  pitch : Int
  pitchblen : Int
  sbcrt : Int
  pitchbufend : Int
  pitchbufstart : Int
  pitchbuf : Arr Float
  lastq : Arr Float
  history : Arr short
  alpha : Float
  prev_energy : Float
  last_pitch : Int
  cng : ComfortNoiseGenerator

/-- A read-only pointer argument: into an array of its own, or into the array
that the call writes. -/
inductive Src (α : Type) where
  | arr (a : Arr α)
  | dst

/-- The value a read-only pointer sees at index `i` when the written array is
currently `cur`. -/
def Src.get {α : Type} (s : Src α) (cur : Arr α) (i : Int) : α :=
  match s with
  | .arr a => a i
  | .dst => cur i

/-! ## Conversions and loops -/

/-- Truncation toward zero. -/
def trunc (t : Float) : Int :=
  if 0 ≤ t then ⌊t⌋ else ⌈t⌉

/-- The conversion `(short) t`. -/
def toShort (t : Float) : Option short :=
  if -32768 ≤ trunc t ∧ trunc t ≤ 32767 then some (trunc t) else none

/-- The conversion `(short) t` is defined. -/
def inRange (t : Float) : Prop := -32768 ≤ trunc t ∧ trunc t ≤ 32767

/-- The loop `for (i = 0; i < n; i++) body`. -/
def forLoop {σ : Type} (body : Int → σ → σ) : Nat → σ → σ
  | 0, s => s
  | n + 1, s => body n (forLoop body n s)

/-- The loop `for (i = 0; i < n; i++) body` with a body that may have no result. -/
def forLoopM {σ : Type} (body : Int → σ → Option σ) : Nat → σ → Option σ
  | 0, s => some s
  | n + 1, s => (forLoopM body n s).bind (body n)

/-- The loop `for (; i < bound; i += step) body`, on fuel. -/
def strideLoop {σ : Type} (body : Int → σ → Option σ) (step bound : Int) :
    Nat → Int → σ → Option σ
  | 0, i, s => if i < bound then none else some s
  | fuel + 1, i, s =>
    if i < bound then (body i s).bind (strideLoop body step bound fuel (i + step))
    else some s

/-- The loop `while (cond) body`, on fuel. -/
def whileLoop {σ : Type} (cond : σ → Bool) (body : σ → σ) : Nat → σ → Option σ
  | 0, s => if cond s then none else some s
  | fuel + 1, s => if cond s then whileLoop cond body fuel (body s) else some s

/-! ## Array helpers -/

def g711plc_convertsf (f : Arr short) (fi : Int) (t : Arr Float) (ti : Int)
    (cnt : Int) : Arr Float :=
  forLoop (fun i t => t.set (ti + i) ((f (fi + i) : Int) : Float)) cnt.toNat t

def g711plc_convertfs (f : Arr Float) (fi : Int) (t : Arr short) (ti : Int)
    (cnt : Int) : Option (Arr short) :=
  forLoopM (fun i t => (toShort (f (fi + i))).bind
    (fun v => some (t.set (ti + i) v))) cnt.toNat t

def g711plc_copyf (f : Arr Float) (fi : Int) (t : Arr Float) (ti : Int)
    (cnt : Int) : Arr Float :=
  forLoop (fun i t => t.set (ti + i) (f (fi + i))) cnt.toNat t

def g711plc_copys (f : Src short) (fi : Int) (t : Arr short) (ti : Int)
    (cnt : Int) : Arr short :=
  forLoop (fun i t => t.set (ti + i) (f.get t (fi + i))) cnt.toNat t

def g711plc_zeros (s : Arr short) (so : Int) (cnt : Int) : Arr short :=
  forLoop (fun i s => s.set (so + i) 0) cnt.toNat s

/-- The call `memset(a, 0, n * sizeof(float))`. -/
def memset0 (a : Arr Float) (n : Int) : Arr Float :=
  forLoop (fun i a => a.set i 0) n.toNat a

/-- The clamp of `g711plc_overlapadd`, `g711plc_overlapadds` and
`g711plc_overlapaddatend`. -/
def clamp16 (t : Float) : Float :=
  if t > 32767 then 32767 else if t < -32768 then -32768 else t

/-- State of the overlap-add loops: the written array and the two weights. -/
structure Ola (α : Type) where
  o : Arr α
  lw : Float
  rw : Float

/-- Overlap add of `l` and `r` into `o`, on `Float` arrays. -/
def g711plc_overlapadd (l : Arr Float) (lo : Int) (r : Src Float) (ro : Int)
    (o : Arr Float) (oo : Int) (cnt : Int) : Arr Float :=
  if cnt = 0 then o
  else
    let incr : Float := 1 / (cnt : Float)
    (forLoop (fun i (st : Ola Float) =>
      let t := st.lw * l (lo + i) + st.rw * r.get st.o (ro + i)
      let t := clamp16 t
      { o := st.o.set (oo + i) t, lw := st.lw - incr, rw := st.rw + incr })
      cnt.toNat { o := o, lw := 1 - incr, rw := incr }).o

/-- Overlap add of `l` and `r` into `o`, on `short` arrays. -/
def g711plc_overlapadds (l : Arr short) (lo : Int) (r : Src short) (ro : Int)
    (o : Arr short) (oo : Int) (cnt : Int) : Option (Arr short) :=
  if cnt = 0 then some o
  else
    let incr : Float := 1 / (cnt : Float)
    (forLoopM (fun i (st : Ola short) =>
      let t := st.lw * (l (lo + i) : Float) + st.rw * (r.get st.o (ro + i) : Float)
      let t := clamp16 t
      (toShort t).bind (fun v =>
        some { o := st.o.set (oo + i) v, lw := st.lw - incr, rw := st.rw + incr }))
      cnt.toNat { o := o, lw := 1 - incr, rw := incr }).map (fun st => st.o)

/-! ## Linear prediction and the adaptive features -/

def lpc_analysis (frame : Arr short) (size : Int) (coeff : Arr Float) : Arr Float :=
  let autocorr : Arr Float :=
    forLoop (fun lag ac =>
      forLoop (fun i ac =>
        ac.set lag (ac lag + (frame i : Float) * (frame (i + lag) : Float)))
        (size - lag).toNat ac) (LPC_ORDER + 1).toNat (Arr.const 0)
  let err := autocorr 0
  let coeff := coeff.set 0 1
  (forLoop (fun ki (st : Arr Float × Float) =>
    let k := 1 + ki
    let lambda : Float :=
      forLoop (fun mi lambda =>
        let m := 1 + mi
        lambda - st.1 m * autocorr (k - m)) (k - 1).toNat 0
    let lambda := lambda / st.2
    let coeff :=
      forLoop (fun ni coeff =>
        let n := k - ni
        coeff.set n (coeff n + lambda * coeff (k - n))) k.toNat st.1
    (coeff, st.2 * (1 - lambda * lambda))) LPC_ORDER.toNat (coeff, err)).1

def compute_dynamic_alpha (current_energy prev_energy prev_alpha : Float) : Float :=
  let target_alpha : Float :=
    if current_energy < -30 ∧ prev_energy < -30 then 65 / 100
    else if current_energy > -10 ∧ prev_energy > -10 then 85 / 100
    else 75 / 100
  if |target_alpha - prev_alpha| > 5 / 100 then
    if target_alpha > prev_alpha then prev_alpha + 5 / 100 else prev_alpha - 5 / 100
  else target_alpha

def apply_perceptual_weight (frame : Arr short) (size : Int) (lc : LowcFE)
    (alpha : Float) : Option (Arr short) :=
  forLoopM (fun i frame =>
    let weighted : Float := (frame i : Float)
    let weighted :=
      forLoop (fun ji weighted =>
        let j := 1 + ji
        weighted - alpha * lc.cng.lpc_coeff j * (frame (i - j) : Float))
        (min LPC_ORDER i).toNat weighted
    (toShort (max (min weighted 32767) (-32768))).bind
      (fun v => some (frame.set i v))) size.toNat frame

/-- One pass of the update of the three best candidates in `enhanced_findpitch`. -/
def update_candidates (candidates : Arr PitchCandidate) (nccf : Float) (j : Int) :
    Arr PitchCandidate :=
  if nccf > (candidates 0).corr then
    let candidates := candidates.set 2 (candidates 1)
    let candidates := candidates.set 1 (candidates 0)
    candidates.set 0 { corr := nccf, index := j }
  else if nccf > (candidates 1).corr then
    let candidates := candidates.set 2 (candidates 1)
    candidates.set 1 { corr := nccf, index := j }
  else if nccf > (candidates 2).corr then
    candidates.set 2 { corr := nccf, index := j }
  else candidates

/-- The sums `energy` and `corr` of `enhanced_findpitch` at lag `j`, and the
score made of them. -/
def nccf_at (lc : LowcFE) (l r j : Int) : Float :=
  let ec : Float × Float :=
    forLoop (fun i (ec : Float × Float) =>
      (ec.1 + lc.pitchbuf (r + (j + i)) * lc.pitchbuf (r + (j + i)),
       ec.2 + lc.pitchbuf (r + (j + i)) * lc.pitchbuf (l + i))) lc.corrlen.toNat (0, 0)
  (ec.2 * ec.2) / (ec.1 + 1 / 1000000)

/-- The loops `for (i = 0; i < 3; i++) if (...) final_pitch = candidate_pitch, break`
of `enhanced_findpitch`, with tolerance `threshold`. -/
def continuity_check (lc : LowcFE) (candidates : Arr PitchCandidate) (threshold : Float)
    (final_pitch : Int) : Int :=
  (forLoop (fun i (st : Int × Bool) =>
    if st.2 then st
    else
      let candidate_pitch := lc.pitch_max - (candidates i).index
      if ((|candidate_pitch - lc.last_pitch| : Int) : Float) < threshold * (lc.last_pitch : Float)
      then (candidate_pitch, true) else st) 3 (final_pitch, false)).1

def enhanced_findpitch (E : Env) (lc : LowcFE) : Option (LowcFE × Int) :=
  let l := lc.pitchbufend - lc.corrlen
  let r := lc.pitchbufend - lc.corrbuflen
  let candidates : Arr PitchCandidate := Arr.const { corr := -1000000000, index := 0 }
  (strideLoop (fun j candidates => some (update_candidates candidates (nccf_at lc l r j) j))
    lc.ndec (lc.pitchdiff + 1) (lc.pitchdiff + 1).toNat 0 candidates).bind (fun candidates =>
  let best_match := (candidates 0).index
  let best_corr := (candidates 0).corr
  let search_start := best_match - (lc.ndec - 1)
  let search_end := best_match + (lc.ndec - 1)
  let search_start := if search_start < 0 then 0 else search_start
  let search_end := if search_end > lc.pitchdiff then lc.pitchdiff else search_end
  let best : Float × Int :=
    forLoop (fun ji (best : Float × Int) =>
      let j := search_start + ji
      let nccf := nccf_at lc l r j
      if nccf > best.1 then (nccf, j) else best)
      (search_end - search_start + 1).toNat (best_corr, best_match)
  let best_match := best.2
  let final_pitch := lc.pitch_max - best_match
  let final_pitch := continuity_check lc candidates (5 / 100) final_pitch
  let current_energy := 10 * E.log10f (lc.corrminpower + 1 / 1000000)
  let energy_diff := |current_energy - lc.prev_energy|
  let threshold : Float := if energy_diff > 10 then 15 / 100 else 5 / 100
  let final_pitch := continuity_check lc candidates threshold final_pitch
  some ({ lc with last_pitch := final_pitch }, final_pitch))

def nonlinear_attenuation (E : Env) (out : Arr short) (sz erasecnt pitch : Int) :
    Option (Arr short) :=
  let g : Float :=
    if erasecnt ≤ 5 then 1 - 2 / 100 * (erasecnt : Float)
    else 9 / 10 * E.powf (88 / 100) ((erasecnt - 5 : Int) : Float)
  forLoopM (fun i out =>
    let sample : Float := (out i : Float) * g
    let sample :=
      if pitch > 0 ∧ Int.tmod i pitch < Int.tdiv pitch 4 then sample * (11 / 10) else sample
    (toShort (max (min sample 32767) (-32768))).bind
      (fun v => some (out.set i v))) sz.toNat out

/-- Comfort noise; `rnd i` is the value of `rand() / (float)RAND_MAX` drawn for
sample `i`. -/
def generate_comfort_noise (cng : ComfortNoiseGenerator) (out : Arr short) (sz : Int)
    (rnd : Int → Float) : Option (ComfortNoiseGenerator × Arr short) :=
  let cng := { cng with lpc_coeff := lpc_analysis out sz cng.lpc_coeff }
  (forLoopM (fun i out =>
    let noise : Float := (rnd i * 2 - 1) * cng.noise_floor
    let noise :=
      forLoop (fun ji noise =>
        let j := 1 + ji
        if i ≥ j then noise + cng.lpc_coeff j * (out (i - j) : Float) else noise)
        (LPC_ORDER - 1).toNat noise
    (toShort (noise * CNG_GAIN_SCALE)).bind
      (fun v => some (out.set i v))) sz.toNat out).map (fun out => (cng, out))

/-! ## The concealer -/

/-- The loop of `g711plc_getfespeech`; `out` with offset `oi` is the moving
pointer `out`. -/
def g711plc_getfespeech_loop :
    Nat → LowcFE → Arr short → Int → Int → Option (LowcFE × Arr short)
  | 0, lc, out, _, sz => if sz ≠ 0 then none else some (lc, out)
  | fuel + 1, lc, out, oi, sz =>
    if sz ≠ 0 then
      let cnt := lc.pitchblen - lc.poffset
      let cnt := if cnt > sz then sz else cnt
      (g711plc_convertfs lc.pitchbuf (lc.pitchbufstart + lc.poffset) out oi cnt).bind
        (fun out =>
          let lc := { lc with poffset := lc.poffset + cnt }
          let lc := if lc.poffset = lc.pitchblen then { lc with poffset := 0 } else lc
          g711plc_getfespeech_loop fuel lc out (oi + cnt) (sz - cnt))
    else some (lc, out)

/-- Get samples from the circular pitch buffer; every pass of the loop with
`cnt > 0` lowers `sz`, so `sz` passes are the fuel. -/
def g711plc_getfespeech (lc : LowcFE) (out : Arr short) (sz : Int) :
    Option (LowcFE × Arr short) :=
  g711plc_getfespeech_loop sz.toNat lc out 0 sz

def g711plc_scalespeech (lc : LowcFE) (out : Arr short) : Option (Arr short) :=
  let g : Float := 1 - ((lc.erasecnt - 1 : Int) : Float) * lc.attenfac
  (forLoopM (fun i (st : Arr short × Float) =>
    (toShort ((st.1 i : Float) * st.2)).bind
      (fun v => some (st.1.set i v, st.2 - lc.attenincr)))
    lc.framesz.toNat (out, g)).map (fun st => st.1)

/-- Save a frame in the history buffer and return the output delayed by
`poverlapmax`. -/
def g711plc_savespeech (lc : LowcFE) (s : Arr short) : LowcFE × Arr short :=
  let history := g711plc_copys Src.dst lc.framesz lc.history 0 (lc.historylen - lc.framesz)
  let history := g711plc_copys (Src.arr s) 0 history (lc.historylen - lc.framesz) lc.framesz
  let s := g711plc_copys (Src.arr history) (lc.historylen - lc.framesz - lc.poverlapmax)
    s 0 lc.framesz
  ({ lc with history := history }, s)

def g711plc_overlapaddatend (lc : LowcFE) (s : Arr short) (f : Arr short) (cnt : Int) :
    Option (Arr short) :=
  let incr : Float := 1 / ((cnt - lc.sbcrt : Int) : Float)
  let gain : Float := 1 - ((lc.erasecnt - 1 : Int) : Float) * lc.attenfac
  let gain : Float := if gain < 0 then 0 else gain
  let incrg := incr * gain
  let lw := (1 - incr) * gain
  let rw := incr
  (forLoopM (fun i s =>
    (toShort (gain * (f i : Float))).bind (fun v => some (s.set i v)))
    lc.sbcrt.toNat s).bind (fun s =>
  (forLoopM (fun ii (st : Ola short) =>
    let i := lc.sbcrt + ii
    let t := st.lw * (f i : Float) + st.rw * (st.o i : Float)
    let t := clamp16 t
    (toShort t).bind (fun v =>
      some { o := st.o.set i v, lw := st.lw - incrg, rw := st.rw + incr }))
    (cnt - lc.sbcrt).toNat { o := s, lw := lw, rw := rw }).map (fun st => st.o))

/-- The locals of `g711plc_findpitch` that live across its search loops. -/
structure Search where
  energy : Float
  rp : Int
  bestcorr : Float
  bestmatch : Int

/-- The loop `for (i = 0; i < corrlen; i += step) corr += rp[i] * l[i]`. -/
def corr_sum (lc : LowcFE) (rp l step : Int) : Option Float :=
  strideLoop (fun i corr => some (corr + lc.pitchbuf (rp + i) * lc.pitchbuf (l + i)))
    step lc.corrlen lc.corrlen.toNat 0 0

/-- The loop `for (i = 0; i < corrlen; i += step)` that sums `energy` and `corr`. -/
def energy_corr_sum (lc : LowcFE) (rp l step : Int) : Option (Float × Float) :=
  strideLoop (fun i (ec : Float × Float) =>
    some (ec.1 + lc.pitchbuf (rp + i) * lc.pitchbuf (rp + i),
          ec.2 + lc.pitchbuf (rp + i) * lc.pitchbuf (l + i)))
    step lc.corrlen lc.corrlen.toNat 0 (0, 0)

/-- The statements `scale = energy, if (scale < corrminpower) scale = corrminpower,
corr = corr / sqrt(scale)`. -/
def scaled (E : Env) (lc : LowcFE) (energy corr : Float) : Float :=
  let scale := energy
  let scale := if scale < lc.corrminpower then lc.corrminpower else scale
  corr / E.sqrt scale

/-- One pass of a search loop of `g711plc_findpitch` at lag `j`: `step` is the
stride of the lag and `istep` that of the inner sum; `ge` tells whether the
comparison is `>=` (coarse search) or `>` (fine search). -/
def search_step (E : Env) (lc : LowcFE) (l step istep : Int) (ge : Bool) (j : Int)
    (st : Search) : Option Search :=
  let energy := st.energy - lc.pitchbuf st.rp * lc.pitchbuf st.rp
  let energy := energy + lc.pitchbuf (st.rp + lc.corrlen) * lc.pitchbuf (st.rp + lc.corrlen)
  let rp := st.rp + step
  (corr_sum lc rp l istep).bind (fun corr =>
    let corr := scaled E lc energy corr
    if (if ge then corr ≥ st.bestcorr else corr > st.bestcorr) then
      some { energy := energy, rp := rp, bestcorr := corr, bestmatch := j }
    else
      some { energy := energy, rp := rp, bestcorr := st.bestcorr, bestmatch := st.bestmatch })

/-- Estimate the pitch. -/
def g711plc_findpitch (E : Env) (lc : LowcFE) : Option Int :=
  let l := lc.pitchbufend - lc.corrlen
  let r := lc.pitchbufend - lc.corrbuflen
  /- coarse search -/
  let rp := r
  (energy_corr_sum lc rp l lc.ndec).bind (fun ec =>
  let corr := scaled E lc ec.1 ec.2
  (strideLoop (search_step E lc l lc.ndec lc.ndec true) lc.ndec (lc.pitchdiff + 1)
    (lc.pitchdiff + 1).toNat lc.ndec
    { energy := ec.1, rp := rp, bestcorr := corr, bestmatch := 0 }).bind (fun st =>
  /- fine search -/
  let j := st.bestmatch - (lc.ndec - 1)
  let j := if j < 0 then 0 else j
  let k := st.bestmatch + (lc.ndec - 1)
  let k := if k > lc.pitchdiff then lc.pitchdiff else k
  let rp := r + j
  (energy_corr_sum lc rp l 1).bind (fun ec =>
  let corr := scaled E lc ec.1 ec.2
  (strideLoop (search_step E lc l 1 1 false) 1 (k + 1) (k + 1).toNat (j + 1)
    { energy := ec.1, rp := rp, bestcorr := corr, bestmatch := j }).bind (fun st =>
  some (lc.pitch_max - st.bestmatch)))))

/-- The branch `erasecnt == 0` of `g711plc_dofe`. -/
def dofe_first (E : Env) (lc : LowcFE) (out : Arr short) (current_energy : Float) :
    Option (LowcFE × Arr short) :=
  /- get history -/
  let lc := { lc with pitchbuf := g711plc_convertsf lc.history 0 lc.pitchbuf 0 lc.historylen }
  (if E.G711_ADAPTIVE_PLC then
      (enhanced_findpitch E lc).bind (fun r => some { r.1 with pitch := r.2 })
    else
      (g711plc_findpitch E lc).bind (fun p => some { lc with pitch := p })).bind (fun lc =>
  let lc := { lc with poverlap := lc.pitch >>> (2 : ℕ) }
  /- save original last poverlap samples -/
  let lc := { lc with
    lastq := g711plc_copyf lc.pitchbuf (lc.pitchbufend - lc.poverlap) lc.lastq 0 lc.poverlap }
  let lc := { lc with poffset := 0 }
  let lc := { lc with pitchblen := lc.pitch }
  let lc := { lc with pitchbufstart := lc.pitchbufend - lc.pitchblen }
  let lc := { lc with
    pitchbuf := g711plc_overlapadd lc.lastq 0 Src.dst (lc.pitchbufstart - lc.poverlap)
      lc.pitchbuf (lc.pitchbufend - lc.poverlap) lc.poverlap }
  /- update last 1/4 wavelength in history buffer -/
  (g711plc_convertfs lc.pitchbuf (lc.pitchbufend - lc.poverlap) lc.history
    (lc.historylen - lc.poverlap) lc.poverlap).bind (fun history =>
  let lc := { lc with history := history }
  /- get synthesized speech -/
  (g711plc_getfespeech lc out lc.framesz).bind (fun r =>
  let lc := r.1
  let out := r.2
  let lc := { lc with cng := { lc.cng with
    energy_history := lc.cng.energy_history.set lc.cng.hist_index current_energy } }
  let lc := { lc with cng := { lc.cng with
    hist_index := Int.tmod (lc.cng.hist_index + 1) NOISE_HISTORY } }
  some (lc, out))))

/-- The branch `erasecnt == 1 || erasecnt == 2` of `g711plc_dofe`, compiled when
`COMFORT_NOISE` is not defined.  The local array `tmp` starts zero-filled. -/
def dofe_extend (lc : LowcFE) (out : Arr short) : Option (LowcFE × Arr short) :=
  /- tail of previous pitch estimate -/
  let tmp : Arr short := Arr.const 0
  let saveoffset := lc.poffset
  /- continue with old pitchbuf -/
  (g711plc_getfespeech lc tmp lc.poverlap).bind (fun r =>
  let lc := r.1
  let tmp := r.2
  /- add periods to the pitch buffer -/
  let lc := { lc with poffset := saveoffset }
  (whileLoop (fun lc => lc.poffset > lc.pitch)
    (fun lc => { lc with poffset := lc.poffset - lc.pitch }) lc.poffset.toNat lc).bind (fun lc =>
  let lc := { lc with pitchblen := lc.pitchblen + lc.pitch }
  let lc := { lc with pitchbufstart := lc.pitchbufend - lc.pitchblen }
  let lc := { lc with
    pitchbuf := g711plc_overlapadd lc.lastq 0 Src.dst (lc.pitchbufstart - lc.poverlap)
      lc.pitchbuf (lc.pitchbufend - lc.poverlap) lc.poverlap }
  /- overlap add old pitchbuffer with new -/
  (g711plc_getfespeech lc out lc.framesz).bind (fun r =>
  let lc := r.1
  let out := r.2
  (g711plc_overlapadds tmp 0 Src.dst 0 out 0 lc.poverlap).bind (fun out =>
  (g711plc_scalespeech lc out).bind (fun out =>
  some (lc, out))))))

/-- The last branch of `g711plc_dofe`: a frame drawn from the pitch buffer, with
the adaptive weighting when compiled in, and attenuated. -/
def dofe_regular (E : Env) (lc : LowcFE) (out : Arr short) (current_energy : Float) :
    Option (LowcFE × Arr short) :=
  (g711plc_getfespeech lc out lc.framesz).bind (fun r =>
  let lc := r.1
  let out := r.2
  (if E.G711_ADAPTIVE_PLC then
      let energy_diff := |current_energy - lc.prev_energy|
      if energy_diff < 10 then
        let lc := { lc with alpha := compute_dynamic_alpha current_energy lc.prev_energy lc.alpha }
        (apply_perceptual_weight out lc.framesz lc lc.alpha).bind (fun out => some (lc, out))
      else some (lc, out)
    else some (lc, out)).bind (fun r =>
  let lc := r.1
  let out := r.2
  (if E.NONLINEAR_ATTEN then nonlinear_attenuation E out lc.framesz lc.erasecnt lc.pitch
    else g711plc_scalespeech lc out).bind (fun out =>
  some (lc, out))))

/-- Generate the synthetic signal for an erased frame.  `out` is the caller's
buffer and `rnd` the random draws of this call. -/
def g711plc_dofe (E : Env) (lc : LowcFE) (out : Arr short) (rnd : Int → Float) :
    Option (LowcFE × Arr short) :=
  let current_energy := 10 * E.log10f (lc.corrminpower + 1 / 1000000)
  (if lc.erasecnt = 0 then dofe_first E lc out current_energy
    else if E.COMFORT_NOISE then
      if lc.erasecnt > COMFORT_NOISE_START then
        (generate_comfort_noise lc.cng out lc.framesz rnd).bind
          (fun r => some ({ lc with cng := r.1 }, r.2))
      else dofe_regular E lc out current_energy
    else if lc.erasecnt = 1 ∨ lc.erasecnt = 2 then dofe_extend lc out
    else if lc.erasecnt > E.fading_count then some (lc, g711plc_zeros out 0 lc.framesz)
    else dofe_regular E lc out current_energy).bind (fun r =>
  let lc := r.1
  let out := r.2
  let lc := { lc with prev_energy := current_energy }
  let lc := { lc with erasecnt := lc.erasecnt + 1 }
  some (g711plc_savespeech lc out))

/-- A good frame was received and decoded.  The local array `overlapbuf` starts
zero-filled. -/
def g711plc_addtohistory (E : Env) (lc : LowcFE) (s : Arr short) :
    Option (LowcFE × Arr short) :=
  (if lc.erasecnt ≠ 0 then
      let overlapbuf : Arr short := Arr.const 0
      let olen := lc.poverlap + (lc.erasecnt + 1 - 1) * lc.eoverlapincr + lc.sbcrt
      let olen := if olen > lc.framesz then lc.framesz else olen
      (g711plc_getfespeech lc overlapbuf olen).bind (fun r =>
      let lc := r.1
      let overlapbuf := r.2
      (g711plc_overlapaddatend lc s overlapbuf olen).bind (fun s =>
      some ({ lc with erasecnt := 0 }, s)))
    else some (lc, s)).bind (fun r =>
  let lc := r.1
  let s := r.2
  let lc :=
    if E.COMFORT_NOISE then
      { lc with cng := { lc.cng with lpc_coeff := lpc_analysis s lc.framesz lc.cng.lpc_coeff } }
    else lc
  some (g711plc_savespeech lc s))

/-- The three `assert`s of the constructors. -/
def construct_asserts (lc : LowcFE) : Bool :=
  decide (lc.historylen ≤ HISTORYLEN_MAX) && decide (lc.poverlapmax ≤ POVERLAPMAX_)
    && decide (lc.framesz ≤ FRAMESZ_MAX)

/-- The statements that both constructors run after their `assert`s; `sbcrt`,
the default `last_pitch` and the noise floor are those of the variant. -/
def construct_tail (E : Env) (lc : LowcFE) (sbcrt last_pitch : Int) (noise_floor : Float) :
    LowcFE :=
  let lc := { lc with sbcrt := sbcrt }
  let lc := { lc with erasecnt := 0 }
  let lc := { lc with pitchbufend := lc.historylen }
  let lc := { lc with history := g711plc_zeros lc.history 0 lc.historylen }
  let lc := { lc with alpha := 75 / 100 }
  let lc := { lc with prev_energy := -99 }
  let lc := { lc with last_pitch := last_pitch }
  let lc := { lc with cng := { lc.cng with lpc_coeff := memset0 lc.cng.lpc_coeff LPC_ORDER } }
  if E.COMFORT_NOISE then
    let lc := { lc with cng := { lc.cng with noise_floor := noise_floor } }
    let lc := { lc with cng := { lc.cng with hist_index := 0 } }
    { lc with cng := { lc.cng with
        energy_history := memset0 lc.cng.energy_history NOISE_HISTORY } }
  else lc

/-- The constructor of the wideband variant, run on the memory `lc`; no result
when an `assert` fails. -/
def msbc_g711plc_construct (E : Env) (lc : LowcFE) : Option LowcFE :=
  let lc := { lc with pitch_min := 40 * 2 }
  let lc := { lc with pitch_max := 120 * 2 }
  let lc := { lc with pitchdiff := lc.pitch_max - lc.pitch_min }
  let lc := { lc with poverlapmax := lc.pitch_max >>> (2 : ℕ) }
  let lc := { lc with historylen := lc.pitch_max * 3 + lc.poverlapmax }
  let lc := { lc with ndec := 2 }
  let lc := { lc with corrlen := 160 * 2 }
  let lc := { lc with corrbuflen := lc.corrlen + lc.pitch_max }
  let lc := { lc with corrminpower := 250 * 2 }
  let lc := { lc with eoverlapincr := 24 * 2 }
  let lc := { lc with framesz := 60 * 2 }
  let lc := { lc with attenfac := 2 / 10 }
  let lc := { lc with attenincr := lc.attenfac / (lc.framesz : Float) }
  if construct_asserts lc then
    some (construct_tail E lc 36 (Int.tdiv (lc.pitch_min + lc.pitch_max) 2) 300)
  else none

/-- The constructor of the narrowband variant, run on the memory `lc`; no result
when an `assert` fails. -/
def cvsd_g711plc_construct (E : Env) (lc : LowcFE) : Option LowcFE :=
  let lc := { lc with pitch_min := 40 }
  let lc := { lc with pitch_max := 120 }
  let lc := { lc with pitchdiff := lc.pitch_max - lc.pitch_min }
  let lc := { lc with poverlapmax := lc.pitch_max >>> (2 : ℕ) }
  let lc := { lc with historylen := lc.pitch_max * 3 + lc.poverlapmax }
  let lc := { lc with ndec := 2 }
  let lc := { lc with corrlen := 160 }
  let lc := { lc with corrbuflen := lc.corrlen + lc.pitch_max }
  let lc := { lc with corrminpower := 250 }
  let lc := { lc with eoverlapincr := 24 }
  let lc := { lc with framesz := 60 }
  let lc := { lc with attenfac := 1 / (E.fading_count : Float) }
  let lc := { lc with attenincr := lc.attenfac / (lc.framesz : Float) }
  if construct_asserts lc then some (construct_tail E lc 0 80 500) else none

/-! ## The caller -/

/-- One frame of the stream: a good frame with its samples, or a lost frame with
the content of the caller's buffer and the random draws of the call. -/
inductive Frame where
  | good (s : Arr short)
  | lost (out : Arr short) (rnd : Int → Float)

/-- The caller's choice for one frame: `g711plc_addtohistory` on a good frame and
`g711plc_dofe` on a lost one. -/
def plc_frame (E : Env) (lc : LowcFE) : Frame → Option (LowcFE × Arr short)
  | Frame.good s => g711plc_addtohistory E lc s
  | Frame.lost out rnd => g711plc_dofe E lc out rnd

/-- The frames of a stream, passed one after the other; the result is the last
state and the frames handed back, in order. -/
def plc_run (E : Env) (lc : LowcFE) : List Frame → Option (LowcFE × List (Arr short))
  | [] => some (lc, [])
  | f :: fs =>
    (plc_frame E lc f).bind (fun r =>
      (plc_run E r.1 fs).bind (fun rs => some (rs.1, r.2 :: rs.2)))

/-! ## The frame concealer of `plc.c` -/

def FRAME_SIZE : Int := 60
def MAX_LPC_ORDER : Int := 12
def MIN_LPC_ORDER : Int := 4
def PITCH_MIN : Int := 20
def PITCH_MAX : Int := 160

/-- The locals of the Levinson-Durbin loop of `compute_lpc` that live across its
passes, with the two results `lpc_coeffs` and `*optimal_order`; `done` tells that
the `break` was taken. -/
structure Levinson where
  lpc_coeffs : Arr Float
  error : Float
  optimal_order : Int
  done : Bool

/-- The loops of `compute_lpc` that fill `autocorr[0 .. max_order]`; the array
starts zero-filled and the product of two samples is an `int`. -/
def lpc_autocorr (samples : Arr short) (max_order : Int) : Arr Float :=
  forLoop (fun i ac =>
    forLoop (fun j ac => ac.set i (ac i + ((samples j * samples (j + i) : Int) : Float)))
      (FRAME_SIZE - i).toNat ac) (max_order + 1).toNat (Arr.const 0)

/-- The loop `for (j = 1; j < i; j++) reflection -= lpc_coeffs[j] * autocorr[i - j]`
of `compute_lpc`. -/
def lpc_reflection (autocorr lpc_coeffs : Arr Float) (i : Int) (reflection : Float) : Float :=
  forLoop (fun jj reflection =>
    let j := 1 + jj
    reflection - lpc_coeffs j * autocorr (i - j)) (i - 1).toNat reflection

/-- The loop `for (j = 1; j <= i / 2; j++)` of `compute_lpc` that updates the
coefficients in place. -/
def lpc_update (lpc_coeffs : Arr Float) (i : Int) (reflection : Float) : Arr Float :=
  forLoop (fun jj lpc_coeffs =>
    let j := 1 + jj
    let tmp := lpc_coeffs j
    let lpc_coeffs := lpc_coeffs.set j (lpc_coeffs j + reflection * lpc_coeffs (i - j))
    lpc_coeffs.set (i - j) (lpc_coeffs (i - j) + reflection * tmp)) (i / 2).toNat lpc_coeffs

/-- The pass for order `i` of the Levinson-Durbin loop of `compute_lpc`; a pass
after the `break` does nothing.  `fdiv` is the division of two `float`s. -/
def levinson_pass (fdiv : Float → Float → Float) (autocorr : Arr Float) (is_unvoiced : Bool)
    (i : Int) (st : Levinson) : Levinson :=
  if st.done then st
  else
    let reflection : Float := -autocorr i
    let reflection := lpc_reflection autocorr st.lpc_coeffs i reflection
    let reflection := fdiv reflection st.error
    let lpc_coeffs := st.lpc_coeffs.set i reflection
    let lpc_coeffs := lpc_update lpc_coeffs i reflection
    let error := st.error * (1 - reflection * reflection)
    let norm_error := fdiv error (autocorr 0)
    let threshold : Float := if is_unvoiced then 1 / 10 else 5 / 100
    if i ≥ MIN_LPC_ORDER ∧ norm_error < threshold then
      { lpc_coeffs := lpc_coeffs, error := error, optimal_order := i, done := true }
    else
      { lpc_coeffs := lpc_coeffs, error := error, optimal_order := st.optimal_order,
        done := false }

/-- The function `compute_lpc` of `plc.c`: the coefficient buffer and
`*optimal_order` on return.  `fdiv` is the division of two `float`s. -/
def compute_lpc (fdiv : Float → Float → Float) (samples : Arr short) (lpc_coeffs : Arr Float)
    (is_unvoiced : Bool) : Arr Float × Int :=
  let max_order : Int := if is_unvoiced then 6 else MAX_LPC_ORDER
  let autocorr := lpc_autocorr samples max_order
  if autocorr 0 < 1 / 1000000 then
    let lpc_coeffs := memset0 lpc_coeffs (max_order + 1)
    let lpc_coeffs := lpc_coeffs.set 0 1
    (lpc_coeffs, MIN_LPC_ORDER)
  else
    let st := forLoop (fun ii st => levinson_pass fdiv autocorr is_unvoiced (1 + ii) st)
      max_order.toNat
      { lpc_coeffs := lpc_coeffs.set 0 1, error := autocorr 0, optimal_order := max_order,
        done := false }
    (st.lpc_coeffs, st.optimal_order)

/-- The index `pos` of the pitch-copy loop of `conceal_lost_frame`; `%` is the
remainder of C, which truncates toward zero. -/
def pitch_copy_pos (pitch_period i : Int) : Int :=
  Int.tmod (i - pitch_period + FRAME_SIZE) FRAME_SIZE

/-- The read `a[i]` of an array of `n` elements: no result outside the array. -/
def readIn {α : Type} (a : Arr α) (n i : Int) : Option α :=
  if 0 ≤ i ∧ i < n then some (a i) else none

/-- The pitch-copy loop of `conceal_lost_frame`: `pcm` is `history->pcm`, an
array of `FRAME_SIZE` samples. -/
def pitch_copy_loop (pcm : Arr short) (pitch_period : Int) (pitch_copy : Arr short) :
    Option (Arr short) :=
  forLoopM (fun i pitch_copy =>
    (readIn pcm FRAME_SIZE (pitch_copy_pos pitch_period i)).bind
      (fun v => some (pitch_copy.set i v))) FRAME_SIZE.toNat pitch_copy

/-! ## Notions used in the statements -/

/-- Sample `n` of the stream whose frames, of `framesz` samples each, are `ss`. -/
def stream (framesz : Int) (ss : List (Arr short)) (n : Int) : short :=
  (ss.getD (n / framesz).toNat (Arr.const 0)).get (n % framesz)

/-- Sample `n` of the stream of the frames `ss` delayed by `d` samples, with
zeros in front. -/
def delayed (framesz d : Int) (ss : List (Arr short)) (n : Int) : short :=
  if n < d then 0 else stream framesz ss (n - d)

/-- Sample `m` of the signal made of the history of `lc` followed by the frames
`ss`; sample `0` is the first sample of the first frame. -/
def history_then (lc : LowcFE) (ss : List (Arr short)) (m : Int) : short :=
  if m < 0 then lc.history.get (lc.historylen + m) else stream lc.framesz ss m

/-- A memory image in which every cell is zero. -/
def blank : LowcFE :=
  { pitch_min := 0, pitch_max := 0, pitchdiff := 0, poverlapmax := 0, historylen := 0,
    ndec := 0, corrlen := 0, corrbuflen := 0, corrminpower := 0, eoverlapincr := 0,
    framesz := 0, attenfac := 0, attenincr := 0, erasecnt := 0, poverlap := 0, poffset := 0,
    pitch := 0, pitchblen := 0, sbcrt := 0, pitchbufend := 0, pitchbufstart := 0,
    pitchbuf := Arr.const 0, lastq := Arr.const 0, history := Arr.const 0, alpha := 0,
    prev_energy := 0, last_pitch := 0,
    cng := { lpc_coeff := Arr.const 0, energy_history := Arr.const 0, noise_floor := 0,
             hist_index := 0 } }

/-- The build with no optional feature, `fading_count` at its initial value
`G711_ATT_FADE_COUNT`, and stand-ins for the C library. -/
def plain : Env :=
  { G711_ADAPTIVE_PLC := false, COMFORT_NOISE := false, NONLINEAR_ATTEN := false,
    fading_count := G711_ATT_FADE_COUNT, sqrt := fun x => x, log10f := fun x => x,
    powf := fun x _ => x }

/-- The frame whose sample `i` is `i`. -/
def ramp : Arr short := ⟨fun i => i⟩

/-- The value of `g` in pass `i` of the loop of `g711plc_scalespeech`. -/
def scale_gain (lc : LowcFE) (i : Int) : Float :=
  1 - ((lc.erasecnt - 1 : Int) : Float) * lc.attenfac - (i : Float) * lc.attenincr

/-- The value of `gain` in `g711plc_overlapaddatend`. -/
def end_gain (lc : LowcFE) : Float :=
  if 1 - ((lc.erasecnt - 1 : Int) : Float) * lc.attenfac < 0 then 0
  else 1 - ((lc.erasecnt - 1 : Int) : Float) * lc.attenfac

/-- The value of `rw` in the pass of the blending loop of `g711plc_overlapaddatend`
that writes sample `i`, for a window of `cnt` samples. -/
def end_rw (lc : LowcFE) (cnt i : Int) : Float :=
  ((i - lc.sbcrt + 1 : Int) : Float) / ((cnt - lc.sbcrt : Int) : Float)

/-- The value of `lw` in the pass of the blending loop of `g711plc_overlapaddatend`
that writes sample `i`, for a window of `cnt` samples. -/
def end_lw (lc : LowcFE) (cnt i : Int) : Float :=
  (1 - end_rw lc cnt i) * end_gain lc

/-- The fields of `lc` that only the constructors write, in an otherwise blank
memory image. -/
def consts (lc : LowcFE) : LowcFE :=
  { blank with
    pitch_min := lc.pitch_min, pitch_max := lc.pitch_max, pitchdiff := lc.pitchdiff,
    poverlapmax := lc.poverlapmax, historylen := lc.historylen, ndec := lc.ndec,
    corrlen := lc.corrlen, corrbuflen := lc.corrbuflen, corrminpower := lc.corrminpower,
    eoverlapincr := lc.eoverlapincr, framesz := lc.framesz, attenfac := lc.attenfac,
    attenincr := lc.attenincr, sbcrt := lc.sbcrt, pitchbufend := lc.pitchbufend }

/-- Relations between the fields that a constructor sets; they hold for both
variants. -/
structure Params (lc : LowcFE) : Prop where
  ndec : 1 ≤ lc.ndec
  pitch_min : 4 ≤ lc.pitch_min
  pitch_max : lc.pitch_min ≤ lc.pitch_max
  pitchdiff : lc.pitchdiff = lc.pitch_max - lc.pitch_min
  poverlapmax : lc.poverlapmax = lc.pitch_max / 4
  historylen : lc.historylen = lc.pitch_max * 3 + lc.poverlapmax
  corrlen : 0 ≤ lc.corrlen
  corrbuflen : lc.corrbuflen = lc.corrlen + lc.pitch_max
  corrbuf_fits : lc.corrbuflen ≤ lc.historylen
  framesz : 0 < lc.framesz
  frame_fits : lc.framesz + lc.poverlapmax ≤ lc.historylen
  poverlapmax_le : lc.poverlapmax ≤ lc.framesz
  sbcrt : 0 ≤ lc.sbcrt
  sbcrt_lt : lc.sbcrt < lc.framesz
  eoverlapincr : 0 ≤ lc.eoverlapincr
  pitchbufend : lc.pitchbufend = lc.historylen
  attenfac : 0 ≤ lc.attenfac
  attenincr : lc.attenincr = lc.attenfac / (lc.framesz : Float)

/-- What holds of the pitch buffer of `lc` while an erasure lasts, `e` being the
number of frames erased so far; `VF` is a property of the `Float` samples. -/
structure Burst (VF : Float → Prop) (lc : LowcFE) (e : Int) : Prop where
  pitch_lo : lc.pitch_min ≤ lc.pitch
  pitch_hi : lc.pitch ≤ lc.pitch_max
  poverlap : lc.poverlap = lc.pitch / 4
  blen_lo : lc.pitch ≤ lc.pitchblen
  blen_hi : lc.pitchblen ≤ 3 * lc.pitch
  blen1 : e = 1 → lc.pitchblen = lc.pitch
  blen2 : e = 2 → lc.pitchblen ≤ 2 * lc.pitch
  start : lc.pitchbufstart = lc.pitchbufend - lc.pitchblen
  poffset_lo : 0 ≤ lc.poffset
  poffset_hi : lc.poffset < lc.pitchblen
  pitchbuf : ∀ j, 0 ≤ j → j < lc.historylen → VF (lc.pitchbuf.get j)
  lastq : ∀ j, 0 ≤ j → j < lc.poverlap → VF (lc.lastq.get j)

/-- The invariant of the concealer in the builds without comfort noise; `H` is
a property of the samples of the history and `VF` one of the samples of the
pitch buffer. -/
structure Inv (H : short → Prop) (VF : Float → Prop) (lc : LowcFE) : Prop where
  params : Params lc
  erasecnt : 0 ≤ lc.erasecnt
  history : ∀ j, 0 ≤ j → j < lc.historylen → H (lc.history.get j)
  burst : 0 < lc.erasecnt → Burst VF lc lc.erasecnt

/-- Sets of samples that the arithmetic of the concealer does not leave, in the
build `E`: `H` for the samples of the history and of the frames, `VF` for the
samples of the pitch buffer, `V` for the samples drawn from the pitch buffer and
`G` for the gains of `g711plc_scalespeech`. -/
structure Closed (E : Env) (H : short → Prop) (VF : Float → Prop) (V : short → Prop)
    (G : Float → Prop) : Prop where
  zero : H 0
  bound : ∀ t, VF t → -32768 ≤ t ∧ t ≤ 32767
  toH : ∀ t, VF t → H (trunc t)
  toV : ∀ t, VF t → V (trunc t)
  VH : ∀ z, V z → H z
  mixF : ∀ a b lw rw : Float, VF a → VF b → 0 ≤ lw → 0 ≤ rw → lw + rw = 1 →
    VF (clamp16 (lw * a + rw * b))
  mixV : ∀ (a b : short) (lw rw : Float), V a → V b → 0 ≤ lw → 0 ≤ rw → lw + rw = 1 →
    V (trunc (clamp16 (lw * (a : Float) + rw * (b : Float))))
  scale : ∀ (a : short) (g : Float), V a → G g →
    inRange ((a : Float) * g) ∧ H (trunc ((a : Float) * g))
  gain : ∀ (a : short) (g : Float), V a → 0 ≤ g → g ≤ 1 →
    inRange (g * (a : Float)) ∧ H (trunc (g * (a : Float)))
  blend : ∀ (f s : short) (lw rw : Float), V f → H s → 0 ≤ lw → 0 ≤ rw → lw + rw ≤ 1 →
    H (trunc (clamp16 (lw * (f : Float) + rw * (s : Float))))
  weight : E.G711_ADAPTIVE_PLC = true → ∃ W : Float → Prop, W 0 ∧
    (∀ (w c : Float) (a : short), W w → V a → W (w - c * (a : Float))) ∧
    (∀ w, W w → V (trunc (max (min w 32767) (-32768))))
  nonlin : E.NONLINEAR_ATTEN = true → ∀ (a : short) (g : Float), V a →
    H (trunc (max (min ((a : Float) * g) 32767) (-32768)))

/-- Every gain that `g711plc_scalespeech` uses in the build `E` lies in `G`. -/
def GainOK (E : Env) (G : Float → Prop) (lc : LowcFE) : Prop :=
  ∀ e i : Int, 1 ≤ e → (e ≤ 2 ∨ (E.NONLINEAR_ATTEN = false ∧ e ≤ E.fading_count)) →
    0 ≤ i → i < lc.framesz →
    G (1 - ((e - 1 : Int) : Float) * lc.attenfac - (i : Float) * lc.attenincr)

/-- The samples `0 .. n-1` of `a` satisfy `V`. -/
def AllV {α : Type} (V : α → Prop) (a : Arr α) (n : Int) : Prop :=
  ∀ j, 0 ≤ j → j < n → V (a.get j)

/-- The value of `olen` in `g711plc_addtohistory`. -/
def end_olen (lc : LowcFE) : Int :=
  if lc.poverlap + (lc.erasecnt + 1 - 1) * lc.eoverlapincr + lc.sbcrt > lc.framesz
  then lc.framesz
  else lc.poverlap + (lc.erasecnt + 1 - 1) * lc.eoverlapincr + lc.sbcrt

/-- Whether a frame of the stream is a lost one. -/
def Frame.isLost : Frame → Bool
  | Frame.good _ => false
  | Frame.lost _ _ => true

/-- The number of lost frames at the end of the stream `fs`: the calls of
`g711plc_dofe` since the last call of `g711plc_addtohistory`, or since the
construction when there is none. -/
def lost_since_good (fs : List Frame) : Nat :=
  (fs.reverse.takeWhile Frame.isLost).length

/-- The pitch estimate of `lc` is admissible and `poverlap` is a quarter of it. -/
def PitchOK (lc : LowcFE) : Prop :=
  lc.pitch_min ≤ lc.pitch ∧ lc.pitch ≤ lc.pitch_max ∧ lc.poverlap = lc.pitch / 4 ∧
    lc.poverlap ≤ lc.poverlapmax

/-- The last frame of the history of `lc` is what `g711plc_dofe` commits for a
lost frame when the pitch buffer holds the constant `c`, in a build without
comfort noise and non-linear attenuation; `e` is the value of `erasecnt` on entry
to that call. -/
def ConstTail (E : Env) (c : short) (lc : LowcFE) (e : Int) : Prop :=
  ∀ i, 0 ≤ i → i < lc.framesz →
    (e = 0 → lc.history.get (lc.historylen - lc.framesz + i) = c) ∧
    (1 ≤ e → (e ≤ 2 ∨ e ≤ E.fading_count) →
      lc.history.get (lc.historylen - lc.framesz + i) =
        trunc ((c : Float) *
          (1 - ((e - 1 : Int) : Float) * lc.attenfac - (i : Float) * lc.attenincr))) ∧
    (3 ≤ e → E.fading_count < e → lc.history.get (lc.historylen - lc.framesz + i) = 0)

/-- The frame that holds 1 at the indices 0 and 1 and 0 elsewhere. -/
def unit_pair : Arr short := ⟨fun i => if i = 0 ∨ i = 1 then 1 else 0⟩

/-- The left side of the normal equation `i` of order `p`, for the
autocorrelation `R` and the coefficients `a`: the sum over `k = 0 .. p` of
`a[k] * R[|i - k|]`. -/
def normal_eq (R a : Arr Float) (p i : Int) : Float :=
  forLoop (fun k acc => acc + a k * R |i - k|) (p + 1).toNat 0

/-- The sum of the squares of the `FRAME_SIZE` samples of a frame. -/
def sum_squares (samples : Arr short) : Int :=
  forLoop (fun j acc => acc + samples j * samples j) FRAME_SIZE.toNat 0

/-- The build of the header as shipped: `COMFORT_NOISE` and `NONLINEAR_ATTEN` are
defined and `G711_ADAPTIVE_PLC` is not; `fading_count` has its initial value, and
the C library has stand-ins. -/
def shipped : Env :=
  { G711_ADAPTIVE_PLC := false, COMFORT_NOISE := true, NONLINEAR_ATTEN := true,
    fading_count := G711_ATT_FADE_COUNT, sqrt := fun x => x, log10f := fun x => x,
    powf := fun x _ => x }

/-- The value of `acc` after the loop `for (i = 0; i < bound; i += step) acc += f(i)`
entered with `acc = 0`. -/
def stride_sum (f : Int → Float) (step bound : Int) : Float :=
  forLoop (fun m acc => acc + f (m * step)) ((bound + step - 1) / step).toNat 0

/-- The correlation that `g711plc_findpitch` sums for the window at `rp` against
the window at `l`, on every `step`-th sample. -/
def win_corr (lc : LowcFE) (rp l step : Int) : Float :=
  stride_sum (fun i => lc.pitchbuf (rp + i) * lc.pitchbuf (l + i)) step lc.corrlen

/-- The energy that `g711plc_findpitch` sums for the window at `rp`, on every
`step`-th sample. -/
def win_energy (lc : LowcFE) (rp step : Int) : Float :=
  stride_sum (fun i => lc.pitchbuf (rp + i) * lc.pitchbuf (rp + i)) step lc.corrlen

/-- The running energy of a search loop of `g711plc_findpitch` after `m` passes:
the loop starts from the energy of the window at `rp0`, summed on every
`istep`-th sample, and every pass, which moves the window by `step`, takes off
the square of its first sample and adds the square of the sample `corrlen`
further. -/
def run_energy (lc : LowcFE) (rp0 step istep : Int) : Nat → Float
  | 0 => win_energy lc rp0 istep
  | m + 1 =>
    run_energy lc rp0 step istep m
      - lc.pitchbuf (rp0 + m * step) * lc.pitchbuf (rp0 + m * step)
      + lc.pitchbuf (rp0 + m * step + lc.corrlen) * lc.pitchbuf (rp0 + m * step + lc.corrlen)

/-- The score that a search loop of `g711plc_findpitch` gives to the window it
reaches after `m` passes. -/
def search_score (E : Env) (lc : LowcFE) (rp0 step istep : Int) (m : Nat) : Float :=
  scaled E lc (run_energy lc rp0 step istep m)
    (win_corr lc (rp0 + m * step) (lc.pitchbufend - lc.corrlen) istep)

/-- The full-stride score of the lag `j`: the correlation of the whole window at
lag `j` with the last `corrlen` samples, scaled by the energy of the window. -/
def fine_score (E : Env) (lc : LowcFE) (j : Int) : Float :=
  scaled E lc (win_energy lc (lc.pitchbufend - lc.corrbuflen + j) 1)
    (win_corr lc (lc.pitchbufend - lc.corrbuflen + j) (lc.pitchbufend - lc.corrlen) 1)

/-- The coarse search of `g711plc_findpitch`: the lag it ends with. -/
def findpitch_coarse (E : Env) (lc : LowcFE) : Option Int :=
  let l := lc.pitchbufend - lc.corrlen
  let r := lc.pitchbufend - lc.corrbuflen
  let rp := r
  (energy_corr_sum lc rp l lc.ndec).bind (fun ec =>
  let corr := scaled E lc ec.1 ec.2
  (strideLoop (search_step E lc l lc.ndec lc.ndec true) lc.ndec (lc.pitchdiff + 1)
    (lc.pitchdiff + 1).toNat lc.ndec
    { energy := ec.1, rp := rp, bestcorr := corr, bestmatch := 0 }).bind (fun st =>
  some st.bestmatch))

/-- One period of a 400 Hz sine of amplitude 10000 sampled at 8 kHz, rounded to
integers. -/
def tone_period : List Int :=
  [0, 3090, 5878, 8090, 9511, 10000, 9511, 8090, 5878, 3090,
   0, -3090, -5878, -8090, -9511, -10000, -9511, -8090, -5878, -3090]

/-- The 400 Hz tone: the samples of `tone_period`, repeated every 20 samples. -/
def tone400 : Arr short := ⟨fun n => tone_period.getD (n % 20).toNat 0⟩

/-! ## The Bark bands of `plc.c` -/

/-- The variant of `enhanced_findpitch` in which the loop of the continuity check
with the fixed tolerance of 5 % is deleted and only the loop with the dynamic
tolerance runs. -/
def enhanced_findpitch_dynamic (E : Env) (lc : LowcFE) : Option (LowcFE × Int) :=
  let l := lc.pitchbufend - lc.corrlen
  let r := lc.pitchbufend - lc.corrbuflen
  let candidates : Arr PitchCandidate := Arr.const { corr := -1000000000, index := 0 }
  (strideLoop (fun j candidates => some (update_candidates candidates (nccf_at lc l r j) j))
    lc.ndec (lc.pitchdiff + 1) (lc.pitchdiff + 1).toNat 0 candidates).bind (fun candidates =>
  let best_match := (candidates 0).index
  let best_corr := (candidates 0).corr
  let search_start := best_match - (lc.ndec - 1)
  let search_end := best_match + (lc.ndec - 1)
  let search_start := if search_start < 0 then 0 else search_start
  let search_end := if search_end > lc.pitchdiff then lc.pitchdiff else search_end
  let best : Float × Int :=
    forLoop (fun ji (best : Float × Int) =>
      let j := search_start + ji
      let nccf := nccf_at lc l r j
      if nccf > best.1 then (nccf, j) else best)
      (search_end - search_start + 1).toNat (best_corr, best_match)
  let best_match := best.2
  let final_pitch := lc.pitch_max - best_match
  let current_energy := 10 * E.log10f (lc.corrminpower + 1 / 1000000)
  let energy_diff := |current_energy - lc.prev_energy|
  let threshold : Float := if energy_diff > 10 then 15 / 100 else 5 / 100
  let final_pitch := continuity_check lc candidates threshold final_pitch
  some ({ lc with last_pitch := final_pitch }, final_pitch))

/-- The pitch that the words of the specification give for three candidates:
the first of them whose distance to `last_pitch` is below `threshold * last_pitch`,
else `final_pitch`. -/
def first_within (lc : LowcFE) (candidates : Arr PitchCandidate) (threshold : Float)
    (final_pitch : Int) : Int :=
  if ((|lc.pitch_max - (candidates 0).index - lc.last_pitch| : Int) : Float)
      < threshold * (lc.last_pitch : Float) then lc.pitch_max - (candidates 0).index
  else if ((|lc.pitch_max - (candidates 1).index - lc.last_pitch| : Int) : Float)
      < threshold * (lc.last_pitch : Float) then lc.pitch_max - (candidates 1).index
  else if ((|lc.pitch_max - (candidates 2).index - lc.last_pitch| : Int) : Float)
      < threshold * (lc.last_pitch : Float) then lc.pitch_max - (candidates 2).index
  else final_pitch

/-! ## The transform of `fft.c` and its callers in `plc.c`

The functions of this part are generic in the type `R` of the C type `float`,
whose arithmetic is exact; the functions of the C library that they call and the
constant `M_PI` are the fields of `FMath`.  A `uint32_t` is a non-negative
integer, reduced modulo `2^32` where the C arithmetic can wrap. -/

/-- The functions of the C library called on `float`s, and `M_PI`. -/
structure FMath (R : Type) where
  cosf : R → R
  sinf : R → R
  sqrtf : R → R
  logf : R → R
  expf : R → R
  powf : R → R → R
  M_PI : R

/-- The struct `FFTHandler` of the native transform. -/
structure FFTHandler (R : Type) where
  size : Int
  twiddle_real : Arr R
  twiddle_imag : Arr R

/-- The function `fft_init` of the native transform; `none` is `NULL`.  The
allocations succeed.  The test is the one of C for every `size` above `INT_MIN`,
where `size - 1` does not overflow. -/
def fft_init {R : Type} [Field R] (M : FMath R) (size : Int) : Option (FFTHandler R) :=
  if Int.land size (size - 1) ≠ 0 then none
  else
    let tw : Arr R × Arr R :=
      forLoop (fun k (tw : Arr R × Arr R) =>
        let angle : R := -2 * M.M_PI * (k : R) / (size : R)
        (tw.1.set k (M.cosf angle), tw.2.set k (M.sinf angle))) size.toNat
        (Arr.const 0, Arr.const 0)
    some { size := size % 4294967296, twiddle_real := tw.1, twiddle_imag := tw.2 }

/-- The locals of `bit_reverse` that live across the passes of its loop. -/
structure BitRev (R : Type) where
  real : Arr R
  imag : Arr R
  j : Int

/-- The loop `while (j >= k) { j -= k; k /= 2; }` of `bit_reverse`.  Once `k` is
0 the loop does not end; `k` is below `2^32`, so 33 passes tell. -/
def bit_reverse_carry (j k : Int) : Option (Int × Int) :=
  whileLoop (fun s : Int × Int => decide (s.1 ≥ s.2)) (fun s => (s.1 - s.2, s.2 / 2)) 33 (j, k)

/-- The function `bit_reverse` of `fft.c`. -/
def bit_reverse {R : Type} (real imag : Arr R) (n : Int) : Option (Arr R × Arr R) :=
  (strideLoop (fun i (st : BitRev R) =>
      let st : BitRev R :=
        if i < st.j then
          let temp := st.real i
          let real := st.real.set i (st.real st.j)
          let real := real.set st.j temp
          let temp := st.imag i
          let imag := st.imag.set i (st.imag st.j)
          let imag := imag.set st.j temp
          { real := real, imag := imag, j := st.j }
        else st
      let k := n / 2
      (bit_reverse_carry st.j k).bind (fun jk =>
        some { real := st.real, imag := st.imag, j := jk.1 + jk.2 }))
    1 ((n - 1) % 4294967296) ((n - 1) % 4294967296).toNat 1
    { real := real, imag := imag, j := n / 2 }).bind (fun st => some (st.real, st.imag))

/-- The body of the innermost loop of `fft_execute`: one butterfly. -/
def butterfly {R : Type} [Field R] (handler : FFTHandler R) (is_inverse : Bool)
    (m mh i j : Int) (st : Arr R × Arr R) : Arr R × Arr R :=
  let real := st.1
  let imag := st.2
  let idx := i + j
  let k := idx + mh
  let tw_idx := (handler.size / m) * j
  let wr := handler.twiddle_real tw_idx
  let wi := if is_inverse then handler.twiddle_imag tw_idx else -handler.twiddle_imag tw_idx
  let tr := wr * real k - wi * imag k
  let ti := wr * imag k + wi * real k
  let real := real.set k (real idx - tr)
  let imag := imag.set k (imag idx - ti)
  let real := real.set idx (real idx + tr)
  let imag := imag.set idx (imag idx + ti)
  (real, imag)

/-- One pass of the loop over `m` of `fft_execute`: the two inner loops. -/
def fft_stage {R : Type} [Field R] (handler : FFTHandler R) (is_inverse : Bool) (n m : Int)
    (st : Arr R × Arr R) : Option (Arr R × Arr R) :=
  let mh := m / 2
  strideLoop (fun i st =>
    some (forLoop (fun j st => butterfly handler is_inverse m mh i j st) mh.toNat st))
    m n n.toNat 0 st

/-- The loop `for (m = 2; m <= n; m *= 2) body` on `uint32_t`, on fuel. -/
def doublingLoop {σ : Type} (body : Int → σ → Option σ) (n : Int) : Nat → Int → σ → Option σ
  | 0, m, s => if m ≤ n then none else some s
  | fuel + 1, m, s =>
    if m ≤ n then (body m s).bind (doublingLoop body n fuel (m * 2 % 4294967296))
    else some s

/-- The function `fft_execute` of the native transform; the handler `none` is
`NULL`.  The arrays `real` and `imag` start zero-filled. -/
def fft_execute {R : Type} [Field R] (handler : Option (FFTHandler R)) (io_buffer : Arr R)
    (is_inverse : Bool) : Option (Arr R) :=
  match handler with
  | none => some io_buffer
  | some handler =>
    let n := handler.size
    let st : Arr R × Arr R :=
      forLoop (fun i (st : Arr R × Arr R) =>
        (st.1.set i (io_buffer (2 * i)), st.2.set i (io_buffer (2 * i + 1)))) n.toNat
        (Arr.const 0, Arr.const 0)
    (bit_reverse st.1 st.2 n).bind (fun st =>
    (doublingLoop (fun m st => fft_stage handler is_inverse n m st) n 32 2 st).bind (fun st =>
    let st : Arr R × Arr R :=
      if is_inverse then
        let scale : R := 1 / (n : R)
        forLoop (fun i (st : Arr R × Arr R) =>
          (st.1.set i (st.1 i * scale), st.2.set i (st.2 i * scale))) n.toNat st
      else st
    some (forLoop (fun i io_buffer =>
      (io_buffer.set (2 * i) (st.1 i)).set (2 * i + 1) (st.2 i)) n.toNat io_buffer)))

/-- The function `frame_energy` of `plc.c`. -/
def frame_energy {R : Type} [Field R] (M : FMath R) (frame : Arr short) : R :=
  forLoop (fun i energy => energy + M.powf ((frame i : Int) : R) 2) FRAME_SIZE.toNat 0
    / (FRAME_SIZE : R)

/-- The array `fft_buf` of `is_unvoiced` when `fft_execute` is called: the
samples of the frame over 32768 in the even cells, 0 in the odd cells. -/
def unvoiced_buffer {R : Type} [Field R] (frame : Arr short) : Arr R :=
  forLoop (fun i fft_buf => fft_buf.set (2 * i) (((frame i : Int) : R) / 32768))
    FRAME_SIZE.toNat (Arr.const 0)

/-- The statements of `is_unvoiced` after the call of `fft_execute`: the spectral
flatness of the buffer and the decision. -/
def unvoiced_decision {R : Type} [LinearOrderedField R] (M : FMath R) (frame : Arr short)
    (fft_buf : Arr R) : Bool × R :=
  let zero_cross : Int :=
    forLoop (fun ii zero_cross =>
      let i := 1 + ii
      if (frame (i - 1) > 0 ∧ frame i < 0) ∨ (frame (i - 1) < 0 ∧ frame i > 0)
      then zero_cross + 1 else zero_cross) (FRAME_SIZE - 1).toNat 0
  let zcr_norm : R := (zero_cross : R) / (FRAME_SIZE : R)
  let energy := frame_energy M frame
  let means : R × R :=
    forLoop (fun kk (gm : R × R) =>
      let k := 1 + kk
      let mag := M.sqrtf (fft_buf (2 * k) * fft_buf (2 * k)
        + fft_buf (2 * k + 1) * fft_buf (2 * k + 1))
      (gm.1 + M.logf (mag + 1 / 1000000), gm.2 + mag)) (FRAME_SIZE / 2 - 1).toNat (0, 0)
  let geo_mean := M.expf (means.1 / ((FRAME_SIZE / 2 - 1 : Int) : R))
  let arith_mean := means.2 / ((FRAME_SIZE / 2 - 1 : Int) : R)
  let spectral_flatness : R := if arith_mean < 1 / 1000000 then 0 else geo_mean / arith_mean
  let high_zcr := decide (zcr_norm > 25 / 100)
  let low_energy := decide (energy < 800)
  let flat_spectrum := decide (spectral_flatness > 6 / 10)
  (high_zcr && (low_energy || flat_spectrum), spectral_flatness)

/-- The function `is_unvoiced` of `plc.c`: the decision and `*spectral_flatness`. -/
def is_unvoiced {R : Type} [LinearOrderedField R] (M : FMath R) (frame : Arr short) :
    Option (Bool × R) :=
  let fft := fft_init M FRAME_SIZE
  (fft_execute fft (unvoiced_buffer frame) false).bind (fun fft_buf =>
    some (unvoiced_decision M frame fft_buf))

/-- The value of `window[i]` in `noise_shaping`. -/
def noise_shaping_window {R : Type} [Field R] (M : FMath R) (fft_size i : Int) : R :=
  1 / 2 - 1 / 2 * M.cosf (2 * M.M_PI * (i : R) / ((fft_size - 1 : Int) : R))

/-- The value of `recovered` in the last loop of `noise_shaping`, for the buffer
`fft_buf` that the inverse transform left. -/
def noise_shaping_recovered {R : Type} [Field R] (M : FMath R) (fft_buf : Arr R) (i : Int) : R :=
  fft_buf (2 * i) / noise_shaping_window M FRAME_SIZE i

/-! ## Notions used in the statements on the transform -/

/-- The number whose `t` binary digits are those of `i` in reverse order. -/
def bitrev : Nat → Nat → Nat
  | 0, _ => 0
  | t + 1, i => 2 ^ t * (i % 2) + bitrev t (i / 2)

/-- The Fourier sum of `x` at `k` for the root `w`: the sum of `x n * w ^ (k * n)`
over `n < N`. -/
def dft {K : Type} [CommRing K] (w : K) (N : Nat) (x : Nat → K) (k : Nat) : K :=
  ∑ n ∈ Finset.range N, x n * w ^ (k * n)

/-- The Fourier sum, at `p`, of the block of `2 ^ s` cells of `a` that holds `p`,
read in bit-reversed order. -/
def blockdft {K : Type} [CommRing K] (w : K) (s : Nat) (a : Nat → K) (p : Nat) : K :=
  ∑ n ∈ Finset.range (2 ^ s), a (p / 2 ^ s * 2 ^ s + bitrev s n) * w ^ (p % 2 ^ s * n)

/-- The complex number that the arrays `real` and `imag` hold at `p`. -/
def cx (st : Arr ℝ × Arr ℝ) (p : Nat) : ℂ := ⟨st.1.get p, st.2.get p⟩

/-- The complex number that an interleaved buffer holds at `p`. -/
def cbuf (io_buffer : Arr ℝ) (p : Nat) : ℂ := ⟨io_buffer.get (2 * p), io_buffer.get (2 * p + 1)⟩

/-- The complex number `wr + i * wi` that `fft_execute` multiplies with in a
butterfly, for the index `tw_idx` into the tables of the handler. -/
def twiddle (handler : FFTHandler ℝ) (is_inverse : Bool) (tw_idx : Int) : ℂ :=
  ⟨handler.twiddle_real.get tw_idx,
    if is_inverse then handler.twiddle_imag.get tw_idx else -handler.twiddle_imag.get tw_idx⟩

/-! ## The functions that compute on `Float`s, with the rounding of the C type

In C the type `Float` is `float`: an operation on `Float`s returns the exact
result rounded to a `float`.  The functions of this part are `lpc_analysis`,
`g711plc_overlapaddatend`, `g711plc_addtohistory` and `g711plc_findpitch` once
more, with the rounding `fl` applied to the result of every addition,
subtraction, multiplication and division of `Float`s; with the rounding that
changes nothing they are the functions above.  The conversions of `short` and
`int` values to `Float` are exact, the values being small, and so are the
comparisons; the `sqrt` of the environment stands for `(Float)sqrt(x)`. -/

/-- What the statements ask of a rounding: it keeps the order, and it leaves the
integers of 16 bits as they are.  The rounding to the nearest `float` is one. -/
structure Rounding (fl : Float → Float) : Prop where
  mono : ∀ a b : Float, a ≤ b → fl a ≤ fl b
  int16 : ∀ n : Int, -32768 ≤ n → n ≤ 32767 → fl (n : Float) = (n : Float)

/-- The function `lpc_analysis` with the rounding `fl`. -/
def lpc_analysis_fl (fl : Float → Float) (frame : Arr short) (size : Int) (coeff : Arr Float) :
    Arr Float :=
  let autocorr : Arr Float :=
    forLoop (fun lag ac =>
      forLoop (fun i ac =>
        ac.set lag (fl (ac lag + fl ((frame i : Float) * (frame (i + lag) : Float)))))
        (size - lag).toNat ac) (LPC_ORDER + 1).toNat (Arr.const 0)
  let err := autocorr 0
  let coeff := coeff.set 0 1
  (forLoop (fun ki (st : Arr Float × Float) =>
    let k := 1 + ki
    let lambda : Float :=
      forLoop (fun mi lambda =>
        let m := 1 + mi
        fl (lambda - fl (st.1 m * autocorr (k - m)))) (k - 1).toNat 0
    let lambda := fl (lambda / st.2)
    let coeff :=
      forLoop (fun ni coeff =>
        let n := k - ni
        coeff.set n (fl (coeff n + fl (lambda * coeff (k - n))))) k.toNat st.1
    (coeff, fl (st.2 * fl (1 - fl (lambda * lambda))))) LPC_ORDER.toNat (coeff, err)).1

/-- The function `g711plc_overlapaddatend` with the rounding `fl`. -/
def g711plc_overlapaddatend_fl (fl : Float → Float) (lc : LowcFE) (s : Arr short)
    (f : Arr short) (cnt : Int) : Option (Arr short) :=
  let incr : Float := fl (1 / ((cnt - lc.sbcrt : Int) : Float))
  let gain : Float := fl (1 - fl (((lc.erasecnt - 1 : Int) : Float) * lc.attenfac))
  let gain : Float := if gain < 0 then 0 else gain
  let incrg := fl (incr * gain)
  let lw := fl (fl (1 - incr) * gain)
  let rw := incr
  (forLoopM (fun i s =>
    (toShort (fl (gain * (f i : Float)))).bind (fun v => some (s.set i v)))
    lc.sbcrt.toNat s).bind (fun s =>
  (forLoopM (fun ii (st : Ola short) =>
    let i := lc.sbcrt + ii
    let t := fl (fl (st.lw * (f i : Float)) + fl (st.rw * (st.o i : Float)))
    let t := clamp16 t
    (toShort t).bind (fun v =>
      some { o := st.o.set i v, lw := fl (st.lw - incrg), rw := fl (st.rw + incr) }))
    (cnt - lc.sbcrt).toNat { o := s, lw := lw, rw := rw }).map (fun st => st.o))

/-- The function `g711plc_addtohistory` with the rounding `fl`.  The local array
`overlapbuf` starts zero-filled. -/
def g711plc_addtohistory_fl (fl : Float → Float) (E : Env) (lc : LowcFE) (s : Arr short) :
    Option (LowcFE × Arr short) :=
  (if lc.erasecnt ≠ 0 then
      let overlapbuf : Arr short := Arr.const 0
      let olen := lc.poverlap + (lc.erasecnt + 1 - 1) * lc.eoverlapincr + lc.sbcrt
      let olen := if olen > lc.framesz then lc.framesz else olen
      (g711plc_getfespeech lc overlapbuf olen).bind (fun r =>
      let lc := r.1
      let overlapbuf := r.2
      (g711plc_overlapaddatend_fl fl lc s overlapbuf olen).bind (fun s =>
      some ({ lc with erasecnt := 0 }, s)))
    else some (lc, s)).bind (fun r =>
  let lc := r.1
  let s := r.2
  let lc :=
    if E.COMFORT_NOISE then
      { lc with cng := { lc.cng with
          lpc_coeff := lpc_analysis_fl fl s lc.framesz lc.cng.lpc_coeff } }
    else lc
  some (g711plc_savespeech lc s))

/-- The loop `for (i = 0; i < corrlen; i += step) corr += rp[i] * l[i]` with the
rounding `fl`. -/
def corr_sum_fl (fl : Float → Float) (lc : LowcFE) (rp l step : Int) : Option Float :=
  strideLoop (fun i corr => some (fl (corr + fl (lc.pitchbuf (rp + i) * lc.pitchbuf (l + i)))))
    step lc.corrlen lc.corrlen.toNat 0 0

/-- The loop `for (i = 0; i < corrlen; i += step)` that sums `energy` and `corr`,
with the rounding `fl`. -/
def energy_corr_sum_fl (fl : Float → Float) (lc : LowcFE) (rp l step : Int) :
    Option (Float × Float) :=
  strideLoop (fun i (ec : Float × Float) =>
    some (fl (ec.1 + fl (lc.pitchbuf (rp + i) * lc.pitchbuf (rp + i))),
          fl (ec.2 + fl (lc.pitchbuf (rp + i) * lc.pitchbuf (l + i)))))
    step lc.corrlen lc.corrlen.toNat 0 (0, 0)

/-- The statements `scale = energy, if (scale < corrminpower) scale = corrminpower,
corr = corr / sqrt(scale)` with the rounding `fl`. -/
def scaled_fl (fl : Float → Float) (E : Env) (lc : LowcFE) (energy corr : Float) : Float :=
  let scale := energy
  let scale := if scale < lc.corrminpower then lc.corrminpower else scale
  fl (corr / E.sqrt scale)

/-- One pass of a search loop of `g711plc_findpitch` at lag `j`, with the rounding
`fl`; the arguments are those of `search_step`. -/
def search_step_fl (fl : Float → Float) (E : Env) (lc : LowcFE) (l step istep : Int)
    (ge : Bool) (j : Int) (st : Search) : Option Search :=
  let energy := fl (st.energy - fl (lc.pitchbuf st.rp * lc.pitchbuf st.rp))
  let energy :=
    fl (energy + fl (lc.pitchbuf (st.rp + lc.corrlen) * lc.pitchbuf (st.rp + lc.corrlen)))
  let rp := st.rp + step
  (corr_sum_fl fl lc rp l istep).bind (fun corr =>
    let corr := scaled_fl fl E lc energy corr
    if (if ge then corr ≥ st.bestcorr else corr > st.bestcorr) then
      some { energy := energy, rp := rp, bestcorr := corr, bestmatch := j }
    else
      some { energy := energy, rp := rp, bestcorr := st.bestcorr, bestmatch := st.bestmatch })

/-- The function `g711plc_findpitch` with the rounding `fl`. -/
def g711plc_findpitch_fl (fl : Float → Float) (E : Env) (lc : LowcFE) : Option Int :=
  let l := lc.pitchbufend - lc.corrlen
  let r := lc.pitchbufend - lc.corrbuflen
  /- coarse search -/
  let rp := r
  (energy_corr_sum_fl fl lc rp l lc.ndec).bind (fun ec =>
  let corr := scaled_fl fl E lc ec.1 ec.2
  (strideLoop (search_step_fl fl E lc l lc.ndec lc.ndec true) lc.ndec (lc.pitchdiff + 1)
    (lc.pitchdiff + 1).toNat lc.ndec
    { energy := ec.1, rp := rp, bestcorr := corr, bestmatch := 0 }).bind (fun st =>
  /- fine search -/
  let j := st.bestmatch - (lc.ndec - 1)
  let j := if j < 0 then 0 else j
  let k := st.bestmatch + (lc.ndec - 1)
  let k := if k > lc.pitchdiff then lc.pitchdiff else k
  let rp := r + j
  (energy_corr_sum_fl fl lc rp l 1).bind (fun ec =>
  let corr := scaled_fl fl E lc ec.1 ec.2
  (strideLoop (search_step_fl fl E lc l 1 1 false) 1 (k + 1) (k + 1).toNat (j + 1)
    { energy := ec.1, rp := rp, bestcorr := corr, bestmatch := j }).bind (fun st =>
  some (lc.pitch_max - st.bestmatch)))))

/-- The coarse search of `g711plc_findpitch` with the rounding `fl`: the lag it
ends with. -/
def findpitch_coarse_fl (fl : Float → Float) (E : Env) (lc : LowcFE) : Option Int :=
  let l := lc.pitchbufend - lc.corrlen
  let r := lc.pitchbufend - lc.corrbuflen
  let rp := r
  (energy_corr_sum_fl fl lc rp l lc.ndec).bind (fun ec =>
  let corr := scaled_fl fl E lc ec.1 ec.2
  (strideLoop (search_step_fl fl E lc l lc.ndec lc.ndec true) lc.ndec (lc.pitchdiff + 1)
    (lc.pitchdiff + 1).toNat lc.ndec
    { energy := ec.1, rp := rp, bestcorr := corr, bestmatch := 0 }).bind (fun st =>
  some st.bestmatch))

/-- The value of `gain` in `g711plc_overlapaddatend` with the rounding `fl`. -/
def end_gain_fl (fl : Float → Float) (lc : LowcFE) : Float :=
  if fl (1 - fl (((lc.erasecnt - 1 : Int) : Float) * lc.attenfac)) < 0 then 0
  else fl (1 - fl (((lc.erasecnt - 1 : Int) : Float) * lc.attenfac))

/-- The value of `acc` after the loop
`for (i = 0; i < bound; i += step) acc += f(i)` entered with `acc = 0`, with the
rounding `fl`. -/
def stride_sum_fl (fl : Float → Float) (f : Int → Float) (step bound : Int) : Float :=
  forLoop (fun m acc => fl (acc + fl (f (m * step)))) ((bound + step - 1) / step).toNat 0

/-- The correlation that `g711plc_findpitch` sums for the window at `rp` against
the window at `l`, on every `step`-th sample, with the rounding `fl`. -/
def win_corr_fl (fl : Float → Float) (lc : LowcFE) (rp l step : Int) : Float :=
  stride_sum_fl fl (fun i => lc.pitchbuf (rp + i) * lc.pitchbuf (l + i)) step lc.corrlen

/-- The energy that `g711plc_findpitch` sums for the window at `rp`, on every
`step`-th sample, with the rounding `fl`. -/
def win_energy_fl (fl : Float → Float) (lc : LowcFE) (rp step : Int) : Float :=
  stride_sum_fl fl (fun i => lc.pitchbuf (rp + i) * lc.pitchbuf (rp + i)) step lc.corrlen

/-- The running energy of a search loop of `g711plc_findpitch` after `m` passes,
with the rounding `fl`: the loop starts from the energy of the window at `rp0`,
and every pass takes off the square of the first sample of the window and adds
the square of the sample `corrlen` further. -/
def run_energy_fl (fl : Float → Float) (lc : LowcFE) (rp0 step istep : Int) : Nat → Float
  | 0 => win_energy_fl fl lc rp0 istep
  | m + 1 =>
    fl (fl (run_energy_fl fl lc rp0 step istep m
        - fl (lc.pitchbuf (rp0 + m * step) * lc.pitchbuf (rp0 + m * step)))
      + fl (lc.pitchbuf (rp0 + m * step + lc.corrlen)
          * lc.pitchbuf (rp0 + m * step + lc.corrlen)))

/-- The score that a search loop of `g711plc_findpitch` computes for the window
it reaches after `m` passes, with the rounding `fl`: the correlation of the
window over the square root of its running energy, floored at `corrminpower`. -/
def search_score_fl (fl : Float → Float) (E : Env) (lc : LowcFE) (rp0 step istep : Int)
    (m : Nat) : Float :=
  scaled_fl fl E lc (run_energy_fl fl lc rp0 step istep m)
    (win_corr_fl fl lc (rp0 + m * step) (lc.pitchbufend - lc.corrlen) istep)

/-- The score that the fine search of `g711plc_findpitch` computes for the lag
`j`, when it starts at the lag `j0 ≤ j`, with the rounding `fl`. -/
def fine_loop_score (fl : Float → Float) (E : Env) (lc : LowcFE) (j0 j : Int) : Float :=
  search_score_fl fl E lc (lc.pitchbufend - lc.corrbuflen + j0) 1 1 (j - j0).toNat

/-! ## Arrays, loops, conversions: basic facts -/

@[simp] theorem Arr.get_set {α : Type} (a : Arr α) (i j : Int) (v : α) :
    (a.set i v).get j = if j = i then v else a.get j := rfl

@[simp] theorem Arr.get_const {α : Type} (v : α) (j : Int) : (Arr.const v).get j = v := rfl

@[simp] theorem Src.get_arr {α : Type} (a cur : Arr α) (i : Int) :
    (Src.arr a).get cur i = a.get i := rfl

@[simp] theorem Src.get_dst {α : Type} (cur : Arr α) (i : Int) :
    (Src.dst : Src α).get cur i = cur.get i := rfl

theorem shr2 (x : Int) : x >>> (2 : ℕ) = x / 4 := by
  have h := Int.shiftRight_eq_div_pow x 2
  simpa using h

/-- Invariant rule for `forLoop`. -/
theorem forLoop_inv {σ : Type} (body : Int → σ → σ) (P : Nat → σ → Prop) (n : Nat) (s : σ)
    (h0 : P 0 s) (hstep : ∀ k s, k < n → P k s → P (k + 1) (body k s)) :
    P n (forLoop body n s) := by
  induction n with
  | zero => exact h0
  | succ m ih =>
    have hm : P m (forLoop body m s) := ih (fun k s hk hp => hstep k s (by omega) hp)
    exact hstep m _ (by omega) hm

/-- Invariant rule for `forLoopM`: when every pass has a result, so has the loop. -/
theorem forLoopM_inv {σ : Type} (body : Int → σ → Option σ) (P : Nat → σ → Prop) (n : Nat)
    (s : σ) (h0 : P 0 s)
    (hstep : ∀ k s, k < n → P k s → ∃ s', body k s = some s' ∧ P (k + 1) s') :
    ∃ s', forLoopM body n s = some s' ∧ P n s' := by
  induction n with
  | zero => exact ⟨s, rfl, h0⟩
  | succ m ih =>
    obtain ⟨s1, h1, hp1⟩ := ih (fun k s hk hp => hstep k s (by omega) hp)
    obtain ⟨s2, h2, hp2⟩ := hstep m s1 (by omega) hp1
    exact ⟨s2, by simp [forLoopM, h1, h2], hp2⟩

/-- Invariant rule for a `forLoopM` that is known to have a result. -/
theorem forLoopM_some_inv {σ : Type} (body : Int → σ → Option σ) (P : Nat → σ → Prop)
    (n : Nat) (s r : σ) (h : forLoopM body n s = some r) (h0 : P 0 s)
    (hstep : ∀ k a b, k < n → P k a → body k a = some b → P (k + 1) b) : P n r := by
  induction n generalizing r with
  | zero => simp [forLoopM] at h; subst h; exact h0
  | succ m ih =>
    simp only [forLoopM, Option.bind_eq_some] at h
    obtain ⟨a, ha, hb⟩ := h
    exact hstep m a r (by omega) (ih a ha (fun k a b hk => hstep k a b (by omega))) hb

/-- Invariant rule for `strideLoop` with a positive stride: with fuel for every
index from `i` to `bound` the loop has a result. -/
theorem strideLoop_inv {σ : Type} (body : Int → σ → Option σ) (step bound : Int)
    (P : Int → σ → Prop) (hstep : 1 ≤ step)
    (hbody : ∀ i s, i < bound → P i s → ∃ s', body i s = some s' ∧ P (i + step) s') :
    ∀ (fuel : Nat) (i : Int) (s : σ), bound - i ≤ fuel → P i s →
      ∃ s' i', strideLoop body step bound fuel i s = some s' ∧ P i' s' ∧ bound ≤ i' := by
  intro fuel
  induction fuel with
  | zero =>
    intro i s hf hp
    exact ⟨s, i, by simp [strideLoop]; omega, hp, by omega⟩
  | succ f ih =>
    intro i s hf hp
    by_cases hi : i < bound
    · obtain ⟨s1, h1, hp1⟩ := hbody i s hi hp
      obtain ⟨s2, i2, h2, hp2, hb2⟩ := ih (i + step) s1 (by push_cast at hf; omega) hp1
      exact ⟨s2, i2, by simp [strideLoop, hi, h1, h2], hp2, hb2⟩
    · exact ⟨s, i, by simp [strideLoop, hi], hp, by omega⟩

/-- Invariant rule for a `strideLoop` that is known to have a result. -/
theorem strideLoop_some_inv {σ : Type} (body : Int → σ → Option σ) (step bound : Int)
    (P : σ → Prop) (hbody : ∀ i a b, P a → body i a = some b → P b) :
    ∀ (fuel : Nat) (i : Int) (s r : σ), strideLoop body step bound fuel i s = some r →
      P s → P r := by
  intro fuel
  induction fuel with
  | zero =>
    intro i s r h hp
    by_cases hi : i < bound <;> simp [strideLoop, hi] at h
    subst h; exact hp
  | succ f ih =>
    intro i s r h hp
    by_cases hi : i < bound
    · simp only [strideLoop, hi, if_true, Option.bind_eq_some] at h
      obtain ⟨a, ha, hr⟩ := h
      exact ih _ a r hr (hbody i s a hp ha)
    · simp [strideLoop, hi] at h
      subst h; exact hp

/-- Invariant rule for `whileLoop` with a measure that every pass lowers. -/
theorem whileLoop_inv {σ : Type} (cond : σ → Bool) (body : σ → σ) (P : σ → Prop)
    (m : σ → Int)
    (hbody : ∀ s, cond s = true → P s → P (body s) ∧ m (body s) < m s ∧ 0 < m s) :
    ∀ (fuel : Nat) (s : σ), m s ≤ fuel → P s →
      ∃ s', whileLoop cond body fuel s = some s' ∧ P s' ∧ cond s' = false := by
  intro fuel
  induction fuel with
  | zero =>
    intro s hf hp
    cases hc : cond s with
    | false => exact ⟨s, by simp [whileLoop, hc], hp, hc⟩
    | true => have := (hbody s hc hp).2.2; simp at hf; omega
  | succ f ih =>
    intro s hf hp
    cases hc : cond s with
    | false => exact ⟨s, by simp [whileLoop, hc], hp, hc⟩
    | true =>
      obtain ⟨hp1, hm1, _⟩ := hbody s hc hp
      obtain ⟨s2, h2, hp2, hc2⟩ := ih (body s) (by push_cast at hf; omega) hp1
      exact ⟨s2, by simp [whileLoop, hc, h2], hp2, hc2⟩

/-- Invariant rule for a `whileLoop` that is known to have a result. -/
theorem whileLoop_some_inv {σ : Type} (cond : σ → Bool) (body : σ → σ) (P : σ → Prop)
    (hbody : ∀ s, P s → P (body s)) :
    ∀ (fuel : Nat) (s r : σ), whileLoop cond body fuel s = some r → P s → P r := by
  intro fuel
  induction fuel with
  | zero =>
    intro s r h hp
    cases hc : cond s <;> simp [whileLoop, hc] at h
    subst h; exact hp
  | succ f ih =>
    intro s r h hp
    cases hc : cond s <;> simp [whileLoop, hc] at h
    · subst h; exact hp
    · exact ih _ r h (hbody s hp)

/-! ## Conversion to `short` -/

theorem trunc_intCast (z : Int) : trunc (z : Float) = z := by
  unfold trunc; split <;> simp

theorem trunc_zero : trunc 0 = 0 := by
  simp [trunc]

/-- A value between two integers of opposite sign truncates between them; the
upper bound may be missed by less than one. -/
theorem trunc_bounds (t : Float) (a b : Int) (ha : a ≤ 0) (hb : 0 ≤ b)
    (h1 : (a : Float) ≤ t) (h2 : t < (b : Float) + 1) : a ≤ trunc t ∧ trunc t ≤ b := by
  unfold trunc
  split
  · rename_i h0
    constructor
    · exact le_trans ha (Int.floor_nonneg.mpr h0)
    · have : ⌊t⌋ < b + 1 := by
        rw [Int.floor_lt]; push_cast; exact h2
      omega
  · rename_i h0
    push_neg at h0
    constructor
    · rw [Int.le_ceil_iff]
      have : ((a : Float) - 1) < a := by linarith
      linarith
    · have : ⌈t⌉ ≤ 0 := by
        rw [Int.ceil_le]; push_cast; exact le_of_lt h0
      omega

theorem inRange_of_bounds (t : Float) (h1 : -32768 ≤ t) (h2 : t < 32768) : inRange t := by
  have h := trunc_bounds t (-32768) 32767 (by norm_num) (by norm_num)
    (by push_cast; exact h1) (by push_cast; linarith)
  exact h

theorem toShort_of_inRange (t : Float) (h : inRange t) : toShort t = some (trunc t) := by
  unfold toShort
  unfold inRange at h
  rw [if_pos h]

theorem toShort_eq_some (t : Float) (v : short) (h : toShort t = some v) :
    inRange t ∧ v = trunc t := by
  unfold toShort at h
  split at h
  · rename_i hr
    exact ⟨hr, by simpa using h.symm⟩
  · simp at h

theorem clamp16_bounds (t : Float) : -32768 ≤ clamp16 t ∧ clamp16 t ≤ 32767 := by
  unfold clamp16
  split_ifs with h1 h2
  · norm_num
  · norm_num
  · push_neg at h1 h2; exact ⟨h2, h1⟩

theorem clamp16_of_bounds (t : Float) (h1 : -32768 ≤ t) (h2 : t ≤ 32767) : clamp16 t = t := by
  unfold clamp16
  rw [if_neg (by linarith), if_neg (by linarith)]

theorem inRange_clamp16 (t : Float) : inRange (clamp16 t) := by
  have h := clamp16_bounds t
  exact inRange_of_bounds _ h.1 (by linarith)

/-! ## Loops that fill an array -/

theorem forLoop_set_get {α : Type} (v : Int → α) (ti : Int) (n : Nat) (t : Arr α) (j : Int) :
    (forLoop (fun i t => t.set (ti + i) (v i)) n t).get j
      = if ti ≤ j ∧ j < ti + n then v (j - ti) else t.get j := by
  induction n with
  | zero => simp only [forLoop]; rw [if_neg]; push_cast; omega
  | succ m ih =>
    simp only [forLoop, Arr.get_set, ih]
    by_cases h1 : j = ti + m
    · subst h1; simp
    · simp only [h1, if_false]
      by_cases h2 : ti ≤ j ∧ j < ti + m
      · rw [if_pos h2, if_pos (by push_cast; omega)]
      · rw [if_neg h2, if_neg (by push_cast; omega)]

/-- A forward copy inside one array sees the old values when the source lies
ahead of the destination. -/
theorem forLoop_copy_dst_get {α : Type} (fi ti : Int) (hft : ti ≤ fi) (n : Nat) (t : Arr α)
    (j : Int) :
    (forLoop (fun i t => t.set (ti + i) (t.get (fi + i))) n t).get j
      = if ti ≤ j ∧ j < ti + n then t.get (fi + (j - ti)) else t.get j := by
  induction n generalizing j with
  | zero => simp only [forLoop]; rw [if_neg]; push_cast; omega
  | succ m ih =>
    simp only [forLoop, Arr.get_set]
    by_cases h1 : j = ti + m
    · subst h1
      rw [if_pos rfl, ih, if_neg (by omega), if_pos (by push_cast; omega)]
      congr 1; omega
    · rw [if_neg h1, ih]
      by_cases h2 : ti ≤ j ∧ j < ti + m
      · rw [if_pos h2, if_pos (by push_cast; omega)]
      · rw [if_neg h2, if_neg (by push_cast; omega)]

theorem forLoopM_set_spec (x : Int → Float) (ti : Int) (n : Nat) (t : Arr short)
    (h : ∀ i : Int, 0 ≤ i → i < n → inRange (x i)) :
    ∃ t', forLoopM (fun i t => (toShort (x i)).bind
        (fun v => some (t.set (ti + i) v))) n t = some t' ∧
      ∀ j, t'.get j = if ti ≤ j ∧ j < ti + n then trunc (x (j - ti)) else t.get j := by
  refine forLoopM_inv _ (fun k t' => ∀ j, t'.get j
      = if ti ≤ j ∧ j < ti + k then trunc (x (j - ti)) else t.get j) n t ?_ ?_
  · intro j; rw [if_neg]; push_cast; omega
  · intro k s hk hs
    refine ⟨s.set (ti + k) (trunc (x k)), ?_, ?_⟩
    · simp [toShort_of_inRange _ (h k (by omega) (by exact_mod_cast hk))]
    · intro j
      simp only [Arr.get_set, hs]
      by_cases h1 : j = ti + k
      · subst h1; simp
      · rw [if_neg h1]
        by_cases h2 : ti ≤ j ∧ j < ti + k
        · rw [if_pos h2, if_pos (by push_cast; omega)]
        · rw [if_neg h2, if_neg (by push_cast; omega)]

/-! ## The array helpers, index by index -/

theorem g711plc_zeros_get (s : Arr short) (so cnt j : Int) :
    (g711plc_zeros s so cnt).get j = if so ≤ j ∧ j < so + cnt then 0 else s.get j := by
  unfold g711plc_zeros
  rw [forLoop_set_get (fun _ => (0 : short))]
  by_cases h : so ≤ j ∧ j < so + cnt
  · rw [if_pos h, if_pos (by omega)]
  · rw [if_neg h, if_neg (by omega)]

theorem g711plc_copys_arr_get (a : Arr short) (fi : Int) (t : Arr short) (ti cnt j : Int) :
    (g711plc_copys (Src.arr a) fi t ti cnt).get j
      = if ti ≤ j ∧ j < ti + cnt then a.get (fi + (j - ti)) else t.get j := by
  unfold g711plc_copys
  simp only [Src.get_arr]
  rw [forLoop_set_get (fun i => a.get (fi + i))]
  by_cases h : ti ≤ j ∧ j < ti + cnt
  · rw [if_pos h, if_pos (by omega)]
  · rw [if_neg h, if_neg (by omega)]

theorem g711plc_copys_dst_get (fi : Int) (t : Arr short) (ti cnt j : Int) (hft : ti ≤ fi) :
    (g711plc_copys Src.dst fi t ti cnt).get j
      = if ti ≤ j ∧ j < ti + cnt then t.get (fi + (j - ti)) else t.get j := by
  unfold g711plc_copys
  simp only [Src.get_dst]
  rw [forLoop_copy_dst_get fi ti hft]
  by_cases h : ti ≤ j ∧ j < ti + cnt
  · rw [if_pos h, if_pos (by omega)]
  · rw [if_neg h, if_neg (by omega)]

theorem g711plc_convertsf_get (f : Arr short) (fi : Int) (t : Arr Float) (ti cnt j : Int) :
    (g711plc_convertsf f fi t ti cnt).get j
      = if ti ≤ j ∧ j < ti + cnt then ((f.get (fi + (j - ti)) : Int) : Float) else t.get j := by
  unfold g711plc_convertsf
  rw [forLoop_set_get (fun i => ((f.get (fi + i) : Int) : Float))]
  by_cases h : ti ≤ j ∧ j < ti + cnt
  · rw [if_pos h, if_pos (by omega)]
  · rw [if_neg h, if_neg (by omega)]

theorem g711plc_copyf_get (f : Arr Float) (fi : Int) (t : Arr Float) (ti cnt j : Int) :
    (g711plc_copyf f fi t ti cnt).get j
      = if ti ≤ j ∧ j < ti + cnt then f.get (fi + (j - ti)) else t.get j := by
  unfold g711plc_copyf
  rw [forLoop_set_get (fun i => f.get (fi + i))]
  by_cases h : ti ≤ j ∧ j < ti + cnt
  · rw [if_pos h, if_pos (by omega)]
  · rw [if_neg h, if_neg (by omega)]

theorem g711plc_convertfs_spec (f : Arr Float) (fi : Int) (t : Arr short) (ti cnt : Int)
    (h : ∀ i : Int, 0 ≤ i → i < cnt → inRange (f.get (fi + i))) :
    ∃ t', g711plc_convertfs f fi t ti cnt = some t' ∧
      ∀ j, t'.get j = if ti ≤ j ∧ j < ti + cnt then trunc (f.get (fi + (j - ti))) else t.get j := by
  unfold g711plc_convertfs
  obtain ⟨t', h1, h2⟩ := forLoopM_set_spec (fun i => f.get (fi + i)) ti cnt.toNat t
    (fun i h0 hi => h i h0 (by omega))
  refine ⟨t', h1, fun j => ?_⟩
  rw [h2]
  by_cases hj : ti ≤ j ∧ j < ti + cnt
  · rw [if_pos hj, if_pos (by omega)]
  · rw [if_neg hj, if_neg (by omega)]

/-! ## Construction -/

theorem cvsd_construct_fields (E : Env) (lc0 : LowcFE) :
    ∃ lc, cvsd_g711plc_construct E lc0 = some lc ∧
      lc.pitch_min = 40 ∧ lc.pitch_max = 120 ∧ lc.pitchdiff = 80 ∧ lc.poverlapmax = 30 ∧
      lc.historylen = 390 ∧ lc.ndec = 2 ∧ lc.corrlen = 160 ∧ lc.corrbuflen = 280 ∧
      lc.corrminpower = 250 ∧ lc.eoverlapincr = 24 ∧ lc.framesz = 60 ∧
      lc.attenfac = 1 / (E.fading_count : Float) ∧
      lc.attenincr = 1 / (E.fading_count : Float) / 60 ∧ lc.sbcrt = 0 ∧ lc.erasecnt = 0 ∧
      lc.pitchbufend = 390 ∧ (∀ j, 0 ≤ j → j < 390 → lc.history.get j = 0) := by
  unfold cvsd_g711plc_construct
  dsimp only
  split
  · refine ⟨_, rfl, ?_⟩
    unfold construct_tail
    dsimp only
    split
    · refine ⟨rfl, rfl, rfl, rfl, rfl, rfl, rfl, rfl, rfl, rfl, rfl, rfl, ?_, rfl, rfl, rfl, ?_⟩
      · norm_num
      · intro j h0 h1
        rw [g711plc_zeros_get, if_pos]
        exact ⟨h0, by simpa using h1⟩
    · refine ⟨rfl, rfl, rfl, rfl, rfl, rfl, rfl, rfl, rfl, rfl, rfl, rfl, ?_, rfl, rfl, rfl, ?_⟩
      · norm_num
      · intro j h0 h1
        rw [g711plc_zeros_get, if_pos]
        exact ⟨h0, by simpa using h1⟩
  · rename_i h
    exact absurd rfl h

theorem msbc_construct_fields (E : Env) (lc0 : LowcFE) :
    ∃ lc, msbc_g711plc_construct E lc0 = some lc ∧
      lc.pitch_min = 80 ∧ lc.pitch_max = 240 ∧ lc.pitchdiff = 160 ∧ lc.poverlapmax = 60 ∧
      lc.historylen = 780 ∧ lc.ndec = 2 ∧ lc.corrlen = 320 ∧ lc.corrbuflen = 560 ∧
      lc.corrminpower = 500 ∧ lc.eoverlapincr = 48 ∧ lc.framesz = 120 ∧
      lc.attenfac = 2 / 10 ∧
      lc.attenincr = 2 / 10 / 120 ∧ lc.sbcrt = 36 ∧ lc.erasecnt = 0 ∧
      lc.pitchbufend = 780 ∧ (∀ j, 0 ≤ j → j < 780 → lc.history.get j = 0) := by
  unfold msbc_g711plc_construct
  dsimp only
  split
  · refine ⟨_, rfl, ?_⟩
    unfold construct_tail
    dsimp only
    split
    · refine ⟨rfl, rfl, rfl, rfl, rfl, rfl, rfl, rfl, ?_, rfl, rfl, rfl, ?_, rfl, rfl, rfl, ?_⟩
      · norm_num
      · norm_num
      · intro j h0 h1
        rw [g711plc_zeros_get, if_pos]
        exact ⟨h0, by simpa using h1⟩
    · refine ⟨rfl, rfl, rfl, rfl, rfl, rfl, rfl, rfl, ?_, rfl, rfl, rfl, ?_, rfl, rfl, rfl, ?_⟩
      · norm_num
      · norm_num
      · intro j h0 h1
        rw [g711plc_zeros_get, if_pos]
        exact ⟨h0, by simpa using h1⟩
  · rename_i h
    exact absurd rfl h

/-- Claim C7.  Both constructors pass their three assertions and return a state
with the parameters of their variant: 40/120, frames of 60 samples, no
reconvergence time and `attenfac = 1 / fading_count` for CVSD; 80/240, frames of
120 samples, a reconvergence time of 36 samples and `attenfac = 0.2` for mSBC.  In
both, `poverlapmax = pitch_max / 4`, `historylen = 3 * pitch_max + pitch_max / 4`,
`attenincr = attenfac / framesz`, `erasecnt = 0`, the first `historylen` samples
of the history are zero, and the asserted bounds hold. -/
theorem construct_parameters (E : Env) (lc0 : LowcFE) :
    (∃ lc, cvsd_g711plc_construct E lc0 = some lc ∧
      lc.pitch_min = 40 ∧ lc.pitch_max = 120 ∧ lc.framesz = 60 ∧ lc.sbcrt = 0 ∧
      lc.attenfac = 1 / (E.fading_count : Float) ∧
      lc.poverlapmax = lc.pitch_max / 4 ∧
      lc.historylen = 3 * lc.pitch_max + lc.pitch_max / 4 ∧
      lc.attenincr = lc.attenfac / (lc.framesz : Float) ∧ lc.erasecnt = 0 ∧
      (∀ j, 0 ≤ j → j < lc.historylen → lc.history.get j = 0) ∧
      lc.historylen ≤ HISTORYLEN_MAX ∧ lc.poverlapmax ≤ POVERLAPMAX_ ∧
      lc.framesz ≤ FRAMESZ_MAX) ∧
    (∃ lc, msbc_g711plc_construct E lc0 = some lc ∧
      lc.pitch_min = 80 ∧ lc.pitch_max = 240 ∧ lc.framesz = 120 ∧ lc.sbcrt = 36 ∧
      lc.attenfac = 2 / 10 ∧
      lc.poverlapmax = lc.pitch_max / 4 ∧
      lc.historylen = 3 * lc.pitch_max + lc.pitch_max / 4 ∧
      lc.attenincr = lc.attenfac / (lc.framesz : Float) ∧ lc.erasecnt = 0 ∧
      (∀ j, 0 ≤ j → j < lc.historylen → lc.history.get j = 0) ∧
      lc.historylen ≤ HISTORYLEN_MAX ∧ lc.poverlapmax ≤ POVERLAPMAX_ ∧
      lc.framesz ≤ FRAMESZ_MAX) := by
  constructor
  · obtain ⟨lc, h, h1, h2, h3, h4, h5, h6, h7, h8, h9, h10, h11, h12, h13, h14, h15, h16, h17⟩ :=
      cvsd_construct_fields E lc0
    refine ⟨lc, h, h1, h2, h11, h14, h12, ?_, ?_, ?_, h15, ?_, ?_, ?_, ?_⟩
    · rw [h4, h2]; norm_num
    · rw [h5, h2]; norm_num
    · rw [h13, h12, h11]; norm_num
    · intro j hj0 hj1; exact h17 j hj0 (by omega)
    · rw [h5]; decide
    · rw [h4]; decide
    · rw [h11]; decide
  · obtain ⟨lc, h, h1, h2, h3, h4, h5, h6, h7, h8, h9, h10, h11, h12, h13, h14, h15, h16, h17⟩ :=
      msbc_construct_fields E lc0
    refine ⟨lc, h, h1, h2, h11, h14, h12, ?_, ?_, ?_, h15, ?_, ?_, ?_, ?_⟩
    · rw [h4, h2]; norm_num
    · rw [h5, h2]; norm_num
    · rw [h13, h12, h11]; norm_num
    · intro j hj0 hj1; exact h17 j hj0 (by omega)
    · rw [h5]; decide
    · rw [h4]; decide
    · rw [h11]; decide

/-! ## Saving a frame -/

theorem savespeech_history_get (lc : LowcFE) (s : Arr short) (h0 : 0 ≤ lc.framesz) (j : Int) :
    (g711plc_savespeech lc s).1.history.get j =
      if 0 ≤ j ∧ j < lc.historylen - lc.framesz then lc.history.get (j + lc.framesz)
      else if lc.historylen - lc.framesz ≤ j ∧ j < lc.historylen then
        s.get (j - (lc.historylen - lc.framesz))
      else lc.history.get j := by
  unfold g711plc_savespeech
  dsimp only
  rw [g711plc_copys_arr_get, g711plc_copys_dst_get _ _ _ _ _ h0]
  by_cases h1 : lc.historylen - lc.framesz ≤ j ∧ j < lc.historylen
  · rw [if_pos (by omega), if_neg (by omega), if_pos h1]
    congr 1; omega
  · rw [if_neg (by omega), if_neg h1]
    by_cases h2 : 0 ≤ j ∧ j < lc.historylen - lc.framesz
    · rw [if_pos (by omega), if_pos h2]; congr 1; omega
    · rw [if_neg (by omega), if_neg h2]

theorem savespeech_out_get (lc : LowcFE) (s : Arr short) (i : Int) :
    (g711plc_savespeech lc s).2.get i =
      if 0 ≤ i ∧ i < lc.framesz then
        (g711plc_savespeech lc s).1.history.get (lc.historylen - lc.framesz - lc.poverlapmax + i)
      else s.get i := by
  unfold g711plc_savespeech
  dsimp only
  rw [g711plc_copys_arr_get]
  by_cases h1 : 0 ≤ i ∧ i < lc.framesz
  · rw [if_pos (by omega), if_pos h1]; congr 1; omega
  · rw [if_neg (by omega), if_neg h1]

theorem savespeech_fields (lc : LowcFE) (s : Arr short) :
    (g711plc_savespeech lc s).1 = { lc with history := (g711plc_savespeech lc s).1.history } :=
  rfl

/-- Claim C8.  In a state with `framesz + poverlapmax ≤ historylen` (the sizes
being non-negative), `g711plc_savespeech` drops the first `framesz` samples of
the history and appends the frame `s`; the frame handed back is the window of
`framesz` samples of the new history that starts at
`historylen - framesz - poverlapmax`: the last `poverlapmax` samples of the old
history followed by the first samples of `s`. -/
theorem savespeech_step (lc : LowcFE) (s : Arr short) (h0 : 0 ≤ lc.framesz)
    (hp : 0 ≤ lc.poverlapmax) (h : lc.framesz + lc.poverlapmax ≤ lc.historylen) :
    (∀ j, 0 ≤ j → j < lc.historylen - lc.framesz →
      (g711plc_savespeech lc s).1.history.get j = lc.history.get (j + lc.framesz)) ∧
    (∀ j, lc.historylen - lc.framesz ≤ j → j < lc.historylen →
      (g711plc_savespeech lc s).1.history.get j = s.get (j - (lc.historylen - lc.framesz))) ∧
    (∀ i, 0 ≤ i → i < lc.framesz →
      (g711plc_savespeech lc s).2.get i =
        (g711plc_savespeech lc s).1.history.get
          (lc.historylen - lc.framesz - lc.poverlapmax + i)) ∧
    (∀ i, 0 ≤ i → i < lc.poverlapmax → i < lc.framesz →
      (g711plc_savespeech lc s).2.get i = lc.history.get (lc.historylen - lc.poverlapmax + i)) ∧
    (∀ i, lc.poverlapmax ≤ i → i < lc.framesz →
      (g711plc_savespeech lc s).2.get i = s.get (i - lc.poverlapmax)) := by
  refine ⟨?_, ?_, ?_, ?_, ?_⟩
  · intro j h1 h2
    rw [savespeech_history_get lc s h0, if_pos ⟨h1, h2⟩]
  · intro j h1 h2
    rw [savespeech_history_get lc s h0, if_neg (by omega), if_pos ⟨h1, h2⟩]
  · intro i h1 h2
    rw [savespeech_out_get, if_pos ⟨h1, h2⟩]
  · intro i h1 h2 h3
    rw [savespeech_out_get, if_pos ⟨h1, h3⟩, savespeech_history_get lc s h0, if_pos (by omega)]
    congr 1; omega
  · intro i h1 h2
    rw [savespeech_out_get, if_pos ⟨by omega, h2⟩, savespeech_history_get lc s h0,
      if_neg (by omega), if_pos (by omega)]
    congr 1; omega

/-! ## Good frames only -/

theorem stream_cons_lt (F : Int) (s : Arr short) (ss : List (Arr short)) (m : Int)
    (h0 : 0 ≤ m) (h1 : m < F) : stream F (s :: ss) m = s.get m := by
  unfold stream
  rw [Int.ediv_eq_zero_of_lt h0 h1, Int.emod_eq_of_lt h0 h1]
  rfl

theorem stream_cons_ge (F : Int) (s : Arr short) (ss : List (Arr short)) (m : Int)
    (hF : 0 < F) (h0 : 0 ≤ m) : stream F (s :: ss) (m + F) = stream F ss m := by
  unfold stream
  have h1 : (m + F) / F = m / F + 1 := by
    rw [Int.add_ediv_of_dvd_right (dvd_refl F), Int.ediv_self (by omega)]
  have h2 : (m + F) % F = m % F := by simp
  have h3 : 0 ≤ m / F := Int.ediv_nonneg h0 (by omega)
  have h4 : (m / F + 1).toNat = (m / F).toNat + 1 := by omega
  rw [h1, h2, h4]
  rfl

theorem addtohistory_good (E : Env) (lc : LowcFE) (s : Arr short) (he : lc.erasecnt = 0) :
    ∃ r, g711plc_addtohistory E lc s = some r ∧ r.1.erasecnt = 0 ∧
      r.1.historylen = lc.historylen ∧ r.1.framesz = lc.framesz ∧
      r.1.poverlapmax = lc.poverlapmax ∧
      r.1.history = (g711plc_savespeech lc s).1.history ∧
      r.2 = (g711plc_savespeech lc s).2 := by
  unfold g711plc_addtohistory
  rw [if_neg (by simp [he])]
  cases hc : E.COMFORT_NOISE
  · exact ⟨g711plc_savespeech lc s, by simp, he, rfl, rfl, rfl, rfl, rfl⟩
  · exact ⟨g711plc_savespeech { lc with cng := { lc.cng with
      lpc_coeff := lpc_analysis s lc.framesz lc.cng.lpc_coeff } } s, by simp,
      he, rfl, rfl, rfl, rfl, rfl⟩

theorem run_good (E : Env) (ss : List (Arr short)) :
    ∀ lc : LowcFE, lc.erasecnt = 0 → 0 < lc.framesz → 0 ≤ lc.poverlapmax →
      lc.framesz + lc.poverlapmax ≤ lc.historylen →
      ∃ r, plc_run E lc (ss.map Frame.good) = some r ∧ r.2.length = ss.length ∧
        ∀ (k : Nat) (i : Int), k < ss.length → 0 ≤ i → i < lc.framesz →
          (r.2.getD k (Arr.const 0)).get i
            = history_then lc ss (k * lc.framesz + i - lc.poverlapmax) := by
  induction ss with
  | nil =>
    intro lc _ _ _ _
    exact ⟨(lc, []), rfl, rfl, fun k i hk => by simp at hk⟩
  | cons s ss ih =>
    intro lc he hF hP hL
    obtain ⟨r1, h1, he1, hl1, hf1, hp1, hh1, ho1⟩ := addtohistory_good E lc s he
    obtain ⟨r2, h2, hlen2, hout2⟩ := ih r1.1 he1 (by omega) (by omega) (by omega)
    refine ⟨(r2.1, r1.2 :: r2.2), ?_, ?_, ?_⟩
    · simp [plc_run, plc_frame, h1, h2]
    · simp [hlen2]
    · -- the signal seen from the next state is the same signal, one frame later
      have hshift : ∀ m : Int, -lc.historylen ≤ m →
          history_then r1.1 ss m = history_then lc (s :: ss) (m + lc.framesz) := by
        intro m hm
        unfold history_then
        rw [hl1, hf1, hh1]
        by_cases hm0 : m < 0
        · rw [if_pos hm0, savespeech_history_get lc s (by omega)]
          by_cases hm1 : m < -lc.framesz
          · rw [if_pos (by omega), if_pos (by omega)]
            congr 1; omega
          · rw [if_neg (by omega), if_pos (by omega), if_neg (by omega),
              stream_cons_lt _ _ _ _ (by omega) (by omega)]
            congr 1; omega
        · rw [if_neg hm0, if_neg (by omega), stream_cons_ge _ _ _ _ hF (by omega)]
      intro k i hk hi0 hi1
      cases k with
      | zero =>
        simp only [List.getD_cons_zero, ho1, Nat.cast_zero, zero_mul, zero_add]
        rw [savespeech_out_get, if_pos ⟨hi0, hi1⟩, ← hh1]
        have := hshift (-lc.framesz - lc.poverlapmax + i) (by omega)
        unfold history_then at this
        rw [if_pos (by omega), hl1] at this
        rw [show lc.historylen - lc.framesz - lc.poverlapmax + i
          = lc.historylen + (-lc.framesz - lc.poverlapmax + i) by omega, this]
        unfold history_then
        congr 2 <;> omega
      | succ k =>
        simp only [List.getD_cons_succ]
        rw [hout2 k i (by simpa using hk) hi0 (by omega), hf1, hp1, hshift _ (by
          have : (0 : Int) ≤ k * lc.framesz := by positivity
          omega)]
        congr 1; push_cast; ring

theorem run_good_delayed (E : Env) (ss : List (Arr short)) (lc : LowcFE)
    (he : lc.erasecnt = 0) (hF : 0 < lc.framesz) (hP : 0 ≤ lc.poverlapmax)
    (hL : lc.framesz + lc.poverlapmax ≤ lc.historylen)
    (hz : ∀ j, 0 ≤ j → j < lc.historylen → lc.history.get j = 0) :
    ∃ r, plc_run E lc (ss.map Frame.good) = some r ∧ r.2.length = ss.length ∧
      ∀ (k : Nat) (i : Int), k < ss.length → 0 ≤ i → i < lc.framesz →
        (r.2.getD k (Arr.const 0)).get i
          = delayed lc.framesz lc.poverlapmax ss (k * lc.framesz + i) := by
  obtain ⟨r, h1, h2, h3⟩ := run_good E ss lc he hF hP hL
  refine ⟨r, h1, h2, fun k i hk hi0 hi1 => ?_⟩
  rw [h3 k i hk hi0 hi1]
  unfold history_then delayed
  have hk0 : (0 : Int) ≤ k * lc.framesz := by positivity
  by_cases hn : (k : Int) * lc.framesz + i < lc.poverlapmax
  · rw [if_pos (by omega), if_pos hn]
    exact hz _ (by omega) (by omega)
  · rw [if_neg (by omega), if_neg hn]

/-- Claim C1 (L1).  For either variant and in every build, a freshly constructed
state that is passed good frames only (`g711plc_addtohistory`, no call of
`g711plc_dofe`) hands back the input delayed by `poverlapmax` samples: sample
`n` of the output is `0` for `n < poverlapmax` and sample `n - poverlapmax` of
the input otherwise. -/
theorem identity_delay (E : Env) (lc0 : LowcFE) (ss : List (Arr short)) :
    (∃ lc r, cvsd_g711plc_construct E lc0 = some lc ∧
      plc_run E lc (ss.map Frame.good) = some r ∧ r.2.length = ss.length ∧
      ∀ (k : Nat) (i : Int), k < ss.length → 0 ≤ i → i < lc.framesz →
        (r.2.getD k (Arr.const 0)).get i
          = delayed lc.framesz lc.poverlapmax ss (k * lc.framesz + i)) ∧
    (∃ lc r, msbc_g711plc_construct E lc0 = some lc ∧
      plc_run E lc (ss.map Frame.good) = some r ∧ r.2.length = ss.length ∧
      ∀ (k : Nat) (i : Int), k < ss.length → 0 ≤ i → i < lc.framesz →
        (r.2.getD k (Arr.const 0)).get i
          = delayed lc.framesz lc.poverlapmax ss (k * lc.framesz + i)) := by
  constructor
  · obtain ⟨lc, h, h1, h2, h3, h4, h5, h6, h7, h8, h9, h10, h11, h12, h13, h14, h15, h16, h17⟩ :=
      cvsd_construct_fields E lc0
    obtain ⟨r, hr⟩ := run_good_delayed E ss lc h15 (by omega) (by omega) (by omega)
      (fun j hj0 hj1 => h17 j hj0 (by omega))
    exact ⟨lc, r, h, hr⟩
  · obtain ⟨lc, h, h1, h2, h3, h4, h5, h6, h7, h8, h9, h10, h11, h12, h13, h14, h15, h16, h17⟩ :=
      msbc_construct_fields E lc0
    obtain ⟨r, hr⟩ := run_good_delayed E ss lc h15 (by omega) (by omega) (by omega)
      (fun j hj0 hj1 => h17 j hj0 (by omega))
    exact ⟨lc, r, h, hr⟩

/-! ## The periodic draw -/

theorem getfespeech_loop_spec :
    ∀ (fuel : Nat) (lc : LowcFE) (out : Arr short) (oi sz : Int),
      0 ≤ sz → sz ≤ fuel → 0 ≤ lc.poffset → lc.poffset < lc.pitchblen →
      (∀ j, 0 ≤ j → j < lc.pitchblen →
        inRange (lc.pitchbuf.get (lc.pitchbufstart + j))) →
      ∃ out', g711plc_getfespeech_loop fuel lc out oi sz
          = some ({ lc with poffset := (lc.poffset + sz) % lc.pitchblen }, out') ∧
        ∀ j, out'.get j = if oi ≤ j ∧ j < oi + sz then
            trunc (lc.pitchbuf.get (lc.pitchbufstart + (lc.poffset + (j - oi)) % lc.pitchblen))
          else out.get j := by
  intro fuel
  induction fuel with
  | zero =>
    intro lc out oi sz h0 hf hp0 hp1 _
    have hsz : sz = 0 := by simpa using le_antisymm hf h0
    subst hsz
    refine ⟨out, ?_, fun j => by rw [if_neg (by omega)]⟩
    simp only [g711plc_getfespeech_loop, ne_eq, not_true_eq_false, if_false, add_zero]
    rw [Int.emod_eq_of_lt hp0 hp1]
  | succ f ih =>
    intro lc out oi sz h0 hf hp0 hp1 hr
    by_cases hsz : sz = 0
    · subst hsz
      refine ⟨out, ?_, fun j => by rw [if_neg (by omega)]⟩
      simp only [g711plc_getfespeech_loop, ne_eq, not_true_eq_false, if_false, add_zero]
      rw [Int.emod_eq_of_lt hp0 hp1]
    · -- one pass: `cnt` samples are drawn, then the rest
      obtain ⟨cnt, hcnt⟩ : ∃ cnt, cnt = (if lc.pitchblen - lc.poffset > sz then sz
          else lc.pitchblen - lc.poffset) := ⟨_, rfl⟩
      have hc1 : 1 ≤ cnt := by rw [hcnt]; split <;> omega
      have hc2 : cnt ≤ sz := by rw [hcnt]; split <;> omega
      have hc3 : lc.poffset + cnt ≤ lc.pitchblen := by rw [hcnt]; split <;> omega
      obtain ⟨out1, ho1, hv1⟩ := g711plc_convertfs_spec lc.pitchbuf
        (lc.pitchbufstart + lc.poffset) out oi cnt
        (fun i hi0 hi1 => by
          have := hr (lc.poffset + i) (by omega) (by omega)
          rwa [← add_assoc] at this)
      obtain ⟨p1, hp1def⟩ : ∃ p1, p1 = (if lc.poffset + cnt = lc.pitchblen then 0
          else lc.poffset + cnt) := ⟨_, rfl⟩
      have hp1a : 0 ≤ p1 := by rw [hp1def]; split <;> omega
      have hp1b : p1 < lc.pitchblen := by rw [hp1def]; split <;> omega
      have hmod : ∀ x : Int, (p1 + x) % lc.pitchblen = (lc.poffset + cnt + x) % lc.pitchblen := by
        intro x
        rw [hp1def]
        split
        · rename_i he
          rw [he, zero_add, Int.add_emod_self_left]
        · rfl
      obtain ⟨out2, ho2, hv2⟩ := ih { lc with poffset := p1 } out1 (oi + cnt) (sz - cnt)
        (by omega) (by push_cast at hf; omega) hp1a hp1b hr
      refine ⟨out2, ?_, ?_⟩
      · rw [g711plc_getfespeech_loop, if_pos hsz]
        simp only [← hcnt, ho1, Option.some_bind]
        have e1 : (if lc.poffset + cnt = lc.pitchblen then
            { lc with poffset := 0 } else { lc with poffset := lc.poffset + cnt })
            = { lc with poffset := p1 } := by
          rw [hp1def]; split <;> rfl
        simp only [e1, ho2]
        have := hmod (sz - cnt)
        simp only [] at this ⊢
        rw [this, show lc.poffset + cnt + (sz - cnt) = lc.poffset + sz by omega]
      · intro j
        rw [hv2, hv1]
        by_cases hj1 : oi + cnt ≤ j ∧ j < oi + cnt + (sz - cnt)
        · rw [if_pos hj1, if_pos (by omega)]
          simp only []
          rw [hmod]
          congr 4; omega
        · rw [if_neg hj1]
          by_cases hj2 : oi ≤ j ∧ j < oi + cnt
          · rw [if_pos hj2, if_pos (by omega),
              Int.emod_eq_of_lt (by omega) (by omega)]
            congr 2; omega
          · rw [if_neg hj2, if_neg (by omega)]

theorem getfespeech_spec (lc : LowcFE) (out : Arr short) (sz : Int) (h0 : 0 ≤ sz)
    (hp0 : 0 ≤ lc.poffset) (hp1 : lc.poffset < lc.pitchblen)
    (hr : ∀ j, 0 ≤ j → j < lc.pitchblen →
      inRange (lc.pitchbuf.get (lc.pitchbufstart + j))) :
    ∃ out', g711plc_getfespeech lc out sz
        = some ({ lc with poffset := (lc.poffset + sz) % lc.pitchblen }, out') ∧
      ∀ j, out'.get j = if 0 ≤ j ∧ j < sz then
          trunc (lc.pitchbuf.get (lc.pitchbufstart + (lc.poffset + j) % lc.pitchblen))
        else out.get j := by
  obtain ⟨out', h1, h2⟩ := getfespeech_loop_spec sz.toNat lc out 0 sz h0 (by omega) hp0 hp1 hr
  refine ⟨out', h1, fun j => ?_⟩
  rw [h2]
  simp only [zero_add, sub_zero]

/-! ## Overlap add -/

theorem overlapadd_get (l : Arr Float) (lo ro : Int) (o : Arr Float) (oo cnt : Int)
    (hsep : ro + cnt ≤ oo) (j : Int) :
    (g711plc_overlapadd l lo Src.dst ro o oo cnt).get j =
      if oo ≤ j ∧ j < oo + cnt then
        clamp16 ((1 - ((j - oo + 1 : Int) : Float) / (cnt : Float)) * l.get (lo + (j - oo))
          + ((j - oo + 1 : Int) : Float) / (cnt : Float) * o.get (ro + (j - oo)))
      else o.get j := by
  unfold g711plc_overlapadd
  by_cases hc : cnt = 0
  · rw [if_pos hc, if_neg (by omega)]
  · rw [if_neg hc]
    simp only [Src.get_dst]
    have key := forLoop_inv
      (fun (i : Int) (st : Ola Float) =>
        ({ o := st.o.set (oo + i) (clamp16 (st.lw * l.get (lo + i) + st.rw * st.o.get (ro + i))),
           lw := st.lw - 1 / (cnt : Float), rw := st.rw + 1 / (cnt : Float) } : Ola Float))
      (fun k st => st.lw = 1 - ((k : Int) + 1 : Int) / (cnt : Float) ∧
        st.rw = ((k : Int) + 1 : Int) / (cnt : Float) ∧
        ∀ j, st.o.get j = if oo ≤ j ∧ j < oo + k then
          clamp16 ((1 - ((j - oo + 1 : Int) : Float) / (cnt : Float)) * l.get (lo + (j - oo))
            + ((j - oo + 1 : Int) : Float) / (cnt : Float) * o.get (ro + (j - oo)))
          else o.get j)
      cnt.toNat { o := o, lw := 1 - 1 / (cnt : Float), rw := 1 / (cnt : Float) }
      ⟨by simp, by simp, fun j => by rw [if_neg]; push_cast; omega⟩
      (fun k st hk ⟨h1, h2, h3⟩ => by
        refine ⟨?_, ?_, ?_⟩
        · simp only [h1]; push_cast; ring
        · simp only [h2]; push_cast; ring
        · intro j
          simp only [Arr.get_set]
          by_cases hj : j = oo + k
          · subst hj
            rw [if_pos rfl, if_pos (by push_cast; omega), h1, h2, h3, if_neg (by omega)]
            congr 3
            · congr 2; push_cast; ring
            · congr 1; omega
            · congr 1; push_cast; ring
            · congr 1; omega
          · rw [if_neg hj, h3]
            by_cases hj2 : oo ≤ j ∧ j < oo + k
            · rw [if_pos hj2, if_pos (by push_cast; omega)]
            · rw [if_neg hj2, if_neg (by push_cast; omega)])
    rw [key.2.2 j]
    by_cases hj : oo ≤ j ∧ j < oo + cnt
    · rw [if_pos hj, if_pos (by omega)]
    · rw [if_neg hj, if_neg (by omega)]

theorem overlapadds_spec (l : Arr short) (o : Arr short) (cnt : Int) :
    ∃ o', g711plc_overlapadds l 0 Src.dst 0 o 0 cnt = some o' ∧
      ∀ j, o'.get j = if 0 ≤ j ∧ j < cnt then
        trunc (clamp16 ((1 - ((j + 1 : Int) : Float) / (cnt : Float)) * (l.get j : Float)
          + ((j + 1 : Int) : Float) / (cnt : Float) * (o.get j : Float)))
      else o.get j := by
  unfold g711plc_overlapadds
  by_cases hc : cnt = 0
  · rw [if_pos hc]
    exact ⟨o, rfl, fun j => by rw [if_neg (by omega)]⟩
  · rw [if_neg hc]
    simp only [Src.get_dst, zero_add]
    obtain ⟨st, hst, h1, h2, h3⟩ := forLoopM_inv
      (fun (i : Int) (st : Ola short) =>
        (toShort (clamp16 (st.lw * (l.get i : Float) + st.rw * (st.o.get i : Float)))).bind
          (fun v => some ({ o := st.o.set i v, lw := st.lw - 1 / (cnt : Float),
                            rw := st.rw + 1 / (cnt : Float) } : Ola short)))
      (fun k st => st.lw = 1 - ((k : Int) + 1 : Int) / (cnt : Float) ∧
        st.rw = ((k : Int) + 1 : Int) / (cnt : Float) ∧
        ∀ j, st.o.get j = if 0 ≤ j ∧ j < k then
          trunc (clamp16 ((1 - ((j + 1 : Int) : Float) / (cnt : Float)) * (l.get j : Float)
            + ((j + 1 : Int) : Float) / (cnt : Float) * (o.get j : Float)))
          else o.get j)
      cnt.toNat { o := o, lw := 1 - 1 / (cnt : Float), rw := 1 / (cnt : Float) }
      ⟨by simp, by simp, fun j => by rw [if_neg]; push_cast; omega⟩
      (fun k st hk ⟨h1, h2, h3⟩ => by
        refine ⟨Ola.mk (st.o.set k (trunc (clamp16 (st.lw * (l.get k : Float)
            + st.rw * (st.o.get k : Float))))) (st.lw - 1 / (cnt : Float))
            (st.rw + 1 / (cnt : Float)), ?_, ?_, ?_, ?_⟩
        · show (toShort _).bind _ = _
          rw [toShort_of_inRange _ (inRange_clamp16 _)]; rfl
        · simp only [h1]; push_cast; ring
        · simp only [h2]; push_cast; ring
        · intro j
          simp only [Arr.get_set]
          by_cases hj : j = k
          · subst hj
            rw [if_pos rfl, if_pos (by push_cast; omega), h1, h2, h3, if_neg (by omega)]
          · rw [if_neg hj, h3]
            by_cases hj2 : 0 ≤ j ∧ j < k
            · rw [if_pos hj2, if_pos (by push_cast; omega)]
            · rw [if_neg hj2, if_neg (by push_cast; omega)])
    refine ⟨st.o, by rw [hst]; rfl, fun j => ?_⟩
    rw [h3 j]
    by_cases hj : 0 ≤ j ∧ j < cnt
    · rw [if_pos hj, if_pos (by omega)]
    · rw [if_neg hj, if_neg (by omega)]

/-! ## Attenuation and the overlap add at the end of an erasure -/

theorem scalespeech_spec (lc : LowcFE) (out : Arr short)
    (hr : ∀ i, 0 ≤ i → i < lc.framesz → inRange ((out.get i : Float) * scale_gain lc i)) :
    ∃ out', g711plc_scalespeech lc out = some out' ∧
      ∀ j, out'.get j = if 0 ≤ j ∧ j < lc.framesz then
        trunc ((out.get j : Float) * scale_gain lc j) else out.get j := by
  unfold g711plc_scalespeech
  obtain ⟨st, hst, h1, h2⟩ := forLoopM_inv
    (fun (i : Int) (st : Arr short × Float) =>
      (toShort ((st.1.get i : Float) * st.2)).bind
        (fun v => some (st.1.set i v, st.2 - lc.attenincr)))
    (fun k st => st.2 = scale_gain lc k ∧
      ∀ j, st.1.get j = if 0 ≤ j ∧ j < k then
        trunc ((out.get j : Float) * scale_gain lc j) else out.get j)
    lc.framesz.toNat (out, 1 - ((lc.erasecnt - 1 : Int) : Float) * lc.attenfac)
    ⟨by simp [scale_gain], fun j => by rw [if_neg]; push_cast; omega⟩
    (fun k st hk ⟨h1, h2⟩ => by
      have hin : inRange ((st.1.get k : Float) * st.2) := by
        rw [h1, h2, if_neg (by omega)]
        exact hr k (by omega) (by omega)
      refine ⟨(st.1.set k (trunc ((st.1.get k : Float) * st.2)), st.2 - lc.attenincr),
        ?_, ?_, ?_⟩
      · show (toShort _).bind _ = _
        rw [toShort_of_inRange _ hin]; rfl
      · simp only [h1, scale_gain]; push_cast; ring
      · intro j
        simp only [Arr.get_set]
        by_cases hj : j = k
        · subst hj
          rw [if_pos rfl, if_pos (by push_cast; omega), h1, h2, if_neg (by omega)]
        · rw [if_neg hj, h2]
          by_cases hj2 : 0 ≤ j ∧ j < k
          · rw [if_pos hj2, if_pos (by push_cast; omega)]
          · rw [if_neg hj2, if_neg (by push_cast; omega)])
  refine ⟨st.1, by simp only []; rw [hst]; rfl, fun j => ?_⟩
  rw [h2 j]
  by_cases hj : 0 ≤ j ∧ j < lc.framesz
  · rw [if_pos hj, if_pos (by omega)]
  · rw [if_neg hj, if_neg (by omega)]

theorem overlapaddatend_spec (lc : LowcFE) (s f : Arr short) (cnt : Int) (hs : 0 ≤ lc.sbcrt)
    (hr : ∀ i, 0 ≤ i → i < lc.sbcrt → inRange (end_gain lc * (f.get i : Float))) :
    ∃ s', g711plc_overlapaddatend lc s f cnt = some s' ∧
      ∀ j, s'.get j =
        if 0 ≤ j ∧ j < lc.sbcrt then trunc (end_gain lc * (f.get j : Float))
        else if lc.sbcrt ≤ j ∧ j < cnt then
          trunc (clamp16 (end_lw lc cnt j * (f.get j : Float)
            + end_rw lc cnt j * (s.get j : Float)))
        else s.get j := by
  unfold g711plc_overlapaddatend
  simp only []
  obtain ⟨s1, hs1, hv1⟩ := forLoopM_set_spec (fun i => end_gain lc * (f.get i : Float)) 0
    lc.sbcrt.toNat s (fun i h0 h1 => hr i h0 (by omega))
  simp only [zero_add, sub_zero] at hs1 hv1
  have hg : (if 1 - ((lc.erasecnt - 1 : Int) : Float) * lc.attenfac < 0 then (0 : Float)
      else 1 - ((lc.erasecnt - 1 : Int) : Float) * lc.attenfac) = end_gain lc := rfl
  rw [hg, hs1]
  simp only [Option.some_bind]
  obtain ⟨st, hst, h1, h2, h3⟩ := forLoopM_inv
    (fun (ii : Int) (st : Ola short) =>
      (toShort (clamp16 (st.lw * (f.get (lc.sbcrt + ii) : Float)
          + st.rw * (st.o.get (lc.sbcrt + ii) : Float)))).bind
        (fun v => some (Ola.mk (st.o.set (lc.sbcrt + ii) v)
          (st.lw - 1 / ((cnt - lc.sbcrt : Int) : Float) * end_gain lc)
          (st.rw + 1 / ((cnt - lc.sbcrt : Int) : Float)))))
    (fun k st => st.lw = end_lw lc cnt (lc.sbcrt + k) ∧ st.rw = end_rw lc cnt (lc.sbcrt + k) ∧
      ∀ j, st.o.get j =
        if lc.sbcrt ≤ j ∧ j < lc.sbcrt + k then
          trunc (clamp16 (end_lw lc cnt j * (f.get j : Float)
            + end_rw lc cnt j * (s.get j : Float)))
        else s1.get j)
    (cnt - lc.sbcrt).toNat
    (Ola.mk s1 ((1 - 1 / ((cnt - lc.sbcrt : Int) : Float)) * end_gain lc)
      (1 / ((cnt - lc.sbcrt : Int) : Float)))
    ⟨by simp [end_lw, end_rw], by simp [end_rw], fun j => by rw [if_neg]; push_cast; omega⟩
    (fun k st hk ⟨h1, h2, h3⟩ => by
      refine ⟨Ola.mk (st.o.set (lc.sbcrt + k) (trunc (clamp16
          (st.lw * (f.get (lc.sbcrt + k) : Float)
            + st.rw * (st.o.get (lc.sbcrt + k) : Float)))))
          (st.lw - 1 / ((cnt - lc.sbcrt : Int) : Float) * end_gain lc)
          (st.rw + 1 / ((cnt - lc.sbcrt : Int) : Float)), ?_, ?_, ?_, ?_⟩
      · show (toShort _).bind _ = _
        rw [toShort_of_inRange _ (inRange_clamp16 _)]; rfl
      · simp only [h1, end_lw, end_rw]; push_cast; ring
      · simp only [h2, end_rw]; push_cast; ring
      · intro j
        simp only [Arr.get_set]
        by_cases hj : j = lc.sbcrt + k
        · subst hj
          rw [if_pos rfl, if_pos (by push_cast; omega), h1, h2, h3, if_neg (by omega),
            hv1, if_neg (by omega)]
        · rw [if_neg hj, h3]
          by_cases hj2 : lc.sbcrt ≤ j ∧ j < lc.sbcrt + k
          · rw [if_pos hj2, if_pos (by push_cast; omega)]
          · rw [if_neg hj2, if_neg (by push_cast; omega)])
  refine ⟨st.o, by rw [hst]; rfl, fun j => ?_⟩
  rw [h3 j, hv1]
  by_cases hj : lc.sbcrt ≤ j ∧ j < cnt
  · rw [if_pos (by omega), if_neg (by omega), if_pos hj]
  · rw [if_neg (by omega), if_neg hj]
    by_cases hj2 : 0 ≤ j ∧ j < lc.sbcrt
    · rw [if_pos (by omega), if_pos hj2]
    · rw [if_neg (by omega), if_neg hj2]

/-! ## The pitch search -/

theorem corr_sum_some (lc : LowcFE) (rp l step : Int) (hs : 1 ≤ step) :
    ∃ c, corr_sum lc rp l step = some c := by
  unfold corr_sum
  obtain ⟨c, _, h, _⟩ := strideLoop_inv
    (fun i corr => some (corr + lc.pitchbuf.get (rp + i) * lc.pitchbuf.get (l + i)))
    step lc.corrlen (fun _ _ => True) hs (fun i s _ _ => ⟨_, rfl, trivial⟩)
    lc.corrlen.toNat 0 0 (by omega) trivial
  exact ⟨c, h⟩

theorem energy_corr_sum_some (lc : LowcFE) (rp l step : Int) (hs : 1 ≤ step) :
    ∃ ec, energy_corr_sum lc rp l step = some ec := by
  unfold energy_corr_sum
  obtain ⟨c, _, h, _⟩ := strideLoop_inv
    (fun i (ec : Float × Float) =>
      some (ec.1 + lc.pitchbuf.get (rp + i) * lc.pitchbuf.get (rp + i),
            ec.2 + lc.pitchbuf.get (rp + i) * lc.pitchbuf.get (l + i)))
    step lc.corrlen (fun _ _ => True) hs (fun i s _ _ => ⟨_, rfl, trivial⟩)
    lc.corrlen.toNat 0 (0, 0) (by omega) trivial
  exact ⟨c, h⟩

theorem search_step_some (E : Env) (lc : LowcFE) (l step istep : Int) (ge : Bool) (j : Int)
    (st : Search) (hs : 1 ≤ istep) :
    ∃ st', search_step E lc l step istep ge j st = some st' ∧
      (st'.bestmatch = j ∨ st'.bestmatch = st.bestmatch) := by
  unfold search_step
  obtain ⟨c, hc⟩ := corr_sum_some lc (st.rp + step) l istep hs
  simp only [hc, Option.some_bind]
  split_ifs <;> first | exact ⟨_, rfl, Or.inl rfl⟩ | exact ⟨_, rfl, Or.inr rfl⟩

/-- The lag that `g711plc_findpitch` settles on lies in the search range, whatever
the buffer holds and whatever the comparisons of the scores give. -/
theorem findpitch_spec (E : Env) (lc : LowcFE) (hn : 1 ≤ lc.ndec) (hd : 0 ≤ lc.pitchdiff) :
    ∃ bestmatch, 0 ≤ bestmatch ∧ bestmatch ≤ lc.pitchdiff ∧
      g711plc_findpitch E lc = some (lc.pitch_max - bestmatch) := by
  unfold g711plc_findpitch
  simp only []
  obtain ⟨ec, hec⟩ := energy_corr_sum_some lc (lc.pitchbufend - lc.corrbuflen)
    (lc.pitchbufend - lc.corrlen) lc.ndec hn
  rw [hec]
  simp only [Option.some_bind]
  obtain ⟨st, i1, hst, ⟨_, hb0, hb1⟩, _⟩ := strideLoop_inv
    (search_step E lc (lc.pitchbufend - lc.corrlen) lc.ndec lc.ndec true) lc.ndec
    (lc.pitchdiff + 1)
    (fun i st => 0 ≤ i ∧ 0 ≤ st.bestmatch ∧ st.bestmatch ≤ lc.pitchdiff) hn
    (fun i s hi ⟨h0, h1, h2⟩ => by
      obtain ⟨s', hs', hm⟩ := search_step_some E lc (lc.pitchbufend - lc.corrlen) lc.ndec
        lc.ndec true i s hn
      refine ⟨s', hs', by omega, ?_⟩
      rcases hm with hm | hm <;> rw [hm] <;> omega)
    (lc.pitchdiff + 1).toNat lc.ndec
    { energy := ec.1, rp := lc.pitchbufend - lc.corrbuflen,
      bestcorr := scaled E lc ec.1 ec.2, bestmatch := 0 }
    (by omega) ⟨by omega, le_refl _, hd⟩
  rw [hst]
  simp only [Option.some_bind]
  obtain ⟨j, hj⟩ : ∃ j, j = (if st.bestmatch - (lc.ndec - 1) < 0 then 0
      else st.bestmatch - (lc.ndec - 1)) := ⟨_, rfl⟩
  obtain ⟨k, hk⟩ : ∃ k, k = (if st.bestmatch + (lc.ndec - 1) > lc.pitchdiff then lc.pitchdiff
      else st.bestmatch + (lc.ndec - 1)) := ⟨_, rfl⟩
  have hj0 : 0 ≤ j := by rw [hj]; split <;> omega
  have hj1 : j ≤ lc.pitchdiff := by rw [hj]; split <;> omega
  have hk1 : k ≤ lc.pitchdiff := by rw [hk]; split <;> omega
  rw [← hj, ← hk]
  obtain ⟨ec2, hec2⟩ := energy_corr_sum_some lc (lc.pitchbufend - lc.corrbuflen + j)
    (lc.pitchbufend - lc.corrlen) 1 (le_refl _)
  rw [hec2]
  simp only [Option.some_bind]
  obtain ⟨st2, i2, hst2, ⟨_, hc0, hc1⟩, _⟩ := strideLoop_inv
    (search_step E lc (lc.pitchbufend - lc.corrlen) 1 1 false) 1 (k + 1)
    (fun i st => 0 ≤ i ∧ 0 ≤ st.bestmatch ∧ st.bestmatch ≤ lc.pitchdiff) (le_refl _)
    (fun i s hi ⟨h0, h1, h2⟩ => by
      obtain ⟨s', hs', hm⟩ := search_step_some E lc (lc.pitchbufend - lc.corrlen) 1 1 false
        i s (le_refl _)
      refine ⟨s', hs', by omega, ?_⟩
      rcases hm with hm | hm <;> rw [hm] <;> omega)
    (k + 1).toNat (j + 1)
    { energy := ec2.1, rp := lc.pitchbufend - lc.corrbuflen + j,
      bestcorr := scaled E lc ec2.1 ec2.2, bestmatch := j }
    (by omega) ⟨by omega, hj0, hj1⟩
  rw [hst2]
  exact ⟨st2.bestmatch, hc0, hc1, rfl⟩

theorem update_candidates_index (candidates : Arr PitchCandidate) (nccf : Float) (j d : Int)
    (hj : 0 ≤ j ∧ j ≤ d) (h : ∀ i, 0 ≤ (candidates.get i).index ∧ (candidates.get i).index ≤ d)
    (i : Int) :
    0 ≤ ((update_candidates candidates nccf j).get i).index ∧
      ((update_candidates candidates nccf j).get i).index ≤ d := by
  unfold update_candidates
  split_ifs <;> (try simp only [Arr.get_set]) <;>
    first
    | exact h _
    | (split_ifs <;> first | exact hj | exact h _)

theorem continuity_check_range (lc : LowcFE) (candidates : Arr PitchCandidate)
    (threshold : Float) (final_pitch : Int)
    (h : ∀ i, 0 ≤ (candidates.get i).index ∧ (candidates.get i).index ≤ lc.pitchdiff)
    (hf : lc.pitch_max - lc.pitchdiff ≤ final_pitch ∧ final_pitch ≤ lc.pitch_max) :
    lc.pitch_max - lc.pitchdiff ≤ continuity_check lc candidates threshold final_pitch ∧
      continuity_check lc candidates threshold final_pitch ≤ lc.pitch_max := by
  unfold continuity_check
  refine forLoop_inv _ (fun _ (st : Int × Bool) =>
    lc.pitch_max - lc.pitchdiff ≤ st.1 ∧ st.1 ≤ lc.pitch_max) 3 (final_pitch, false) hf ?_
  intro k st _ hst
  simp only []
  split_ifs
  · exact hst
  · have := h k
    constructor <;> simp only [] <;> omega
  · exact hst

/-- The pitch that `enhanced_findpitch` returns lies in the search range, and the
call changes `last_pitch` only. -/
theorem enhanced_findpitch_spec (E : Env) (lc : LowcFE) (hn : 1 ≤ lc.ndec)
    (hd : 0 ≤ lc.pitchdiff) :
    ∃ p, lc.pitch_max - lc.pitchdiff ≤ p ∧ p ≤ lc.pitch_max ∧
      enhanced_findpitch E lc = some ({ lc with last_pitch := p }, p) := by
  unfold enhanced_findpitch
  simp only []
  obtain ⟨cands, i1, hc, hcr, _⟩ := strideLoop_inv
    (fun j candidates => some (update_candidates candidates
      (nccf_at lc (lc.pitchbufend - lc.corrlen) (lc.pitchbufend - lc.corrbuflen) j) j))
    lc.ndec (lc.pitchdiff + 1)
    (fun i (c : Arr PitchCandidate) => 0 ≤ i ∧
      ∀ x, 0 ≤ (c.get x).index ∧ (c.get x).index ≤ lc.pitchdiff) hn
    (fun i s hi ⟨h0, h1⟩ => ⟨_, rfl, by omega,
      fun x => update_candidates_index s _ i lc.pitchdiff ⟨h0, by omega⟩ h1 x⟩)
    (lc.pitchdiff + 1).toNat 0 (Arr.const { corr := -1000000000, index := 0 })
    (by omega) ⟨le_refl _, fun x => ⟨le_refl _, hd⟩⟩
  rw [hc]
  simp only [Option.some_bind]
  have hcr := hcr.2
  have h0 := hcr 0
  obtain ⟨ss, hss⟩ : ∃ ss, ss = (if (cands.get 0).index - (lc.ndec - 1) < 0 then 0
      else (cands.get 0).index - (lc.ndec - 1)) := ⟨_, rfl⟩
  obtain ⟨se, hse⟩ : ∃ se, se = (if (cands.get 0).index + (lc.ndec - 1) > lc.pitchdiff
      then lc.pitchdiff else (cands.get 0).index + (lc.ndec - 1)) := ⟨_, rfl⟩
  have hss0 : 0 ≤ ss := by rw [hss]; split <;> omega
  have hse1 : se ≤ lc.pitchdiff := by rw [hse]; split <;> omega
  rw [← hss, ← hse]
  have hbest := forLoop_inv
    (fun (ji : Int) (best : Float × Int) =>
      if nccf_at lc (lc.pitchbufend - lc.corrlen) (lc.pitchbufend - lc.corrbuflen) (ss + ji)
          > best.1 then
        (nccf_at lc (lc.pitchbufend - lc.corrlen) (lc.pitchbufend - lc.corrbuflen) (ss + ji),
          ss + ji)
      else best)
    (fun _ (best : Float × Int) => 0 ≤ best.2 ∧ best.2 ≤ lc.pitchdiff)
    (se - ss + 1).toNat ((cands.get 0).corr, (cands.get 0).index) h0
    (fun k best hk hb => by
      simp only []
      split_ifs
      · constructor <;> simp only [] <;> omega
      · exact hb)
  simp only [] at hbest
  obtain ⟨best, hbd, hb0, hb1⟩ : ∃ b : Float × Int, b = forLoop
    (fun (ji : Int) (best : Float × Int) =>
      if nccf_at lc (lc.pitchbufend - lc.corrlen) (lc.pitchbufend - lc.corrbuflen) (ss + ji)
          > best.1 then
        (nccf_at lc (lc.pitchbufend - lc.corrlen) (lc.pitchbufend - lc.corrbuflen) (ss + ji),
          ss + ji)
      else best) (se - ss + 1).toNat ((cands.get 0).corr, (cands.get 0).index)
      ∧ 0 ≤ b.2 ∧ b.2 ≤ lc.pitchdiff := ⟨_, rfl, hbest⟩
  rw [← hbd]
  have hr1 := continuity_check_range lc cands (5 / 100) (lc.pitch_max - best.2) hcr
    ⟨by omega, by omega⟩
  have hr2 := continuity_check_range lc cands
    (if |10 * E.log10f (lc.corrminpower + 1 / 1000000) - lc.prev_energy| > 10 then 15 / 100
      else 5 / 100) _ hcr hr1
  exact ⟨_, hr2.1, hr2.2, rfl⟩

/-! ## The invariant: parameters and closed sets of samples -/

theorem consts_eq (a b : LowcFE) (h : consts a = consts b) :
    a.pitch_min = b.pitch_min ∧ a.pitch_max = b.pitch_max ∧ a.pitchdiff = b.pitchdiff ∧
    a.poverlapmax = b.poverlapmax ∧ a.historylen = b.historylen ∧ a.ndec = b.ndec ∧
    a.corrlen = b.corrlen ∧ a.corrbuflen = b.corrbuflen ∧ a.corrminpower = b.corrminpower ∧
    a.eoverlapincr = b.eoverlapincr ∧ a.framesz = b.framesz ∧ a.attenfac = b.attenfac ∧
    a.attenincr = b.attenincr ∧ a.sbcrt = b.sbcrt ∧ a.pitchbufend = b.pitchbufend :=
  ⟨(congrArg LowcFE.pitch_min h : (consts a).pitch_min = (consts b).pitch_min),
   (congrArg LowcFE.pitch_max h : (consts a).pitch_max = (consts b).pitch_max),
   (congrArg LowcFE.pitchdiff h : (consts a).pitchdiff = (consts b).pitchdiff),
   (congrArg LowcFE.poverlapmax h : (consts a).poverlapmax = (consts b).poverlapmax),
   (congrArg LowcFE.historylen h : (consts a).historylen = (consts b).historylen),
   (congrArg LowcFE.ndec h : (consts a).ndec = (consts b).ndec),
   (congrArg LowcFE.corrlen h : (consts a).corrlen = (consts b).corrlen),
   (congrArg LowcFE.corrbuflen h : (consts a).corrbuflen = (consts b).corrbuflen),
   (congrArg LowcFE.corrminpower h : (consts a).corrminpower = (consts b).corrminpower),
   (congrArg LowcFE.eoverlapincr h : (consts a).eoverlapincr = (consts b).eoverlapincr),
   (congrArg LowcFE.framesz h : (consts a).framesz = (consts b).framesz),
   (congrArg LowcFE.attenfac h : (consts a).attenfac = (consts b).attenfac),
   (congrArg LowcFE.attenincr h : (consts a).attenincr = (consts b).attenincr),
   (congrArg LowcFE.sbcrt h : (consts a).sbcrt = (consts b).sbcrt),
   (congrArg LowcFE.pitchbufend h : (consts a).pitchbufend = (consts b).pitchbufend)⟩

theorem params_of_consts {a b : LowcFE} (h : consts a = consts b) (p : Params b) :
    Params a := by
  obtain ⟨h1, h2, h3, h4, h5, h6, h7, h8, h9, h10, h11, h12, h13, h14, h15⟩ := consts_eq a b h
  constructor
  · rw [h6]; exact p.ndec
  · rw [h1]; exact p.pitch_min
  · rw [h1, h2]; exact p.pitch_max
  · rw [h1, h2, h3]; exact p.pitchdiff
  · rw [h4, h2]; exact p.poverlapmax
  · rw [h5, h2, h4]; exact p.historylen
  · rw [h7]; exact p.corrlen
  · rw [h8, h7, h2]; exact p.corrbuflen
  · rw [h8, h5]; exact p.corrbuf_fits
  · rw [h11]; exact p.framesz
  · rw [h11, h4, h5]; exact p.frame_fits
  · rw [h4, h11]; exact p.poverlapmax_le
  · rw [h14]; exact p.sbcrt
  · rw [h14, h11]; exact p.sbcrt_lt
  · rw [h10]; exact p.eoverlapincr
  · rw [h15, h5]; exact p.pitchbufend
  · rw [h12]; exact p.attenfac
  · rw [h13, h12, h11]; exact p.attenincr

theorem cvsd_construct_params (E : Env) (lc0 lc : LowcFE) (hfc : 0 ≤ E.fading_count)
    (h : cvsd_g711plc_construct E lc0 = some lc) : Params lc := by
  obtain ⟨lc', h', h1, h2, h3, h4, h5, h6, h7, h8, h9, h10, h11, h12, h13, h14, h15, h16, h17⟩ :=
    cvsd_construct_fields E lc0
  rw [h] at h'
  obtain rfl : lc = lc' := by simpa using h'
  constructor
  · omega
  · omega
  · omega
  · omega
  · omega
  · omega
  · omega
  · omega
  · omega
  · omega
  · omega
  · omega
  · omega
  · omega
  · omega
  · omega
  · rw [h12]; positivity
  · rw [h13, h12, h11]; norm_num

theorem msbc_construct_params (E : Env) (lc0 lc : LowcFE)
    (h : msbc_g711plc_construct E lc0 = some lc) : Params lc := by
  obtain ⟨lc', h', h1, h2, h3, h4, h5, h6, h7, h8, h9, h10, h11, h12, h13, h14, h15, h16, h17⟩ :=
    msbc_construct_fields E lc0
  rw [h] at h'
  obtain rfl : lc = lc' := by simpa using h'
  constructor
  · omega
  · omega
  · omega
  · omega
  · omega
  · omega
  · omega
  · omega
  · omega
  · omega
  · omega
  · omega
  · omega
  · omega
  · omega
  · omega
  · rw [h12]; norm_num
  · rw [h13, h12, h11]; norm_num

theorem inRange_of_int16 (t : Float) (h : -32768 ≤ t ∧ t ≤ 32767) : inRange t :=
  inRange_of_bounds t h.1 (by linarith [h.2])

theorem trunc_int16 (t : Float) (h1 : -32768 ≤ t) (h2 : t < 32768) :
    -32768 ≤ trunc t ∧ trunc t ≤ 32767 :=
  trunc_bounds t (-32768) 32767 (by norm_num) (by norm_num) (by push_cast; exact h1)
    (by push_cast; linarith)

theorem clampmm_int16 (w : Float) :
    -32768 ≤ trunc (max (min w 32767) (-32768)) ∧ trunc (max (min w 32767) (-32768)) ≤ 32767 := by
  refine trunc_int16 _ (le_max_right _ _) ?_
  have : max (min w 32767) (-32768) ≤ 32767 := max_le (min_le_right _ _) (by norm_num)
  linarith

/-- The samples that are zero form a closed set, with every gain. -/
theorem closed_zero (E : Env) :
    Closed E (fun z => z = 0) (fun t => t = 0) (fun z => z = 0) (fun _ => True) := by
  constructor
  · rfl
  · intro t ht; rw [ht]; norm_num
  · intro t ht; rw [ht]; exact trunc_zero
  · intro t ht; rw [ht]; exact trunc_zero
  · intro z hz; exact hz
  · intro a b lw rw ha hb _ _ _
    rw [ha, hb]; norm_num [clamp16]
  · intro a b lw rw ha hb _ _ _
    rw [ha, hb]; norm_num [clamp16, trunc_zero]
  · intro a g ha _
    rw [ha]
    simp only [Int.cast_zero, zero_mul]
    exact ⟨inRange_of_bounds 0 (by norm_num) (by norm_num), trunc_zero⟩
  · intro a g ha _ _
    rw [ha]
    simp only [Int.cast_zero, mul_zero]
    exact ⟨inRange_of_bounds 0 (by norm_num) (by norm_num), trunc_zero⟩
  · intro f s lw rw hf hs _ _ _
    rw [hf, hs]; norm_num [clamp16, trunc_zero]
  · intro _
    refine ⟨fun w => w = 0, rfl, ?_, ?_⟩
    · intro w c a hw ha; rw [hw, ha]; simp
    · intro w hw; rw [hw]; simp [trunc_zero]
  · intro _ a g ha
    rw [ha]; simp [trunc_zero]

/-- The 16-bit samples form a closed set, with the gains in `(-1, 1]`. -/
theorem closed_int16 (E : Env) :
    Closed E (fun z => -32768 ≤ z ∧ z ≤ 32767) (fun t => -32768 ≤ t ∧ t ≤ 32767)
      (fun z => -32768 ≤ z ∧ z ≤ 32767) (fun g => -1 < g ∧ g ≤ 1) := by
  have hscale : ∀ (a : short) (g : Float), (-32768 ≤ a ∧ a ≤ 32767) → (-1 < g ∧ g ≤ 1) →
      -32768 ≤ trunc ((a : Float) * g) ∧ trunc ((a : Float) * g) ≤ 32767 := by
    intro a g ha hg
    have ha1 : (-32768 : Float) ≤ a := by exact_mod_cast ha.1
    have ha2 : (a : Float) ≤ 32767 := by exact_mod_cast ha.2
    have hb : -32768 ≤ (a : Float) * g ∧ (a : Float) * g < 32768 := by
      rcases le_or_lt 0 g with h0 | h0
      · constructor <;> nlinarith [hg.2]
      · constructor <;> nlinarith [hg.1]
    exact trunc_int16 _ hb.1 hb.2
  constructor
  · constructor <;> norm_num
  · intro t ht; exact ht
  · intro t ht; exact trunc_int16 t ht.1 (by linarith [ht.2])
  · intro t ht; exact trunc_int16 t ht.1 (by linarith [ht.2])
  · intro z hz; exact hz
  · intro a b lw rw _ _ _ _ _
    exact clamp16_bounds _
  · intro a b lw rw _ _ _ _ _
    have h := clamp16_bounds (lw * (a : Float) + rw * (b : Float))
    exact trunc_int16 _ h.1 (by linarith [h.2])
  · intro a g ha hg
    exact ⟨hscale a g ha hg, hscale a g ha hg⟩
  · intro a g ha hg0 hg1
    have := hscale a g ha ⟨by linarith, hg1⟩
    rw [mul_comm] at this
    exact ⟨this, this⟩
  · intro f s lw rw _ _ _ _ _
    have h := clamp16_bounds (lw * (f : Float) + rw * (s : Float))
    exact trunc_int16 _ h.1 (by linarith [h.2])
  · intro _
    exact ⟨fun _ => True, trivial, fun _ _ _ _ _ => trivial, fun w _ => clampmm_int16 w⟩
  · intro _ a g _
    exact clampmm_int16 _

/-- With the pitch buffer holding the 16-bit constant `c` everywhere, the samples
drawn are `c` and the rest are 16-bit samples: a closed set in the build with no
optional feature, with the gains in `(-1, 1]`. -/
theorem closed_const (E : Env) (c : short) (hc : -32768 ≤ c ∧ c ≤ 32767)
    (ha : E.G711_ADAPTIVE_PLC = false) (hn : E.NONLINEAR_ATTEN = false) :
    Closed E (fun z => -32768 ≤ z ∧ z ≤ 32767) (fun t => t = (c : Float))
      (fun z => z = c) (fun g => -1 < g ∧ g ≤ 1) := by
  have h16 := closed_int16 E
  have hmix : ∀ lw rw : Float, lw + rw = 1 →
      clamp16 (lw * (c : Float) + rw * (c : Float)) = (c : Float) := by
    intro lw rw h
    have : lw * (c : Float) + rw * (c : Float) = (c : Float) := by
      rw [← add_mul, h, one_mul]
    rw [this]
    exact clamp16_of_bounds _ (by exact_mod_cast hc.1) (by exact_mod_cast hc.2)
  constructor
  · exact h16.zero
  · intro t ht; rw [ht]; exact ⟨by exact_mod_cast hc.1, by exact_mod_cast hc.2⟩
  · intro t ht; rw [ht, trunc_intCast]; exact hc
  · intro t ht; rw [ht, trunc_intCast]
  · intro z hz; rw [hz]; exact hc
  · intro a b lw rw ha hb _ _ h
    rw [ha, hb]; exact hmix lw rw h
  · intro a b lw rw ha hb _ _ h
    rw [ha, hb, hmix lw rw h, trunc_intCast]
  · intro a g ha hg
    rw [ha]; exact h16.scale c g hc hg
  · intro a g ha hg0 hg1
    rw [ha]; exact h16.gain c g hc hg0 hg1
  · intro f s lw rw hf hs h0 h1 h2
    rw [hf]; exact h16.blend c s lw rw hc hs h0 h1 h2
  · intro h; rw [ha] at h; exact absurd h (by decide)
  · intro h; rw [hn] at h; exact absurd h (by decide)

/-! ## The first frame of an erasure -/

theorem Closed.inRange {E : Env} {H : short → Prop} {VF : Float → Prop} {V : short → Prop}
    {G : Float → Prop} (cl : Closed E H VF V G) (t : Float) (h : VF t) : inRange t :=
  inRange_of_int16 t (cl.bound t h)

/-- The pitch of the first erased frame, by either search: it lies between
`pitch_min` and `pitch_max`, and the search changes `last_pitch` at most. -/
theorem first_pitch (E : Env) (lc : LowcFE) (hn : 1 ≤ lc.ndec) (hd : 0 ≤ lc.pitchdiff) :
    ∃ p q, lc.pitch_max - lc.pitchdiff ≤ p ∧ p ≤ lc.pitch_max ∧
      (if E.G711_ADAPTIVE_PLC then
        (enhanced_findpitch E lc).bind (fun r => some { r.1 with pitch := r.2 })
      else
        (g711plc_findpitch E lc).bind (fun p => some { lc with pitch := p }))
      = some { lc with pitch := p, last_pitch := q } := by
  cases E.G711_ADAPTIVE_PLC
  · obtain ⟨b, hb0, hb1, hfp⟩ := findpitch_spec E lc hn hd
    refine ⟨lc.pitch_max - b, lc.last_pitch, by omega, by omega, ?_⟩
    simp only [hfp, Option.some_bind, Bool.false_eq_true, if_false]
  · obtain ⟨p, hp0, hp1, hfp⟩ := enhanced_findpitch_spec E lc hn hd
    refine ⟨p, p, hp0, hp1, ?_⟩
    simp only [hfp, Option.some_bind, if_true]

theorem dofe_first_spec (E : Env) (H : short → Prop) (VF : Float → Prop) (V : short → Prop)
    (G : Float → Prop) (cl : Closed E H VF V G) (lc : LowcFE) (out : Arr short)
    (ce : Float) (pr : Params lc)
    (hof : ∀ j, 0 ≤ j → j < lc.historylen → VF (lc.history.get j : Float))
    (hH : ∀ j, 0 ≤ j → j < lc.historylen → H (lc.history.get j)) :
    ∃ r, dofe_first E lc out ce = some r ∧ consts r.1 = consts lc ∧
      r.1.erasecnt = lc.erasecnt ∧ Burst VF r.1 1 ∧
      (∀ j, 0 ≤ j → j < lc.historylen → H (r.1.history.get j)) ∧
      AllV V r.2 lc.framesz := by
  have hpm := pr.poverlapmax
  have hhl := pr.historylen
  have hpe := pr.pitchbufend
  have hpd := pr.pitchdiff
  have h1 := pr.pitch_min
  have h2 := pr.pitch_max
  -- the pitch
  obtain ⟨p, q, hp0, hp1, hfp⟩ := first_pitch E
    { lc with pitchbuf := g711plc_convertsf lc.history 0 lc.pitchbuf 0 lc.historylen }
    pr.ndec (by show 0 ≤ lc.pitchdiff; omega)
  simp only [] at hp0 hp1
  have hpov : p >>> (2 : ℕ) = p / 4 := shr2 p
  -- the pitch buffer after the copy of the history
  have hpb1 : ∀ j, 0 ≤ j → j < lc.historylen →
      VF ((g711plc_convertsf lc.history 0 lc.pitchbuf 0 lc.historylen).get j) := by
    intro j hj0 hj1
    rw [g711plc_convertsf_get, if_pos (by omega)]
    simp only [zero_add, sub_zero]
    exact hof j hj0 hj1
  -- the saved quarter wavelength
  have hlq : ∀ j, 0 ≤ j → j < p / 4 →
      VF ((g711plc_copyf (g711plc_convertsf lc.history 0 lc.pitchbuf 0 lc.historylen)
        (lc.pitchbufend - p >>> (2 : ℕ)) lc.lastq 0 (p >>> (2 : ℕ))).get j) := by
    intro j hj0 hj1
    rw [g711plc_copyf_get, if_pos (by omega)]
    exact hpb1 _ (by omega) (by omega)
  -- the pitch buffer after the overlap add
  have hpb2 : ∀ j, 0 ≤ j → j < lc.historylen →
      VF ((g711plc_overlapadd
        (g711plc_copyf (g711plc_convertsf lc.history 0 lc.pitchbuf 0 lc.historylen)
          (lc.pitchbufend - p >>> (2 : ℕ)) lc.lastq 0 (p >>> (2 : ℕ))) 0 Src.dst
        (lc.pitchbufend - p - p >>> (2 : ℕ))
        (g711plc_convertsf lc.history 0 lc.pitchbuf 0 lc.historylen)
        (lc.pitchbufend - p >>> (2 : ℕ)) (p >>> (2 : ℕ))).get j) := by
    intro j hj0 hj1
    rw [overlapadd_get _ _ _ _ _ _ (by omega)]
    split
    · rename_i hj
      have hc : (0 : Float) < ((p >>> (2 : ℕ) : Int) : Float) := by
        have : 0 < p >>> (2 : ℕ) := by omega
        exact_mod_cast this
      have hw0 : (0 : Float) ≤ ((j - (lc.pitchbufend - p >>> (2 : ℕ)) + 1 : Int) : Float) := by
        have : 0 ≤ j - (lc.pitchbufend - p >>> (2 : ℕ)) + 1 := by omega
        exact_mod_cast this
      have hw1 : ((j - (lc.pitchbufend - p >>> (2 : ℕ)) + 1 : Int) : Float)
          ≤ ((p >>> (2 : ℕ) : Int) : Float) := by
        have : j - (lc.pitchbufend - p >>> (2 : ℕ)) + 1 ≤ p >>> (2 : ℕ) := by omega
        exact_mod_cast this
      refine cl.mixF _ _ _ _ (hlq _ (by omega) (by omega)) (hpb1 _ (by omega) (by omega))
        ?_ ?_ (by ring)
      · rw [sub_nonneg, div_le_one hc]; exact hw1
      · exact div_nonneg hw0 (le_of_lt hc)
    · exact hpb1 j hj0 hj1
  -- the last quarter wavelength of the history
  obtain ⟨hist, hhist, hhv⟩ := g711plc_convertfs_spec
    (g711plc_overlapadd
        (g711plc_copyf (g711plc_convertsf lc.history 0 lc.pitchbuf 0 lc.historylen)
          (lc.pitchbufend - p >>> (2 : ℕ)) lc.lastq 0 (p >>> (2 : ℕ))) 0 Src.dst
        (lc.pitchbufend - p - p >>> (2 : ℕ))
        (g711plc_convertsf lc.history 0 lc.pitchbuf 0 lc.historylen)
        (lc.pitchbufend - p >>> (2 : ℕ)) (p >>> (2 : ℕ)))
    (lc.pitchbufend - p >>> (2 : ℕ)) lc.history (lc.historylen - p >>> (2 : ℕ))
    (p >>> (2 : ℕ))
    (fun i hi0 hi1 => cl.inRange _ (hpb2 _ (by omega) (by omega)))
  -- the frame
  obtain ⟨out', hout, hov⟩ := getfespeech_spec
    { lc with
      pitchbuf := g711plc_overlapadd
        (g711plc_copyf (g711plc_convertsf lc.history 0 lc.pitchbuf 0 lc.historylen)
          (lc.pitchbufend - p >>> (2 : ℕ)) lc.lastq 0 (p >>> (2 : ℕ))) 0 Src.dst
        (lc.pitchbufend - p - p >>> (2 : ℕ))
        (g711plc_convertsf lc.history 0 lc.pitchbuf 0 lc.historylen)
        (lc.pitchbufend - p >>> (2 : ℕ)) (p >>> (2 : ℕ)),
      pitch := p, last_pitch := q, poverlap := p >>> (2 : ℕ),
      lastq := g711plc_copyf (g711plc_convertsf lc.history 0 lc.pitchbuf 0 lc.historylen)
          (lc.pitchbufend - p >>> (2 : ℕ)) lc.lastq 0 (p >>> (2 : ℕ)),
      poffset := 0, pitchblen := p, pitchbufstart := lc.pitchbufend - p, history := hist }
    out lc.framesz (le_of_lt pr.framesz) (le_refl _) (by show 0 < p; omega)
    (fun j hj0 hj1 => by
      have hj1' : j < p := hj1
      exact cl.inRange _ (hpb2 _ (by show 0 ≤ lc.pitchbufend - p + j; omega)
        (by show lc.pitchbufend - p + j < lc.historylen; omega)))
  simp only [zero_add] at hout hov
  refine ⟨_, (by
    unfold dofe_first
    simp only []
    rw [hfp]
    simp only [Option.some_bind]
    rw [hhist]
    simp only [Option.some_bind]
    rw [hout]
    simp only [Option.some_bind]
    rfl), ?_, ?_, ?_, ?_, ?_⟩
  · rfl
  · rfl
  · constructor
    · show lc.pitch_min ≤ p; omega
    · exact hp1
    · exact hpov
    · exact le_refl _
    · show p ≤ 3 * p; omega
    · intro _; rfl
    · intro h; exact absurd h (by decide)
    · rfl
    · exact Int.emod_nonneg _ (by omega)
    · exact Int.emod_lt_of_pos _ (by omega)
    · exact hpb2
    · intro j hj0 hj1
      exact hlq j hj0 (by rw [← hpov]; exact hj1)
  · intro j hj0 hj1
    show H (hist.get j)
    rw [hhv]
    split
    · exact cl.toH _ (hpb2 _ (by omega) (by omega))
    · exact hH j hj0 hj1
  · intro j hj0 hj1
    rw [hov, if_pos ⟨hj0, hj1⟩]
    have hm0 : 0 ≤ j % p := Int.emod_nonneg _ (by omega)
    have hm1 : j % p < p := Int.emod_lt_of_pos _ (by omega)
    exact cl.toV _ (hpb2 _ (by show 0 ≤ lc.pitchbufend - p + j % p; omega)
      (by show lc.pitchbufend - p + j % p < lc.historylen; omega))

/-! ## The second and third frames of an erasure -/

theorem scale_gain_congr (a b : LowcFE) (h1 : a.erasecnt = b.erasecnt)
    (h2 : a.attenfac = b.attenfac) (h3 : a.attenincr = b.attenincr) (i : Int) :
    scale_gain a i = scale_gain b i := by
  unfold scale_gain; rw [h1, h2, h3]

/-- The loop `while (poffset > pitch) poffset -= pitch` of `g711plc_dofe`. -/
theorem poffset_loop (lc : LowcFE) (hp : 1 ≤ lc.pitch) (h0 : 0 ≤ lc.poffset) :
    ∃ k, whileLoop (fun lc => decide (lc.poffset > lc.pitch))
        (fun lc => { lc with poffset := lc.poffset - lc.pitch }) lc.poffset.toNat lc
        = some { lc with poffset := k } ∧ 0 ≤ k ∧ k ≤ lc.pitch := by
  obtain ⟨s', hs', ⟨k, hk, hk0⟩, hc⟩ := whileLoop_inv
    (fun (s : LowcFE) => decide (s.poffset > s.pitch))
    (fun (s : LowcFE) => { s with poffset := s.poffset - s.pitch })
    (fun (s : LowcFE) => ∃ k, s = { lc with poffset := k } ∧ 0 ≤ k)
    (fun (s : LowcFE) => s.poffset)
    (fun s hc ⟨k, hk, hk0⟩ => by
      subst hk
      have hc' : k > lc.pitch := by simpa using hc
      exact ⟨⟨k - lc.pitch, rfl, by omega⟩, by show k - lc.pitch < k; omega,
        by show 0 < k; omega⟩)
    lc.poffset.toNat lc (by show lc.poffset ≤ (lc.poffset.toNat : Int); omega)
    ⟨lc.poffset, rfl, h0⟩
  subst hk
  refine ⟨k, hs', hk0, ?_⟩
  have : ¬ (k > lc.pitch) := by simpa using hc
  omega

theorem dofe_extend_spec (E : Env) (H : short → Prop) (VF : Float → Prop) (V : short → Prop)
    (G : Float → Prop) (cl : Closed E H VF V G) (lc : LowcFE) (out : Arr short)
    (pr : Params lc) (he : lc.erasecnt = 1 ∨ lc.erasecnt = 2) (b : Burst VF lc lc.erasecnt)
    (hg : ∀ i, 0 ≤ i → i < lc.framesz → G (scale_gain lc i)) :
    ∃ r x, dofe_extend lc out = some r ∧ consts r.1 = consts lc ∧
      r.1.erasecnt = lc.erasecnt ∧ r.1.history = lc.history ∧
      r.1.pitch = lc.pitch ∧ r.1.pitchblen = lc.pitchblen + lc.pitch ∧
      Burst VF r.1 (lc.erasecnt + 1) ∧ AllV V x lc.framesz ∧
      (∀ i, 0 ≤ i → i < lc.framesz →
        r.2.get i = trunc ((x.get i : Float) * scale_gain lc i)) := by
  have hpm := pr.poverlapmax
  have hhl := pr.historylen
  have hpe := pr.pitchbufend
  have h1 := pr.pitch_min
  have hple := pr.poverlapmax_le
  have hb1 := b.pitch_lo
  have hb2 := b.pitch_hi
  have hb3 := b.poverlap
  have hb4 := b.blen_lo
  have hb5 := b.blen_hi
  have hb6 := b.blen1
  have hb7 := b.blen2
  have hb8 := b.start
  have hb9 := b.poffset_lo
  have hb10 := b.poffset_hi
  -- the tail of the previous pitch estimate
  obtain ⟨tmp, htmp, htv⟩ := getfespeech_spec lc (Arr.const 0) lc.poverlap (by omega) hb9 hb10
    (fun j hj0 hj1 => cl.inRange _ (b.pitchbuf _ (by omega) (by omega)))
  have htmpV : ∀ j, 0 ≤ j → j < lc.poverlap → V (tmp.get j) := by
    intro j hj0 hj1
    rw [htv, if_pos ⟨hj0, hj1⟩]
    have hm0 : 0 ≤ (lc.poffset + j) % lc.pitchblen := Int.emod_nonneg _ (by omega)
    have hm1 : (lc.poffset + j) % lc.pitchblen < lc.pitchblen := Int.emod_lt_of_pos _ (by omega)
    exact cl.toV _ (b.pitchbuf _ (by omega) (by omega))
  -- the offset into the longer pitch buffer
  obtain ⟨k, hk, hk0, hk1⟩ := poffset_loop lc (by omega) hb9
  -- the pitch buffer after the overlap add
  have hpb : ∀ j, 0 ≤ j → j < lc.historylen →
      VF ((g711plc_overlapadd lc.lastq 0 Src.dst
        (lc.pitchbufend - (lc.pitchblen + lc.pitch) - lc.poverlap) lc.pitchbuf
        (lc.pitchbufend - lc.poverlap) lc.poverlap).get j) := by
    intro j hj0 hj1
    rw [overlapadd_get _ _ _ _ _ _ (by omega)]
    split
    · rename_i hj
      have hc : (0 : Float) < ((lc.poverlap : Int) : Float) := by
        have : 0 < lc.poverlap := by omega
        exact_mod_cast this
      have hw0 : (0 : Float) ≤ ((j - (lc.pitchbufend - lc.poverlap) + 1 : Int) : Float) := by
        have : 0 ≤ j - (lc.pitchbufend - lc.poverlap) + 1 := by omega
        exact_mod_cast this
      have hw1 : ((j - (lc.pitchbufend - lc.poverlap) + 1 : Int) : Float)
          ≤ ((lc.poverlap : Int) : Float) := by
        have : j - (lc.pitchbufend - lc.poverlap) + 1 ≤ lc.poverlap := by omega
        exact_mod_cast this
      refine cl.mixF _ _ _ _ (b.lastq _ (by omega) (by omega))
        (b.pitchbuf _ (by omega) (by omega)) ?_ ?_ (by ring)
      · rw [sub_nonneg, div_le_one hc]; exact hw1
      · exact div_nonneg hw0 (le_of_lt hc)
    · exact b.pitchbuf j hj0 hj1
  -- the frame drawn from the longer pitch buffer
  obtain ⟨out1, hout1, ho1v⟩ := getfespeech_spec
    { lc with
      poffset := k, pitchblen := lc.pitchblen + lc.pitch,
      pitchbufstart := lc.pitchbufend - (lc.pitchblen + lc.pitch),
      pitchbuf := g711plc_overlapadd lc.lastq 0 Src.dst
        (lc.pitchbufend - (lc.pitchblen + lc.pitch) - lc.poverlap) lc.pitchbuf
        (lc.pitchbufend - lc.poverlap) lc.poverlap }
    out lc.framesz (le_of_lt pr.framesz) hk0 (by show k < lc.pitchblen + lc.pitch; omega)
    (fun j hj0 hj1 => by
      have hj1' : j < lc.pitchblen + lc.pitch := hj1
      exact cl.inRange _ (hpb _
        (by show 0 ≤ lc.pitchbufend - (lc.pitchblen + lc.pitch) + j; omega)
        (by show lc.pitchbufend - (lc.pitchblen + lc.pitch) + j < lc.historylen; omega)))
  simp only [] at hout1 ho1v
  have hout1V : ∀ j, 0 ≤ j → j < lc.framesz → V (out1.get j) := by
    intro j hj0 hj1
    rw [ho1v, if_pos ⟨hj0, hj1⟩]
    have hm0 : 0 ≤ (k + j) % (lc.pitchblen + lc.pitch) := Int.emod_nonneg _ (by omega)
    have hm1 : (k + j) % (lc.pitchblen + lc.pitch) < lc.pitchblen + lc.pitch :=
      Int.emod_lt_of_pos _ (by omega)
    exact cl.toV _ (hpb _ (by omega) (by omega))
  -- the overlap add of the old pitch buffer with the new
  obtain ⟨out2, hout2, ho2v⟩ := overlapadds_spec tmp out1 lc.poverlap
  have hout2V : AllV V out2 lc.framesz := by
    intro j hj0 hj1
    rw [ho2v]
    split
    · rename_i hj
      have hc : (0 : Float) < ((lc.poverlap : Int) : Float) := by
        have : 0 < lc.poverlap := by omega
        exact_mod_cast this
      have hw0 : (0 : Float) ≤ ((j + 1 : Int) : Float) := by
        have : 0 ≤ j + 1 := by omega
        exact_mod_cast this
      have hw1 : ((j + 1 : Int) : Float) ≤ ((lc.poverlap : Int) : Float) := by
        have : j + 1 ≤ lc.poverlap := by omega
        exact_mod_cast this
      refine cl.mixV _ _ _ _ (htmpV j hj.1 hj.2) (hout1V j hj0 hj1) ?_ ?_ (by ring)
      · rw [sub_nonneg, div_le_one hc]; exact hw1
      · exact div_nonneg hw0 (le_of_lt hc)
    · exact hout1V j hj0 hj1
  -- the attenuation
  obtain ⟨out3, hout3, ho3v⟩ := scalespeech_spec
    { lc with
      poffset := (k + lc.framesz) % (lc.pitchblen + lc.pitch),
      pitchblen := lc.pitchblen + lc.pitch,
      pitchbufstart := lc.pitchbufend - (lc.pitchblen + lc.pitch),
      pitchbuf := g711plc_overlapadd lc.lastq 0 Src.dst
        (lc.pitchbufend - (lc.pitchblen + lc.pitch) - lc.poverlap) lc.pitchbuf
        (lc.pitchbufend - lc.poverlap) lc.poverlap }
    out2
    (fun i hi0 hi1 => (cl.scale _ _ (hout2V i hi0 hi1) (hg i hi0 hi1)).1)
  refine ⟨_, out2, (by
    unfold dofe_extend
    simp only []
    rw [htmp]
    simp only [Option.some_bind]
    rw [hk]
    simp only [Option.some_bind]
    rw [hout1]
    simp only [Option.some_bind]
    rw [hout2]
    simp only [Option.some_bind]
    rw [hout3]
    simp only [Option.some_bind]
    rfl), ?_, ?_, ?_, ?_, ?_, ?_, ?_, ?_⟩
  · rfl
  · rfl
  · rfl
  · rfl
  · rfl
  · constructor
    · exact hb1
    · exact hb2
    · exact hb3
    · show lc.pitch ≤ lc.pitchblen + lc.pitch; omega
    · show lc.pitchblen + lc.pitch ≤ 3 * lc.pitch; omega
    · intro h; omega
    · intro h; show lc.pitchblen + lc.pitch ≤ 2 * lc.pitch; omega
    · rfl
    · exact Int.emod_nonneg _ (by omega)
    · exact Int.emod_lt_of_pos _ (by omega)
    · exact hpb
    · exact b.lastq
  · exact hout2V
  · intro i hi0 hi1
    show out3.get i = _
    rw [ho3v, if_pos ⟨hi0, hi1⟩]
    rfl

/-! ## The later frames of an erasure -/

theorem apply_perceptual_weight_spec (V : short → Prop) (W : Float → Prop) (hW0 : W 0)
    (hWs : ∀ (w c : Float) (a : short), W w → V a → W (w - c * (a : Float)))
    (hWc : ∀ w, W w → V (trunc (max (min w 32767) (-32768))))
    (frame : Arr short) (size : Int) (lc : LowcFE) (alpha : Float)
    (hf : AllV V frame size) :
    ∃ frame', apply_perceptual_weight frame size lc alpha = some frame' ∧
      AllV V frame' size := by
  unfold apply_perceptual_weight
  obtain ⟨f', hf', hv⟩ := forLoopM_inv
    (fun (i : Int) (frame : Arr short) =>
      (toShort (max (min (forLoop (fun (ji : Int) (weighted : Float) =>
          weighted - alpha * lc.cng.lpc_coeff.get (1 + ji) * (frame.get (i - (1 + ji)) : Float))
          (min LPC_ORDER i).toNat (frame.get i : Float)) 32767) (-32768))).bind
        (fun v => some (frame.set i v)))
    (fun _ (f : Arr short) => AllV V f size) size.toNat frame hf
    (fun k f hk hfk => by
      have hw : W (forLoop (fun (ji : Int) (weighted : Float) =>
          weighted - alpha * lc.cng.lpc_coeff.get (1 + ji) * (f.get (k - (1 + ji)) : Float))
          (min LPC_ORDER (k : Int)).toNat (f.get k : Float)) := by
        refine forLoop_inv _ (fun _ w => W w) _ _ ?_ ?_
        · have := hWs 0 (-1) (f.get k) hW0 (hfk k (by omega) (by omega))
          simpa using this
        · intro ji w hji hw
          have hji' : (ji : Int) < min LPC_ORDER (k : Int) := by omega
          have hjk : (ji : Int) < k := lt_of_lt_of_le hji' (min_le_right _ _)
          exact hWs w _ _ hw (hfk _ (by omega) (by omega))
      refine ⟨f.set k (trunc (max (min (forLoop (fun (ji : Int) (weighted : Float) =>
          weighted - alpha * lc.cng.lpc_coeff.get (1 + ji) * (f.get (k - (1 + ji)) : Float))
          (min LPC_ORDER (k : Int)).toNat (f.get k : Float)) 32767) (-32768))), ?_, ?_⟩
      · show (toShort _).bind _ = _
        rw [toShort_of_inRange _ (clampmm_int16 _)]; rfl
      · intro j hj0 hj1
        simp only [Arr.get_set]
        split
        · exact hWc _ hw
        · exact hfk j hj0 hj1)
  exact ⟨f', hf', hv⟩

theorem nonlinear_attenuation_spec (E : Env) (H V : short → Prop)
    (hn : ∀ (a : short) (g : Float), V a →
      H (trunc (max (min ((a : Float) * g) 32767) (-32768))))
    (out : Arr short) (sz erasecnt pitch : Int) (ho : AllV V out sz) :
    ∃ out', nonlinear_attenuation E out sz erasecnt pitch = some out' ∧ AllV H out' sz := by
  unfold nonlinear_attenuation
  simp only []
  obtain ⟨g, hg⟩ : ∃ g : Float, g = (if erasecnt ≤ 5 then 1 - 2 / 100 * (erasecnt : Float)
      else 9 / 10 * E.powf (88 / 100) ((erasecnt - 5 : Int) : Float)) := ⟨_, rfl⟩
  rw [← hg]
  obtain ⟨o', ho', hv⟩ := forLoopM_inv
    (fun (i : Int) (out : Arr short) =>
      (toShort (max (min (if pitch > 0 ∧ Int.tmod i pitch < Int.tdiv pitch 4 then
          (out.get i : Float) * g * (11 / 10) else (out.get i : Float) * g) 32767)
          (-32768))).bind (fun v => some (out.set i v)))
    (fun k (o : Arr short) => ∀ j, 0 ≤ j → j < sz → (j < k → H (o.get j)) ∧
      (k ≤ j → V (o.get j))) sz.toNat out
    (fun j hj0 hj1 => ⟨fun h => by omega, fun _ => ho j hj0 hj1⟩)
    (fun k o hk hok => by
      refine ⟨o.set k (trunc (max (min (if pitch > 0 ∧ Int.tmod k pitch < Int.tdiv pitch 4 then
          (o.get k : Float) * g * (11 / 10) else (o.get k : Float) * g) 32767) (-32768))),
        ?_, ?_⟩
      · show (toShort _).bind _ = _
        rw [toShort_of_inRange _ (clampmm_int16 _)]; rfl
      · intro j hj0 hj1
        simp only [Arr.get_set]
        have hk' := (hok k (by omega) (by omega)).2 (le_refl _)
        constructor
        · intro hjk
          split
          · split
            · rw [mul_assoc]; exact hn _ _ hk'
            · exact hn _ _ hk'
          · exact (hok j hj0 hj1).1 (by push_cast at hjk; omega)
        · intro hjk
          rw [if_neg (by push_cast at hjk; omega)]
          exact (hok j hj0 hj1).2 (by push_cast at hjk; omega))
  exact ⟨o', ho', fun j hj0 hj1 => (hv j hj0 hj1).1 (by omega)⟩

theorem regular_weight (E : Env) (H : short → Prop) (VF : Float → Prop) (V : short → Prop)
    (G : Float → Prop) (cl : Closed E H VF V G) (lc : LowcFE) (out : Arr short) (ce : Float)
    (ho : AllV V out lc.framesz) :
    ∃ a out', (if E.G711_ADAPTIVE_PLC then
        (if |ce - lc.prev_energy| < 10 then
          (apply_perceptual_weight out lc.framesz
            { lc with alpha := compute_dynamic_alpha ce lc.prev_energy lc.alpha }
            (compute_dynamic_alpha ce lc.prev_energy lc.alpha)).bind
            (fun out => some
              ({ lc with alpha := compute_dynamic_alpha ce lc.prev_energy lc.alpha }, out))
        else some (lc, out))
      else some (lc, out)) = some ({ lc with alpha := a }, out') ∧
      AllV V out' lc.framesz := by
  cases ha : E.G711_ADAPTIVE_PLC
  · exact ⟨lc.alpha, out, by simp, ho⟩
  · by_cases hd : |ce - lc.prev_energy| < 10
    · obtain ⟨W, hW0, hWs, hWc⟩ := cl.weight ha
      obtain ⟨out', hout', hv⟩ := apply_perceptual_weight_spec V W hW0 hWs hWc out lc.framesz
        { lc with alpha := compute_dynamic_alpha ce lc.prev_energy lc.alpha }
        (compute_dynamic_alpha ce lc.prev_energy lc.alpha) ho
      refine ⟨compute_dynamic_alpha ce lc.prev_energy lc.alpha, out', ?_, hv⟩
      simp only [if_true, if_pos hd, hout', Option.some_bind]
    · exact ⟨lc.alpha, out, by simp [hd], ho⟩

theorem dofe_regular_spec (E : Env) (H : short → Prop) (VF : Float → Prop) (V : short → Prop)
    (G : Float → Prop) (cl : Closed E H VF V G) (lc : LowcFE) (out : Arr short)
    (ce : Float) (pr : Params lc) (b : Burst VF lc lc.erasecnt) (he : 3 ≤ lc.erasecnt)
    (hg : E.NONLINEAR_ATTEN = false → ∀ i, 0 ≤ i → i < lc.framesz → G (scale_gain lc i)) :
    ∃ r, dofe_regular E lc out ce = some r ∧ consts r.1 = consts lc ∧
      r.1.erasecnt = lc.erasecnt ∧ r.1.history = lc.history ∧
      r.1.pitch = lc.pitch ∧ r.1.pitchblen = lc.pitchblen ∧
      Burst VF r.1 (lc.erasecnt + 1) ∧ AllV H r.2 lc.framesz ∧
      (E.NONLINEAR_ATTEN = false → ∃ x, AllV V x lc.framesz ∧
        ∀ i, 0 ≤ i → i < lc.framesz →
          r.2.get i = trunc ((x.get i : Float) * scale_gain lc i)) := by
  have hpm := pr.poverlapmax
  have hhl := pr.historylen
  have hpe := pr.pitchbufend
  have h1 := pr.pitch_min
  have hb1 := b.pitch_lo
  have hb2 := b.pitch_hi
  have hb4 := b.blen_lo
  have hb5 := b.blen_hi
  have hb8 := b.start
  have hb9 := b.poffset_lo
  have hb10 := b.poffset_hi
  obtain ⟨out1, hout1, ho1v⟩ := getfespeech_spec lc out lc.framesz (le_of_lt pr.framesz)
    hb9 hb10 (fun j hj0 hj1 => cl.inRange _ (b.pitchbuf _ (by omega) (by omega)))
  have hout1V : AllV V out1 lc.framesz := by
    intro j hj0 hj1
    rw [ho1v, if_pos ⟨hj0, hj1⟩]
    have hm0 : 0 ≤ (lc.poffset + j) % lc.pitchblen := Int.emod_nonneg _ (by omega)
    have hm1 : (lc.poffset + j) % lc.pitchblen < lc.pitchblen := Int.emod_lt_of_pos _ (by omega)
    exact cl.toV _ (b.pitchbuf _ (by omega) (by omega))
  obtain ⟨a, out2, hw, hout2V⟩ := regular_weight E H VF V G cl
    { lc with poffset := (lc.poffset + lc.framesz) % lc.pitchblen } out1 ce hout1V
  simp only [] at hw hout2V
  have hB : Burst VF { lc with poffset := (lc.poffset + lc.framesz) % lc.pitchblen, alpha := a }
      (lc.erasecnt + 1) := by
    constructor
    · exact hb1
    · exact hb2
    · exact b.poverlap
    · exact hb4
    · exact hb5
    · intro h; omega
    · intro h; omega
    · exact hb8
    · exact Int.emod_nonneg _ (by omega)
    · exact Int.emod_lt_of_pos _ (by omega)
    · exact b.pitchbuf
    · exact b.lastq
  cases hn : E.NONLINEAR_ATTEN
  · obtain ⟨out3, hout3, ho3v⟩ := scalespeech_spec
      { lc with poffset := (lc.poffset + lc.framesz) % lc.pitchblen, alpha := a } out2
      (fun i hi0 hi1 => (cl.scale _ _ (hout2V i hi0 hi1) (hg hn i hi0 hi1)).1)
    refine ⟨_, (by
      unfold dofe_regular
      rw [hout1]
      simp only [Option.some_bind]
      rw [hw]
      simp only [Option.some_bind, hn, Bool.false_eq_true, if_false]
      rw [hout3]
      simp only [Option.some_bind]
      rfl), ?_, ?_, ?_, ?_, ?_, hB, ?_, ?_⟩
    · rfl
    · rfl
    · rfl
    · rfl
    · rfl
    · intro i hi0 hi1
      show H (out3.get i)
      rw [ho3v, if_pos ⟨hi0, hi1⟩]
      exact (cl.scale _ _ (hout2V i hi0 hi1) (hg hn i hi0 hi1)).2
    · intro _
      refine ⟨out2, hout2V, fun i hi0 hi1 => ?_⟩
      show out3.get i = _
      rw [ho3v, if_pos ⟨hi0, hi1⟩]
      rfl
  · obtain ⟨out3, hout3, ho3v⟩ := nonlinear_attenuation_spec E H V (cl.nonlin hn) out2
      lc.framesz lc.erasecnt lc.pitch hout2V
    refine ⟨_, (by
      unfold dofe_regular
      rw [hout1]
      simp only [Option.some_bind]
      rw [hw]
      simp only [Option.some_bind, hn, if_true]
      rw [hout3]
      simp only [Option.some_bind]
      rfl), ?_, ?_, ?_, ?_, ?_, hB, ?_, ?_⟩
    · rfl
    · rfl
    · rfl
    · rfl
    · rfl
    · exact ho3v
    · intro h; exact absurd h (by decide)

/-! ## A lost frame, in the builds without comfort noise -/

theorem Burst.later {VF : Float → Prop} {lc : LowcFE} {e : Int} (b : Burst VF lc e)
    (he : 3 ≤ e) : Burst VF lc (e + 1) :=
  ⟨b.pitch_lo, b.pitch_hi, b.poverlap, b.blen_lo, b.blen_hi, fun h => by omega,
    fun h => by omega, b.start, b.poffset_lo, b.poffset_hi, b.pitchbuf, b.lastq⟩

theorem gainOK_scale (E : Env) (G : Float → Prop) (lc : LowcFE) (hg : GainOK E G lc)
    (h1 : 1 ≤ lc.erasecnt)
    (h2 : lc.erasecnt ≤ 2 ∨ (E.NONLINEAR_ATTEN = false ∧ lc.erasecnt ≤ E.fading_count))
    (i : Int) (hi0 : 0 ≤ i) (hi1 : i < lc.framesz) : G (scale_gain lc i) :=
  hg lc.erasecnt i h1 h2 hi0 hi1

/-- The frame that `g711plc_dofe` synthesises, before it is saved. -/
theorem dofe_branch_spec (E : Env) (H : short → Prop) (VF : Float → Prop) (V : short → Prop)
    (G : Float → Prop) (cl : Closed E H VF V G) (hcn : E.COMFORT_NOISE = false)
    (lc : LowcFE) (out : Arr short) (rnd : Int → Float) (ce : Float) (inv : Inv H VF lc)
    (hof : lc.erasecnt = 0 → ∀ j, 0 ≤ j → j < lc.historylen → VF (lc.history.get j : Float))
    (hg : GainOK E G lc) :
    ∃ r, (if lc.erasecnt = 0 then dofe_first E lc out ce
        else if E.COMFORT_NOISE then
          if lc.erasecnt > COMFORT_NOISE_START then
            (generate_comfort_noise lc.cng out lc.framesz rnd).bind
              (fun r => some ({ lc with cng := r.1 }, r.2))
          else dofe_regular E lc out ce
        else if lc.erasecnt = 1 ∨ lc.erasecnt = 2 then dofe_extend lc out
        else if lc.erasecnt > E.fading_count then some (lc, g711plc_zeros out 0 lc.framesz)
        else dofe_regular E lc out ce) = some r ∧
      consts r.1 = consts lc ∧ r.1.erasecnt = lc.erasecnt ∧
      Burst VF r.1 (lc.erasecnt + 1) ∧
      (∀ j, 0 ≤ j → j < lc.historylen → H (r.1.history.get j)) ∧
      AllV H r.2 lc.framesz ∧
      (1 ≤ lc.erasecnt → r.1.history = lc.history ∧ r.1.pitch = lc.pitch) ∧
      (lc.erasecnt = 1 ∨ lc.erasecnt = 2 → r.1.pitchblen = lc.pitchblen + lc.pitch) ∧
      (3 ≤ lc.erasecnt → r.1.pitchblen = lc.pitchblen) ∧
      (lc.erasecnt = 0 → AllV V r.2 lc.framesz) ∧
      (1 ≤ lc.erasecnt →
        (lc.erasecnt ≤ 2 ∨ (E.NONLINEAR_ATTEN = false ∧ lc.erasecnt ≤ E.fading_count)) →
        ∃ x, AllV V x lc.framesz ∧ ∀ i, 0 ≤ i → i < lc.framesz →
          r.2.get i = trunc ((x.get i : Float) * scale_gain lc i)) ∧
      (3 ≤ lc.erasecnt → lc.erasecnt > E.fading_count →
        ∀ i, 0 ≤ i → i < lc.framesz → r.2.get i = 0) := by
  have he0 := inv.erasecnt
  by_cases h0 : lc.erasecnt = 0
  · obtain ⟨r, hr, hc, hec, hb, hh, hv⟩ := dofe_first_spec E H VF V G cl lc out ce inv.params
      (hof h0) inv.history
    refine ⟨r, by rw [if_pos h0]; exact hr, hc, hec, by rw [h0]; exact hb, hh,
      fun j hj0 hj1 => cl.VH _ (hv j hj0 hj1), fun h => by omega, fun h => by omega,
      fun h => by omega, fun _ => hv, fun h => by omega, fun h => by omega⟩
  · have hb := inv.burst (by omega)
    rw [if_neg h0, hcn]
    simp only [Bool.false_eq_true, if_false]
    by_cases h12 : lc.erasecnt = 1 ∨ lc.erasecnt = 2
    · obtain ⟨r, x, hr, hc, hec, hh, hp, hbl, hb', hxv, hxe⟩ := dofe_extend_spec E H VF V G cl
        lc out inv.params h12 hb
        (gainOK_scale E G lc hg (by omega) (Or.inl (by omega)))
      refine ⟨r, by rw [if_pos h12]; exact hr, hc, hec, hb',
        fun j hj0 hj1 => by rw [hh]; exact inv.history j hj0 hj1,
        fun i hi0 hi1 => ?_, fun _ => ⟨hh, hp⟩, fun _ => hbl, fun h => by omega,
        fun h => by omega, fun _ _ => ⟨x, hxv, hxe⟩, fun h => by omega⟩
      rw [hxe i hi0 hi1]
      exact (cl.scale _ _ (hxv i hi0 hi1)
        (gainOK_scale E G lc hg (by omega) (Or.inl (by omega)) i hi0 hi1)).2
    · rw [if_neg h12]
      have h3 : 3 ≤ lc.erasecnt := by omega
      by_cases hfc : lc.erasecnt > E.fading_count
      · rw [if_pos hfc]
        have hz : ∀ i, 0 ≤ i → i < lc.framesz →
            (g711plc_zeros out 0 lc.framesz).get i = 0 := by
          intro i hi0 hi1
          rw [g711plc_zeros_get, if_pos (by omega)]
        refine ⟨(lc, g711plc_zeros out 0 lc.framesz), rfl, rfl, rfl, hb.later h3,
          inv.history, fun i hi0 hi1 => by rw [hz i hi0 hi1]; exact cl.zero,
          fun _ => ⟨rfl, rfl⟩, fun h => by omega, fun _ => rfl, fun h => by omega,
          fun _ h => ?_, fun _ _ => hz⟩
        rcases h with h | h <;> omega
      · rw [if_neg hfc]
        obtain ⟨r, hr, hc, hec, hh, hp, hbl, hb', hv, hx⟩ := dofe_regular_spec E H VF V G cl
          lc out ce inv.params hb h3
          (fun hn => gainOK_scale E G lc hg (by omega) (Or.inr ⟨hn, by omega⟩))
        refine ⟨r, hr, hc, hec, hb', fun j hj0 hj1 => by rw [hh]; exact inv.history j hj0 hj1,
          hv, fun _ => ⟨hh, hp⟩, fun h => by omega, fun _ => hbl, fun h => by omega,
          fun _ h => ?_, fun _ h => by omega⟩
        rcases h with h | h
        · omega
        · exact hx h.1

theorem dofe_spec (E : Env) (H : short → Prop) (VF : Float → Prop) (V : short → Prop)
    (G : Float → Prop) (cl : Closed E H VF V G) (hcn : E.COMFORT_NOISE = false)
    (lc : LowcFE) (out : Arr short) (rnd : Int → Float) (inv : Inv H VF lc)
    (hof : lc.erasecnt = 0 → ∀ j, 0 ≤ j → j < lc.historylen → VF (lc.history.get j : Float))
    (hg : GainOK E G lc) :
    ∃ r, g711plc_dofe E lc out rnd = some r ∧ Inv H VF r.1 ∧ consts r.1 = consts lc ∧
      r.1.erasecnt = lc.erasecnt + 1 ∧ AllV H r.2 lc.framesz ∧
      (∀ i, 0 ≤ i → i < lc.framesz →
        r.2.get i = r.1.history.get (lc.historylen - lc.framesz - lc.poverlapmax + i)) ∧
      (1 ≤ lc.erasecnt → r.1.pitch = lc.pitch ∧
        ∀ j, 0 ≤ j → j < lc.historylen - lc.framesz →
          r.1.history.get j = lc.history.get (j + lc.framesz)) ∧
      (lc.erasecnt = 1 ∨ lc.erasecnt = 2 → r.1.pitchblen = lc.pitchblen + lc.pitch) ∧
      (3 ≤ lc.erasecnt → r.1.pitchblen = lc.pitchblen) ∧
      (lc.erasecnt = 0 → ∀ i, 0 ≤ i → i < lc.framesz →
        V (r.1.history.get (lc.historylen - lc.framesz + i))) ∧
      (1 ≤ lc.erasecnt →
        (lc.erasecnt ≤ 2 ∨ (E.NONLINEAR_ATTEN = false ∧ lc.erasecnt ≤ E.fading_count)) →
        ∃ x, AllV V x lc.framesz ∧ ∀ i, 0 ≤ i → i < lc.framesz →
          r.1.history.get (lc.historylen - lc.framesz + i)
            = trunc ((x.get i : Float) * scale_gain lc i)) ∧
      (3 ≤ lc.erasecnt → lc.erasecnt > E.fading_count →
        ∀ i, 0 ≤ i → i < lc.framesz →
          r.1.history.get (lc.historylen - lc.framesz + i) = 0) := by
  obtain ⟨r0, hr0, hc, hec, hb, hh, hv, hhist, hbl12, hbl3, hfirst, hscaled, hzero⟩ :=
    dofe_branch_spec E H VF V G cl hcn lc out rnd
      (10 * E.log10f (lc.corrminpower + 1 / 1000000)) inv hof hg
  obtain ⟨c1, c2, c3, c4, c5, c6, c7, c8, c9, c10, c11, c12, c13, c14, c15⟩ :=
    consts_eq r0.1 lc hc
  have hF := inv.params.framesz
  have hfit := inv.params.frame_fits
  have hP : 0 ≤ lc.poverlapmax := by
    have := inv.params.poverlapmax; have := inv.params.pitch_min; have := inv.params.pitch_max
    omega
  -- the history after the frame is saved
  have hsave : ∀ j, (g711plc_savespeech
      { r0.1 with prev_energy := 10 * E.log10f (lc.corrminpower + 1 / 1000000),
                  erasecnt := r0.1.erasecnt + 1 } r0.2).1.history.get j =
      if 0 ≤ j ∧ j < lc.historylen - lc.framesz then r0.1.history.get (j + lc.framesz)
      else if lc.historylen - lc.framesz ≤ j ∧ j < lc.historylen then
        r0.2.get (j - (lc.historylen - lc.framesz))
      else r0.1.history.get j := by
    intro j
    rw [savespeech_history_get _ _ (by show 0 ≤ r0.1.framesz; omega)]
    show (if 0 ≤ j ∧ j < r0.1.historylen - r0.1.framesz then _ else _) = _
    rw [c5, c11]
  have htail : ∀ i, 0 ≤ i → i < lc.framesz → (g711plc_savespeech
      { r0.1 with prev_energy := 10 * E.log10f (lc.corrminpower + 1 / 1000000),
                  erasecnt := r0.1.erasecnt + 1 } r0.2).1.history.get
        (lc.historylen - lc.framesz + i) = r0.2.get i := by
    intro i hi0 hi1
    rw [hsave, if_neg (by omega), if_pos (by omega)]
    congr 1; omega
  refine ⟨_, (by
    unfold g711plc_dofe
    simp only []
    rw [hr0]
    simp only [Option.some_bind]
    rfl), ?_, ?_, ?_, ?_, ?_, ?_, ?_, ?_, ?_, ?_, ?_⟩
  · constructor
    · exact params_of_consts (a := (g711plc_savespeech _ r0.2).1) hc inv.params
    · show 0 ≤ r0.1.erasecnt + 1
      have := inv.erasecnt; omega
    · intro j hj0 hj1
      have hj1' : j < lc.historylen := by
        have : j < r0.1.historylen := hj1
        omega
      rw [hsave]
      split
      · exact hh _ (by omega) (by omega)
      · rw [if_pos (by omega)]
        exact hv _ (by omega) (by omega)
    · intro _
      refine ⟨hb.pitch_lo, hb.pitch_hi, hb.poverlap, hb.blen_lo, hb.blen_hi, ?_, ?_, hb.start,
        hb.poffset_lo, hb.poffset_hi, hb.pitchbuf, hb.lastq⟩
      · intro h
        have h' : r0.1.erasecnt + 1 = 1 := h
        exact hb.blen1 (by omega)
      · intro h
        have h' : r0.1.erasecnt + 1 = 2 := h
        exact hb.blen2 (by omega)
  · exact hc
  · show r0.1.erasecnt + 1 = lc.erasecnt + 1
    rw [hec]
  · intro i hi0 hi1
    rw [savespeech_out_get, if_pos (by show 0 ≤ i ∧ i < r0.1.framesz; omega), hsave]
    show H (if _ then _ else _)
    rw [c5, c11, c4]
    split
    · exact hh _ (by omega) (by omega)
    · rw [if_pos (by omega)]
      exact hv _ (by omega) (by omega)
  · intro i hi0 hi1
    rw [savespeech_out_get, if_pos (by show 0 ≤ i ∧ i < r0.1.framesz; omega)]
    show _ = _
    rw [c5, c11, c4]
  · intro h1
    refine ⟨(hhist h1).2, fun j hj0 hj1 => ?_⟩
    rw [hsave, if_pos ⟨hj0, hj1⟩, (hhist h1).1]
  · exact hbl12
  · exact hbl3
  · intro h0 i hi0 hi1
    rw [htail i hi0 hi1]
    exact hfirst h0 i hi0 hi1
  · intro h1 h2
    obtain ⟨x, hxv, hxe⟩ := hscaled h1 h2
    refine ⟨x, hxv, fun i hi0 hi1 => ?_⟩
    rw [htail i hi0 hi1]
    exact hxe i hi0 hi1
  · intro h3 hfc i hi0 hi1
    rw [htail i hi0 hi1]
    exact hzero h3 hfc i hi0 hi1

/-! ## A good frame, in the builds without comfort noise -/

theorem end_gain_bounds (lc : LowcFE) (he : 1 ≤ lc.erasecnt) (ha : 0 ≤ lc.attenfac) :
    0 ≤ end_gain lc ∧ end_gain lc ≤ 1 := by
  unfold end_gain
  have h1 : (0 : Float) ≤ ((lc.erasecnt - 1 : Int) : Float) := by
    have : 0 ≤ lc.erasecnt - 1 := by omega
    exact_mod_cast this
  have h2 : 0 ≤ ((lc.erasecnt - 1 : Int) : Float) * lc.attenfac := mul_nonneg h1 ha
  split
  · exact ⟨le_refl _, by norm_num⟩
  · rename_i h
    push_neg at h
    exact ⟨h, by linarith⟩

theorem end_olen_bounds (lc : LowcFE) (pr : Params lc) (he : 1 ≤ lc.erasecnt)
    (hp : 1 ≤ lc.poverlap) : lc.sbcrt < end_olen lc ∧ end_olen lc ≤ lc.framesz := by
  unfold end_olen
  have hm : 0 ≤ (lc.erasecnt + 1 - 1) * lc.eoverlapincr :=
    mul_nonneg (by omega) pr.eoverlapincr
  have := pr.sbcrt_lt
  split <;> constructor <;> omega

theorem end_weights (lc : LowcFE) (cnt i : Int) (h0 : lc.sbcrt ≤ i) (h1 : i < cnt)
    (hg0 : 0 ≤ end_gain lc) (hg1 : end_gain lc ≤ 1) :
    0 ≤ end_lw lc cnt i ∧ 0 ≤ end_rw lc cnt i ∧ end_lw lc cnt i + end_rw lc cnt i ≤ 1 := by
  have hc : (0 : Float) < ((cnt - lc.sbcrt : Int) : Float) := by
    have : 0 < cnt - lc.sbcrt := by omega
    exact_mod_cast this
  have hw0 : (0 : Float) ≤ ((i - lc.sbcrt + 1 : Int) : Float) := by
    have : 0 ≤ i - lc.sbcrt + 1 := by omega
    exact_mod_cast this
  have hw1 : ((i - lc.sbcrt + 1 : Int) : Float) ≤ ((cnt - lc.sbcrt : Int) : Float) := by
    have : i - lc.sbcrt + 1 ≤ cnt - lc.sbcrt := by omega
    exact_mod_cast this
  have hr0 : 0 ≤ end_rw lc cnt i := div_nonneg hw0 (le_of_lt hc)
  have hr1 : end_rw lc cnt i ≤ 1 := by
    unfold end_rw; rw [div_le_one hc]; exact hw1
  unfold end_lw
  refine ⟨mul_nonneg (by linarith) hg0, hr0, ?_⟩
  nlinarith

theorem addtohistory_spec (E : Env) (H : short → Prop) (VF : Float → Prop) (V : short → Prop)
    (G : Float → Prop) (cl : Closed E H VF V G) (hcn : E.COMFORT_NOISE = false)
    (lc : LowcFE) (s : Arr short) (inv : Inv H VF lc) (hs : AllV H s lc.framesz) :
    ∃ r, g711plc_addtohistory E lc s = some r ∧ Inv H VF r.1 ∧ consts r.1 = consts lc ∧
      r.1.erasecnt = 0 ∧ AllV H r.2 lc.framesz ∧
      (∀ i, 0 ≤ i → i < lc.framesz →
        r.2.get i = r.1.history.get (lc.historylen - lc.framesz - lc.poverlapmax + i)) ∧
      (∀ j, 0 ≤ j → j < lc.historylen - lc.framesz →
        r.1.history.get j = lc.history.get (j + lc.framesz)) ∧
      (lc.erasecnt = 0 → ∀ i, 0 ≤ i → i < lc.framesz →
        r.1.history.get (lc.historylen - lc.framesz + i) = s.get i) ∧
      (0 < lc.erasecnt → ∃ f, AllV V f (end_olen lc) ∧ ∀ i, 0 ≤ i → i < lc.framesz →
        r.1.history.get (lc.historylen - lc.framesz + i) =
          if i < lc.sbcrt then trunc (end_gain lc * (f.get i : Float))
          else if i < end_olen lc then
            trunc (clamp16 (end_lw lc (end_olen lc) i * (f.get i : Float)
              + end_rw lc (end_olen lc) i * (s.get i : Float)))
          else s.get i) := by
  have pr := inv.params
  have hF := pr.framesz
  have hfit := pr.frame_fits
  have hP : 0 ≤ lc.poverlapmax := by
    have := pr.poverlapmax; have := pr.pitch_min; have := pr.pitch_max
    omega
  -- the frame that is saved and the state it is saved in
  have key : ∃ lc' s', (if lc.erasecnt ≠ 0 then
        (g711plc_getfespeech lc (Arr.const 0) (end_olen lc)).bind (fun r =>
          (g711plc_overlapaddatend r.1 s r.2 (end_olen lc)).bind (fun s =>
            some ({ r.1 with erasecnt := 0 }, s)))
      else some (lc, s)) = some (lc', s') ∧
      consts lc' = consts lc ∧ lc'.erasecnt = 0 ∧ lc'.history = lc.history ∧
      AllV H s' lc.framesz ∧
      (lc.erasecnt = 0 → s' = s) ∧
      (0 < lc.erasecnt → ∃ f, AllV V f (end_olen lc) ∧ ∀ i, 0 ≤ i → i < lc.framesz →
        s'.get i =
          if i < lc.sbcrt then trunc (end_gain lc * (f.get i : Float))
          else if i < end_olen lc then
            trunc (clamp16 (end_lw lc (end_olen lc) i * (f.get i : Float)
              + end_rw lc (end_olen lc) i * (s.get i : Float)))
          else s.get i) := by
    by_cases he : lc.erasecnt = 0
    · exact ⟨lc, s, by rw [if_neg (by simp [he])], rfl, he, rfl, hs, fun _ => rfl,
        fun h => by omega⟩
    · have he1 : 1 ≤ lc.erasecnt := by have := inv.erasecnt; omega
      have b := inv.burst (by omega)
      have hb1 := b.pitch_lo
      have hb2 := b.pitch_hi
      have hb3 := b.poverlap
      have hb4 := b.blen_lo
      have hb5 := b.blen_hi
      have hb8 := b.start
      have hpm := pr.poverlapmax
      have hhl := pr.historylen
      have hpe := pr.pitchbufend
      have h1 := pr.pitch_min
      obtain ⟨ho0, ho1⟩ := end_olen_bounds lc pr he1 (by omega)
      have hs0 := pr.sbcrt
      obtain ⟨hg0, hg1⟩ := end_gain_bounds lc he1 pr.attenfac
      obtain ⟨f, hf, hfv⟩ := getfespeech_spec lc (Arr.const 0) (end_olen lc) (by omega)
        b.poffset_lo b.poffset_hi
        (fun j hj0 hj1 => cl.inRange _ (b.pitchbuf _ (by omega) (by omega)))
      have hfV : AllV V f (end_olen lc) := by
        intro j hj0 hj1
        rw [hfv, if_pos ⟨hj0, hj1⟩]
        have hm0 : 0 ≤ (lc.poffset + j) % lc.pitchblen := Int.emod_nonneg _ (by omega)
        have hm1 : (lc.poffset + j) % lc.pitchblen < lc.pitchblen :=
          Int.emod_lt_of_pos _ (by omega)
        exact cl.toV _ (b.pitchbuf _ (by omega) (by omega))
      obtain ⟨s', hs', hsv⟩ := overlapaddatend_spec
        { lc with poffset := (lc.poffset + end_olen lc) % lc.pitchblen } s f (end_olen lc) hs0
        (fun i hi0 hi1 => (cl.gain _ _ (hfV i hi0 (by
          have : i < lc.sbcrt := hi1
          omega)) hg0 hg1).1)
      have hsv' : ∀ i, 0 ≤ i → i < lc.framesz → s'.get i =
          if i < lc.sbcrt then trunc (end_gain lc * (f.get i : Float))
          else if i < end_olen lc then
            trunc (clamp16 (end_lw lc (end_olen lc) i * (f.get i : Float)
              + end_rw lc (end_olen lc) i * (s.get i : Float)))
          else s.get i := by
        intro i hi0 hi1
        rw [hsv]
        show (if 0 ≤ i ∧ i < lc.sbcrt then _ else if lc.sbcrt ≤ i ∧ i < end_olen lc then _
          else _) = _
        by_cases h1 : i < lc.sbcrt
        · rw [if_pos ⟨hi0, h1⟩, if_pos h1]; rfl
        · rw [if_neg (by omega), if_neg h1]
          by_cases h2 : i < end_olen lc
          · rw [if_pos ⟨by omega, h2⟩, if_pos h2]; rfl
          · rw [if_neg (by omega), if_neg h2]
      refine ⟨_, s', (by
        rw [if_pos he, hf]
        simp only [Option.some_bind]
        rw [hs']
        simp only [Option.some_bind]
        rfl), ?_, ?_, ?_, ?_, fun h => by omega,
        fun _ => ⟨f, hfV, hsv'⟩⟩
      · rfl
      · rfl
      · rfl
      intro i hi0 hi1
      rw [hsv' i hi0 hi1]
      split
      · rename_i h
        exact (cl.gain _ _ (hfV i hi0 (by omega)) hg0 hg1).2
      · split
        · rename_i h1 h2
          obtain ⟨w1, w2, w3⟩ := end_weights lc (end_olen lc) i (by omega) h2 hg0 hg1
          exact cl.blend _ _ _ _ (hfV i hi0 h2) (hs i hi0 hi1) w1 w2 w3
        · exact hs i hi0 hi1
  obtain ⟨lc', s', hk, hc, hec, hh, hsV, hs0, hsf⟩ := key
  obtain ⟨c1, c2, c3, c4, c5, c6, c7, c8, c9, c10, c11, c12, c13, c14, c15⟩ :=
    consts_eq lc' lc hc
  have hsave : ∀ j, (g711plc_savespeech lc' s').1.history.get j =
      if 0 ≤ j ∧ j < lc.historylen - lc.framesz then lc.history.get (j + lc.framesz)
      else if lc.historylen - lc.framesz ≤ j ∧ j < lc.historylen then
        s'.get (j - (lc.historylen - lc.framesz))
      else lc.history.get j := by
    intro j
    rw [savespeech_history_get _ _ (by omega), c5, c11, hh]
  have htail : ∀ i, 0 ≤ i → i < lc.framesz →
      (g711plc_savespeech lc' s').1.history.get (lc.historylen - lc.framesz + i) = s'.get i := by
    intro i hi0 hi1
    rw [hsave, if_neg (by omega), if_pos (by omega)]
    congr 1; omega
  have hHist : ∀ j, 0 ≤ j → j < lc.historylen →
      H ((g711plc_savespeech lc' s').1.history.get j) := by
    intro j hj0 hj1
    rw [hsave]
    split
    · exact inv.history _ (by omega) (by omega)
    · rw [if_pos (by omega)]
      exact hsV _ (by omega) (by omega)
  refine ⟨g711plc_savespeech lc' s', (by
    unfold g711plc_addtohistory
    simp only []
    have hk' := hk
    unfold end_olen at hk'
    rw [hk', hcn]
    simp only [Option.some_bind, Bool.false_eq_true, if_false]), ?_, hc, hec, ?_, ?_, ?_, ?_, ?_⟩
  · constructor
    · exact params_of_consts (a := (g711plc_savespeech lc' s').1) hc pr
    · show 0 ≤ lc'.erasecnt; omega
    · intro j hj0 hj1
      exact hHist j hj0 (by have : j < lc'.historylen := hj1; omega)
    · intro h
      have : 0 < lc'.erasecnt := h
      omega
  · intro i hi0 hi1
    rw [savespeech_out_get, if_pos (by omega), c5, c11, c4]
    exact hHist _ (by omega) (by omega)
  · intro i hi0 hi1
    rw [savespeech_out_get, if_pos (by omega), c5, c11, c4]
  · intro j hj0 hj1
    rw [hsave, if_pos ⟨hj0, hj1⟩]
  · intro h0 i hi0 hi1
    rw [htail i hi0 hi1, hs0 h0]
  · intro h0
    obtain ⟨f, hfV, hfe⟩ := hsf h0
    exact ⟨f, hfV, fun i hi0 hi1 => by rw [htail i hi0 hi1]; exact hfe i hi0 hi1⟩

/-! ## What a call leaves unchanged, in every build -/

theorem getfespeech_loop_some :
    ∀ (fuel : Nat) (lc : LowcFE) (out : Arr short) (oi sz : Int) (r : LowcFE × Arr short),
      g711plc_getfespeech_loop fuel lc out oi sz = some r →
      r.1 = { lc with poffset := r.1.poffset } := by
  intro fuel
  induction fuel with
  | zero =>
    intro lc out oi sz r h
    unfold g711plc_getfespeech_loop at h
    split at h
    · exact absurd h (by simp)
    · obtain rfl : (lc, out) = r := by simpa using h
      rfl
  | succ f ih =>
    intro lc out oi sz r h
    unfold g711plc_getfespeech_loop at h
    split at h
    · simp only [Option.bind_eq_some] at h
      obtain ⟨out1, _, h2⟩ := h
      obtain ⟨X, a, b, hX, hXp⟩ : ∃ X a b, g711plc_getfespeech_loop f X out1 a b = some r ∧
          X = { lc with poffset := X.poffset } := by
        refine ⟨_, _, _, h2, ?_⟩
        split_ifs <;> rfl
      have := ih X out1 a b r hX
      rw [this, hXp]
    · obtain rfl : (lc, out) = r := by simpa using h
      rfl

theorem getfespeech_some (lc : LowcFE) (out : Arr short) (sz : Int) (r : LowcFE × Arr short)
    (h : g711plc_getfespeech lc out sz = some r) : r.1 = { lc with poffset := r.1.poffset } :=
  getfespeech_loop_some _ lc out 0 sz r h

theorem dofe_first_some (E : Env) (lc : LowcFE) (out : Arr short) (ce : Float)
    (r : LowcFE × Arr short) (hn : 1 ≤ lc.ndec) (hd : 0 ≤ lc.pitchdiff)
    (h : dofe_first E lc out ce = some r) :
    consts r.1 = consts lc ∧ r.1.erasecnt = lc.erasecnt ∧
      lc.pitch_max - lc.pitchdiff ≤ r.1.pitch ∧ r.1.pitch ≤ lc.pitch_max ∧
      r.1.poverlap = r.1.pitch / 4 ∧ r.1.pitchblen = r.1.pitch := by
  obtain ⟨p, q, hp0, hp1, hfp⟩ := first_pitch E
    { lc with pitchbuf := g711plc_convertsf lc.history 0 lc.pitchbuf 0 lc.historylen } hn hd
  unfold dofe_first at h
  simp only [] at h hfp
  rw [hfp] at h
  simp only [Option.some_bind, Option.bind_eq_some] at h
  obtain ⟨hist, _, r1, hr1, hr⟩ := h
  have h1 := getfespeech_some _ _ _ _ hr1
  obtain rfl : _ = r := by simpa using hr
  simp only []
  rw [h1]
  refine ⟨rfl, rfl, ?_, ?_, ?_, rfl⟩
  · exact hp0
  · exact hp1
  · exact shr2 p

theorem dofe_extend_some (lc : LowcFE) (out : Arr short) (r : LowcFE × Arr short)
    (h : dofe_extend lc out = some r) :
    consts r.1 = consts lc ∧ r.1.erasecnt = lc.erasecnt ∧ r.1.pitch = lc.pitch ∧
      r.1.poverlap = lc.poverlap ∧ r.1.pitchblen = lc.pitchblen + lc.pitch ∧
      r.1.pitchbufstart = r.1.pitchbufend - r.1.pitchblen := by
  unfold dofe_extend at h
  simp only [Option.bind_eq_some] at h
  obtain ⟨r1, hr1, lc2, hlc2, r3, hr3, out4, _, out5, _, hr⟩ := h
  have h1 := getfespeech_some _ _ _ _ hr1
  have h2 : lc2 = { lc with poffset := lc2.poffset } := by
    refine whileLoop_some_inv _ _ (fun s => s = { lc with poffset := s.poffset })
      (fun s hs => ?_) _ _ _ hlc2 ?_
    · rw [hs]
    · rw [h1]
  have h3 := getfespeech_some _ _ _ _ hr3
  obtain rfl : _ = r := by simpa using hr
  simp only []
  rw [h3, h2]
  exact ⟨rfl, rfl, rfl, rfl, rfl, rfl⟩

theorem dofe_regular_some (E : Env) (lc : LowcFE) (out : Arr short) (ce : Float)
    (r : LowcFE × Arr short) (h : dofe_regular E lc out ce = some r) :
    consts r.1 = consts lc ∧ r.1.erasecnt = lc.erasecnt ∧ r.1.pitch = lc.pitch ∧
      r.1.poverlap = lc.poverlap ∧ r.1.pitchblen = lc.pitchblen ∧
      r.1.pitchbufstart = lc.pitchbufstart := by
  unfold dofe_regular at h
  simp only [Option.bind_eq_some] at h
  obtain ⟨r1, hr1, r2, hr2, out3, _, hr⟩ := h
  have h1 := getfespeech_some _ _ _ _ hr1
  have h2 : r2.1 = { r1.1 with alpha := r2.1.alpha } := by
    split at hr2
    · split at hr2
      · simp only [Option.bind_eq_some] at hr2
        obtain ⟨o, _, ho⟩ := hr2
        obtain rfl : _ = r2 := by simpa using ho
        rfl
      · obtain rfl : _ = r2 := by simpa using hr2
        rfl
    · obtain rfl : _ = r2 := by simpa using hr2
      rfl
  obtain rfl : _ = r := by simpa using hr
  simp only []
  rw [h2, h1]
  exact ⟨rfl, rfl, rfl, rfl, rfl, rfl⟩

theorem dofe_some (E : Env) (lc : LowcFE) (out : Arr short) (rnd : Int → Float)
    (r : LowcFE × Arr short) (hn : 1 ≤ lc.ndec) (hd : 0 ≤ lc.pitchdiff)
    (h : g711plc_dofe E lc out rnd = some r) :
    consts r.1 = consts lc ∧ r.1.erasecnt = lc.erasecnt + 1 ∧
      (lc.erasecnt = 0 → lc.pitch_max - lc.pitchdiff ≤ r.1.pitch ∧ r.1.pitch ≤ lc.pitch_max ∧
        r.1.poverlap = r.1.pitch / 4) ∧
      (lc.erasecnt ≠ 0 → r.1.pitch = lc.pitch ∧ r.1.poverlap = lc.poverlap) := by
  unfold g711plc_dofe at h
  simp only [Option.bind_eq_some] at h
  obtain ⟨r0, hr0, hr⟩ := h
  have key : consts r0.1 = consts lc ∧ r0.1.erasecnt = lc.erasecnt ∧
      (lc.erasecnt = 0 → lc.pitch_max - lc.pitchdiff ≤ r0.1.pitch ∧ r0.1.pitch ≤ lc.pitch_max ∧
        r0.1.poverlap = r0.1.pitch / 4) ∧
      (lc.erasecnt ≠ 0 → r0.1.pitch = lc.pitch ∧ r0.1.poverlap = lc.poverlap) := by
    split at hr0
    · rename_i h0
      obtain ⟨a1, a2, a3, a4, a5, _⟩ := dofe_first_some E lc out _ r0 hn hd hr0
      exact ⟨a1, a2, fun _ => ⟨a3, a4, a5⟩, fun h => absurd h0 h⟩
    · rename_i h0
      split at hr0
      · split at hr0
        · simp only [Option.bind_eq_some] at hr0
          obtain ⟨g, _, hg⟩ := hr0
          obtain rfl : _ = r0 := by simpa using hg
          exact ⟨rfl, rfl, fun h => absurd h h0, fun _ => ⟨rfl, rfl⟩⟩
        · obtain ⟨a1, a2, a3, a4, _⟩ := dofe_regular_some E lc out _ r0 hr0
          exact ⟨a1, a2, fun h => absurd h h0, fun _ => ⟨a3, a4⟩⟩
      · split at hr0
        · obtain ⟨a1, a2, a3, a4, _⟩ := dofe_extend_some lc out r0 hr0
          exact ⟨a1, a2, fun h => absurd h h0, fun _ => ⟨a3, a4⟩⟩
        · split at hr0
          · obtain rfl : _ = r0 := by simpa using hr0
            exact ⟨rfl, rfl, fun h => absurd h h0, fun _ => ⟨rfl, rfl⟩⟩
          · obtain ⟨a1, a2, a3, a4, _⟩ := dofe_regular_some E lc out _ r0 hr0
            exact ⟨a1, a2, fun h => absurd h h0, fun _ => ⟨a3, a4⟩⟩
  obtain ⟨k1, k2, k3, k4⟩ := key
  obtain rfl : _ = r := by simpa using hr
  exact ⟨k1, by show r0.1.erasecnt + 1 = _; rw [k2], k3, k4⟩

theorem addtohistory_some (E : Env) (lc : LowcFE) (s : Arr short) (r : LowcFE × Arr short)
    (h : g711plc_addtohistory E lc s = some r) :
    consts r.1 = consts lc ∧ r.1.erasecnt = 0 := by
  unfold g711plc_addtohistory at h
  simp only [Option.bind_eq_some] at h
  obtain ⟨r0, hr0, hr⟩ := h
  have key : consts r0.1 = consts lc ∧ r0.1.erasecnt = 0 := by
    split at hr0
    · simp only [Option.bind_eq_some] at hr0
      obtain ⟨r1, hr1, s2, _, hs⟩ := hr0
      have h1 := getfespeech_some _ _ _ _ hr1
      obtain rfl : _ = r0 := by simpa using hs
      refine ⟨?_, rfl⟩
      show consts { r1.1 with erasecnt := 0 } = consts lc
      rw [h1]
      rfl
    · rename_i h0
      obtain rfl : _ = r0 := by simpa using hr0
      exact ⟨rfl, by simpa using h0⟩
  obtain ⟨k1, k2⟩ := key
  obtain rfl : _ = r := by simpa using hr
  split
  · exact ⟨k1, k2⟩
  · exact ⟨k1, k2⟩

/-! ## Streams of frames -/

theorem takeWhile_snoc_length {α : Type} (p : α → Bool) (xs : List α) (a : α) :
    (List.takeWhile p (xs ++ [a])).length =
      if xs.all p then (if p a then xs.length + 1 else xs.length)
      else (List.takeWhile p xs).length := by
  induction xs with
  | nil => cases h : p a <;> simp [List.takeWhile, h]
  | cons x xs ih =>
    cases hx : p x
    · simp [List.takeWhile, hx]
    · have e1 : List.takeWhile p (x :: xs ++ [a]) = x :: List.takeWhile p (xs ++ [a]) := by
        simp [List.takeWhile, hx]
      have e2 : List.takeWhile p (x :: xs) = x :: List.takeWhile p xs := by
        simp [List.takeWhile, hx]
      rw [e1, e2, List.length_cons, ih]
      simp only [List.all_cons, hx, Bool.true_and, List.length_cons]
      split_ifs <;> rfl

theorem takeWhile_all_length {α : Type} (p : α → Bool) (xs : List α) (h : xs.all p = true) :
    (List.takeWhile p xs).length = xs.length := by
  induction xs with
  | nil => rfl
  | cons x xs ih =>
    simp only [List.all_cons, Bool.and_eq_true] at h
    simp [List.takeWhile, h.1, ih h.2]

theorem lost_since_good_cons (f : Frame) (fs : List Frame) :
    lost_since_good (f :: fs) =
      if fs.all Frame.isLost then (if f.isLost then fs.length + 1 else fs.length)
      else lost_since_good fs := by
  unfold lost_since_good
  rw [List.reverse_cons, takeWhile_snoc_length]
  simp only [List.all_reverse, List.length_reverse]

theorem lost_since_good_all (fs : List Frame) (h : fs.all Frame.isLost = true) :
    lost_since_good fs = fs.length := by
  unfold lost_since_good
  rw [takeWhile_all_length _ _ (by simpa using h), List.length_reverse]

/-- One frame, in every build: the call leaves the parameters, counts the
erasure, and keeps or finds an admissible pitch. -/
theorem plc_frame_some (E : Env) (lc : LowcFE) (f : Frame) (r : LowcFE × Arr short)
    (hn : 1 ≤ lc.ndec) (hd : lc.pitchdiff = lc.pitch_max - lc.pitch_min)
    (hm : lc.pitch_min ≤ lc.pitch_max) (hq : lc.poverlapmax = lc.pitch_max / 4)
    (hp : 0 < lc.erasecnt → PitchOK lc) (he : 0 ≤ lc.erasecnt)
    (h : plc_frame E lc f = some r) :
    consts r.1 = consts lc ∧ r.1.erasecnt = (if f.isLost then lc.erasecnt + 1 else 0) ∧
      (0 < r.1.erasecnt → PitchOK r.1) := by
  cases f with
  | good s =>
    obtain ⟨h1, h2⟩ := addtohistory_some E lc s r h
    exact ⟨h1, h2, fun h => by omega⟩
  | lost out rnd =>
    obtain ⟨h1, h2, h3, h4⟩ := dofe_some E lc out rnd r hn (by omega) h
    obtain ⟨c1, c2, c3, c4, c5, c6, c7, c8, c9, c10, c11, c12, c13, c14, c15⟩ :=
      consts_eq r.1 lc h1
    refine ⟨h1, h2, fun _ => ?_⟩
    unfold PitchOK
    rw [c1, c2, c4]
    by_cases h0 : lc.erasecnt = 0
    · obtain ⟨a1, a2, a3⟩ := h3 h0
      exact ⟨by omega, a2, a3, by omega⟩
    · obtain ⟨a1, a2⟩ := h4 h0
      obtain ⟨b1, b2, b3, b4⟩ := hp (by omega)
      rw [a1, a2]
      exact ⟨b1, b2, b3, b4⟩

theorem plc_run_some (E : Env) (fs : List Frame) :
    ∀ (lc : LowcFE) (r : LowcFE × List (Arr short)),
      1 ≤ lc.ndec → lc.pitchdiff = lc.pitch_max - lc.pitch_min → lc.pitch_min ≤ lc.pitch_max →
      lc.poverlapmax = lc.pitch_max / 4 → (0 < lc.erasecnt → PitchOK lc) → 0 ≤ lc.erasecnt →
      plc_run E lc fs = some r →
      consts r.1 = consts lc ∧
      r.1.erasecnt = (if fs.all Frame.isLost then lc.erasecnt else 0) + lost_since_good fs ∧
      (0 < r.1.erasecnt → PitchOK r.1) ∧ r.2.length = fs.length := by
  induction fs with
  | nil =>
    intro lc r _ _ _ _ hp _ h
    obtain rfl : (lc, []) = r := by simpa [plc_run] using h
    exact ⟨rfl, by simp [lost_since_good], hp, rfl⟩
  | cons f fs ih =>
    intro lc r hn hd hm hq hp he h
    simp only [plc_run, Option.bind_eq_some] at h
    obtain ⟨r1, hr1, rs, hrs, hr⟩ := h
    obtain ⟨k1, k2, k3⟩ := plc_frame_some E lc f r1 hn hd hm hq hp he hr1
    obtain ⟨c1, c2, c3, c4, c5, c6, c7, c8, c9, c10, c11, c12, c13, c14, c15⟩ :=
      consts_eq r1.1 lc k1
    obtain ⟨j1, j2, j3, j4⟩ := ih r1.1 rs (by omega) (by omega) (by omega) (by omega) k3
      (by rw [k2]; split <;> omega) hrs
    obtain rfl : _ = r := by simpa using hr
    refine ⟨j1.trans k1, ?_, j3, by simp [j4]⟩
    show rs.1.erasecnt = _
    rw [j2, k2, lost_since_good_cons]
    cases hf : f.isLost <;> cases hall : fs.all Frame.isLost
    · simp [hf, hall]
    · simp [hf, hall, lost_since_good_all fs hall]
    · simp [hf, hall]
    · simp only [hf, hall, lost_since_good_all fs hall, List.all_cons, Bool.and_self, if_true]
      push_cast
      omega

theorem gainOK_of_consts {E : Env} {G : Float → Prop} {a b : LowcFE} (h : consts a = consts b)
    (hg : GainOK E G b) : GainOK E G a := by
  obtain ⟨c1, c2, c3, c4, c5, c6, c7, c8, c9, c10, c11, c12, c13, c14, c15⟩ := consts_eq a b h
  intro e i h1 h2 h3 h4
  rw [c12, c13]
  exact hg e i h1 h2 h3 (by omega)

/-- A stream of frames, in a build without comfort noise: every call has a
result, the invariant holds at the end, and the frames handed back have the
property `H` of the frames passed. -/
theorem run_spec (E : Env) (H : short → Prop) (VF : Float → Prop) (V : short → Prop)
    (G : Float → Prop) (cl : Closed E H VF V G) (hcn : E.COMFORT_NOISE = false)
    (hof : ∀ z : short, H z → VF (z : Float)) (fs : List Frame) :
    ∀ lc : LowcFE, Inv H VF lc → GainOK E G lc →
      (∀ s, Frame.good s ∈ fs → AllV H s lc.framesz) →
      ∃ r, plc_run E lc fs = some r ∧ Inv H VF r.1 ∧ consts r.1 = consts lc ∧
        ∀ o, o ∈ r.2 → AllV H o lc.framesz := by
  induction fs with
  | nil =>
    intro lc inv _ _
    exact ⟨(lc, []), rfl, inv, rfl, fun o ho => by simp at ho⟩
  | cons f fs ih =>
    intro lc inv hg hs
    have step : ∃ r1, plc_frame E lc f = some r1 ∧ Inv H VF r1.1 ∧ consts r1.1 = consts lc ∧
        AllV H r1.2 lc.framesz := by
      cases f with
      | good s =>
        obtain ⟨r1, h1, h2, h3, _, h5, _⟩ := addtohistory_spec E H VF V G cl hcn lc s inv
          (hs s (List.mem_cons_self _ _))
        exact ⟨r1, h1, h2, h3, h5⟩
      | lost out rnd =>
        obtain ⟨r1, h1, h2, h3, _, h5, _⟩ := dofe_spec E H VF V G cl hcn lc out rnd inv
          (fun _ j hj0 hj1 => hof _ (inv.history j hj0 hj1)) hg
        exact ⟨r1, h1, h2, h3, h5⟩
    obtain ⟨r1, h1, h2, h3, h4⟩ := step
    have hF : r1.1.framesz = lc.framesz := (consts_eq r1.1 lc h3).2.2.2.2.2.2.2.2.2.2.1
    obtain ⟨rs, k1, k2, k3, k4⟩ := ih r1.1 h2 (gainOK_of_consts h3 hg)
      (fun s hs' => by rw [hF]; exact hs s (List.mem_cons_of_mem _ hs'))
    refine ⟨(rs.1, r1.2 :: rs.2), by simp [plc_run, h1, k1], k2, k3.trans h3, ?_⟩
    intro o ho
    rcases List.mem_cons.mp ho with h | h
    · rw [h]; exact h4
    · rw [← hF]; exact k4 o h

/-- A freshly constructed state satisfies the invariant as soon as zero has the
property `H`. -/
theorem inv_of_fresh (H : short → Prop) (VF : Float → Prop) (lc : LowcFE) (pr : Params lc)
    (he : lc.erasecnt = 0) (h0 : H 0)
    (hz : ∀ j, 0 ≤ j → j < lc.historylen → lc.history.get j = 0) : Inv H VF lc :=
  ⟨pr, by omega, fun j hj0 hj1 => by rw [hz j hj0 hj1]; exact h0, fun h => by omega⟩

theorem cvsd_fresh (E : Env) (lc0 : LowcFE) (hfc : 0 ≤ E.fading_count) (H : short → Prop)
    (VF : Float → Prop) (h0 : H 0) :
    ∃ lc, cvsd_g711plc_construct E lc0 = some lc ∧ Inv H VF lc ∧ lc.framesz = 60 ∧
      lc.historylen = 390 ∧ lc.poverlapmax = 30 ∧ lc.erasecnt = 0 ∧
      lc.attenfac = 1 / (E.fading_count : Float) ∧
      lc.attenincr = 1 / (E.fading_count : Float) / 60 ∧
      (∀ j, 0 ≤ j → j < 390 → lc.history.get j = 0) := by
  obtain ⟨lc, h, h1, h2, h3, h4, h5, h6, h7, h8, h9, h10, h11, h12, h13, h14, h15, h16, h17⟩ :=
    cvsd_construct_fields E lc0
  exact ⟨lc, h, inv_of_fresh H VF lc (cvsd_construct_params E lc0 lc hfc h) h15 h0
    (fun j hj0 hj1 => h17 j hj0 (by omega)), h11, h5, h4, h15, h12, h13, h17⟩

theorem msbc_fresh (E : Env) (lc0 : LowcFE) (H : short → Prop) (VF : Float → Prop)
    (h0 : H 0) :
    ∃ lc, msbc_g711plc_construct E lc0 = some lc ∧ Inv H VF lc ∧ lc.framesz = 120 ∧
      lc.historylen = 780 ∧ lc.poverlapmax = 60 ∧ lc.erasecnt = 0 ∧
      lc.attenfac = 2 / 10 ∧ lc.attenincr = 2 / 10 / 120 ∧ lc.sbcrt = 36 ∧
      (∀ j, 0 ≤ j → j < 780 → lc.history.get j = 0) := by
  obtain ⟨lc, h, h1, h2, h3, h4, h5, h6, h7, h8, h9, h10, h11, h12, h13, h14, h15, h16, h17⟩ :=
    msbc_construct_fields E lc0
  exact ⟨lc, h, inv_of_fresh H VF lc (msbc_construct_params E lc0 lc h) h15 h0
    (fun j hj0 hj1 => h17 j hj0 (by omega)), h11, h5, h4, h15, h12, h13, h14, h17⟩

/-- The gains of `g711plc_scalespeech` lie in `(-1, 1]` when `attenfac` is positive
and `fading_count * attenfac` is at most `2`. -/
theorem gainOK_of_atten (E : Env) (lc : LowcFE) (hF : 0 < lc.framesz)
    (ha : 0 < lc.attenfac) (hi : lc.attenincr = lc.attenfac / (lc.framesz : Float))
    (h2 : 2 * lc.attenfac ≤ 2) (hfc : (E.fading_count : Float) * lc.attenfac ≤ 2) :
    GainOK E (fun g => -1 < g ∧ g ≤ 1) lc := by
  intro e i he1 he2 hi0 hi1
  have hFq : (0 : Float) < (lc.framesz : Float) := by exact_mod_cast hF
  have hiq0 : (0 : Float) ≤ (i : Float) := by exact_mod_cast hi0
  have hiq1 : (i : Float) < (lc.framesz : Float) := by exact_mod_cast hi1
  have heq : (0 : Float) ≤ ((e - 1 : Int) : Float) := by
    have : 0 ≤ e - 1 := by omega
    exact_mod_cast this
  have hinc : (i : Float) * lc.attenincr < lc.attenfac := by
    rw [hi, ← mul_div_assoc, div_lt_iff₀ hFq]
    nlinarith
  have hinc0 : 0 ≤ (i : Float) * lc.attenincr := by
    rw [hi]; exact mul_nonneg hiq0 (div_nonneg (le_of_lt ha) (le_of_lt hFq))
  have hef : ((e - 1 : Int) : Float) * lc.attenfac + lc.attenfac ≤ 2 := by
    have hcast : ((e - 1 : Int) : Float) = (e : Float) - 1 := by push_cast; ring
    rcases he2 with h | ⟨_, h⟩
    · have : (e : Float) ≤ 2 := by exact_mod_cast h
      rw [hcast]; nlinarith
    · have : (e : Float) ≤ (E.fading_count : Float) := by exact_mod_cast h
      rw [hcast]; nlinarith
  constructor
  · linarith
  · have := mul_nonneg heq (le_of_lt ha)
    linarith

/-! ## Claims on the erasure counter, the pitch, silence and the 16-bit range -/

theorem fresh_run_some (E : Env) (lc : LowcFE) (fs : List Frame)
    (r : LowcFE × List (Arr short)) (hn : lc.ndec = 2)
    (hd : lc.pitchdiff = lc.pitch_max - lc.pitch_min) (hm : lc.pitch_min ≤ lc.pitch_max)
    (hq : lc.poverlapmax = lc.pitch_max / 4) (he : lc.erasecnt = 0)
    (h : plc_run E lc fs = some r) :
    consts r.1 = consts lc ∧ r.1.erasecnt = lost_since_good fs ∧
      (0 < r.1.erasecnt → PitchOK r.1) := by
  obtain ⟨h1, h2, h3, _⟩ := plc_run_some E fs lc r (by omega) hd hm hq (fun h => by omega)
    (by omega) h
  refine ⟨h1, ?_, h3⟩
  rw [h2, he]
  simp

theorem lost_since_good_eq_zero (fs : List Frame) :
    lost_since_good fs = 0 ↔ ∀ f, fs.getLast? = some f → f.isLost = false := by
  unfold lost_since_good
  rw [List.length_eq_zero, List.getLast?_eq_head?_reverse]
  cases fs.reverse with
  | nil => simp
  | cons a l =>
    cases ha : a.isLost <;> simp [List.takeWhile, ha]

/-- A stream on a fresh CVSD state, in a build without comfort noise
and with `fading_count = 10`: every call has a result
and the frames handed back are 16-bit frames. -/
theorem cvsd_run_int16 (E : Env) (hcn : E.COMFORT_NOISE = false)
    (hfc : E.fading_count = 10) (lc0 : LowcFE)
    (fs : List Frame)
    (hs : ∀ s, Frame.good s ∈ fs → AllV (fun z => -32768 ≤ z ∧ z ≤ 32767) s 60) :
    ∃ lc r, cvsd_g711plc_construct E lc0 = some lc ∧ plc_run E lc fs = some r ∧
      Inv (fun z => -32768 ≤ z ∧ z ≤ 32767) (fun t => -32768 ≤ t ∧ t ≤ 32767) r.1 ∧
      consts r.1 = consts lc ∧
      ∀ o, o ∈ r.2 → AllV (fun z => -32768 ≤ z ∧ z ≤ 32767) o 60 := by
  obtain ⟨lc, hc, inv, hF, hL, hP, he, haf, hai, hz⟩ := cvsd_fresh E lc0 (by omega)
    (fun z => -32768 ≤ z ∧ z ≤ 32767) (fun t => -32768 ≤ t ∧ t ≤ 32767)
    (by constructor <;> norm_num)
  have hg : GainOK E (fun g => -1 < g ∧ g ≤ 1) lc := by
    refine gainOK_of_atten E lc inv.params.framesz ?_ inv.params.attenincr ?_ ?_
    · rw [haf, hfc]; norm_num
    · rw [haf, hfc]; norm_num
    · rw [haf, hfc]; norm_num
  obtain ⟨r, h1, h2, h3, h4⟩ := run_spec E _ _ _ _ (closed_int16 E) hcn
    (fun z hz => ⟨by exact_mod_cast hz.1, by exact_mod_cast hz.2⟩) fs lc inv hg
    (by rw [hF]; exact hs)
  exact ⟨lc, r, hc, h1, h2, h3, by rw [hF] at h4; exact h4⟩

/-- A stream on a fresh mSBC state, in a build without comfort noise
and with `fading_count = 10`: every call has a result
and the frames handed back are 16-bit frames. -/
theorem msbc_run_int16 (E : Env) (hcn : E.COMFORT_NOISE = false)
    (hfc : E.fading_count = 10) (lc0 : LowcFE)
    (fs : List Frame)
    (hs : ∀ s, Frame.good s ∈ fs → AllV (fun z => -32768 ≤ z ∧ z ≤ 32767) s 120) :
    ∃ lc r, msbc_g711plc_construct E lc0 = some lc ∧ plc_run E lc fs = some r ∧
      Inv (fun z => -32768 ≤ z ∧ z ≤ 32767) (fun t => -32768 ≤ t ∧ t ≤ 32767) r.1 ∧
      consts r.1 = consts lc ∧
      ∀ o, o ∈ r.2 → AllV (fun z => -32768 ≤ z ∧ z ≤ 32767) o 120 := by
  obtain ⟨lc, hc, inv, hF, hL, hP, he, haf, hai, hsb, hz⟩ := msbc_fresh E lc0
    (fun z => -32768 ≤ z ∧ z ≤ 32767) (fun t => -32768 ≤ t ∧ t ≤ 32767)
    (by constructor <;> norm_num)
  have hg : GainOK E (fun g => -1 < g ∧ g ≤ 1) lc := by
    refine gainOK_of_atten E lc inv.params.framesz ?_ inv.params.attenincr ?_ ?_
    · rw [haf]; norm_num
    · rw [haf]; norm_num
    · rw [haf, hfc]; norm_num
  obtain ⟨r, h1, h2, h3, h4⟩ := run_spec E _ _ _ _ (closed_int16 E) hcn
    (fun z hz => ⟨by exact_mod_cast hz.1, by exact_mod_cast hz.2⟩) fs lc inv hg
    (by rw [hF]; exact hs)
  exact ⟨lc, r, hc, h1, h2, h3, by rw [hF] at h4; exact h4⟩

/-- Claim C2.  In every build and for either variant, after any stream of calls
on a constructed state (for which the calls have a result), `erasecnt` is the
number of calls of `g711plc_dofe` since the last call of `g711plc_addtohistory`,
or since the construction.  Besides, in every state, a call of
`g711plc_addtohistory` leaves `erasecnt = 0` and a call of `g711plc_dofe` leaves
`erasecnt` one more than before, and `erasecnt` is 0 exactly when the stream is
empty or its last frame was good. -/
theorem erasecnt_counts (E : Env) (lc0 lc : LowcFE) (fs : List Frame)
    (r : LowcFE × List (Arr short))
    (hc : cvsd_g711plc_construct E lc0 = some lc ∨ msbc_g711plc_construct E lc0 = some lc)
    (h : plc_run E lc fs = some r) :
    r.1.erasecnt = lost_since_good fs ∧
    (∀ s r', g711plc_addtohistory E r.1 s = some r' → r'.1.erasecnt = 0) ∧
    (∀ out rnd r', g711plc_dofe E r.1 out rnd = some r' →
      r'.1.erasecnt = r.1.erasecnt + 1) ∧
    (r.1.erasecnt = 0 ↔ ∀ f, fs.getLast? = some f → f.isLost = false) := by
  have hf : lc.ndec = 2 ∧ lc.pitchdiff = lc.pitch_max - lc.pitch_min ∧
      lc.pitch_min ≤ lc.pitch_max ∧ lc.poverlapmax = lc.pitch_max / 4 ∧ lc.erasecnt = 0 := by
    rcases hc with hc | hc
    · obtain ⟨lc', h', h1, h2, h3, h4, h5, h6, h7, h8, h9, h10, h11, h12, h13, h14, h15, _⟩ :=
        cvsd_construct_fields E lc0
      rw [hc] at h'
      obtain rfl : lc = lc' := by simpa using h'
      exact ⟨h6, by omega, by omega, by omega, h15⟩
    · obtain ⟨lc', h', h1, h2, h3, h4, h5, h6, h7, h8, h9, h10, h11, h12, h13, h14, h15, _⟩ :=
        msbc_construct_fields E lc0
      rw [hc] at h'
      obtain rfl : lc = lc' := by simpa using h'
      exact ⟨h6, by omega, by omega, by omega, h15⟩
  obtain ⟨f1, f2, f3, f4, f5⟩ := hf
  obtain ⟨k1, k2, _⟩ := fresh_run_some E lc fs r f1 f2 f3 f4 f5 h
  obtain ⟨c1, c2, c3, c4, c5, c6, c7, c8, c9, c10, c11, c12, c13, c14, c15⟩ :=
    consts_eq r.1 lc k1
  refine ⟨k2, fun s r' h' => (addtohistory_some E r.1 s r' h').2, fun out rnd r' h' => ?_, ?_⟩
  · exact (dofe_some E r.1 out rnd r' (by omega) (by omega) h').2.1
  · rw [k2, ← lost_since_good_eq_zero]
    exact_mod_cast Iff.rfl

theorem erasecnt_counts_witness :
    ∃ lc r, cvsd_g711plc_construct plain blank = some lc ∧
      plc_run plain lc [Frame.good ramp, Frame.lost (Arr.const 0) (fun _ => 0),
        Frame.lost (Arr.const 0) (fun _ => 0)] = some r ∧ r.1.erasecnt = 2 := by
  obtain ⟨lc, r, hc, hr, _⟩ := cvsd_run_int16 plain rfl rfl blank
    [Frame.good ramp, Frame.lost (Arr.const 0) (fun _ => 0),
      Frame.lost (Arr.const 0) (fun _ => 0)]
    (by
      intro s hs
      simp at hs
      subst hs
      intro j h0 h1
      show -32768 ≤ j ∧ j ≤ 32767
      constructor <;> omega)
  refine ⟨lc, r, hc, hr, ?_⟩
  rw [(erasecnt_counts plain blank lc _ r (Or.inl hc) hr).1]
  rfl

theorem savespeech_step_witness :
    (0 : Int) ≤ 60 ∧ (0 : Int) ≤ 30 ∧ (60 : Int) + 30 ≤ 390 ∧
    (g711plc_savespeech { blank with framesz := 60, poverlapmax := 30, historylen := 390 }
      ramp).2.get 45 = 15 :=
  ⟨by decide, by decide, by decide,
    (savespeech_step { blank with framesz := 60, poverlapmax := 30, historylen := 390 } ramp
      (by decide) (by decide) (by decide)).2.2.2.2 45 (by decide) (by decide)⟩

/-- The fields of a constructed state that the search and the counter depend on. -/
theorem constructed_fields (E : Env) (lc0 lc : LowcFE)
    (hc : cvsd_g711plc_construct E lc0 = some lc ∨ msbc_g711plc_construct E lc0 = some lc) :
    lc.ndec = 2 ∧ lc.pitchdiff = lc.pitch_max - lc.pitch_min ∧
      lc.pitch_min ≤ lc.pitch_max ∧ lc.poverlapmax = lc.pitch_max / 4 ∧ lc.erasecnt = 0 ∧
      0 ≤ lc.pitchdiff := by
  rcases hc with hc | hc
  · obtain ⟨lc', h', h1, h2, h3, h4, h5, h6, h7, h8, h9, h10, h11, h12, h13, h14, h15, _⟩ :=
      cvsd_construct_fields E lc0
    rw [hc] at h'
    obtain rfl : lc = lc' := by simpa using h'
    exact ⟨h6, by omega, by omega, by omega, h15, by omega⟩
  · obtain ⟨lc', h', h1, h2, h3, h4, h5, h6, h7, h8, h9, h10, h11, h12, h13, h14, h15, _⟩ :=
      msbc_construct_fields E lc0
    rw [hc] at h'
    obtain rfl : lc = lc' := by simpa using h'
    exact ⟨h6, by omega, by omega, by omega, h15, by omega⟩

/-- Claim C3.  In every build and for either variant: in every state that has
the parameters of a constructed state, whatever its buffers hold,
`g711plc_findpitch` returns `pitch_max - bestmatch` for a `bestmatch` with
`0 ≤ bestmatch ≤ pitchdiff`; and every state with `erasecnt > 0` reached from the
constructed state by a stream of calls has `pitch_min ≤ pitch ≤ pitch_max` and
`poverlap = pitch / 4 ≤ poverlapmax`. -/
theorem pitch_range (E : Env) (lc0 lc : LowcFE)
    (hc : cvsd_g711plc_construct E lc0 = some lc ∨ msbc_g711plc_construct E lc0 = some lc) :
    (∀ st : LowcFE, consts st = consts lc →
      ∃ bestmatch, 0 ≤ bestmatch ∧ bestmatch ≤ st.pitchdiff ∧
        g711plc_findpitch E st = some (st.pitch_max - bestmatch) ∧
        st.pitch_min ≤ st.pitch_max - bestmatch ∧ st.pitch_max - bestmatch ≤ st.pitch_max) ∧
    (∀ fs r, plc_run E lc fs = some r → 0 < r.1.erasecnt →
      r.1.pitch_min ≤ r.1.pitch ∧ r.1.pitch ≤ r.1.pitch_max ∧
        r.1.poverlap = r.1.pitch / 4 ∧ r.1.poverlap ≤ r.1.poverlapmax) := by
  obtain ⟨f1, f2, f3, f4, f5, f6⟩ := constructed_fields E lc0 lc hc
  refine ⟨fun st hst => ?_, fun fs r hr he => ?_⟩
  · obtain ⟨c1, c2, c3, c4, c5, c6, _⟩ := consts_eq st lc hst
    obtain ⟨b, hb0, hb1, hb⟩ := findpitch_spec E st (by omega) (by omega)
    exact ⟨b, hb0, hb1, hb, by omega, by omega⟩
  · exact (fresh_run_some E lc fs r f1 f2 f3 f4 f5 hr).2.2 he

theorem pitch_range_witness :
    ∃ lc r, cvsd_g711plc_construct plain blank = some lc ∧
      plc_run plain lc [Frame.good ramp, Frame.lost (Arr.const 0) (fun _ => 0)] = some r ∧
      0 < r.1.erasecnt ∧ 40 ≤ r.1.pitch ∧ r.1.pitch ≤ 120 ∧ r.1.poverlap = r.1.pitch / 4 ∧
      r.1.poverlap ≤ 30 := by
  obtain ⟨lc, r, hc, hr, _⟩ := cvsd_run_int16 plain rfl rfl blank
    [Frame.good ramp, Frame.lost (Arr.const 0) (fun _ => 0)]
    (by
      intro s hs
      simp at hs
      subst hs
      intro j h0 h1
      show -32768 ≤ j ∧ j ≤ 32767
      constructor <;> omega)
  obtain ⟨f1, f2, f3, f4, f5, f6⟩ := constructed_fields plain blank lc (Or.inl hc)
  obtain ⟨k1, k2, _⟩ := fresh_run_some plain lc _ r f1 f2 f3 f4 f5 hr
  have he : 0 < r.1.erasecnt := by
    rw [k2]
    decide
  obtain ⟨c1, c2, c3, c4, _⟩ := consts_eq r.1 lc k1
  obtain ⟨lc', h', h1, h2, h3, h4, _⟩ := cvsd_construct_fields plain blank
  rw [hc] at h'
  obtain rfl : lc = lc' := by simpa using h'
  obtain ⟨p1, p2, p3, p4⟩ := (pitch_range plain blank lc (Or.inl hc)).2 _ r hr he
  exact ⟨lc, r, hc, hr, he, by omega, by omega, p3, by omega⟩

/-- Claim C5.  In a build without comfort noise (`fading_count` positive) and
for either variant: when every good frame is all zeros, every stream of calls
on a freshly constructed state has a result, every sample of every frame handed
back is 0, and the history buffer is all zero afterwards. -/
theorem silent_history (E : Env) (hcn : E.COMFORT_NOISE = false) (hfc : 0 < E.fading_count)
    (lc0 : LowcFE) (fs : List Frame) :
    ((∀ s, Frame.good s ∈ fs → ∀ j, 0 ≤ j → j < 60 → s.get j = 0) →
      ∃ lc r, cvsd_g711plc_construct E lc0 = some lc ∧ plc_run E lc fs = some r ∧
        r.2.length = fs.length ∧
        (∀ o, o ∈ r.2 → ∀ j, 0 ≤ j → j < 60 → o.get j = 0) ∧
        (∀ j, 0 ≤ j → j < 390 → r.1.history.get j = 0)) ∧
    ((∀ s, Frame.good s ∈ fs → ∀ j, 0 ≤ j → j < 120 → s.get j = 0) →
      ∃ lc r, msbc_g711plc_construct E lc0 = some lc ∧ plc_run E lc fs = some r ∧
        r.2.length = fs.length ∧
        (∀ o, o ∈ r.2 → ∀ j, 0 ≤ j → j < 120 → o.get j = 0) ∧
        (∀ j, 0 ≤ j → j < 780 → r.1.history.get j = 0)) := by
  constructor
  · intro hs
    obtain ⟨lc, hc, inv, hF, hL, hP, he, haf, hai, hz⟩ := cvsd_fresh E lc0 (by omega)
      (fun z => z = 0) (fun t => t = 0) rfl
    obtain ⟨r, h1, h2, h3, h4⟩ := run_spec E _ _ _ (fun _ => True) (closed_zero E) hcn
      (fun z hz => by rw [hz]; norm_num) fs lc inv (fun _ _ _ _ _ _ => trivial)
      (by rw [hF]; exact hs)
    obtain ⟨f1, f2, f3, f4, f5, f6⟩ := constructed_fields E lc0 lc (Or.inl hc)
    obtain ⟨_, _, _, hlen⟩ := plc_run_some E fs lc r (by omega) f2 f3 f4 (fun h => by omega)
      (by omega) h1
    obtain ⟨c1, c2, c3, c4, c5, _⟩ := consts_eq r.1 lc h3
    refine ⟨lc, r, hc, h1, hlen, by rw [hF] at h4; exact h4, fun j hj0 hj1 => ?_⟩
    exact h2.history j hj0 (by omega)
  · intro hs
    obtain ⟨lc, hc, inv, hF, hL, hP, he, haf, hai, hsb, hz⟩ := msbc_fresh E lc0
      (fun z => z = 0) (fun t => t = 0) rfl
    obtain ⟨r, h1, h2, h3, h4⟩ := run_spec E _ _ _ (fun _ => True) (closed_zero E) hcn
      (fun z hz => by rw [hz]; norm_num) fs lc inv (fun _ _ _ _ _ _ => trivial)
      (by rw [hF]; exact hs)
    obtain ⟨f1, f2, f3, f4, f5, f6⟩ := constructed_fields E lc0 lc (Or.inr hc)
    obtain ⟨_, _, _, hlen⟩ := plc_run_some E fs lc r (by omega) f2 f3 f4 (fun h => by omega)
      (by omega) h1
    obtain ⟨c1, c2, c3, c4, c5, _⟩ := consts_eq r.1 lc h3
    refine ⟨lc, r, hc, h1, hlen, by rw [hF] at h4; exact h4, fun j hj0 hj1 => ?_⟩
    exact h2.history j hj0 (by omega)

theorem silent_history_witness :
    ∃ lc r, msbc_g711plc_construct plain blank = some lc ∧
      plc_run plain lc [Frame.good (Arr.const 0), Frame.lost ramp (fun _ => 1),
        Frame.lost ramp (fun _ => 1), Frame.good (Arr.const 0)] = some r ∧
      r.2.length = 4 ∧ (∀ o, o ∈ r.2 → ∀ j, 0 ≤ j → j < 120 → o.get j = 0) := by
  obtain ⟨lc, r, hc, hr, hl, ho, _⟩ := (silent_history plain rfl (by decide) blank
    [Frame.good (Arr.const 0), Frame.lost ramp (fun _ => 1),
      Frame.lost ramp (fun _ => 1), Frame.good (Arr.const 0)]).2
    (by
      intro s hs j _ _
      simp at hs
      subst hs
      rfl)
  exact ⟨lc, r, hc, hr, hl, ho⟩

/-- Claim C6.  In a build without comfort noise and with `fading_count = 10`
(with or without the non-linear attenuation), for either variant and every
stream of calls on a freshly constructed state whose good frames are 16-bit
frames: every call has a result, that is, no conversion to a 16-bit sample in
`g711plc_dofe` and `g711plc_addtohistory` is out of range; and every sample
handed back, as well as every sample of the history and of the pitch buffer, is
in `[-32768, 32767]`. -/
theorem int16_range (E : Env) (hcn : E.COMFORT_NOISE = false) (hfc : E.fading_count = 10)
    (lc0 : LowcFE) (fs : List Frame) :
    ((∀ s, Frame.good s ∈ fs → ∀ j, 0 ≤ j → j < 60 → -32768 ≤ s.get j ∧ s.get j ≤ 32767) →
      ∃ lc r, cvsd_g711plc_construct E lc0 = some lc ∧ plc_run E lc fs = some r ∧
        r.2.length = fs.length ∧
        (∀ o, o ∈ r.2 → ∀ j, 0 ≤ j → j < 60 → -32768 ≤ o.get j ∧ o.get j ≤ 32767) ∧
        (∀ j, 0 ≤ j → j < 390 → -32768 ≤ r.1.history.get j ∧ r.1.history.get j ≤ 32767) ∧
        (0 < r.1.erasecnt → ∀ j, 0 ≤ j → j < 390 →
          -32768 ≤ r.1.pitchbuf.get j ∧ r.1.pitchbuf.get j ≤ 32767)) ∧
    ((∀ s, Frame.good s ∈ fs → ∀ j, 0 ≤ j → j < 120 → -32768 ≤ s.get j ∧ s.get j ≤ 32767) →
      ∃ lc r, msbc_g711plc_construct E lc0 = some lc ∧ plc_run E lc fs = some r ∧
        r.2.length = fs.length ∧
        (∀ o, o ∈ r.2 → ∀ j, 0 ≤ j → j < 120 → -32768 ≤ o.get j ∧ o.get j ≤ 32767) ∧
        (∀ j, 0 ≤ j → j < 780 → -32768 ≤ r.1.history.get j ∧ r.1.history.get j ≤ 32767) ∧
        (0 < r.1.erasecnt → ∀ j, 0 ≤ j → j < 780 →
          -32768 ≤ r.1.pitchbuf.get j ∧ r.1.pitchbuf.get j ≤ 32767)) := by
  constructor
  · intro hs
    obtain ⟨lc, r, hc, h1, h2, h3, h4⟩ := cvsd_run_int16 E hcn hfc lc0 fs hs
    obtain ⟨f1, f2, f3, f4, f5, f6⟩ := constructed_fields E lc0 lc (Or.inl hc)
    obtain ⟨_, _, _, hlen⟩ := plc_run_some E fs lc r (by omega) f2 f3 f4 (fun h => by omega)
      (by omega) h1
    obtain ⟨lc', h', g1, g2, g3, g4, g5, _⟩ := cvsd_construct_fields E lc0
    rw [hc] at h'
    obtain rfl : lc = lc' := by simpa using h'
    obtain ⟨c1, c2, c3, c4, c5, _⟩ := consts_eq r.1 lc h3
    exact ⟨lc, r, hc, h1, hlen, h4, fun j hj0 hj1 => h2.history j hj0 (by omega),
      fun he j hj0 hj1 => (h2.burst he).pitchbuf j hj0 (by omega)⟩
  · intro hs
    obtain ⟨lc, r, hc, h1, h2, h3, h4⟩ := msbc_run_int16 E hcn hfc lc0 fs hs
    obtain ⟨f1, f2, f3, f4, f5, f6⟩ := constructed_fields E lc0 lc (Or.inr hc)
    obtain ⟨_, _, _, hlen⟩ := plc_run_some E fs lc r (by omega) f2 f3 f4 (fun h => by omega)
      (by omega) h1
    obtain ⟨lc', h', g1, g2, g3, g4, g5, _⟩ := msbc_construct_fields E lc0
    rw [hc] at h'
    obtain rfl : lc = lc' := by simpa using h'
    obtain ⟨c1, c2, c3, c4, c5, _⟩ := consts_eq r.1 lc h3
    exact ⟨lc, r, hc, h1, hlen, h4, fun j hj0 hj1 => h2.history j hj0 (by omega),
      fun he j hj0 hj1 => (h2.burst he).pitchbuf j hj0 (by omega)⟩

theorem int16_range_witness :
    ∃ lc r, cvsd_g711plc_construct plain blank = some lc ∧
      plc_run plain lc [Frame.good ramp, Frame.lost ramp (fun _ => 1),
        Frame.lost ramp (fun _ => 1), Frame.good ramp] = some r ∧
      r.2.length = 4 ∧
      (∀ o, o ∈ r.2 → ∀ j, 0 ≤ j → j < 60 → -32768 ≤ o.get j ∧ o.get j ≤ 32767) := by
  obtain ⟨lc, r, hc, hr, hl, ho, _⟩ := (int16_range plain rfl rfl blank
    [Frame.good ramp, Frame.lost ramp (fun _ => 1),
      Frame.lost ramp (fun _ => 1), Frame.good ramp]).1
    (by
      intro s hs j h0 h1
      simp at hs
      subst hs
      show -32768 ≤ j ∧ j ≤ 32767
      constructor <;> omega)
  exact ⟨lc, r, hc, hr, hl, ho⟩

/-! ## Streams in two parts, and bursts on a constant signal -/

theorem plc_run_append (E : Env) (a b : List Frame) :
    ∀ lc : LowcFE, plc_run E lc (a ++ b) =
      (plc_run E lc a).bind (fun r1 =>
        (plc_run E r1.1 b).bind (fun r2 => some (r2.1, r1.2 ++ r2.2))) := by
  induction a with
  | nil =>
    intro lc
    show plc_run E lc b = (plc_run E lc b).bind (fun r2 => some (r2.1, [] ++ r2.2))
    cases plc_run E lc b <;> rfl
  | cons f a ih =>
    intro lc
    show (plc_frame E lc f).bind (fun r =>
      (plc_run E r.1 (a ++ b)).bind (fun rs => some (rs.1, r.2 :: rs.2))) = _
    cases h1 : plc_frame E lc f with
    | none => simp [plc_run, h1]
    | some r =>
      simp only [plc_run, h1, Option.some_bind, ih r.1]
      cases h2 : plc_run E r.1 a with
      | none => simp
      | some ra =>
        simp only [Option.some_bind]
        cases h3 : plc_run E ra.1 b with
        | none => simp
        | some rb => simp

/-- Good frames that hold the constant `c` fill the history with `c` from the
end. -/
theorem run_good_const (E : Env) (c : short) :
    ∀ (n : Nat) (lc : LowcFE), lc.erasecnt = 0 → 0 < lc.framesz →
      lc.framesz ≤ lc.historylen →
      ∃ r, plc_run E lc (List.replicate n (Frame.good (Arr.const c))) = some r ∧
        r.1.erasecnt = 0 ∧ consts r.1 = consts lc ∧
        ∀ j, 0 ≤ j → j < lc.historylen →
          r.1.history.get j =
            if lc.historylen - n * lc.framesz ≤ j then c
            else lc.history.get (j + n * lc.framesz) := by
  intro n
  induction n with
  | zero =>
    intro lc he hF hL
    refine ⟨(lc, []), rfl, he, rfl, fun j hj0 hj1 => ?_⟩
    rw [if_neg (by push_cast; omega)]
    congr 1
    push_cast
    omega
  | succ n ih =>
    intro lc he hF hL
    obtain ⟨r1, h1, he1, hl1, hf1, hp1, hh1, ho1⟩ := addtohistory_good E lc (Arr.const c) he
    obtain ⟨k1, _⟩ := addtohistory_some E lc (Arr.const c) r1 h1
    obtain ⟨r2, h2, he2, hk2, hh2⟩ := ih r1.1 he1 (by omega) (by omega)
    refine ⟨(r2.1, r1.2 :: r2.2), ?_, he2, hk2.trans k1, fun j hj0 hj1 => ?_⟩
    · show (plc_frame E lc (Frame.good (Arr.const c))).bind _ = _
      show (g711plc_addtohistory E lc (Arr.const c)).bind _ = _
      rw [h1]
      simp only [Option.some_bind]
      rw [h2]
      rfl
    · rw [hh2 j hj0 (by omega), hl1, hf1]
      have hnn : (0 : Int) ≤ (n : Int) * lc.framesz :=
        mul_nonneg (Int.ofNat_nonneg n) (by omega)
      have hexp : ((n + 1 : Nat) : Int) * lc.framesz = (n : Int) * lc.framesz + lc.framesz := by
        push_cast
        ring
      rw [hexp]
      by_cases hc1 : lc.historylen - (n : Int) * lc.framesz ≤ j
      · rw [if_pos hc1, if_pos (by omega)]
      · rw [if_neg hc1, hh1, savespeech_history_get lc _ (by omega)]
        by_cases hc2 : lc.historylen - ((n : Int) * lc.framesz + lc.framesz) ≤ j
        · rw [if_pos hc2, if_neg (by omega), if_pos (by omega)]
          rfl
        · rw [if_neg hc2, if_pos (by omega)]
          congr 1
          omega

/-- A burst of lost frames on a history that holds the constant `c`: every call
has a result, the pitch buffer holds `c`, and the last frame of the history is
the constant scaled by the gain of the last call. -/
theorem run_lost_const (E : Env) (c : short) (hc : -32768 ≤ c ∧ c ≤ 32767)
    (ha : E.G711_ADAPTIVE_PLC = false) (hn : E.NONLINEAR_ATTEN = false)
    (hcn : E.COMFORT_NOISE = false) (fs : List Frame) :
    (∀ f, f ∈ fs → f.isLost = true) →
    ∀ lc : LowcFE,
      Inv (fun z => -32768 ≤ z ∧ z ≤ 32767) (fun t => t = (c : Float)) lc →
      GainOK E (fun g => -1 < g ∧ g ≤ 1) lc →
      (lc.erasecnt = 0 → ∀ j, 0 ≤ j → j < lc.historylen → lc.history.get j = c) →
      ∃ r, plc_run E lc fs = some r ∧
        Inv (fun z => -32768 ≤ z ∧ z ≤ 32767) (fun t => t = (c : Float)) r.1 ∧
        consts r.1 = consts lc ∧ r.1.erasecnt = lc.erasecnt + fs.length ∧
        (fs ≠ [] → ConstTail E c r.1 (r.1.erasecnt - 1)) := by
  induction fs with
  | nil =>
    intro _ lc inv hg hh
    exact ⟨(lc, []), rfl, inv, rfl, by simp, fun h => absurd rfl h⟩
  | cons f fs ih =>
    intro hl lc inv hg hh
    have hf : f.isLost = true := hl f (by simp)
    cases f with
    | good s => simp [Frame.isLost] at hf
    | lost out rnd =>
      obtain ⟨r1, h1, inv1, k1, e1, _, _, _, _, _, t0, t1, t2⟩ :=
        dofe_spec E _ _ _ _ (closed_const E c hc ha hn) hcn lc out rnd inv
          (fun he j hj0 hj1 => by rw [hh he j hj0 hj1]) hg
      obtain ⟨c1, c2, c3, c4, c5, c6, c7, c8, c9, c10, c11, c12, c13, c14, c15⟩ :=
        consts_eq r1.1 lc k1
      have he0 := inv.erasecnt
      obtain ⟨r2, h2, inv2, k2, e2, t⟩ := ih (fun g hg => hl g (by simp [hg])) r1.1 inv1
        (gainOK_of_consts k1 hg) (fun h => by omega)
      refine ⟨(r2.1, r1.2 :: r2.2), ?_, inv2, k2.trans k1, ?_, fun _ => ?_⟩
      · show (g711plc_dofe E lc out rnd).bind _ = _
        rw [h1]
        simp only [Option.some_bind]
        rw [h2]
        rfl
      · show r2.1.erasecnt = _
        rw [e2, e1]
        push_cast [List.length_cons]
        omega
      · show ConstTail E c r2.1 (r2.1.erasecnt - 1)
        cases fs with
        | nil =>
          obtain rfl : (r1.1, []) = r2 := by simpa [plc_run] using h2
          show ConstTail E c r1.1 (r1.1.erasecnt - 1)
          have hee : r1.1.erasecnt - 1 = lc.erasecnt := by omega
          rw [hee]
          intro i hi0 hi1
          rw [c11] at hi1
          rw [c5, c11, c12, c13]
          refine ⟨fun h => t0 h i hi0 hi1, fun h1e h2e => ?_, fun h3 hfc => t2 h3 hfc i hi0 hi1⟩
          obtain ⟨x, hx, hxe⟩ := t1 h1e (by
            rcases h2e with h | h
            · exact Or.inl h
            · exact Or.inr ⟨hn, h⟩)
          rw [hxe i hi0 hi1, hx i hi0 hi1]
          rfl
        | cons g gs => exact t (by simp)

/-- Good frames of the constant `c` that fill the history, then a burst of lost
frames, from a state that satisfies the invariant. -/
theorem const_burst (E : Env) (c : short) (hc : -32768 ≤ c ∧ c ≤ 32767)
    (ha : E.G711_ADAPTIVE_PLC = false) (hn : E.NONLINEAR_ATTEN = false)
    (hcn : E.COMFORT_NOISE = false) (lc : LowcFE) (pr : Params lc) (he : lc.erasecnt = 0)
    (hg : GainOK E (fun g => -1 < g ∧ g ≤ 1) lc) (n : Nat)
    (hfill : lc.historylen ≤ n * lc.framesz) (fs : List Frame)
    (hl : ∀ f, f ∈ fs → f.isLost = true) :
    ∃ r, plc_run E lc (List.replicate n (Frame.good (Arr.const c)) ++ fs) = some r ∧
      Inv (fun z => -32768 ≤ z ∧ z ≤ 32767) (fun t => t = (c : Float)) r.1 ∧
      consts r.1 = consts lc ∧ r.1.erasecnt = fs.length ∧
      (fs = [] → ∀ j, 0 ≤ j → j < lc.historylen → r.1.history.get j = c) ∧
      (fs ≠ [] → ConstTail E c r.1 (r.1.erasecnt - 1)) := by
  have hF := pr.framesz
  have hfit := pr.frame_fits
  have hP : 0 ≤ lc.poverlapmax := by
    have := pr.poverlapmax; have := pr.pitch_min; have := pr.pitch_max
    omega
  obtain ⟨r1, h1, e1, k1, hh1⟩ := run_good_const E c n lc he hF (by omega)
  obtain ⟨c1, c2, c3, c4, c5, c6, c7, c8, c9, c10, c11, c12, c13, c14, c15⟩ :=
    consts_eq r1.1 lc k1
  have hconst : ∀ j, 0 ≤ j → j < r1.1.historylen → r1.1.history.get j = c := by
    intro j hj0 hj1
    rw [hh1 j hj0 (by omega), if_pos (by omega)]
  have inv1 : Inv (fun z => -32768 ≤ z ∧ z ≤ 32767) (fun t => t = (c : Float)) r1.1 :=
    ⟨params_of_consts k1 pr, by omega, fun j hj0 hj1 => by rw [hconst j hj0 hj1]; exact hc,
      fun h => by omega⟩
  obtain ⟨r2, h2, inv2, k2, e2, t⟩ := run_lost_const E c hc ha hn hcn fs hl r1.1 inv1
    (gainOK_of_consts k1 hg) (fun _ => hconst)
  refine ⟨(r2.1, r1.2 ++ r2.2), ?_, inv2, k2.trans k1, ?_, ?_, t⟩
  · rw [plc_run_append, h1]
    simp only [Option.some_bind]
    rw [h2]
    rfl
  · show r2.1.erasecnt = _
    rw [e2, e1]
    simp
  · intro hnil j hj0 hj1
    subst hnil
    obtain rfl : (r1.1, []) = r2 := by simpa [plc_run] using h2
    exact hconst j hj0 (by omega)

/-! ## Silence after the fade -/

/-- Past the fade, in a build without comfort noise, `g711plc_dofe` saves a frame
of zeros. -/
theorem dofe_zero (E : Env) (hcn : E.COMFORT_NOISE = false) (lc : LowcFE) (out : Arr short)
    (rnd : Int → Float) (h3 : 3 ≤ lc.erasecnt) (hfc : E.fading_count < lc.erasecnt) :
    g711plc_dofe E lc out rnd =
      some (g711plc_savespeech
        { lc with prev_energy := 10 * E.log10f (lc.corrminpower + 1 / 1000000),
                  erasecnt := lc.erasecnt + 1 }
        (g711plc_zeros out 0 lc.framesz)) := by
  unfold g711plc_dofe
  simp only []
  rw [if_neg (by omega), hcn, if_neg (by simp), if_neg (by omega), if_pos (by omega)]
  rfl

/-- The history after a frame of zeros is saved. -/
theorem savespeech_zeros_history (lc : LowcFE) (out : Arr short) (n F L : Int)
    (hn : n = F) (hF : lc.framesz = F) (hL : lc.historylen = L) (h0 : 0 ≤ F) (j : Int) :
    (g711plc_savespeech lc (g711plc_zeros out 0 n)).1.history.get j =
      if 0 ≤ j ∧ j < L - F then lc.history.get (j + F)
      else if L - F ≤ j ∧ j < L then 0
      else lc.history.get j := by
  subst hn hF hL
  rw [savespeech_history_get lc _ h0]
  by_cases h1 : 0 ≤ j ∧ j < lc.historylen - lc.framesz
  · rw [if_pos h1, if_pos h1]
  · rw [if_neg h1, if_neg h1]
    by_cases h2 : lc.historylen - lc.framesz ≤ j ∧ j < lc.historylen
    · rw [if_pos h2, if_pos h2, g711plc_zeros_get, if_pos (by omega)]
    · rw [if_neg h2, if_neg h2]

/-- The frame handed back when a frame of zeros is saved. -/
theorem savespeech_zeros_out (lc : LowcFE) (out : Arr short) (n F L P : Int)
    (hn : n = F) (hF : lc.framesz = F) (hL : lc.historylen = L) (hP : lc.poverlapmax = P)
    (h0 : 0 ≤ F) (hP0 : 0 ≤ P) (hfit : F + P ≤ L) (i : Int) (hi0 : 0 ≤ i) (hi1 : i < F) :
    (g711plc_savespeech lc (g711plc_zeros out 0 n)).2.get i =
      if i < P then lc.history.get (L - P + i) else 0 := by
  rw [savespeech_out_get, if_pos ⟨hi0, by omega⟩,
    savespeech_zeros_history lc out n F L hn hF hL h0, hF, hL, hP]
  by_cases h1 : i < P
  · rw [if_pos (by omega), if_pos h1]
    congr 1
    omega
  · rw [if_neg (by omega), if_pos (by omega), if_neg h1]

/-- When `erasecnt` exceeds `fading_count + 1`, the last frame of the history is
a frame of zeros. -/
theorem tail_zero_run (E : Env) (hcn : E.COMFORT_NOISE = false) (hfc : 2 ≤ E.fading_count)
    (fs : List Frame) :
    ∀ (lc : LowcFE) (r : LowcFE × List (Arr short)), 1 ≤ lc.ndec → 0 ≤ lc.pitchdiff →
      0 ≤ lc.framesz →
      (E.fading_count + 1 < lc.erasecnt →
        ∀ j, lc.historylen - lc.framesz ≤ j → j < lc.historylen → lc.history.get j = 0) →
      plc_run E lc fs = some r →
      (E.fading_count + 1 < r.1.erasecnt →
        ∀ j, r.1.historylen - r.1.framesz ≤ j → j < r.1.historylen →
          r.1.history.get j = 0) := by
  induction fs with
  | nil =>
    intro lc r _ _ _ hq h
    obtain rfl : (lc, []) = r := by simpa [plc_run] using h
    exact hq
  | cons f fs ih =>
    intro lc r hn hd hF hq h
    simp only [plc_run, Option.bind_eq_some] at h
    obtain ⟨r1, h1, r2, h2, h3⟩ := h
    obtain rfl : (r2.1, r1.2 :: r2.2) = r := by simpa using h3
    have key : consts r1.1 = consts lc ∧
        (E.fading_count + 1 < r1.1.erasecnt →
          ∀ j, r1.1.historylen - r1.1.framesz ≤ j → j < r1.1.historylen →
            r1.1.history.get j = 0) := by
      cases f with
      | good s =>
        obtain ⟨k1, k2⟩ := addtohistory_some E lc s r1 h1
        exact ⟨k1, fun h => by omega⟩
      | lost out rnd =>
        obtain ⟨k1, k2, _⟩ := dofe_some E lc out rnd r1 hn hd h1
        refine ⟨k1, fun he j hj0 hj1 => ?_⟩
        have hz := dofe_zero E hcn lc out rnd (by omega) (by omega)
        have h1' : g711plc_dofe E lc out rnd = some r1 := h1
        have e1 := Option.some.inj (hz.symm.trans h1')
        subst e1
        have hs := savespeech_zeros_history
          { lc with prev_energy := 10 * E.log10f (lc.corrminpower + 1 / 1000000),
                    erasecnt := lc.erasecnt + 1 } out lc.framesz lc.framesz lc.historylen
          rfl rfl rfl hF j
        have hj0' : lc.historylen - lc.framesz ≤ j := hj0
        have hj1' : j < lc.historylen := hj1
        rw [if_neg (by omega), if_pos (by omega)] at hs
        exact hs
    obtain ⟨c1, c2, c3, c4, c5, c6, c7, c8, c9, c10, c11, _⟩ := consts_eq r1.1 lc key.1
    exact ih r1.1 r2 (by omega) (by omega) (by omega) key.2 h2

/-- Claim C4, as it holds.  In a build without comfort noise and with
`fading_count = 10`, for either variant and every state reached from the
constructed state whose `erasecnt` on entry is greater than `fading_count`:
`g711plc_dofe` has a result, the frame it commits to the history is all zeros,
and of the frame it hands back the samples from `poverlapmax` on are 0, while the
first `poverlapmax` samples are the last `poverlapmax` samples of the history on
entry.  When `erasecnt` on entry is greater than `fading_count + 1`, every sample
handed back is 0. -/
theorem silence_after_fading (E : Env) (hcn : E.COMFORT_NOISE = false)
    (hfc : E.fading_count = 10) (lc0 lc : LowcFE)
    (hc : cvsd_g711plc_construct E lc0 = some lc ∨ msbc_g711plc_construct E lc0 = some lc)
    (fs : List Frame) (r : LowcFE × List (Arr short)) (hr : plc_run E lc fs = some r)
    (he : E.fading_count < r.1.erasecnt) (out : Arr short) (rnd : Int → Float) :
    ∃ r2, g711plc_dofe E r.1 out rnd = some r2 ∧
      (∀ j, lc.historylen - lc.framesz ≤ j → j < lc.historylen → r2.1.history.get j = 0) ∧
      (∀ i, lc.poverlapmax ≤ i → i < lc.framesz → r2.2.get i = 0) ∧
      (∀ i, 0 ≤ i → i < lc.poverlapmax →
        r2.2.get i = r.1.history.get (lc.historylen - lc.poverlapmax + i)) ∧
      (E.fading_count + 1 < r.1.erasecnt → ∀ i, 0 ≤ i → i < lc.framesz → r2.2.get i = 0) := by
  have pr : Params lc := by
    rcases hc with hc | hc
    · exact cvsd_construct_params E lc0 lc (by omega) hc
    · exact msbc_construct_params E lc0 lc hc
  obtain ⟨f1, f2, f3, f4, f5, f6⟩ := constructed_fields E lc0 lc hc
  obtain ⟨k1, _⟩ := fresh_run_some E lc fs r f1 f2 f3 f4 f5 hr
  obtain ⟨c1, c2, c3, c4, c5, c6, c7, c8, c9, c10, c11, _⟩ := consts_eq r.1 lc k1
  have hF := pr.framesz
  have hfit := pr.frame_fits
  have hPF := pr.poverlapmax_le
  have hP : 0 ≤ lc.poverlapmax := by
    have := pr.poverlapmax; have := pr.pitch_min; have := pr.pitch_max
    omega
  have hq := tail_zero_run E hcn (by omega) fs lc r (by omega) (by omega) (by omega)
    (fun h => by omega) hr
  rw [c5, c11] at hq
  have hh : ∀ j, (g711plc_savespeech
      { r.1 with prev_energy := 10 * E.log10f (r.1.corrminpower + 1 / 1000000),
                 erasecnt := r.1.erasecnt + 1 }
      (g711plc_zeros out 0 r.1.framesz)).1.history.get j =
      if 0 ≤ j ∧ j < lc.historylen - lc.framesz then r.1.history.get (j + lc.framesz)
      else if lc.historylen - lc.framesz ≤ j ∧ j < lc.historylen then 0
      else r.1.history.get j :=
    fun j => savespeech_zeros_history _ out r.1.framesz lc.framesz lc.historylen c11 c11 c5
      (by omega) j
  have ho : ∀ i, 0 ≤ i → i < lc.framesz → (g711plc_savespeech
      { r.1 with prev_energy := 10 * E.log10f (r.1.corrminpower + 1 / 1000000),
                 erasecnt := r.1.erasecnt + 1 }
      (g711plc_zeros out 0 r.1.framesz)).2.get i =
      if i < lc.poverlapmax then r.1.history.get (lc.historylen - lc.poverlapmax + i)
      else 0 :=
    fun i hi0 hi1 => savespeech_zeros_out _ out r.1.framesz lc.framesz lc.historylen
      lc.poverlapmax c11 c11 c5 c4 (by omega) hP hfit i hi0 hi1
  refine ⟨_, dofe_zero E hcn r.1 out rnd (by omega) he, fun j hj0 hj1 => ?_,
    fun i hi0 hi1 => ?_, fun i hi0 hi1 => ?_, fun h12 i hi0 hi1 => ?_⟩
  · rw [hh, if_neg (by omega), if_pos ⟨hj0, hj1⟩]
  · rw [ho i (by omega) hi1, if_neg (by omega)]
  · rw [ho i hi0 (by omega), if_pos hi1]
  · rw [ho i hi0 hi1]
    split_ifs with h1
    · exact hq h12 _ (by omega) (by omega)
    · rfl

/-- The state after seven good CVSD frames of the constant 6000 and the lost
frames `fs`, in the build with no optional feature. -/
theorem cvsd_6000 (fs : List Frame) (hl : ∀ f, f ∈ fs → f.isLost = true) :
    ∃ lc r, cvsd_g711plc_construct plain blank = some lc ∧
      plc_run plain lc (List.replicate 7 (Frame.good (Arr.const 6000)) ++ fs) = some r ∧
      Inv (fun z => -32768 ≤ z ∧ z ≤ 32767) (fun t => t = ((6000 : short) : Float)) r.1 ∧
      GainOK plain (fun g => -1 < g ∧ g ≤ 1) r.1 ∧
      r.1.framesz = 60 ∧ r.1.historylen = 390 ∧ r.1.poverlapmax = 30 ∧
      r.1.attenfac = 1 / 10 ∧ r.1.attenincr = 1 / 10 / 60 ∧
      r.1.erasecnt = fs.length ∧
      (fs ≠ [] → ConstTail plain 6000 r.1 (r.1.erasecnt - 1)) := by
  obtain ⟨lc, hc, inv, hF, hL, hP, he, haf, hai, hz⟩ := cvsd_fresh plain blank (by decide)
    (fun z => -32768 ≤ z ∧ z ≤ 32767) (fun t => t = ((6000 : short) : Float))
    (by constructor <;> norm_num)
  have hfc : plain.fading_count = 10 := rfl
  rw [hfc] at haf hai
  have hg : GainOK plain (fun g => -1 < g ∧ g ≤ 1) lc := by
    refine gainOK_of_atten plain lc inv.params.framesz ?_ inv.params.attenincr ?_ ?_
    · rw [haf]; norm_num
    · rw [haf]; norm_num
    · rw [haf, hfc]; norm_num
  obtain ⟨r, h1, inv1, k1, e1, _, t⟩ := const_burst plain 6000 (by constructor <;> norm_num)
    rfl rfl rfl lc inv.params he hg 7 (by rw [hL, hF]; norm_num) fs hl
  obtain ⟨c1, c2, c3, c4, c5, c6, c7, c8, c9, c10, c11, c12, c13, c14, c15⟩ :=
    consts_eq r.1 lc k1
  refine ⟨lc, r, hc, h1, inv1, gainOK_of_consts k1 hg, by omega, by omega, by omega, ?_, ?_,
    e1, t⟩
  · rw [c12, haf]; norm_num
  · rw [c13, hai]; norm_num

/-- The state after seven good mSBC frames of the constant 6000 and the lost
frames `fs`, in the build with no optional feature. -/
theorem msbc_6000 (fs : List Frame) (hl : ∀ f, f ∈ fs → f.isLost = true) :
    ∃ lc r, msbc_g711plc_construct plain blank = some lc ∧
      plc_run plain lc (List.replicate 7 (Frame.good (Arr.const 6000)) ++ fs) = some r ∧
      Inv (fun z => -32768 ≤ z ∧ z ≤ 32767) (fun t => t = ((6000 : short) : Float)) r.1 ∧
      GainOK plain (fun g => -1 < g ∧ g ≤ 1) r.1 ∧
      r.1.framesz = 120 ∧ r.1.historylen = 780 ∧ r.1.poverlapmax = 60 ∧
      r.1.attenfac = 2 / 10 ∧ r.1.attenincr = 2 / 10 / 120 ∧
      r.1.erasecnt = fs.length ∧
      (fs ≠ [] → ConstTail plain 6000 r.1 (r.1.erasecnt - 1)) := by
  obtain ⟨lc, hc, inv, hF, hL, hP, he, haf, hai, hsb, hz⟩ := msbc_fresh plain blank
    (fun z => -32768 ≤ z ∧ z ≤ 32767) (fun t => t = ((6000 : short) : Float))
    (by constructor <;> norm_num)
  have hfc : plain.fading_count = 10 := rfl
  have hg : GainOK plain (fun g => -1 < g ∧ g ≤ 1) lc := by
    refine gainOK_of_atten plain lc inv.params.framesz ?_ inv.params.attenincr ?_ ?_
    · rw [haf]; norm_num
    · rw [haf]; norm_num
    · rw [haf, hfc]; norm_num
  obtain ⟨r, h1, inv1, k1, e1, _, t⟩ := const_burst plain 6000 (by constructor <;> norm_num)
    rfl rfl rfl lc inv.params he hg 7 (by rw [hL, hF]; norm_num) fs hl
  obtain ⟨c1, c2, c3, c4, c5, c6, c7, c8, c9, c10, c11, c12, c13, c14, c15⟩ :=
    consts_eq r.1 lc k1
  exact ⟨lc, r, hc, h1, inv1, gainOK_of_consts k1 hg, by omega, by omega, by omega,
    by rw [c12, haf], by rw [c13, hai], e1, t⟩

theorem silence_after_fading_witness :
    ∃ lc r r2, cvsd_g711plc_construct plain blank = some lc ∧
      plc_run plain lc (List.replicate 7 (Frame.good (Arr.const 6000)) ++
        List.replicate 11 (Frame.lost (Arr.const 0) (fun _ => 0))) = some r ∧
      plain.fading_count < r.1.erasecnt ∧
      g711plc_dofe plain r.1 ramp (fun _ => 0) = some r2 ∧
      (∀ i, lc.poverlapmax ≤ i → i < lc.framesz → r2.2.get i = 0) := by
  obtain ⟨lc, r, hc, hr, _, _, _, _, _, _, _, he, _⟩ :=
    cvsd_6000 (List.replicate 11 (Frame.lost (Arr.const 0) (fun _ => 0)))
      (fun f hf => by rw [List.eq_of_mem_replicate hf]; rfl)
  have he' : plain.fading_count < r.1.erasecnt := by
    rw [he]
    decide
  obtain ⟨r2, h2, _, hz, _⟩ := silence_after_fading plain rfl rfl blank lc (Or.inl hc) _ r hr
    he' ramp (fun _ => 0)
  exact ⟨lc, r, r2, hc, hr, he', h2, hz⟩

/-- Claim C4, as stated, fails.  In the build with no optional feature
(`fading_count = 10`), after seven good CVSD frames of the constant 6000 and
eleven lost frames, `erasecnt` is 11 and `g711plc_dofe` hands back 300 as
sample 0: the frame handed back starts with the last `poverlapmax` samples of
the frame attenuated before. -/
theorem silence_after_fading_counterexample :
    ∃ lc r r2, cvsd_g711plc_construct plain blank = some lc ∧
      plc_run plain lc (List.replicate 7 (Frame.good (Arr.const 6000)) ++
        List.replicate 11 (Frame.lost (Arr.const 0) (fun _ => 0))) = some r ∧
      plain.COMFORT_NOISE = false ∧ plain.fading_count = 10 ∧ r.1.erasecnt = 11 ∧
      r.1.framesz = 60 ∧
      g711plc_dofe plain r.1 (Arr.const 0) (fun _ => 0) = some r2 ∧ r2.2.get 0 = 300 := by
  obtain ⟨lc, r, hc, hr, inv, hg, hF, hL, hP, haf, hai, he, t⟩ :=
    cvsd_6000 (List.replicate 11 (Frame.lost (Arr.const 0) (fun _ => 0)))
      (fun f hf => by rw [List.eq_of_mem_replicate hf]; rfl)
  have he' : r.1.erasecnt = 11 := by
    rw [he]
    rfl
  obtain ⟨r2, h2, _, _, _, _, hout, hshift, _⟩ :=
    dofe_spec plain _ _ _ _ (closed_const plain 6000 (by constructor <;> norm_num) rfl rfl) rfl
      r.1 (Arr.const 0) (fun _ => 0) inv (fun h => by omega) hg
  refine ⟨lc, r, r2, hc, hr, rfl, rfl, he', hF, h2, ?_⟩
  rw [hout 0 (by omega) (by omega), (hshift (by omega)).2 _ (by omega) (by omega)]
  have ht := (t (by simp) 30 (by omega) (by omega)).2.1 (by omega)
    (Or.inr (by rw [he']; decide))
  rw [hF, hL, hP]
  rw [hF, hL, haf, hai, he'] at ht
  rw [show (390 : Int) - 60 - 30 + 0 + 60 = 390 - 60 + 30 from by norm_num, ht]
  rw [show ((6000 : short) : Float) * (1 - ((11 - 1 - 1 : Int) : Float) * (1 / 10) -
    ((30 : Int) : Float) * (1 / 10 / 60)) = ((300 : Int) : Float) from by norm_num]
  exact trunc_intCast 300

/-- Claim C9.  The starting gain of `g711plc_scalespeech` has no floor at 0.  In
the build with no optional feature, after seven good mSBC frames of the constant
6000 and seven lost frames, `erasecnt` is 7 and the call of `g711plc_dofe` for the
eighth lost frame scales with the gain `1 - 6 * 0.2 = -1/5` at sample 0:
`g711plc_scalespeech` turns a frame of 6000 into one that starts with -1200, and
`g711plc_dofe` commits -1200 as the first sample of the frame and hands it back
at index `poverlapmax = 60`. -/
theorem scalespeech_negative_gain :
    ∃ lc r r2 out, msbc_g711plc_construct plain blank = some lc ∧
      plc_run plain lc (List.replicate 7 (Frame.good (Arr.const 6000)) ++
        List.replicate 7 (Frame.lost (Arr.const 0) (fun _ => 0))) = some r ∧
      r.1.erasecnt = 7 ∧ plain.fading_count = 10 ∧ r.1.attenfac = 2 / 10 ∧
      scale_gain r.1 0 = -1 / 5 ∧
      g711plc_scalespeech r.1 (Arr.const 6000) = some out ∧ out.get 0 = -1200 ∧
      g711plc_dofe plain r.1 (Arr.const 0) (fun _ => 0) = some r2 ∧
      r2.1.history.get (780 - 120) = -1200 ∧ r2.2.get 60 = -1200 := by
  obtain ⟨lc, r, hc, hr, inv, hg, hF, hL, hP, haf, hai, he, t⟩ :=
    msbc_6000 (List.replicate 7 (Frame.lost (Arr.const 0) (fun _ => 0)))
      (fun f hf => by rw [List.eq_of_mem_replicate hf]; rfl)
  have he' : r.1.erasecnt = 7 := by
    rw [he]
    rfl
  have hgain : scale_gain r.1 0 = -1 / 5 := by
    unfold scale_gain
    rw [he', haf, hai]
    norm_num
  have hval : trunc (((6000 : short) : Float) * scale_gain r.1 0) = -1200 := by
    rw [hgain, show ((6000 : short) : Float) * (-1 / 5) = ((-1200 : Int) : Float) from by
      norm_num]
    exact trunc_intCast (-1200)
  obtain ⟨out, ho1, ho2⟩ := scalespeech_spec r.1 (Arr.const 6000) (fun i hi0 hi1 =>
    ((closed_const plain 6000 (by constructor <;> norm_num) rfl rfl).scale 6000 _ rfl
      (hg r.1.erasecnt i (by omega) (Or.inr ⟨rfl, by rw [he']; decide⟩) hi0 hi1)).1)
  obtain ⟨r2, h2, _, _, _, _, hout, _, _, _, _, hsc, _⟩ :=
    dofe_spec plain _ _ _ _ (closed_const plain 6000 (by constructor <;> norm_num) rfl rfl) rfl
      r.1 (Arr.const 0) (fun _ => 0) inv (fun h => by omega) hg
  obtain ⟨x, hx, hxe⟩ := hsc (by omega) (Or.inr ⟨rfl, by rw [he']; decide⟩)
  have h660 : r2.1.history.get (780 - 120) = -1200 := by
    have := hxe 0 (by omega) (by omega)
    rw [hx 0 (by omega) (by omega), hL, hF] at this
    rw [show (780 : Int) - 120 = 780 - 120 + 0 from by norm_num, this]
    exact hval
  refine ⟨lc, r, r2, out, hc, hr, he', rfl, haf, hgain, ho1, ?_, h2, h660, ?_⟩
  · rw [ho2 0, if_pos (by omega)]
    exact hval
  · rw [hout 60 (by omega) (by omega), hL, hF, hP]
    exact h660

/-! ## The gain of the attenuation along a burst -/

/-- The gain of `g711plc_scalespeech` does not increase along a burst, read in
the order of the lost frames and, in a frame, of the samples. -/
theorem scale_gain_antitone (lc : LowcFE) (pr : Params lc) (e e' i i' : Int)
    (hi : i < lc.framesz) (hi' : 0 ≤ i') (h : e < e' ∨ (e = e' ∧ i ≤ i')) :
    scale_gain { lc with erasecnt := e' } i' ≤ scale_gain { lc with erasecnt := e } i := by
  have hF : (0 : Float) < (lc.framesz : Float) := by exact_mod_cast pr.framesz
  have ha := pr.attenfac
  have hq : (0 : Float) ≤ lc.attenfac / (lc.framesz : Float) := div_nonneg ha hF.le
  have haf : lc.attenfac = lc.attenfac / (lc.framesz : Float) * (lc.framesz : Float) := by
    field_simp
  have hK : (0 : Int) ≤ (e' - e) * lc.framesz + (i' - i) := by
    rcases h with h | ⟨h1, h2⟩
    · have : lc.framesz ≤ (e' - e) * lc.framesz := by
        have : 1 * lc.framesz ≤ (e' - e) * lc.framesz :=
          Int.mul_le_mul_of_nonneg_right (by omega) (by have := pr.framesz; omega)
        omega
      have := pr.framesz
      omega
    · subst h1
      simp
      omega
  have hKq : (0 : Float) ≤ (((e' - e) * lc.framesz + (i' - i) : Int) : Float) := by
    exact_mod_cast hK
  have key : scale_gain { lc with erasecnt := e } i - scale_gain { lc with erasecnt := e' } i'
      = lc.attenfac / (lc.framesz : Float) *
        (((e' - e) * lc.framesz + (i' - i) : Int) : Float) := by
    show (1 - ((e - 1 : Int) : Float) * lc.attenfac - (i : Float) * lc.attenincr) -
      (1 - ((e' - 1 : Int) : Float) * lc.attenfac - (i' : Float) * lc.attenincr) = _
    rw [pr.attenincr]
    push_cast
    generalize lc.attenfac / (lc.framesz : Float) = a at haf ⊢
    rw [haf]
    ring
  have := mul_nonneg hq hKq
  linarith

/-- Claim C10.  In a build without comfort noise, adaptive pitch and non-linear
attenuation (`fading_count` in `1 .. 10`), for either variant: the gain that
`g711plc_scalespeech` applies to sample `i` of the lost frame entered with
`erasecnt = e` does not increase when `(e, i)` grows in the order of the burst
(later frame, or same frame and later sample); and `g711plc_dofe` applies that
gain: on a history filled with the constant `c`, the frame it commits for the
lost frame entered with `erasecnt = e`, `1 ≤ e ≤ fading_count`, has sample `i`
equal to `c` times that gain, truncated. -/
theorem monotone_decay (E : Env) (hcn : E.COMFORT_NOISE = false)
    (ha : E.G711_ADAPTIVE_PLC = false) (hn : E.NONLINEAR_ATTEN = false)
    (hfc0 : 0 < E.fading_count) (hfc1 : E.fading_count ≤ 10) (lc0 lc : LowcFE)
    (hc : cvsd_g711plc_construct E lc0 = some lc ∨ msbc_g711plc_construct E lc0 = some lc) :
    (∀ e e' i i' : Int, 0 ≤ i → i < lc.framesz → 0 ≤ i' → i' < lc.framesz →
      (e < e' ∨ (e = e' ∧ i ≤ i')) →
      scale_gain { lc with erasecnt := e' } i' ≤ scale_gain { lc with erasecnt := e } i) ∧
    (∀ (c : short) (n : Nat) (fs : List Frame), -32768 ≤ c → c ≤ 32767 →
      lc.historylen ≤ n * lc.framesz → (∀ f, f ∈ fs → f.isLost = true) →
      2 ≤ fs.length → (fs.length : Int) ≤ E.fading_count + 1 →
      ∃ r, plc_run E lc (List.replicate n (Frame.good (Arr.const c)) ++ fs) = some r ∧
        r.1.erasecnt = fs.length ∧
        ∀ i, 0 ≤ i → i < lc.framesz →
          r.1.history.get (lc.historylen - lc.framesz + i) =
            trunc ((c : Float) * scale_gain { lc with erasecnt := (fs.length : Int) - 1 } i)) := by
  have hfq : (1 : Float) ≤ (E.fading_count : Float) := by exact_mod_cast hfc0
  have hfq1 : (E.fading_count : Float) ≤ 10 := by exact_mod_cast hfc1
  have hfacts : Params lc ∧ lc.erasecnt = 0 ∧ GainOK E (fun g => -1 < g ∧ g ≤ 1) lc := by
    rcases hc with hc | hc
    · obtain ⟨lc', h', inv, hF, hL, hP, he, haf, hai, hz⟩ := cvsd_fresh E lc0 (by omega)
        (fun z => z = 0) (fun t => t = 0) rfl
      rw [hc] at h'
      obtain rfl : lc = lc' := by simpa using h'
      refine ⟨inv.params, he, gainOK_of_atten E lc inv.params.framesz ?_ inv.params.attenincr
        ?_ ?_⟩
      · rw [haf]; positivity
      · rw [haf, one_div]
        have : ((E.fading_count : Float))⁻¹ ≤ 1 := inv_le_one_of_one_le₀ hfq
        linarith
      · rw [haf]
        have : (E.fading_count : Float) * (1 / (E.fading_count : Float)) = 1 := by
          field_simp
        linarith
    · obtain ⟨lc', h', inv, hF, hL, hP, he, haf, hai, hsb, hz⟩ := msbc_fresh E lc0
        (fun z => z = 0) (fun t => t = 0) rfl
      rw [hc] at h'
      obtain rfl : lc = lc' := by simpa using h'
      refine ⟨inv.params, he, gainOK_of_atten E lc inv.params.framesz ?_ inv.params.attenincr
        ?_ ?_⟩
      · rw [haf]; norm_num
      · rw [haf]; norm_num
      · rw [haf]; linarith
  obtain ⟨pr, he, hg⟩ := hfacts
  refine ⟨fun e e' i i' _ hi hi' _ h => scale_gain_antitone lc pr e e' i i' hi hi' h,
    fun c n fs hc0 hc1 hfill hl h2 hm => ?_⟩
  obtain ⟨r, h1, inv1, k1, e1, _, t⟩ := const_burst E c ⟨hc0, hc1⟩ ha hn hcn lc pr he hg n
    hfill fs hl
  obtain ⟨c1, c2, c3, c4, c5, c6, c7, c8, c9, c10, c11, c12, c13, c14, c15⟩ :=
    consts_eq r.1 lc k1
  refine ⟨r, h1, e1, fun i hi0 hi1 => ?_⟩
  have hne : fs ≠ [] := by
    intro h
    rw [h] at h2
    simp at h2
  have ht := (t hne i hi0 (by omega)).2.1 (by omega) (Or.inr (by omega))
  rw [c5, c11, c12, c13, e1] at ht
  exact ht

theorem monotone_decay_witness :
    ∃ lc, cvsd_g711plc_construct plain blank = some lc ∧
      scale_gain { lc with erasecnt := 2 } 0 ≤ scale_gain { lc with erasecnt := 1 } 59 := by
  obtain ⟨lc, hc, _, hF, _⟩ := cvsd_fresh plain blank (by decide) (fun z => z = 0)
    (fun t => t = 0) rfl
  exact ⟨lc, hc, (monotone_decay plain rfl rfl rfl (by decide) (by decide) blank lc
    (Or.inl hc)).1 1 2 59 0 (by omega) (by omega) (by omega) (by omega) (Or.inl (by omega))⟩

/-! ## The linear predictor and the pitch copy of `plc.c` -/

/-- A loop that adds to one cell of an array. -/
theorem forLoop_accum (f : Int → Float) (i : Int) (n : Nat) (ac : Arr Float) (j : Int) :
    (forLoop (fun k (ac : Arr Float) => ac.set i (ac.get i + f k)) n ac).get j =
      if j = i then forLoop (fun k acc => acc + f k) n (ac.get i) else ac.get j := by
  induction n generalizing j with
  | zero =>
    simp only [forLoop]
    split_ifs with h
    · rw [h]
    · rfl
  | succ m ih =>
    simp only [forLoop, Arr.get_set]
    by_cases h : j = i
    · rw [if_pos h, if_pos h, ih i, if_pos rfl]
    · rw [if_neg h, if_neg h, ih j, if_neg h]

theorem forLoop_accum_shift (f : Int → Float) (n : Nat) (a : Float) :
    forLoop (fun k acc => acc + f k) n a = a + forLoop (fun k acc => acc + f k) n 0 := by
  induction n with
  | zero => simp [forLoop]
  | succ m ih =>
    simp only [forLoop]
    rw [ih]
    ring

theorem forLoop_intCast (f : Int → Int) (n : Nat) :
    forLoop (fun k (acc : Float) => acc + ((f k : Int) : Float)) n 0 =
      ((forLoop (fun k acc => acc + f k) n (0 : Int) : Int) : Float) := by
  induction n with
  | zero => simp [forLoop]
  | succ m ih =>
    simp only [forLoop]
    rw [ih]
    push_cast
    rfl

/-- The entry `autocorr[0]` of `compute_lpc` is the sum of the squares of the
samples. -/
theorem lpc_autocorr_zero (samples : Arr short) (m : Int) (hm : 0 ≤ m) :
    (lpc_autocorr samples m).get 0 = ((sum_squares samples : Int) : Float) := by
  unfold lpc_autocorr
  have key := forLoop_inv
    (fun (i : Int) (ac : Arr Float) =>
      forLoop (fun j (ac : Arr Float) =>
        ac.set i (ac.get i + ((samples.get j * samples.get (j + i) : Int) : Float)))
        (FRAME_SIZE - i).toNat ac)
    (fun k ac => (k = 0 → ac.get 0 = 0) ∧
      (1 ≤ k → ac.get 0 = ((sum_squares samples : Int) : Float)))
    (m + 1).toNat (Arr.const 0) ⟨fun _ => rfl, fun h => by omega⟩
    (fun k ac hk hp => by
      refine ⟨fun h => by omega, fun _ => ?_⟩
      rw [forLoop_accum (fun j => ((samples.get j * samples.get (j + (k : Int)) : Int) : Float))]
      by_cases h0 : k = 0
      · subst h0
        simp only [Nat.cast_zero]
        rw [if_pos trivial, hp.1 rfl, forLoop_intCast]
        simp only [add_zero, sub_zero]
        rfl
      · rw [if_neg (by omega)]
        exact hp.2 (by omega))
  exact key.2 (by omega)

theorem sum_squares_zero_iff (samples : Arr short) :
    0 ≤ sum_squares samples ∧
      (sum_squares samples = 0 ↔ ∀ j, 0 ≤ j → j < FRAME_SIZE → samples.get j = 0) := by
  unfold sum_squares
  have key := forLoop_inv (fun (j : Int) (acc : Int) => acc + samples.get j * samples.get j)
    (fun k acc => 0 ≤ acc ∧ (acc = 0 ↔ ∀ j : Int, 0 ≤ j → j < k → samples.get j = 0))
    FRAME_SIZE.toNat 0 ⟨le_refl _, by simp; intro j h0 h1; omega⟩
    (fun k acc hk hp => by
      have hsq : (0 : Int) ≤ samples.get k * samples.get k := by
        have := sq_nonneg (samples.get k)
        nlinarith
      have hp1 : 0 ≤ acc := hp.1
      have hp2 : acc = 0 ↔ ∀ j : Int, 0 ≤ j → j < k → samples.get j = 0 := hp.2
      show 0 ≤ acc + samples.get k * samples.get k ∧
        (acc + samples.get k * samples.get k = 0 ↔
          ∀ j : Int, 0 ≤ j → j < ((k + 1 : Nat) : Int) → samples.get j = 0)
      refine ⟨by omega, ?_⟩
      constructor
      · intro h j hj0 hj1
        have hacc : acc = 0 := by omega
        have hk0 := h
        rw [hacc, zero_add] at hk0
        by_cases hjk : j = k
        · rw [hjk]
          exact mul_self_eq_zero.mp hk0
        · exact hp2.mp hacc j hj0 (by push_cast at hj1; omega)
      · intro h
        have h1 : acc = 0 := hp2.mpr (fun j hj0 hj1 => h j hj0 (by push_cast; omega))
        have h2 : samples.get k = 0 := h k (by omega) (by push_cast; omega)
        rw [h1, h2]
        rfl)
  refine ⟨key.1, key.2.trans ?_⟩
  have : ((FRAME_SIZE.toNat : Nat) : Int) = FRAME_SIZE := by decide
  rw [this]

/-- The frames that take the zero-energy exit of `compute_lpc` are the all-zero
frames. -/
theorem lpc_autocorr_small_iff (samples : Arr short) (m : Int) (hm : 0 ≤ m) :
    (lpc_autocorr samples m).get 0 < 1 / 1000000 ↔
      ∀ j, 0 ≤ j → j < FRAME_SIZE → samples.get j = 0 := by
  rw [lpc_autocorr_zero samples m hm, ← (sum_squares_zero_iff samples).2]
  have h0 := (sum_squares_zero_iff samples).1
  constructor
  · intro h
    by_contra hne
    have h1 : (1 : Int) ≤ sum_squares samples := by omega
    have h2 : (1 : Float) ≤ ((sum_squares samples : Int) : Float) := by exact_mod_cast h1
    have : (1 : Float) / 1000000 < 1 := by norm_num
    linarith
  · intro h
    rw [h]
    norm_num

theorem memset0_get (a : Arr Float) (n j : Int) :
    (memset0 a n).get j = if 0 ≤ j ∧ j < n then 0 else a.get j := by
  unfold memset0
  have := forLoop_set_get (fun _ => (0 : Float)) 0 n.toNat a j
  simp only [zero_add] at this
  rw [this]
  by_cases h : 0 ≤ j ∧ j < n
  · rw [if_pos h, if_pos (by omega)]
  · rw [if_neg h, if_neg (by omega)]

/-- The zero-energy exit of `compute_lpc`. -/
theorem compute_lpc_zero (fdiv : Float → Float → Float) (samples : Arr short)
    (lpc_coeffs : Arr Float) (is_unvoiced : Bool)
    (hz : ∀ j, 0 ≤ j → j < FRAME_SIZE → samples.get j = 0) :
    compute_lpc fdiv samples lpc_coeffs is_unvoiced =
      ((memset0 lpc_coeffs ((if is_unvoiced then 6 else MAX_LPC_ORDER) + 1)).set 0 1,
        MIN_LPC_ORDER) := by
  unfold compute_lpc
  simp only []
  rw [if_pos]
  exact (lpc_autocorr_small_iff samples _ (by cases is_unvoiced <;> decide)).mpr hz

/-- Claim C18, as it holds.  For the all-zero frame, for either value of
`is_unvoiced`, whatever the coefficient buffer held before and whatever a
division would give, `compute_lpc` returns the order `MIN_LPC_ORDER = 4` with
`lpc_coeffs[0] = 1` and `lpc_coeffs[k] = 0` for `k` in `1 .. max_order`, where
`max_order` is 6 for an unvoiced frame and `MAX_LPC_ORDER = 12` otherwise; the
other cells of the buffer keep what they held.  The all-zero frames are the only
frames whose `autocorr[0]` is below `1e-6`. -/
theorem zero_energy_lpc (fdiv : Float → Float → Float) (samples : Arr short)
    (lpc_coeffs : Arr Float) (is_unvoiced : Bool)
    (hz : ∀ j, 0 ≤ j → j < FRAME_SIZE → samples.get j = 0) :
    (compute_lpc fdiv samples lpc_coeffs is_unvoiced).2 = MIN_LPC_ORDER ∧
    MIN_LPC_ORDER = 4 ∧
    (compute_lpc fdiv samples lpc_coeffs is_unvoiced).1.get 0 = 1 ∧
    (∀ k, 1 ≤ k → k ≤ (if is_unvoiced then 6 else MAX_LPC_ORDER) →
      (compute_lpc fdiv samples lpc_coeffs is_unvoiced).1.get k = 0) ∧
    (∀ k, k < 0 ∨ (if is_unvoiced then 6 else MAX_LPC_ORDER) < k →
      (compute_lpc fdiv samples lpc_coeffs is_unvoiced).1.get k = lpc_coeffs.get k) ∧
    (∀ (s : Arr short) (u : Bool),
      (lpc_autocorr s (if u then 6 else MAX_LPC_ORDER)).get 0 < 1 / 1000000 ↔
        ∀ j, 0 ≤ j → j < FRAME_SIZE → s.get j = 0) := by
  rw [compute_lpc_zero fdiv samples lpc_coeffs is_unvoiced hz]
  refine ⟨rfl, rfl, ?_, fun k h1 h2 => ?_, fun k h => ?_, fun s u => ?_⟩
  · simp [Arr.get_set]
  · show ((memset0 lpc_coeffs _).set 0 1).get k = 0
    rw [Arr.get_set, if_neg (by omega), memset0_get, if_pos (by omega)]
  · show ((memset0 lpc_coeffs _).set 0 1).get k = _
    have hm : (0 : Int) ≤ (if is_unvoiced then 6 else MAX_LPC_ORDER) := by
      cases is_unvoiced <;> decide
    rw [Arr.get_set, if_neg (by omega), memset0_get, if_neg (by omega)]
  · exact lpc_autocorr_small_iff s _ (by cases u <;> decide)

theorem zero_energy_lpc_witness :
    (compute_lpc (fun a b => a / b) (Arr.const 0) (Arr.const 5) false).2 = 4 ∧
    (compute_lpc (fun a b => a / b) (Arr.const 0) (Arr.const 5) false).1.get 12 = 0 :=
  ⟨(zero_energy_lpc (fun a b => a / b) (Arr.const 0) (Arr.const 5) false
      (fun _ _ _ => rfl)).1,
    (zero_energy_lpc (fun a b => a / b) (Arr.const 0) (Arr.const 5) false
      (fun _ _ _ => rfl)).2.2.2.1 12 (by decide) (by decide)⟩

/-- Claim C18, as stated, fails.  For an unvoiced all-zero frame `compute_lpc`
clears the cells `0 .. 6` only: a buffer that held 5 everywhere still holds 5 in
the cells `7 .. 12`. -/
theorem zero_energy_lpc_counterexample :
    (compute_lpc (fun a b => a / b) (Arr.const 0) (Arr.const 5) true).2 = 4 ∧
    (compute_lpc (fun a b => a / b) (Arr.const 0) (Arr.const 5) true).1.get 6 = 0 ∧
    (compute_lpc (fun a b => a / b) (Arr.const 0) (Arr.const 5) true).1.get 7 = 5 ∧
    (compute_lpc (fun a b => a / b) (Arr.const 0) (Arr.const 5) true).1.get 12 = 5 ∧
    (7 : Int) ≤ MAX_LPC_ORDER := by
  rw [compute_lpc_zero _ _ _ _ (fun _ _ _ => rfl)]
  refine ⟨rfl, ?_, ?_, ?_, by decide⟩
  · show ((memset0 (Arr.const 5) _).set 0 1).get 6 = 0
    rw [Arr.get_set, if_neg (by decide), memset0_get, if_pos (by decide)]
  · show ((memset0 (Arr.const 5) _).set 0 1).get 7 = 5
    rw [Arr.get_set, if_neg (by decide), memset0_get, if_neg (by decide)]
    rfl
  · show ((memset0 (Arr.const 5) _).set 0 1).get 12 = 5
    rw [Arr.get_set, if_neg (by decide), memset0_get, if_neg (by decide)]
    rfl

/-- The remainder of C for a negative dividend. -/
theorem tmod_of_neg (x b : Int) (hx : x < 0) (hb : 0 < b) :
    Int.tmod x b = -((-x) % b) := by
  obtain ⟨k, hk⟩ : ∃ k : Nat, x = Int.negSucc k := by
    refine ⟨(-x - 1).toNat, ?_⟩
    rw [Int.negSucc_eq]
    omega
  obtain ⟨m, hm⟩ := Int.eq_ofNat_of_zero_le (le_of_lt hb)
  subst hk hm
  rw [Int.neg_negSucc]
  rfl

theorem pitch_copy_pos_spec (T i : Int) (hT0 : PITCH_MIN ≤ T) (hT1 : T ≤ PITCH_MAX)
    (hi0 : 0 ≤ i) (hi1 : i < FRAME_SIZE) :
    pitch_copy_pos T i < FRAME_SIZE ∧
    (0 ≤ pitch_copy_pos T i ↔ T ≤ i + FRAME_SIZE ∨ T = i + 2 * FRAME_SIZE) ∧
    (0 ≤ pitch_copy_pos T i → pitch_copy_pos T i = (i - T) % FRAME_SIZE) := by
  have h1 : PITCH_MIN = 20 := rfl
  have h2 : PITCH_MAX = 160 := rfl
  have h3 : FRAME_SIZE = 60 := rfl
  rw [h1] at hT0
  rw [h2] at hT1
  rw [h3] at hi1
  unfold pitch_copy_pos
  rw [h3]
  by_cases hx : 0 ≤ i - T + 60
  · rw [Int.tmod_eq_emod hx (by decide)]
    refine ⟨by omega, ⟨fun _ => Or.inl (by omega), fun _ => by omega⟩, fun _ => by omega⟩
  · rw [tmod_of_neg _ _ (by omega) (by decide)]
    refine ⟨by omega, ⟨fun h => ?_, fun h => by omega⟩, fun h => by omega⟩
    right
    omega

theorem forLoopM_none {σ : Type} (body : Int → σ → Option σ) (k : Nat)
    (hk : ∀ s, body k s = none) :
    ∀ (n : Nat) (s : σ), k < n → forLoopM body n s = none := by
  intro n
  induction n with
  | zero => intro s h; omega
  | succ m ih =>
    intro s h
    simp only [forLoopM]
    by_cases hm : k < m
    · rw [ih s hm]
      rfl
    · have : k = m := by omega
      subst this
      cases forLoopM body k s with
      | none => rfl
      | some s' => exact hk s'

/-- The pitch-copy loop has no result for a period above `FRAME_SIZE`: it reads
before the start of `history->pcm`. -/
theorem pitch_copy_loop_none (pcm pitch_copy : Arr short) (T : Int) (h0 : FRAME_SIZE < T)
    (h1 : T ≤ PITCH_MAX) : pitch_copy_loop pcm T pitch_copy = none := by
  have h3 : FRAME_SIZE = 60 := rfl
  have h2 : PITCH_MAX = 160 := rfl
  rw [h3] at h0
  rw [h2] at h1
  unfold pitch_copy_loop
  by_cases hT : T = 120
  · refine forLoopM_none _ 1 (fun s => ?_) _ _ (by decide)
    have : pitch_copy_pos T ((1 : Nat) : Int) = -59 := by
      rw [hT]
      decide
    simp only [this, readIn]
    rfl
  · refine forLoopM_none _ 0 (fun s => ?_) _ _ (by decide)
    have hneg : ¬ (0 ≤ pitch_copy_pos T ((0 : Nat) : Int)) := by
      rw [(pitch_copy_pos_spec T ((0 : Nat) : Int) (by rw [show PITCH_MIN = 20 from rfl]; omega)
        (by rw [h2]; omega) (by decide) (by decide)).2.1]
      rw [h3]
      push_cast
      omega
    simp only [readIn]
    rw [if_neg (fun h => hneg h.1)]
    rfl

/-- The pitch-copy loop for a period of at most `FRAME_SIZE`. -/
theorem pitch_copy_loop_some (pcm pitch_copy : Arr short) (T : Int) (h0 : PITCH_MIN ≤ T)
    (h1 : T ≤ FRAME_SIZE) :
    ∃ r, pitch_copy_loop pcm T pitch_copy = some r ∧
      ∀ i, 0 ≤ i → i < FRAME_SIZE → r.get i = pcm.get ((i - T) % FRAME_SIZE) := by
  have h3 : FRAME_SIZE = 60 := rfl
  have h2 : PITCH_MIN = 20 := rfl
  unfold pitch_copy_loop
  obtain ⟨r, hr, hp⟩ := forLoopM_inv
    (fun (i : Int) (pc : Arr short) =>
      (readIn pcm FRAME_SIZE (pitch_copy_pos T i)).bind (fun v => some (pc.set i v)))
    (fun k pc => ∀ i : Int, 0 ≤ i → i < k → pc.get i = pcm.get ((i - T) % FRAME_SIZE))
    FRAME_SIZE.toNat pitch_copy (fun i hi0 hi1 => by omega)
    (fun k pc hk hp => by
      have hk' : (k : Int) < FRAME_SIZE := by
        have : ((FRAME_SIZE.toNat : Nat) : Int) = FRAME_SIZE := by decide
        omega
      obtain ⟨p1, p2, p3⟩ := pitch_copy_pos_spec T k (by omega)
        (by rw [show PITCH_MAX = 160 from rfl]; omega) (by omega) hk'
      have hpos : 0 ≤ pitch_copy_pos T k := p2.mpr (Or.inl (by omega))
      refine ⟨pc.set k (pcm.get (pitch_copy_pos T k)), ?_, fun i hi0 hi1 => ?_⟩
      · simp only [readIn]
        rw [if_pos ⟨hpos, p1⟩]
        rfl
      · rw [Arr.get_set]
        by_cases hik : i = k
        · rw [if_pos hik, p3 hpos, hik]
        · rw [if_neg hik]
          exact hp i hi0 (by push_cast at hi1; omega))
  exact ⟨r, hr, fun i hi0 hi1 => hp i hi0 (by
    have : ((FRAME_SIZE.toNat : Nat) : Int) = FRAME_SIZE := by decide
    omega)⟩

/-- Claim C20.  The index of the pitch copy of `conceal_lost_frame` leaves the
frame.  With the remainder of C, `(i - T + FRAME_SIZE) % FRAME_SIZE` is `-40` for
`T = 160` and `i = 0`, where `(i - T) mod FRAME_SIZE` is 20; for `T` in
`[PITCH_MIN, PITCH_MAX]` and `i` in `[0, FRAME_SIZE)` the index is below
`FRAME_SIZE`, it is non-negative exactly when `T ≤ i + FRAME_SIZE` or
`T = i + 2 * FRAME_SIZE`, and it is `(i - T) mod FRAME_SIZE` in that case.  So
the loop reads before the start of `history->pcm` for every `T` above `FRAME_SIZE`
and stays inside the frame for `T ≤ FRAME_SIZE`. -/
theorem pitch_copy_out_of_frame :
    PITCH_MIN ≤ 160 ∧ 160 ≤ PITCH_MAX ∧ (0 : Int) < FRAME_SIZE ∧
    pitch_copy_pos 160 0 = -40 ∧ (0 - 160 : Int) % FRAME_SIZE = 20 ∧
    (∀ pcm pitch_copy, pitch_copy_loop pcm 160 pitch_copy = none) ∧
    (∀ T i, PITCH_MIN ≤ T → T ≤ PITCH_MAX → 0 ≤ i → i < FRAME_SIZE →
      pitch_copy_pos T i < FRAME_SIZE ∧
      (0 ≤ pitch_copy_pos T i ↔ T ≤ i + FRAME_SIZE ∨ T = i + 2 * FRAME_SIZE) ∧
      (0 ≤ pitch_copy_pos T i → pitch_copy_pos T i = (i - T) % FRAME_SIZE)) ∧
    (∀ T pcm pitch_copy, FRAME_SIZE < T → T ≤ PITCH_MAX →
      pitch_copy_loop pcm T pitch_copy = none) ∧
    (∀ T pcm pitch_copy, PITCH_MIN ≤ T → T ≤ FRAME_SIZE →
      ∃ r, pitch_copy_loop pcm T pitch_copy = some r ∧
        ∀ i, 0 ≤ i → i < FRAME_SIZE → r.get i = pcm.get ((i - T) % FRAME_SIZE)) :=
  ⟨by decide, by decide, by decide, by decide, by decide,
    fun pcm pc => pitch_copy_loop_none pcm pc 160 (by decide) (by decide),
    fun T i h1 h2 h3 h4 => pitch_copy_pos_spec T i h1 h2 h3 h4,
    fun T pcm pc h1 h2 => pitch_copy_loop_none pcm pc T h1 h2,
    fun T pcm pc h1 h2 => pitch_copy_loop_some pcm pc T h1 h2⟩

/-- The pass for order 2 of `compute_lpc` adds `reflection * lpc_coeffs[1]` to
`lpc_coeffs[1]` twice. -/
theorem lpc_update_two (a : Arr Float) (k : Float) :
    (lpc_update a 2 k).get 1 = a.get 1 + k * a.get 1 + k * (a.get 1) := by
  unfold lpc_update
  have h : ((2 : Int) / 2).toNat = 1 := by decide
  rw [h]
  simp only [forLoop, Arr.get_set]
  norm_num

set_option maxRecDepth 100000 in
/-- Claim C19.  The coefficients that `compute_lpc` returns do not solve the
normal equations.  For the frame that holds 1 at the indices 0 and 1 (energy 2,
`R[0] = 2`, `R[1] = 1`), unvoiced, in exact arithmetic: every prediction error
of the recursion is non-zero, the order returned is 6, and the left side of the
normal equation 1 is `-139/840`, not 0.  The pass for order 2 updates the middle
coefficient twice: it leaves `a[1] * (1 + 2 * k)` where the recursion of Levinson
and Durbin has `a[1] * (1 + k)`. -/
theorem levinson_double_update :
    sum_squares unit_pair = 2 ∧
    (lpc_autocorr unit_pair 6).get 0 = 2 ∧ (lpc_autocorr unit_pair 6).get 1 = 1 ∧
    (∀ n : Nat, n ≤ 6 →
      (forLoop (fun ii st =>
          levinson_pass (fun a b => a / b) (lpc_autocorr unit_pair 6) true (1 + ii) st) n
        { lpc_coeffs := (Arr.const 0).set 0 1, error := (lpc_autocorr unit_pair 6).get 0,
          optimal_order := 6, done := false }).error ≠ 0) ∧
    (compute_lpc (fun a b => a / b) unit_pair (Arr.const 0) true).2 = 6 ∧
    (compute_lpc (fun a b => a / b) unit_pair (Arr.const 0) true).1.get 0 = 1 ∧
    (compute_lpc (fun a b => a / b) unit_pair (Arr.const 0) true).1.get 1 = -43 / 42 ∧
    (compute_lpc (fun a b => a / b) unit_pair (Arr.const 0) true).1.get 2 = 247 / 280 ∧
    normal_eq (lpc_autocorr unit_pair 6)
      (compute_lpc (fun a b => a / b) unit_pair (Arr.const 0) true).1 6 1 = -139 / 840 ∧
    (∀ (a : Arr Float) (k : Float),
      (lpc_update a 2 k).get 1 = a.get 1 + k * a.get 1 + k * a.get 1) := by
  refine ⟨by decide!, by decide!, by decide!, by decide!, by decide!, by decide!, by decide!,
    by decide!, by decide!, lpc_update_two⟩

/-! ## The periodic draw and the end of an erasure -/

/-- Claim C13.  In a state with `0 ≤ poffset < pitchblen` whose pitch buffer
holds, between `pitchbufstart` and `pitchbufstart + pitchblen`, samples that
truncate to 16-bit values, as it does whenever `g711plc_getfespeech` is called
(the buffer is filled with converted 16-bit samples and with sums clamped to
16 bits), for every `sz ≥ 0`:
`g711plc_getfespeech` has a result, writes
`out[i] = trunc(pitchbufstart[(poffset + i) mod pitchblen])` for `i < sz`, leaves
the rest of `out` and the pitch buffer unchanged, and sets `poffset` to
`(poffset + sz) mod pitchblen`; no other field changes. -/
theorem periodic_draw (lc : LowcFE) (out : Arr short) (sz : Int) (h0 : 0 ≤ sz)
    (hp0 : 0 ≤ lc.poffset) (hp1 : lc.poffset < lc.pitchblen)
    (hr : ∀ j, 0 ≤ j → j < lc.pitchblen →
      -32768 ≤ trunc (lc.pitchbuf.get (lc.pitchbufstart + j)) ∧
        trunc (lc.pitchbuf.get (lc.pitchbufstart + j)) ≤ 32767) :
    ∃ r, g711plc_getfespeech lc out sz = some r ∧
      r.1 = { lc with poffset := (lc.poffset + sz) % lc.pitchblen } ∧
      r.1.pitchbuf = lc.pitchbuf ∧
      (∀ i, 0 ≤ i → i < sz →
        r.2.get i =
          trunc (lc.pitchbuf.get (lc.pitchbufstart + (lc.poffset + i) % lc.pitchblen))) ∧
      (∀ i, i < 0 ∨ sz ≤ i → r.2.get i = out.get i) := by
  obtain ⟨out', h1, h2⟩ := getfespeech_spec lc out sz h0 hp0 hp1 hr
  refine ⟨_, h1, rfl, rfl, fun i hi0 hi1 => ?_, fun i hi => ?_⟩
  · show out'.get i = _
    rw [h2, if_pos ⟨hi0, hi1⟩]
  · show out'.get i = _
    rw [h2, if_neg (by omega)]

theorem end_gain_eq_max (lc : LowcFE) :
    end_gain lc = max 0 (1 - ((lc.erasecnt - 1 : Int) : Float) * lc.attenfac) := by
  unfold end_gain
  split_ifs with h
  · rw [max_eq_left (le_of_lt h)]
  · rw [max_eq_right (not_lt.mp h)]

theorem end_olen_eq_min (lc : LowcFE) :
    end_olen lc = min lc.framesz (lc.poverlap + lc.erasecnt * lc.eoverlapincr + lc.sbcrt) := by
  unfold end_olen
  have : lc.erasecnt + 1 - 1 = lc.erasecnt := by omega
  rw [this]
  split_ifs with h
  · rw [min_eq_left (by omega)]
  · rw [min_eq_right (by omega)]

/-- The first good frame after an erasure, in every build: the call has a result
when the samples of the pitch buffer truncate to 16-bit values, and the frame
committed to the history is the scaled periodic draw below `sbcrt`, the blend of
the draw and the frame below `olen`, and the frame from `olen` on. -/
theorem addtohistory_end (E : Env) (lc : LowcFE) (s : Arr short) (pr : Params lc)
    (he : 1 ≤ lc.erasecnt) (hpo : 1 ≤ lc.poverlap) (hp0 : 0 ≤ lc.poffset)
    (hp1 : lc.poffset < lc.pitchblen)
    (hr : ∀ j, 0 ≤ j → j < lc.pitchblen →
      inRange (lc.pitchbuf.get (lc.pitchbufstart + j))) :
    ∃ r, g711plc_addtohistory E lc s = some r ∧ r.1.erasecnt = 0 ∧
      r.1.poffset = (lc.poffset + end_olen lc) % lc.pitchblen ∧
      r.1.pitchbuf = lc.pitchbuf ∧ consts r.1 = consts lc ∧
      (∀ i, 0 ≤ i → i < lc.framesz →
        r.2.get i = r.1.history.get (lc.historylen - lc.framesz - lc.poverlapmax + i)) ∧
      ∀ i, 0 ≤ i → i < lc.framesz →
        r.1.history.get (lc.historylen - lc.framesz + i) =
          if i < lc.sbcrt then
            trunc (end_gain lc * ((trunc (lc.pitchbuf.get
              (lc.pitchbufstart + (lc.poffset + i) % lc.pitchblen)) : Int) : Float))
          else if i < end_olen lc then
            trunc (clamp16 (end_lw lc (end_olen lc) i * ((trunc (lc.pitchbuf.get
                (lc.pitchbufstart + (lc.poffset + i) % lc.pitchblen)) : Int) : Float)
              + end_rw lc (end_olen lc) i * (s.get i : Float)))
          else s.get i := by
  have hF := pr.framesz
  have hs0 := pr.sbcrt
  obtain ⟨ho0, ho1⟩ := end_olen_bounds lc pr he hpo
  obtain ⟨hg0, hg1⟩ := end_gain_bounds lc he pr.attenfac
  obtain ⟨f, hf, hfv⟩ := getfespeech_spec lc (Arr.const 0) (end_olen lc) (by omega) hp0 hp1 hr
  have hfr : ∀ i, 0 ≤ i → i < end_olen lc → -32768 ≤ f.get i ∧ f.get i ≤ 32767 := by
    intro i hi0 hi1
    rw [hfv, if_pos ⟨hi0, hi1⟩]
    exact hr _ (Int.emod_nonneg _ (by omega)) (Int.emod_lt_of_pos _ (by omega))
  obtain ⟨s', hs', hsv⟩ := overlapaddatend_spec
    { lc with poffset := (lc.poffset + end_olen lc) % lc.pitchblen } s f (end_olen lc) hs0
    (fun i hi0 hi1 => ((closed_int16 E).gain (f.get i) _
      (hfr i hi0 (by have : i < lc.sbcrt := hi1; omega)) hg0 hg1).1)
  have hsv : ∀ j, s'.get j =
      if 0 ≤ j ∧ j < lc.sbcrt then trunc (end_gain lc * (f.get j : Float))
      else if lc.sbcrt ≤ j ∧ j < end_olen lc then
        trunc (clamp16 (end_lw lc (end_olen lc) j * (f.get j : Float)
          + end_rw lc (end_olen lc) j * (s.get j : Float)))
      else s.get j := hsv
  have hsv' : ∀ i, 0 ≤ i → i < lc.framesz → s'.get i =
      if i < lc.sbcrt then
        trunc (end_gain lc * ((trunc (lc.pitchbuf.get
          (lc.pitchbufstart + (lc.poffset + i) % lc.pitchblen)) : Int) : Float))
      else if i < end_olen lc then
        trunc (clamp16 (end_lw lc (end_olen lc) i * ((trunc (lc.pitchbuf.get
            (lc.pitchbufstart + (lc.poffset + i) % lc.pitchblen)) : Int) : Float)
          + end_rw lc (end_olen lc) i * (s.get i : Float)))
      else s.get i := by
    intro i hi0 hi1
    rw [hsv i]
    by_cases h1 : i < lc.sbcrt
    · rw [if_pos ⟨hi0, h1⟩, if_pos h1, hfv, if_pos ⟨hi0, by omega⟩]
    · rw [if_neg (fun h => h1 h.2), if_neg h1]
      by_cases h2 : i < end_olen lc
      · rw [if_pos ⟨by omega, h2⟩, if_pos h2, hfv,
          if_pos ⟨hi0, h2⟩]
      · rw [if_neg (fun h => h2 h.2), if_neg h2]
  have hbranch : (if lc.erasecnt ≠ 0 then
        (g711plc_getfespeech lc (Arr.const 0) (end_olen lc)).bind (fun r =>
          (g711plc_overlapaddatend r.1 s r.2 (end_olen lc)).bind (fun s =>
            some ({ r.1 with erasecnt := 0 }, s)))
      else some (lc, s)) =
      some ({ lc with poffset := (lc.poffset + end_olen lc) % lc.pitchblen, erasecnt := 0 },
        s') := by
    rw [if_pos (by omega), hf]
    simp only [Option.some_bind]
    rw [hs']
    rfl
  have htail : ∀ (st : LowcFE), st.framesz = lc.framesz → st.historylen = lc.historylen →
      ∀ i, 0 ≤ i → i < lc.framesz →
        (g711plc_savespeech st s').1.history.get (lc.historylen - lc.framesz + i) = s'.get i := by
    intro st h1 h2 i hi0 hi1
    rw [savespeech_history_get st s' (by omega), h1, h2, if_neg (by omega), if_pos (by omega)]
    congr 1
    omega
  have hout : ∀ (st : LowcFE), st.framesz = lc.framesz → st.historylen = lc.historylen →
      st.poverlapmax = lc.poverlapmax → ∀ i, 0 ≤ i → i < lc.framesz →
        (g711plc_savespeech st s').2.get i =
          (g711plc_savespeech st s').1.history.get
            (lc.historylen - lc.framesz - lc.poverlapmax + i) := by
    intro st h1 h2 h3 i hi0 hi1
    rw [savespeech_out_get, h1, h2, h3, if_pos ⟨hi0, hi1⟩]
  cases hcn : E.COMFORT_NOISE
  · refine ⟨g711plc_savespeech
      { lc with poffset := (lc.poffset + end_olen lc) % lc.pitchblen, erasecnt := 0 } s', (by
        unfold g711plc_addtohistory
        simp only []
        have hb := hbranch
        unfold end_olen at hb
        rw [hb, hcn]
        simp only [Option.some_bind, Bool.false_eq_true, if_false]
        rfl), rfl, rfl, rfl, rfl, fun i hi0 hi1 => hout _ rfl rfl rfl i hi0 hi1,
      fun i hi0 hi1 => ?_⟩
    exact (htail _ rfl rfl i hi0 hi1).trans (hsv' i hi0 hi1)
  · refine ⟨g711plc_savespeech
      { lc with
        poffset := (lc.poffset + end_olen lc) % lc.pitchblen, erasecnt := 0,
        cng := { lc.cng with lpc_coeff := lpc_analysis s' lc.framesz lc.cng.lpc_coeff } } s', (by
        unfold g711plc_addtohistory
        simp only []
        have hb := hbranch
        unfold end_olen at hb
        rw [hb, hcn]
        simp only [Option.some_bind, if_true]
        rfl), rfl, rfl, rfl, rfl, fun i hi0 hi1 => hout _ rfl rfl rfl i hi0 hi1,
      fun i hi0 hi1 => ?_⟩
    exact (htail _ rfl rfl i hi0 hi1).trans (hsv' i hi0 hi1)

/-- While an erasure lasts, the periodic draw is defined in a state that satisfies
the invariant. -/
theorem Inv.draw {E : Env} {H : short → Prop} {VF : Float → Prop} {V : short → Prop}
    {G : Float → Prop} (cl : Closed E H VF V G) {lc : LowcFE} (inv : Inv H VF lc)
    (he : 1 ≤ lc.erasecnt) :
    1 ≤ lc.poverlap ∧ 0 ≤ lc.poffset ∧ lc.poffset < lc.pitchblen ∧
      ∀ j, 0 ≤ j → j < lc.pitchblen → inRange (lc.pitchbuf.get (lc.pitchbufstart + j)) := by
  have b := inv.burst (by omega)
  have pr := inv.params
  have h1 := pr.pitch_min
  have h2 := b.pitch_lo
  have h3 := b.pitch_hi
  have h4 := b.poverlap
  have h5 := b.blen_hi
  have h6 := b.start
  have h7 := pr.pitchbufend
  have h8 := pr.historylen
  have h9 := pr.poverlapmax
  have h10 := b.blen_lo
  refine ⟨by omega, b.poffset_lo, b.poffset_hi, fun j hj0 hj1 => ?_⟩
  exact cl.inRange _ (b.pitchbuf _ (by omega) (by omega))

theorem periodic_draw_witness :
    ∃ lc r res, cvsd_g711plc_construct plain blank = some lc ∧
      plc_run plain lc (List.replicate 7 (Frame.good (Arr.const 6000)) ++
        List.replicate 1 (Frame.lost (Arr.const 0) (fun _ => 0))) = some r ∧
      r.1.erasecnt = 1 ∧ 0 ≤ r.1.poffset ∧ r.1.poffset < r.1.pitchblen ∧
      g711plc_getfespeech r.1 (Arr.const 7) 5 = some res ∧
      res.1.poffset = (r.1.poffset + 5) % r.1.pitchblen ∧ res.1.pitchbuf = r.1.pitchbuf ∧
      (∀ i, 0 ≤ i → i < 5 → res.2.get i =
        trunc (r.1.pitchbuf.get (r.1.pitchbufstart + (r.1.poffset + i) % r.1.pitchblen))) ∧
      res.2.get 5 = 7 := by
  obtain ⟨lc, r, hc, hr, inv, hg, hF, hL, hP, haf, hai, he, t⟩ :=
    cvsd_6000 (List.replicate 1 (Frame.lost (Arr.const 0) (fun _ => 0)))
      (fun f hf => by rw [List.eq_of_mem_replicate hf]; rfl)
  have he' : r.1.erasecnt = 1 := by
    rw [he]
    rfl
  obtain ⟨d1, d2, d3, d4⟩ := Inv.draw
    (closed_const plain 6000 (by constructor <;> norm_num) rfl rfl) inv (by omega)
  obtain ⟨res, h, h1, h2, h3, h4⟩ := periodic_draw r.1 (Arr.const 7) 5 (by decide) d2 d3 d4
  refine ⟨lc, r, res, hc, hr, he', d2, d3, h, by rw [h1], h2, h3, ?_⟩
  rw [h4 5 (Or.inr (by decide))]
  rfl

/-- Claim C12.  In every build, in a state in which an erasure lasts
(`erasecnt ≥ 1`, the fields of a constructor, the pitch buffer holding samples
that truncate to 16-bit values), `g711plc_addtohistory` has a result for every
frame `s`; with `olen = min(framesz, poverlap + erasecnt * eoverlapincr + sbcrt)`,
every sample `s[i]` with `olen ≤ i < framesz` is committed to the end of the
history unchanged, and is handed back `poverlapmax` samples later. -/
theorem end_of_erasure_frame (E : Env) (lc : LowcFE) (s : Arr short) (pr : Params lc)
    (he : 1 ≤ lc.erasecnt) (hpo : 1 ≤ lc.poverlap) (hp0 : 0 ≤ lc.poffset)
    (hp1 : lc.poffset < lc.pitchblen)
    (hr : ∀ j, 0 ≤ j → j < lc.pitchblen →
      -32768 ≤ trunc (lc.pitchbuf.get (lc.pitchbufstart + j)) ∧
        trunc (lc.pitchbuf.get (lc.pitchbufstart + j)) ≤ 32767) :
    ∃ r, g711plc_addtohistory E lc s = some r ∧ r.1.erasecnt = 0 ∧
      (∀ i, min lc.framesz (lc.poverlap + lc.erasecnt * lc.eoverlapincr + lc.sbcrt) ≤ i →
        i < lc.framesz →
        r.1.history.get (lc.historylen - lc.framesz + i) = s.get i) ∧
      (∀ i, min lc.framesz (lc.poverlap + lc.erasecnt * lc.eoverlapincr + lc.sbcrt) ≤ i →
        i + lc.poverlapmax < lc.framesz → r.2.get (i + lc.poverlapmax) = s.get i) := by
  obtain ⟨r, h1, h2, _, _, hk, ho, h6⟩ := addtohistory_end E lc s pr he hpo hp0 hp1 hr
  obtain ⟨ho0, ho1⟩ := end_olen_bounds lc pr he hpo
  have hs0 := pr.sbcrt
  have hP : 0 ≤ lc.poverlapmax := by
    have := pr.poverlapmax; have := pr.pitch_min; have := pr.pitch_max
    omega
  rw [← end_olen_eq_min]
  have htail : ∀ i, end_olen lc ≤ i → i < lc.framesz →
      r.1.history.get (lc.historylen - lc.framesz + i) = s.get i := by
    intro i hi0 hi1
    rw [h6 i (by omega) hi1, if_neg (by omega), if_neg (by omega)]
  refine ⟨r, h1, h2, htail, fun i hi0 hi1 => ?_⟩
  rw [ho (i + lc.poverlapmax) (by omega) hi1, ← htail i hi0 (by omega)]
  congr 1
  omega

theorem end_of_erasure_frame_witness :
    ∃ lc r r2, cvsd_g711plc_construct plain blank = some lc ∧
      plc_run plain lc (List.replicate 7 (Frame.good (Arr.const 6000)) ++
        List.replicate 1 (Frame.lost (Arr.const 0) (fun _ => 0))) = some r ∧
      r.1.erasecnt = 1 ∧ g711plc_addtohistory plain r.1 ramp = some r2 ∧
      r2.1.history.get (390 - 60 + 59) = 59 := by
  obtain ⟨lc, r, hc, hr, inv, hg, hF, hL, hP, haf, hai, he, t⟩ :=
    cvsd_6000 (List.replicate 1 (Frame.lost (Arr.const 0) (fun _ => 0)))
      (fun f hf => by rw [List.eq_of_mem_replicate hf]; rfl)
  have he' : r.1.erasecnt = 1 := by
    rw [he]
    rfl
  obtain ⟨d1, d2, d3, d4⟩ := Inv.draw
    (closed_const plain 6000 (by constructor <;> norm_num) rfl rfl) inv (by omega)
  obtain ⟨r2, h2, _, h3, _⟩ := end_of_erasure_frame plain r.1 ramp inv.params (by omega)
    d1 d2 d3 d4
  refine ⟨lc, r, r2, hc, hr, he', h2, ?_⟩
  have b := inv.burst (by omega)
  have pr := inv.params
  obtain ⟨lc', h', g1, g2, g3, g4, g5, g6, g7, g8, g9, g10, g11, g12, g13, g14, _⟩ :=
    cvsd_construct_fields plain blank
  rw [hc] at h'
  obtain rfl : lc = lc' := by simpa using h'
  obtain ⟨f1, f2, f3, f4, f5, f6⟩ := constructed_fields plain blank lc (Or.inl hc)
  obtain ⟨k1, _⟩ := fresh_run_some plain lc _ r f1 f2 f3 f4 f5 hr
  obtain ⟨c1, c2, c3, c4, c5, c6, c7, c8, c9, c10, c11, c12, c13, c14, c15⟩ :=
    consts_eq r.1 lc k1
  have h4 := b.poverlap
  have h5 := b.pitch_hi
  have := h3 59 (by
    rw [he', c10, g10, c14, g14]
    have : min r.1.framesz (r.1.poverlap + 1 * 24 + 0) ≤ r.1.poverlap + 1 * 24 + 0 :=
      min_le_right _ _
    omega) (by omega)
  rw [hL, hF] at this
  rw [this]
  rfl

/-! ## The length of the pitch buffer along a burst -/

theorem dofe_first_start (E : Env) (lc : LowcFE) (out : Arr short) (ce : Float)
    (r : LowcFE × Arr short) (hn : 1 ≤ lc.ndec) (hd : 0 ≤ lc.pitchdiff)
    (h : dofe_first E lc out ce = some r) :
    r.1.pitchbufstart = r.1.pitchbufend - r.1.pitchblen := by
  obtain ⟨p, q, hp0, hp1, hfp⟩ := first_pitch E
    { lc with pitchbuf := g711plc_convertsf lc.history 0 lc.pitchbuf 0 lc.historylen } hn hd
  unfold dofe_first at h
  simp only [] at h hfp
  rw [hfp] at h
  simp only [Option.some_bind, Option.bind_eq_some] at h
  obtain ⟨hist, _, r1, hr1, hr⟩ := h
  have h1 := getfespeech_some _ _ _ _ hr1
  obtain rfl : _ = r := by simpa using hr
  simp only []
  rw [h1]

/-- What a call of `g711plc_dofe` does to the length and to the start of the
pitch buffer, in every build. -/
theorem dofe_blen_some (E : Env) (lc : LowcFE) (out : Arr short) (rnd : Int → Float)
    (r : LowcFE × Arr short) (hn : 1 ≤ lc.ndec) (hd : 0 ≤ lc.pitchdiff)
    (h : g711plc_dofe E lc out rnd = some r) :
    (lc.erasecnt = 0 →
      r.1.pitchblen = r.1.pitch ∧ r.1.pitchbufstart = r.1.pitchbufend - r.1.pitchblen) ∧
    (lc.erasecnt ≠ 0 → E.COMFORT_NOISE = false → (lc.erasecnt = 1 ∨ lc.erasecnt = 2) →
      r.1.pitchblen = lc.pitchblen + lc.pitch ∧
        r.1.pitchbufstart = r.1.pitchbufend - r.1.pitchblen) ∧
    (lc.erasecnt ≠ 0 → E.COMFORT_NOISE = false → ¬ (lc.erasecnt = 1 ∨ lc.erasecnt = 2) →
      r.1.pitchblen = lc.pitchblen ∧ r.1.pitchbufstart = lc.pitchbufstart) ∧
    (lc.erasecnt ≠ 0 → E.COMFORT_NOISE = true →
      r.1.pitchblen = lc.pitchblen ∧ r.1.pitchbufstart = lc.pitchbufstart) := by
  unfold g711plc_dofe at h
  simp only [Option.bind_eq_some] at h
  obtain ⟨r0, hr0, hr⟩ := h
  have key : (lc.erasecnt = 0 →
        r0.1.pitchblen = r0.1.pitch ∧ r0.1.pitchbufstart = r0.1.pitchbufend - r0.1.pitchblen) ∧
      (lc.erasecnt ≠ 0 → E.COMFORT_NOISE = false → (lc.erasecnt = 1 ∨ lc.erasecnt = 2) →
        r0.1.pitchblen = lc.pitchblen + lc.pitch ∧
          r0.1.pitchbufstart = r0.1.pitchbufend - r0.1.pitchblen) ∧
      (lc.erasecnt ≠ 0 → E.COMFORT_NOISE = false → ¬ (lc.erasecnt = 1 ∨ lc.erasecnt = 2) →
        r0.1.pitchblen = lc.pitchblen ∧ r0.1.pitchbufstart = lc.pitchbufstart) ∧
      (lc.erasecnt ≠ 0 → E.COMFORT_NOISE = true →
        r0.1.pitchblen = lc.pitchblen ∧ r0.1.pitchbufstart = lc.pitchbufstart) := by
    split at hr0
    · rename_i h0
      obtain ⟨_, _, _, _, _, a6⟩ := dofe_first_some E lc out _ r0 hn hd hr0
      have a7 := dofe_first_start E lc out _ r0 hn hd hr0
      exact ⟨fun _ => ⟨a6, a7⟩, fun h => absurd h0 h, fun h => absurd h0 h,
        fun h => absurd h0 h⟩
    · rename_i h0
      split at hr0
      · rename_i hcn
        split at hr0
        · simp only [Option.bind_eq_some] at hr0
          obtain ⟨g, _, hg⟩ := hr0
          obtain rfl : _ = r0 := by simpa using hg
          exact ⟨fun h => absurd h h0, fun _ h => by rw [hcn] at h; exact absurd h (by decide),
            fun _ h => by rw [hcn] at h; exact absurd h (by decide), fun _ _ => ⟨rfl, rfl⟩⟩
        · obtain ⟨_, _, _, _, a5, a6⟩ := dofe_regular_some E lc out _ r0 hr0
          exact ⟨fun h => absurd h h0, fun _ h => by rw [hcn] at h; exact absurd h (by decide),
            fun _ h => by rw [hcn] at h; exact absurd h (by decide), fun _ _ => ⟨a5, a6⟩⟩
      · rename_i hcn
        split at hr0
        · rename_i h12
          obtain ⟨_, _, _, _, a5, a6⟩ := dofe_extend_some lc out r0 hr0
          exact ⟨fun h => absurd h h0, fun _ _ _ => ⟨a5, a6⟩, fun _ _ h => absurd h12 h,
            fun _ h => absurd h hcn⟩
        · rename_i h12
          split at hr0
          · obtain rfl : _ = r0 := by simpa using hr0
            exact ⟨fun h => absurd h h0, fun _ _ h => absurd h h12, fun _ _ _ => ⟨rfl, rfl⟩,
              fun _ h => absurd h hcn⟩
          · obtain ⟨_, _, _, _, a5, a6⟩ := dofe_regular_some E lc out _ r0 hr0
            exact ⟨fun h => absurd h h0, fun _ _ h => absurd h h12, fun _ _ _ => ⟨a5, a6⟩,
              fun _ h => absurd h hcn⟩
  obtain rfl : _ = r := by simpa using hr
  exact key

/-- The last branch of `g711plc_dofe` at any stage of a burst: the state it
leaves and the range of its frame. -/
theorem dofe_regular_any (E : Env) (H : short → Prop) (VF : Float → Prop) (V : short → Prop)
    (G : Float → Prop) (cl : Closed E H VF V G) (lc : LowcFE) (out : Arr short)
    (ce : Float) (pr : Params lc) (b : Burst VF lc lc.erasecnt)
    (hg : E.NONLINEAR_ATTEN = false → ∀ i, 0 ≤ i → i < lc.framesz → G (scale_gain lc i)) :
    ∃ a out', dofe_regular E lc out ce =
        some ({ lc with poffset := (lc.poffset + lc.framesz) % lc.pitchblen, alpha := a },
          out') ∧
      AllV H out' lc.framesz := by
  have hpm := pr.poverlapmax
  have hhl := pr.historylen
  have hpe := pr.pitchbufend
  have h1 := pr.pitch_min
  have hb1 := b.pitch_lo
  have hb2 := b.pitch_hi
  have hb4 := b.blen_lo
  have hb5 := b.blen_hi
  have hb8 := b.start
  have hb9 := b.poffset_lo
  have hb10 := b.poffset_hi
  obtain ⟨out1, hout1, ho1v⟩ := getfespeech_spec lc out lc.framesz (le_of_lt pr.framesz)
    hb9 hb10 (fun j hj0 hj1 => cl.inRange _ (b.pitchbuf _ (by omega) (by omega)))
  have hout1V : AllV V out1 lc.framesz := by
    intro j hj0 hj1
    rw [ho1v, if_pos ⟨hj0, hj1⟩]
    have hm0 : 0 ≤ (lc.poffset + j) % lc.pitchblen := Int.emod_nonneg _ (by omega)
    have hm1 : (lc.poffset + j) % lc.pitchblen < lc.pitchblen := Int.emod_lt_of_pos _ (by omega)
    exact cl.toV _ (b.pitchbuf _ (by omega) (by omega))
  obtain ⟨a, out2, hw, hout2V⟩ := regular_weight E H VF V G cl
    { lc with poffset := (lc.poffset + lc.framesz) % lc.pitchblen } out1 ce hout1V
  simp only [] at hw hout2V
  cases hn : E.NONLINEAR_ATTEN
  · obtain ⟨out3, hout3, ho3v⟩ := scalespeech_spec
      { lc with poffset := (lc.poffset + lc.framesz) % lc.pitchblen, alpha := a } out2
      (fun i hi0 hi1 => (cl.scale _ _ (hout2V i hi0 hi1) (hg hn i hi0 hi1)).1)
    refine ⟨a, out3, (by
      unfold dofe_regular
      rw [hout1]
      simp only [Option.some_bind]
      rw [hw]
      simp only [Option.some_bind, hn, Bool.false_eq_true, if_false]
      rw [hout3]
      simp only [Option.some_bind]), ?_⟩
    intro i hi0 hi1
    rw [ho3v, if_pos ⟨hi0, hi1⟩]
    exact (cl.scale _ _ (hout2V i hi0 hi1) (hg hn i hi0 hi1)).2
  · obtain ⟨out3, hout3, ho3v⟩ := nonlinear_attenuation_spec E H V (cl.nonlin hn) out2
      lc.framesz lc.erasecnt lc.pitch hout2V
    exact ⟨a, out3, (by
      unfold dofe_regular
      rw [hout1]
      simp only [Option.some_bind]
      rw [hw]
      simp only [Option.some_bind, hn, if_true]
      rw [hout3]
      simp only [Option.some_bind]), ho3v⟩

/-- The invariant after `g711plc_dofe` has saved the frame of a branch. -/
theorem dofe_save (H : short → Prop) (VF : Float → Prop) (lc : LowcFE) (inv : Inv H VF lc)
    (ce : Float) (r0 : LowcFE × Arr short) (hc : consts r0.1 = consts lc)
    (hec : r0.1.erasecnt = lc.erasecnt) (hb : Burst VF r0.1 (lc.erasecnt + 1))
    (hh : ∀ j, 0 ≤ j → j < lc.historylen → H (r0.1.history.get j))
    (hv : AllV H r0.2 lc.framesz) :
    Inv H VF (g711plc_savespeech
      { r0.1 with prev_energy := ce, erasecnt := r0.1.erasecnt + 1 } r0.2).1 := by
  obtain ⟨c1, c2, c3, c4, c5, c6, c7, c8, c9, c10, c11, c12, c13, c14, c15⟩ :=
    consts_eq r0.1 lc hc
  have hF := inv.params.framesz
  have hfit := inv.params.frame_fits
  have hsave : ∀ j, (g711plc_savespeech
      { r0.1 with prev_energy := ce, erasecnt := r0.1.erasecnt + 1 } r0.2).1.history.get j =
      if 0 ≤ j ∧ j < lc.historylen - lc.framesz then r0.1.history.get (j + lc.framesz)
      else if lc.historylen - lc.framesz ≤ j ∧ j < lc.historylen then
        r0.2.get (j - (lc.historylen - lc.framesz))
      else r0.1.history.get j := by
    intro j
    rw [savespeech_history_get _ _ (by show 0 ≤ r0.1.framesz; omega)]
    show (if 0 ≤ j ∧ j < r0.1.historylen - r0.1.framesz then _ else _) = _
    rw [c5, c11]
  constructor
  · exact params_of_consts (a := (g711plc_savespeech _ r0.2).1) hc inv.params
  · show 0 ≤ r0.1.erasecnt + 1
    have := inv.erasecnt; omega
  · intro j hj0 hj1
    have hj1' : j < lc.historylen := by
      have : j < r0.1.historylen := hj1
      omega
    rw [hsave]
    split
    · exact hh _ (by omega) (by omega)
    · rw [if_pos (by omega)]
      exact hv _ (by omega) (by omega)
  · intro _
    refine ⟨hb.pitch_lo, hb.pitch_hi, hb.poverlap, hb.blen_lo, hb.blen_hi, ?_, ?_, hb.start,
      hb.poffset_lo, hb.poffset_hi, hb.pitchbuf, hb.lastq⟩
    · intro h
      have h' : r0.1.erasecnt + 1 = 1 := h
      exact hb.blen1 (by omega)
    · intro h
      have h' : r0.1.erasecnt + 1 = 2 := h
      exact hb.blen2 (by omega)

/-- A lost frame before the comfort noise sets in, in a build with comfort
noise: after the first frame of the burst, the frame is a periodic draw and the
comfort-noise generator is left alone. -/
theorem dofe_cn_step (E : Env) (H : short → Prop) (VF : Float → Prop) (V : short → Prop)
    (G : Float → Prop) (cl : Closed E H VF V G) (hcn : E.COMFORT_NOISE = true)
    (lc : LowcFE) (out : Arr short) (rnd : Int → Float) (inv : Inv H VF lc)
    (hof : lc.erasecnt = 0 → ∀ j, 0 ≤ j → j < lc.historylen → VF (lc.history.get j : Float))
    (he : lc.erasecnt ≤ COMFORT_NOISE_START)
    (hg : E.NONLINEAR_ATTEN = false → ∀ i, 0 ≤ i → i < lc.framesz → G (scale_gain lc i)) :
    ∃ r, g711plc_dofe E lc out rnd = some r ∧ Inv H VF r.1 ∧ consts r.1 = consts lc ∧
      r.1.erasecnt = lc.erasecnt + 1 ∧
      (1 ≤ lc.erasecnt → r.1.cng = lc.cng ∧
        r.1.poffset = (lc.poffset + lc.framesz) % lc.pitchblen ∧
        r.1.pitchblen = lc.pitchblen ∧ r.1.pitch = lc.pitch ∧ r.1.pitchbuf = lc.pitchbuf) := by
  have he0 := inv.erasecnt
  by_cases h0 : lc.erasecnt = 0
  · obtain ⟨r0, hr0, hc, hec, hb, hh, hv⟩ := dofe_first_spec E H VF V G cl lc out
      (10 * E.log10f (lc.corrminpower + 1 / 1000000)) inv.params (hof h0) inv.history
    refine ⟨_, (by
      unfold g711plc_dofe
      simp only []
      rw [if_pos h0, hr0]
      simp only [Option.some_bind]
      rfl), dofe_save H VF lc inv _ r0 hc hec (by rw [h0]; exact hb) hh
        (fun j hj0 hj1 => cl.VH _ (hv j hj0 hj1)), hc, ?_, fun h => by omega⟩
    show r0.1.erasecnt + 1 = _
    rw [hec]
  · have b := inv.burst (by omega)
    obtain ⟨a, out', hr0, hv⟩ := dofe_regular_any E H VF V G cl lc out
      (10 * E.log10f (lc.corrminpower + 1 / 1000000)) inv.params b hg
    have hB : Burst VF
        { lc with poffset := (lc.poffset + lc.framesz) % lc.pitchblen, alpha := a }
        (lc.erasecnt + 1) := by
      have hb4 := b.blen_lo
      have h1 := inv.params.pitch_min
      have hb1 := b.pitch_lo
      refine ⟨b.pitch_lo, b.pitch_hi, b.poverlap, b.blen_lo, b.blen_hi, fun h => by omega,
        fun h => ?_, b.start, Int.emod_nonneg _ (by omega),
        Int.emod_lt_of_pos _ (by omega), b.pitchbuf, b.lastq⟩
      have := b.blen1 (by omega)
      show lc.pitchblen ≤ 2 * lc.pitch
      omega
    refine ⟨g711plc_savespeech
      { lc with
        poffset := (lc.poffset + lc.framesz) % lc.pitchblen, alpha := a,
        prev_energy := 10 * E.log10f (lc.corrminpower + 1 / 1000000),
        erasecnt := lc.erasecnt + 1 } out', (by
      unfold g711plc_dofe
      simp only []
      rw [if_neg h0, hcn]
      simp only [if_true]
      rw [if_neg (by omega), hr0]
      simp only [Option.some_bind]), ?_, rfl, rfl, fun _ => ⟨rfl, rfl, rfl, rfl, rfl⟩⟩
    exact dofe_save H VF lc inv (10 * E.log10f (lc.corrminpower + 1 / 1000000))
      ({ lc with poffset := (lc.poffset + lc.framesz) % lc.pitchblen, alpha := a }, out')
      rfl rfl hB inv.history hv

/-- A burst of lost frames before the comfort noise sets in, in a build with
comfort noise, when every gain is admissible. -/
theorem run_lost_cn (E : Env) (H : short → Prop) (VF : Float → Prop) (V : short → Prop)
    (G : Float → Prop) (cl : Closed E H VF V G) (hcn : E.COMFORT_NOISE = true)
    (hG : ∀ g, G g) (fs : List Frame) :
    (∀ f, f ∈ fs → f.isLost = true) →
    ∀ lc : LowcFE, Inv H VF lc →
      (lc.erasecnt = 0 → ∀ j, 0 ≤ j → j < lc.historylen → VF (lc.history.get j : Float)) →
      lc.erasecnt + fs.length ≤ COMFORT_NOISE_START + 1 →
      ∃ r, plc_run E lc fs = some r ∧ Inv H VF r.1 ∧ consts r.1 = consts lc ∧
        r.1.erasecnt = lc.erasecnt + fs.length ∧
        (1 ≤ lc.erasecnt → r.1.cng = lc.cng ∧ r.1.pitchblen = lc.pitchblen ∧
          r.1.pitch = lc.pitch) := by
  induction fs with
  | nil =>
    intro _ lc inv _ _
    exact ⟨(lc, []), rfl, inv, rfl, by simp, fun _ => ⟨rfl, rfl, rfl⟩⟩
  | cons f fs ih =>
    intro hl lc inv hof hlen
    have hf : f.isLost = true := hl f (by simp)
    have hlen' : lc.erasecnt + (fs.length + 1 : Nat) ≤ COMFORT_NOISE_START + 1 := by
      simpa using hlen
    cases f with
    | good s => simp [Frame.isLost] at hf
    | lost out rnd =>
      have he0 := inv.erasecnt
      obtain ⟨r1, h1, inv1, k1, e1, q1⟩ := dofe_cn_step E H VF V G cl hcn lc out rnd inv hof
        (by push_cast at hlen'; omega) (fun _ i _ _ => hG _)
      obtain ⟨r2, h2, inv2, k2, e2, q2⟩ := ih (fun g hg => hl g (by simp [hg])) r1.1 inv1
        (fun h => by omega) (by push_cast at hlen'; omega)
      refine ⟨(r2.1, r1.2 :: r2.2), ?_, inv2, k2.trans k1, ?_, fun h => ?_⟩
      · show (g711plc_dofe E lc out rnd).bind _ = _
        rw [h1]
        simp only [Option.some_bind]
        rw [h2]
        rfl
      · show r2.1.erasecnt = _
        rw [e2, e1]
        push_cast [List.length_cons]
        omega
      · obtain ⟨a1, _, a3, a4, _⟩ := q1 h
        obtain ⟨b1, b3, b4⟩ := q2 (by omega)
        exact ⟨b1.trans a1, b3.trans a3, b4.trans a4⟩

/-- A burst of lost frames on a fresh CVSD state, in the build as shipped. -/
theorem cvsd_shipped_burst (n : Nat) (hn : (n : Int) ≤ COMFORT_NOISE_START + 1) :
    ∃ lc r, cvsd_g711plc_construct shipped blank = some lc ∧
      plc_run shipped lc (List.replicate n (Frame.lost (Arr.const 0) (fun _ => 1))) = some r ∧
      Inv (fun z => z = 0) (fun t => t = 0) r.1 ∧ consts r.1 = consts lc ∧
      r.1.erasecnt = n ∧ r.1.framesz = 60 ∧ lc.pitch_min = 40 := by
  obtain ⟨lc, hc, inv, hF, hL, hP, he, haf, hai, hz⟩ := cvsd_fresh shipped blank (by decide)
    (fun z => z = 0) (fun t => t = 0) rfl
  obtain ⟨r, h1, inv1, k1, e1, _⟩ := run_lost_cn shipped _ _ _ (fun _ => True)
    (closed_zero shipped) rfl (fun _ => trivial)
    (List.replicate n (Frame.lost (Arr.const 0) (fun _ => 1)))
    (fun f hf => by rw [List.eq_of_mem_replicate hf]; rfl) lc inv
    (fun _ j hj0 hj1 => by
      rw [hz j hj0 (by omega)]
      norm_num)
    (by rw [he]; simpa using hn)
  obtain ⟨c1, c2, c3, c4, c5, c6, c7, c8, c9, c10, c11, _⟩ := consts_eq r.1 lc k1
  obtain ⟨lc', h', g1, _⟩ := cvsd_construct_fields shipped blank
  rw [hc] at h'
  obtain rfl : lc = lc' := by simpa using h'
  exact ⟨lc, r, hc, h1, inv1, k1, by rw [e1, he]; simp, by omega, g1⟩

/-- The relation between `pitchblen`, `pitch` and `erasecnt` that the calls keep
while an erasure lasts. -/
theorem blen_run (E : Env) (fs : List Frame) :
    ∀ (lc : LowcFE) (r : LowcFE × List (Arr short)),
      1 ≤ lc.ndec → 0 ≤ lc.pitchdiff → 0 ≤ lc.erasecnt →
      (1 ≤ lc.erasecnt →
        (E.COMFORT_NOISE = false → lc.pitchblen = min lc.erasecnt 3 * lc.pitch) ∧
        (E.COMFORT_NOISE = true → lc.pitchblen = lc.pitch) ∧
        lc.pitchbufstart = lc.pitchbufend - lc.pitchblen) →
      plc_run E lc fs = some r →
      1 ≤ r.1.ndec ∧ 0 ≤ r.1.pitchdiff ∧ 0 ≤ r.1.erasecnt ∧
      (1 ≤ r.1.erasecnt →
        (E.COMFORT_NOISE = false → r.1.pitchblen = min r.1.erasecnt 3 * r.1.pitch) ∧
        (E.COMFORT_NOISE = true → r.1.pitchblen = r.1.pitch) ∧
        r.1.pitchbufstart = r.1.pitchbufend - r.1.pitchblen) := by
  induction fs with
  | nil =>
    intro lc r hn hd he hq h
    obtain rfl : (lc, []) = r := by simpa [plc_run] using h
    exact ⟨hn, hd, he, hq⟩
  | cons f fs ih =>
    intro lc r hn hd he hq h
    simp only [plc_run, Option.bind_eq_some] at h
    obtain ⟨r1, h1, r2, h2, h3⟩ := h
    obtain rfl : (r2.1, r1.2 :: r2.2) = r := by simpa using h3
    have key : consts r1.1 = consts lc ∧ 0 ≤ r1.1.erasecnt ∧
        (1 ≤ r1.1.erasecnt →
          (E.COMFORT_NOISE = false → r1.1.pitchblen = min r1.1.erasecnt 3 * r1.1.pitch) ∧
          (E.COMFORT_NOISE = true → r1.1.pitchblen = r1.1.pitch) ∧
          r1.1.pitchbufstart = r1.1.pitchbufend - r1.1.pitchblen) := by
      cases f with
      | good s =>
        obtain ⟨k1, k2⟩ := addtohistory_some E lc s r1 h1
        exact ⟨k1, by omega, fun h => by omega⟩
      | lost out rnd =>
        obtain ⟨k1, k2, _, k4⟩ := dofe_some E lc out rnd r1 hn hd h1
        obtain ⟨b0, b1, b2, b3⟩ := dofe_blen_some E lc out rnd r1 hn hd h1
        obtain ⟨c1, c2, c3, c4, c5, c6, c7, c8, c9, c10, c11, c12, c13, c14, c15⟩ :=
          consts_eq r1.1 lc k1
        refine ⟨k1, by omega, fun _ => ?_⟩
        by_cases h0 : lc.erasecnt = 0
        · obtain ⟨a1, a2⟩ := b0 h0
          have hm : min r1.1.erasecnt 3 = 1 := by
            rw [k2, h0]
            decide
          exact ⟨fun _ => by rw [hm, a1]; omega, fun _ => a1, a2⟩
        · obtain ⟨q1, q2, q3⟩ := hq (by omega)
          obtain ⟨p1, _⟩ := k4 h0
          cases hcn : E.COMFORT_NOISE
          · by_cases h12 : lc.erasecnt = 1 ∨ lc.erasecnt = 2
            · obtain ⟨a1, a2⟩ := b1 h0 hcn h12
              refine ⟨fun _ => ?_, fun h => absurd h (by decide), a2⟩
              rw [a1, q1 hcn, p1, k2]
              rcases h12 with h | h
              · rw [h]
                norm_num
                ring
              · rw [h]
                norm_num
                ring
            · obtain ⟨a1, a2⟩ := b2 h0 hcn h12
              refine ⟨fun _ => ?_, fun h => absurd h (by decide), by rw [a2, a1, c15]; exact q3⟩
              rw [a1, q1 hcn, p1, k2]
              have h3 : 3 ≤ lc.erasecnt := by omega
              rw [min_eq_right h3, min_eq_right (by omega)]
          · obtain ⟨a1, a2⟩ := b3 h0 hcn
            exact ⟨fun h => absurd h (by decide), fun _ => by rw [a1, q2 hcn, p1],
              by rw [a2, a1, c15]; exact q3⟩
    obtain ⟨c1, c2, c3, c4, c5, c6, _⟩ := consts_eq r1.1 lc key.1
    exact ih r1.1 r2 (by omega) (by omega) key.2.1 key.2.2 h2

/-- The length of the pitch buffer after a call of `g711plc_dofe`, for either
variant and every state reached from the constructed state: in a build without
comfort noise, a call entered with `erasecnt` 1 or 2 adds one pitch period to
`pitchblen`, and after the call entered with `erasecnt = e` the length is
`min(e + 1, 3) * pitch`; in a build with comfort noise the branch for `erasecnt`
1 and 2 is not compiled, the call leaves `pitchblen` as it is and the length is
`pitch` for the whole burst.  In both, `pitchbufstart = pitchbufend - pitchblen`
after the call. -/
theorem dofe_pitchblen (E : Env) (lc0 lc : LowcFE)
    (hc : cvsd_g711plc_construct E lc0 = some lc ∨ msbc_g711plc_construct E lc0 = some lc)
    (fs : List Frame) (r : LowcFE × List (Arr short)) (hr : plc_run E lc fs = some r)
    (out : Arr short) (rnd : Int → Float) (r2 : LowcFE × Arr short)
    (h2 : g711plc_dofe E r.1 out rnd = some r2) :
    r2.1.erasecnt = r.1.erasecnt + 1 ∧
    (E.COMFORT_NOISE = false →
      (r.1.erasecnt = 1 ∨ r.1.erasecnt = 2 → r2.1.pitchblen = r.1.pitchblen + r.1.pitch) ∧
      r2.1.pitchblen = min (r.1.erasecnt + 1) 3 * r2.1.pitch) ∧
    (E.COMFORT_NOISE = true →
      (1 ≤ r.1.erasecnt → r2.1.pitchblen = r.1.pitchblen) ∧ r2.1.pitchblen = r2.1.pitch) ∧
    r2.1.pitchbufstart = r2.1.pitchbufend - r2.1.pitchblen := by
  obtain ⟨f1, f2, f3, f4, f5, f6⟩ := constructed_fields E lc0 lc hc
  obtain ⟨n1, n2, n3, n4⟩ := blen_run E fs lc r (by omega) f6 (by omega) (fun h => by omega) hr
  have hrun : plc_run E r.1 [Frame.lost out rnd] = some (r2.1, [r2.2]) := by
    simp [plc_run, plc_frame, h2]
  obtain ⟨m1, m2, m3, m4⟩ := blen_run E [Frame.lost out rnd] r.1 (r2.1, [r2.2]) n1 n2 n3 n4 hrun
  obtain ⟨k1, k2, _⟩ := dofe_some E r.1 out rnd r2 n1 n2 h2
  obtain ⟨b0, b1, b2, b3⟩ := dofe_blen_some E r.1 out rnd r2 n1 n2 h2
  have m4' := m4 (by show 1 ≤ r2.1.erasecnt; omega)
  refine ⟨k2, fun hcn => ⟨fun h12 => (b1 (by omega) hcn h12).1, ?_⟩,
    fun hcn => ⟨fun h => (b3 (by omega) hcn).1, m4'.2.1 hcn⟩, m4'.2.2⟩
  have := m4'.1 hcn
  rw [k2] at this
  exact this

/-- In the build with no optional feature, the call of `g711plc_dofe` entered with
`erasecnt = 2` after seven good CVSD frames and two lost ones adds a period: the
pitch buffer then holds three periods. -/
theorem dofe_pitchblen_plain :
    ∃ lc r r2, cvsd_g711plc_construct plain blank = some lc ∧
      plc_run plain lc (List.replicate 7 (Frame.good (Arr.const 6000)) ++
        List.replicate 2 (Frame.lost (Arr.const 0) (fun _ => 0))) = some r ∧
      r.1.erasecnt = 2 ∧ g711plc_dofe plain r.1 (Arr.const 0) (fun _ => 0) = some r2 ∧
      r2.1.pitchblen = r.1.pitchblen + r.1.pitch ∧ r2.1.pitchblen = 3 * r2.1.pitch := by
  obtain ⟨lc, r, hc, hr, inv, hg, hF, hL, hP, haf, hai, he, t⟩ :=
    cvsd_6000 (List.replicate 2 (Frame.lost (Arr.const 0) (fun _ => 0)))
      (fun f hf => by rw [List.eq_of_mem_replicate hf]; rfl)
  have he' : r.1.erasecnt = 2 := by
    rw [he]
    rfl
  obtain ⟨r2, h2, _⟩ :=
    dofe_spec plain _ _ _ _ (closed_const plain 6000 (by constructor <;> norm_num) rfl rfl) rfl
      r.1 (Arr.const 0) (fun _ => 0) inv (fun h => by omega) hg
  obtain ⟨_, p1, _⟩ := dofe_pitchblen plain blank lc (Or.inl hc) _ r hr _ _ r2 h2
  obtain ⟨p2, p3⟩ := p1 rfl
  refine ⟨lc, r, r2, hc, hr, he', h2, p2 (Or.inr he'), ?_⟩
  rw [p3, he']
  rfl

/-- In the build as shipped (comfort noise compiled in), after one lost frame on
a fresh CVSD state `erasecnt` is 1 and the next call of `g711plc_dofe` leaves
`pitchblen` as it is, one period of at least 40 samples, instead of adding a
period. -/
theorem shipped_no_extension :
    ∃ lc r r2, cvsd_g711plc_construct shipped blank = some lc ∧
      plc_run shipped lc (List.replicate 1 (Frame.lost (Arr.const 0) (fun _ => 1))) = some r ∧
      shipped.COMFORT_NOISE = true ∧ r.1.erasecnt = 1 ∧
      g711plc_dofe shipped r.1 (Arr.const 0) (fun _ => 1) = some r2 ∧
      40 ≤ r.1.pitch ∧ r2.1.pitch = r.1.pitch ∧ r.1.pitchblen = r.1.pitch ∧
      r2.1.pitchblen = r.1.pitchblen ∧ r2.1.pitchblen ≠ r.1.pitchblen + r.1.pitch := by
  obtain ⟨lc, r, hc, hr, inv, k1, e1, hF, hmin⟩ := cvsd_shipped_burst 1 (by decide)
  have e1' : r.1.erasecnt = 1 := by simpa using e1
  obtain ⟨r2, h2, _, _, _, q⟩ := dofe_cn_step shipped _ _ _ (fun _ => True)
    (closed_zero shipped) rfl r.1 (Arr.const 0) (fun _ => 1) inv (fun h => by omega)
    (by rw [e1']; decide) (fun _ i _ _ => trivial)
  obtain ⟨_, _, q3, q4, _⟩ := q (by omega)
  have b := inv.burst (by omega)
  obtain ⟨c1, _⟩ := consts_eq r.1 lc k1
  have hp : 40 ≤ r.1.pitch := by
    have := b.pitch_lo
    omega
  have hb1 := b.blen1 e1'
  exact ⟨lc, r, r2, hc, hr, rfl, e1', h2, hp, q4, hb1, q3, by omega⟩

/-- Claim C14.  The build as shipped does not lengthen the pitch buffer.  The
comment of `g711plc_dofe` says that the number of periods in the pitch buffer is
increased when the erasure lasts more than 10 msec, and the branch for `erasecnt`
1 and 2 does so; but that branch is compiled only when `COMFORT_NOISE` is not
defined, and the header as shipped defines it.  In the shipped build, after one
lost frame on a fresh CVSD state `erasecnt` is 1 and the next call of
`g711plc_dofe` leaves `pitchblen` as it is, one period of at least 40 samples.
For either variant and every state reached from the constructed state: in a
build without comfort noise the call entered with `erasecnt` 1 or 2 adds one
period and the length after the call entered with `erasecnt = e` is
`min(e + 1, 3) * pitch`; in a build with comfort noise every call of a burst
leaves `pitchblen` as it is, one period. -/
theorem period_extension :
    (∃ lc r r2, cvsd_g711plc_construct shipped blank = some lc ∧
      plc_run shipped lc (List.replicate 1 (Frame.lost (Arr.const 0) (fun _ => 1))) = some r ∧
      shipped.COMFORT_NOISE = true ∧ r.1.erasecnt = 1 ∧
      g711plc_dofe shipped r.1 (Arr.const 0) (fun _ => 1) = some r2 ∧
      40 ≤ r.1.pitch ∧ r2.1.pitch = r.1.pitch ∧ r.1.pitchblen = r.1.pitch ∧
      r2.1.pitchblen = r.1.pitchblen ∧ r2.1.pitchblen ≠ r.1.pitchblen + r.1.pitch) ∧
    (∀ (E : Env) (lc0 lc : LowcFE),
      (cvsd_g711plc_construct E lc0 = some lc ∨ msbc_g711plc_construct E lc0 = some lc) →
      ∀ (fs : List Frame) (r : LowcFE × List (Arr short)), plc_run E lc fs = some r →
      ∀ (out : Arr short) (rnd : Int → Float) (r2 : LowcFE × Arr short),
        g711plc_dofe E r.1 out rnd = some r2 →
        r2.1.erasecnt = r.1.erasecnt + 1 ∧
        (E.COMFORT_NOISE = false →
          (r.1.erasecnt = 1 ∨ r.1.erasecnt = 2 →
            r2.1.pitchblen = r.1.pitchblen + r.1.pitch) ∧
          r2.1.pitchblen = min (r.1.erasecnt + 1) 3 * r2.1.pitch) ∧
        (E.COMFORT_NOISE = true →
          (1 ≤ r.1.erasecnt → r2.1.pitchblen = r.1.pitchblen) ∧
          r2.1.pitchblen = r2.1.pitch) ∧
        r2.1.pitchbufstart = r2.1.pitchbufend - r2.1.pitchblen) :=
  ⟨shipped_no_extension, fun E lc0 lc hc fs r hr out rnd r2 h2 =>
    dofe_pitchblen E lc0 lc hc fs r hr out rnd r2 h2⟩

/-! ## The onset of the comfort noise -/

/-- Claim C15, as it holds.  In a build with comfort noise, `g711plc_dofe`
produces its frame with `generate_comfort_noise` exactly when `erasecnt` on
entry is greater than `COMFORT_NOISE_START = 30`; for `erasecnt` in `1 .. 30` it
runs the branch of the periodic draw, and for `erasecnt = 0` the branch of the
first lost frame.  The call does not read `fading_count`. -/
theorem comfort_noise_onset (E : Env) (hcn : E.COMFORT_NOISE = true) (lc : LowcFE)
    (out : Arr short) (rnd : Int → Float) :
    COMFORT_NOISE_START = 30 ∧
    (COMFORT_NOISE_START < lc.erasecnt →
      g711plc_dofe E lc out rnd =
        (generate_comfort_noise lc.cng out lc.framesz rnd).bind (fun g =>
          some (g711plc_savespeech
            { lc with cng := g.1, prev_energy := 10 * E.log10f (lc.corrminpower + 1 / 1000000),
                      erasecnt := lc.erasecnt + 1 } g.2))) ∧
    (lc.erasecnt ≠ 0 → lc.erasecnt ≤ COMFORT_NOISE_START →
      g711plc_dofe E lc out rnd =
        (dofe_regular E lc out (10 * E.log10f (lc.corrminpower + 1 / 1000000))).bind (fun r =>
          some (g711plc_savespeech
            { r.1 with prev_energy := 10 * E.log10f (lc.corrminpower + 1 / 1000000),
                       erasecnt := r.1.erasecnt + 1 } r.2))) ∧
    (lc.erasecnt = 0 →
      g711plc_dofe E lc out rnd =
        (dofe_first E lc out (10 * E.log10f (lc.corrminpower + 1 / 1000000))).bind (fun r =>
          some (g711plc_savespeech
            { r.1 with prev_energy := 10 * E.log10f (lc.corrminpower + 1 / 1000000),
                       erasecnt := r.1.erasecnt + 1 } r.2))) ∧
    (∀ r, COMFORT_NOISE_START < lc.erasecnt → g711plc_dofe E lc out rnd = some r →
      r.1.cng.lpc_coeff = lpc_analysis out lc.framesz lc.cng.lpc_coeff ∧
        r.1.poffset = lc.poffset ∧ r.1.pitchbuf = lc.pitchbuf) ∧
    (∀ n, g711plc_dofe { E with fading_count := n } lc out rnd = g711plc_dofe E lc out rnd) := by
  have h30 : COMFORT_NOISE_START = 30 := rfl
  have hA : COMFORT_NOISE_START < lc.erasecnt →
      g711plc_dofe E lc out rnd =
        (generate_comfort_noise lc.cng out lc.framesz rnd).bind (fun g =>
          some (g711plc_savespeech
            { lc with cng := g.1, prev_energy := 10 * E.log10f (lc.corrminpower + 1 / 1000000),
                      erasecnt := lc.erasecnt + 1 } g.2)) := by
    intro h
    unfold g711plc_dofe
    simp only []
    rw [if_neg (by omega), hcn]
    simp only [if_true]
    rw [if_pos (by omega)]
    cases generate_comfort_noise lc.cng out lc.framesz rnd with
    | none => rfl
    | some g => rfl
  refine ⟨h30, hA, fun h0 h1 => ?_, fun h0 => ?_, fun r h hr => ?_, fun n => ?_⟩
  · unfold g711plc_dofe
    simp only []
    rw [if_neg h0, hcn]
    simp only [if_true]
    rw [if_neg (by omega)]
  · unfold g711plc_dofe
    simp only []
    rw [if_pos h0]
  · rw [hA h] at hr
    unfold generate_comfort_noise at hr
    simp only [Option.bind_eq_some, Option.map_eq_some'] at hr
    obtain ⟨g, ⟨o, _, hg⟩, hr⟩ := hr
    subst hg
    obtain rfl : _ = r := by simpa using hr
    exact ⟨rfl, rfl, rfl⟩
  · unfold g711plc_dofe
    simp only []
    by_cases h0 : lc.erasecnt = 0
    · rw [if_pos h0, if_pos h0]
      rfl
    · rw [if_neg h0, if_neg h0]
      rw [hcn]
      simp only [if_true]
      by_cases h1 : lc.erasecnt > COMFORT_NOISE_START
      · rw [if_pos h1, if_pos h1]
      · rw [if_neg h1, if_neg h1]
        rfl

theorem comfort_noise_onset_witness :
    ∃ lc r, cvsd_g711plc_construct shipped blank = some lc ∧
      plc_run shipped lc (List.replicate 31 (Frame.lost (Arr.const 0) (fun _ => 1))) = some r ∧
      r.1.erasecnt = 31 ∧
      g711plc_dofe shipped r.1 ramp (fun _ => 1) =
        (generate_comfort_noise r.1.cng ramp r.1.framesz (fun _ => 1)).bind (fun g =>
          some (g711plc_savespeech
            { r.1 with
              cng := g.1,
              prev_energy := 10 * shipped.log10f (r.1.corrminpower + 1 / 1000000),
              erasecnt := r.1.erasecnt + 1 } g.2)) := by
  obtain ⟨lc, r, hc, hr, inv, k1, e1, hF, hmin⟩ := cvsd_shipped_burst 31 (by decide)
  have e1' : r.1.erasecnt = 31 := by simpa using e1
  exact ⟨lc, r, hc, hr, e1', (comfort_noise_onset shipped rfl r.1 ramp (fun _ => 1)).2.1
    (by rw [e1']; decide)⟩

/-- Claim C15, as stated, fails.  In the build as shipped (`fading_count = 10`),
after eleven lost frames on a fresh CVSD state `erasecnt` is 11, above
`fading_count`, and `g711plc_dofe` still runs the branch of the periodic draw:
`poffset` advances by a frame and the comfort-noise generator is left as it
was. -/
theorem comfort_noise_onset_counterexample :
    ∃ lc r r2, cvsd_g711plc_construct shipped blank = some lc ∧
      plc_run shipped lc (List.replicate 11 (Frame.lost (Arr.const 0) (fun _ => 1))) = some r ∧
      shipped.COMFORT_NOISE = true ∧ shipped.fading_count = 10 ∧ r.1.erasecnt = 11 ∧
      g711plc_dofe shipped r.1 ramp (fun _ => 1) = some r2 ∧
      g711plc_dofe shipped r.1 ramp (fun _ => 1) =
        (dofe_regular shipped r.1 ramp
          (10 * shipped.log10f (r.1.corrminpower + 1 / 1000000))).bind (fun q =>
            some (g711plc_savespeech
              { q.1 with
                prev_energy := 10 * shipped.log10f (r.1.corrminpower + 1 / 1000000),
                erasecnt := q.1.erasecnt + 1 } q.2)) ∧
      r2.1.cng = r.1.cng ∧ r2.1.poffset = (r.1.poffset + 60) % r.1.pitchblen := by
  obtain ⟨lc, r, hc, hr, inv, k1, e1, hF, hmin⟩ := cvsd_shipped_burst 11 (by decide)
  have e1' : r.1.erasecnt = 11 := by simpa using e1
  obtain ⟨r2, h2, _, _, _, q⟩ := dofe_cn_step shipped _ _ _ (fun _ => True)
    (closed_zero shipped) rfl r.1 ramp (fun _ => 1) inv (fun h => by omega)
    (by rw [e1']; decide) (fun _ i _ _ => trivial)
  obtain ⟨q1, q2, _⟩ := q (by omega)
  refine ⟨lc, r, r2, hc, hr, rfl, rfl, e1', h2, ?_, q1, by rw [q2, hF]⟩
  unfold g711plc_dofe
  simp only []
  rw [if_neg (by omega)]
  have hcn : shipped.COMFORT_NOISE = true := rfl
  rw [hcn]
  simp only [if_true]
  rw [if_neg (by rw [e1']; decide)]

/-! ## The search loops of `g711plc_findpitch` as maximisations -/

theorem stride_count (step bound : Int) (m : Nat) (hs : 1 ≤ step)
    (h1 : bound ≤ m * step) (h2 : m = 0 ∨ ((m : Int) - 1) * step < bound) :
    ((bound + step - 1) / step).toNat = m := by
  have hs0 : 0 < step := by omega
  rcases h2 with h2 | h2
  · subst h2
    have : (bound + step - 1) / step < 1 := by
      apply Int.ediv_lt_of_lt_mul hs0
      simp only [Nat.cast_zero, zero_mul] at h1
      omega
    omega
  · have e : (bound + step - 1) / step = (m : Int) := by
      apply le_antisymm
      · have : (bound + step - 1) / step < (m : Int) + 1 := by
          apply Int.ediv_lt_of_lt_mul hs0
          have : ((m : Int) + 1) * step = m * step + step := by ring
          omega
        omega
      · apply Int.le_ediv_of_mul_le hs0
        have : ((m : Int) - 1) * step = m * step - step := by ring
        omega
    rw [e]; simp

theorem strideLoop_sum {σ : Type} (g : Int → σ → σ) (step bound : Int) (hs : 1 ≤ step)
    (fuel : Nat) (hf : bound ≤ fuel) (s0 : σ) :
    strideLoop (fun i s => some (g i s)) step bound fuel 0 s0
      = some (forLoop (fun m s => g (m * step) s) ((bound + step - 1) / step).toNat s0) := by
  obtain ⟨s', i', h, ⟨m, hi, hsm, hm⟩, hb⟩ := strideLoop_inv
    (fun i s => some (g i s)) step bound
    (fun i s => ∃ m : Nat, i = m * step ∧ s = forLoop (fun m s => g (m * step) s) m s0 ∧
      (m = 0 ∨ ((m : Int) - 1) * step < bound)) hs
    (fun i s hi ⟨m, him, hsm, _⟩ => ⟨_, rfl, m + 1, by push_cast; rw [him]; ring,
      by rw [hsm, him]; rfl, Or.inr (by push_cast; rw [add_sub_cancel_right, ← him]; exact hi)⟩)
    fuel 0 s0 (by omega) ⟨0, by simp, rfl, Or.inl rfl⟩
  rw [h, stride_count step bound m hs (by omega) hm, hsm]

theorem forLoop_pair {α β : Type} (f : Int → α → α) (g : Int → β → β) (n : Nat) (a : α) (b : β) :
    forLoop (fun m (s : α × β) => (f m s.1, g m s.2)) n (a, b) = (forLoop f n a, forLoop g n b) := by
  induction n with
  | zero => rfl
  | succ n ih => simp only [forLoop, ih]

theorem corr_sum_eq (lc : LowcFE) (rp l step : Int) (hs : 1 ≤ step) :
    corr_sum lc rp l step = some (win_corr lc rp l step) := by
  unfold corr_sum win_corr stride_sum
  exact strideLoop_sum (fun i corr => corr + lc.pitchbuf.get (rp + i) * lc.pitchbuf.get (l + i))
    step lc.corrlen hs lc.corrlen.toNat (by omega) 0

theorem energy_corr_sum_eq (lc : LowcFE) (rp l step : Int) (hs : 1 ≤ step) :
    energy_corr_sum lc rp l step = some (win_energy lc rp step, win_corr lc rp l step) := by
  unfold energy_corr_sum win_corr win_energy stride_sum
  rw [strideLoop_sum (fun i (ec : Float × Float) =>
      (ec.1 + lc.pitchbuf.get (rp + i) * lc.pitchbuf.get (rp + i),
       ec.2 + lc.pitchbuf.get (rp + i) * lc.pitchbuf.get (l + i)))
    step lc.corrlen hs lc.corrlen.toNat (by omega) (0, 0)]
  exact congrArg some (forLoop_pair
    (fun m e => e + lc.pitchbuf.get (rp + m * step) * lc.pitchbuf.get (rp + m * step))
    (fun m c => c + lc.pitchbuf.get (rp + m * step) * lc.pitchbuf.get (l + m * step)) _ 0 0)

theorem stride_sum_one (f : Int → Float) (bound : Int) :
    stride_sum f 1 bound = forLoop (fun m acc => acc + f m) bound.toNat 0 := by
  unfold stride_sum
  simp only [add_sub_cancel_right, Int.ediv_one, mul_one]

theorem forLoop_sum_shift (f : Int → Float) (a : Int) (n : Nat) :
    forLoop (fun m acc => acc + f (a + 1 + m)) n 0
      = forLoop (fun m acc => acc + f (a + m)) n 0 - f a + f (a + n) := by
  induction n with
  | zero => simp [forLoop]
  | succ n ih =>
    simp only [forLoop, ih]
    have : a + 1 + (n : Int) = a + ((n + 1 : Nat) : Int) := by push_cast; ring
    rw [this]; ring

/-- With stride 1 the running energy of a search loop is the energy of the
window the loop has reached. -/
theorem run_energy_one (lc : LowcFE) (rp0 : Int) (hc : 0 ≤ lc.corrlen) (m : Nat) :
    run_energy lc rp0 1 1 m = win_energy lc (rp0 + m) 1 := by
  induction m with
  | zero => simp [run_energy]
  | succ m ih =>
    unfold run_energy
    rw [ih]
    unfold win_energy
    rw [stride_sum_one, stride_sum_one]
    have h := forLoop_sum_shift (fun i => lc.pitchbuf.get i * lc.pitchbuf.get i) (rp0 + m)
      lc.corrlen.toNat
    have e : ((lc.corrlen.toNat : Nat) : Int) = lc.corrlen := Int.toNat_of_nonneg hc
    rw [e] at h
    have e2 : rp0 + ((m + 1 : Nat) : Int) = rp0 + m + 1 := by push_cast; ring
    rw [e2, mul_one]
    exact h.symm

theorem search_score_one (E : Env) (lc : LowcFE) (j0 : Int) (hc : 0 ≤ lc.corrlen) (m : Nat) :
    search_score E lc (lc.pitchbufend - lc.corrbuflen + j0) 1 1 m = fine_score E lc (j0 + m) := by
  unfold search_score fine_score
  rw [run_energy_one lc _ hc, mul_one, add_assoc]

theorem stride_sum_mul (f : Int → Float) (step : Int) (K : Nat) (hs : 1 ≤ step) :
    stride_sum f step (K * step) = forLoop (fun m acc => acc + f (m * step)) K 0 := by
  unfold stride_sum
  rw [stride_count step (K * step) K hs (le_refl _)]
  rcases Nat.eq_zero_or_pos K with h | h
  · exact Or.inl h
  · right
    have : ((K : Int) - 1) * step = K * step - step := by ring
    omega

theorem forLoop_stride_shift (f : Int → Float) (a step : Int) (n : Nat) :
    forLoop (fun m acc => acc + f (a + step + m * step)) n 0
      = forLoop (fun m acc => acc + f (a + m * step)) n 0 - f a + f (a + n * step) := by
  induction n with
  | zero => simp [forLoop]
  | succ n ih =>
    simp only [forLoop, ih]
    have : a + step + (n : Int) * step = a + ((n + 1 : Nat) : Int) * step := by push_cast; ring
    rw [this]; ring

theorem win_energy_shift (lc : LowcFE) (rp step : Int) (K : Nat) (hs : 1 ≤ step)
    (hc : lc.corrlen = K * step) :
    win_energy lc (rp + step) step
      = win_energy lc rp step - lc.pitchbuf.get rp * lc.pitchbuf.get rp
        + lc.pitchbuf.get (rp + lc.corrlen) * lc.pitchbuf.get (rp + lc.corrlen) := by
  unfold win_energy
  rw [hc, stride_sum_mul _ step K hs, stride_sum_mul _ step K hs]
  exact forLoop_stride_shift (fun i => lc.pitchbuf.get i * lc.pitchbuf.get i) rp step K

/-- When the length of the window is a multiple of the stride, the running
energy of a search loop is the energy of the window the loop has reached. -/
theorem run_energy_eq (lc : LowcFE) (rp0 step : Int) (K : Nat) (hs : 1 ≤ step)
    (hc : lc.corrlen = K * step) (m : Nat) :
    run_energy lc rp0 step step m = win_energy lc (rp0 + m * step) step := by
  induction m with
  | zero => simp [run_energy]
  | succ m ih =>
    unfold run_energy
    rw [ih]
    have e : rp0 + ((m + 1 : Nat) : Int) * step = rp0 + m * step + step := by push_cast; ring
    rw [e, win_energy_shift lc _ step K hs hc]

theorem continuity_check_eq (lc : LowcFE) (candidates : Arr PitchCandidate) (threshold : Float)
    (final_pitch : Int) :
    continuity_check lc candidates threshold final_pitch
      = first_within lc candidates threshold final_pitch := by
  unfold continuity_check first_within
  simp only [forLoop, Nat.cast_zero, Nat.cast_one, Nat.cast_ofNat]
  split_ifs <;> simp_all

/-- Running the check with the tolerance of 5 % before the check with a
tolerance of 5 % or 15 % changes nothing. -/
theorem first_within_twice (lc : LowcFE) (candidates : Arr PitchCandidate)
    (threshold : Float) (ht : threshold = 5 / 100 ∨ threshold = 15 / 100) (final_pitch : Int) :
    first_within lc candidates threshold (first_within lc candidates (5 / 100) final_pitch)
      = first_within lc candidates threshold final_pitch := by
  have a0 : (0 : Float) ≤ ((|lc.pitch_max - (candidates.get 0).index - lc.last_pitch| : Int) :
      Float) := by exact_mod_cast abs_nonneg _
  have a1 : (0 : Float) ≤ ((|lc.pitch_max - (candidates.get 1).index - lc.last_pitch| : Int) :
      Float) := by exact_mod_cast abs_nonneg _
  have a2 : (0 : Float) ≤ ((|lc.pitch_max - (candidates.get 2).index - lc.last_pitch| : Int) :
      Float) := by exact_mod_cast abs_nonneg _
  unfold first_within
  rcases ht with ht | ht <;> subst ht <;> split_ifs <;> first | rfl | (exfalso; linarith)

/-- Claim C25.  For every build and every state, `enhanced_findpitch` returns, and
stores in `last_pitch`, what the variant without the loop of the fixed tolerance
of 5 % returns; the loop of the continuity check gives the first of the three
candidates whose distance to `last_pitch` is below `threshold * last_pitch`, else
the pitch it was entered with. -/
theorem adaptive_continuity (E : Env) (lc : LowcFE) :
    enhanced_findpitch E lc = enhanced_findpitch_dynamic E lc ∧
    (∀ candidates threshold final_pitch,
      continuity_check lc candidates threshold final_pitch
        = first_within lc candidates threshold final_pitch) := by
  refine ⟨?_, continuity_check_eq lc⟩
  unfold enhanced_findpitch enhanced_findpitch_dynamic
  simp only []
  cases strideLoop (fun j candidates => some (update_candidates candidates
      (nccf_at lc (lc.pitchbufend - lc.corrlen) (lc.pitchbufend - lc.corrbuflen) j) j))
    lc.ndec (lc.pitchdiff + 1) (lc.pitchdiff + 1).toNat 0
    (Arr.const { corr := -1000000000, index := 0 }) with
  | none => rfl
  | some candidates =>
    simp only [Option.some_bind, continuity_check_eq]
    rw [first_within_twice lc candidates _ (by split_ifs <;> simp)]

/-! ## The states reached from a constructed state -/

/-- The fields that a stream of calls leaves as the constructor set them, for the
two variants, and the range of the pitch while an erasure lasts. -/
theorem reached_fields (E : Env) (lc0 lc : LowcFE)
    (hc : cvsd_g711plc_construct E lc0 = some lc ∨ msbc_g711plc_construct E lc0 = some lc)
    (fs : List Frame) (r : LowcFE × List (Arr short)) (hr : plc_run E lc fs = some r) :
    ((r.1.pitch_min = 40 ∧ r.1.pitch_max = 120 ∧ r.1.pitchdiff = 80 ∧ r.1.poverlapmax = 30 ∧
        r.1.historylen = 390 ∧ r.1.ndec = 2 ∧ r.1.corrlen = 160 ∧ r.1.corrbuflen = 280 ∧
        r.1.eoverlapincr = 24 ∧ r.1.framesz = 60 ∧ r.1.sbcrt = 0 ∧ r.1.pitchbufend = 390) ∨
      (r.1.pitch_min = 80 ∧ r.1.pitch_max = 240 ∧ r.1.pitchdiff = 160 ∧ r.1.poverlapmax = 60 ∧
        r.1.historylen = 780 ∧ r.1.ndec = 2 ∧ r.1.corrlen = 320 ∧ r.1.corrbuflen = 560 ∧
        r.1.eoverlapincr = 48 ∧ r.1.framesz = 120 ∧ r.1.sbcrt = 36 ∧ r.1.pitchbufend = 780)) ∧
    0 ≤ r.1.erasecnt ∧ (0 < r.1.erasecnt → PitchOK r.1) := by
  obtain ⟨f1, f2, f3, f4, f5, f6⟩ := constructed_fields E lc0 lc hc
  obtain ⟨k1, k2, k3⟩ := fresh_run_some E lc fs r f1 f2 f3 f4 f5 hr
  obtain ⟨c1, c2, c3, c4, c5, c6, c7, c8, c9, c10, c11, c12, c13, c14, c15⟩ :=
    consts_eq r.1 lc k1
  refine ⟨?_, by rw [k2]; omega, k3⟩
  rcases hc with hc | hc
  · obtain ⟨lc', h', g1, g2, g3, g4, g5, g6, g7, g8, g9, g10, g11, g12, g13, g14, g15, g16, _⟩ :=
      cvsd_construct_fields E lc0
    rw [hc] at h'
    obtain rfl : lc = lc' := by simpa using h'
    left
    refine ⟨?_, ?_, ?_, ?_, ?_, ?_, ?_, ?_, ?_, ?_, ?_, ?_⟩ <;> omega
  · obtain ⟨lc', h', g1, g2, g3, g4, g5, g6, g7, g8, g9, g10, g11, g12, g13, g14, g15, g16, _⟩ :=
      msbc_construct_fields E lc0
    rw [hc] at h'
    obtain rfl : lc = lc' := by simpa using h'
    right
    refine ⟨?_, ?_, ?_, ?_, ?_, ?_, ?_, ?_, ?_, ?_, ?_, ?_⟩ <;> omega

/-- A run that the witnesses use: one good frame and one lost frame on a fresh
CVSD state, in the build without optional features. -/
theorem ramp_run :
    ∃ lc r, cvsd_g711plc_construct plain blank = some lc ∧
      plc_run plain lc [Frame.good ramp, Frame.lost (Arr.const 0) (fun _ => 0)] = some r ∧
      r.1.erasecnt = 1 := by
  obtain ⟨lc, r, hc, hr, _⟩ := cvsd_run_int16 plain rfl rfl blank
    [Frame.good ramp, Frame.lost (Arr.const 0) (fun _ => 0)]
    (by
      intro s hs
      simp at hs
      subst hs
      intro j h0 h1
      show -32768 ≤ j ∧ j ≤ 32767
      constructor <;> omega)
  obtain ⟨f1, f2, f3, f4, f5, f6⟩ := constructed_fields plain blank lc (Or.inl hc)
  obtain ⟨k1, k2, _⟩ := fresh_run_some plain lc _ r f1 f2 f3 f4 f5 hr
  refine ⟨lc, r, hc, hr, ?_⟩
  rw [k2]
  decide

/-- Claim C27.  For either variant, every build and every state with
`erasecnt ≥ 1` reached from the constructed state by a stream of calls, the
length `olen` of the window of `g711plc_addtohistory`, which is
`min(framesz, poverlap + erasecnt * eoverlapincr + sbcrt)`, satisfies
`sbcrt < olen ≤ framesz ≤ FRAMESZ_MAX`; so the divisor `olen - sbcrt` of
`g711plc_overlapaddatend` is at least 1. -/
theorem end_ola_window (E : Env) (lc0 lc : LowcFE)
    (hc : cvsd_g711plc_construct E lc0 = some lc ∨ msbc_g711plc_construct E lc0 = some lc)
    (fs : List Frame) (r : LowcFE × List (Arr short)) (hr : plc_run E lc fs = some r)
    (he : 1 ≤ r.1.erasecnt) :
    end_olen r.1 = min r.1.framesz (r.1.poverlap + r.1.erasecnt * r.1.eoverlapincr + r.1.sbcrt) ∧
    r.1.sbcrt < end_olen r.1 ∧ end_olen r.1 ≤ r.1.framesz ∧ r.1.framesz ≤ FRAMESZ_MAX ∧
    1 ≤ end_olen r.1 - r.1.sbcrt ∧
    (1 : Float) ≤ ((end_olen r.1 - r.1.sbcrt : Int) : Float) := by
  obtain ⟨hf, _, hp⟩ := reached_fields E lc0 lc hc fs r hr
  obtain ⟨p1, p2, p3, p4⟩ := hp (by omega)
  have key : r.1.sbcrt < end_olen r.1 ∧ end_olen r.1 ≤ r.1.framesz ∧
      r.1.framesz ≤ FRAMESZ_MAX := by
    unfold end_olen FRAMESZ_MAX
    rcases hf with ⟨g1, g2, g3, g4, g5, g6, g7, g8, g9, g10, g11, g12⟩ |
      ⟨g1, g2, g3, g4, g5, g6, g7, g8, g9, g10, g11, g12⟩ <;>
    · rw [g9, g10, g11]
      split <;> refine ⟨?_, ?_, ?_⟩ <;> omega
  refine ⟨end_olen_eq_min r.1, key.1, key.2.1, key.2.2, by omega, ?_⟩
  have : (1 : Int) ≤ end_olen r.1 - r.1.sbcrt := by omega
  exact_mod_cast this

theorem end_ola_window_witness :
    ∃ lc r, cvsd_g711plc_construct plain blank = some lc ∧
      plc_run plain lc [Frame.good ramp, Frame.lost (Arr.const 0) (fun _ => 0)] = some r ∧
      r.1.erasecnt = 1 ∧ r.1.sbcrt < end_olen r.1 ∧ end_olen r.1 ≤ r.1.framesz ∧
      r.1.framesz ≤ 120 := by
  obtain ⟨lc, r, hc, hr, he⟩ := ramp_run
  obtain ⟨_, h1, h2, h3, _⟩ := end_ola_window plain blank lc (Or.inl hc) _ r hr (by omega)
  exact ⟨lc, r, hc, hr, he, h1, h2, h3⟩

/-! ## The running energy of the search loops -/

/-- The state of a search loop of `g711plc_findpitch` after the pass for the
`m`-th lag after the first: the window pointer and the running energy. -/
theorem search_loop_energy (E : Env) (lc : LowcFE) (rp0 step istep j0 : Int) (ge : Bool)
    (c0 : Float) (hs : 1 ≤ step) (hi : 1 ≤ istep) (m : Nat) (fuel : Nat)
    (hf : j0 + m * step + 1 - (j0 + step) ≤ fuel) :
    ∃ st : Search,
      strideLoop (search_step E lc (lc.pitchbufend - lc.corrlen) step istep ge) step
        (j0 + m * step + 1) fuel (j0 + step)
        { energy := win_energy lc rp0 istep, rp := rp0, bestcorr := c0, bestmatch := j0 }
        = some st ∧
      st.rp = rp0 + m * step ∧ st.energy = run_energy lc rp0 step istep m := by
  obtain ⟨st, i', h, ⟨n, hi', hrp, hen, hn⟩, hb⟩ := strideLoop_inv
    (search_step E lc (lc.pitchbufend - lc.corrlen) step istep ge) step (j0 + m * step + 1)
    (fun i st => ∃ n : Nat, i = j0 + ((n : Int) + 1) * step ∧ st.rp = rp0 + n * step ∧
      st.energy = run_energy lc rp0 step istep n ∧ (n = 0 ∨ j0 + n * step ≤ j0 + m * step)) hs
    (by
      intro i st hik ⟨n, hin, hrp, hen, hn⟩
      have hen' : st.energy - lc.pitchbuf.get st.rp * lc.pitchbuf.get st.rp
            + lc.pitchbuf.get (st.rp + lc.corrlen) * lc.pitchbuf.get (st.rp + lc.corrlen)
          = run_energy lc rp0 step istep (n + 1) := by
        rw [hrp, hen]; rfl
      have hrp' : st.rp + step = rp0 + ((n + 1 : Nat) : Int) * step := by
        rw [hrp]; push_cast; ring
      have hi2 : i + step = j0 + (((n + 1 : Nat) : Int) + 1) * step := by
        rw [hin]; push_cast; ring
      have hi3 : i = j0 + ((n + 1 : Nat) : Int) * step := by
        rw [hin]; push_cast; ring
      unfold search_step
      simp only [corr_sum_eq lc _ _ istep hi, Option.some_bind]
      split_ifs <;>
        exact ⟨_, rfl, n + 1, hi2, hrp', hen', Or.inr (by rw [← hi3]; omega)⟩)
    fuel (j0 + step)
    { energy := win_energy lc rp0 istep, rp := rp0, bestcorr := c0, bestmatch := j0 } hf
    ⟨0, by simp, by simp, rfl, Or.inl rfl⟩
  have hs0 : (0 : Int) < step := by omega
  have h1 : (m : Int) < (n : Int) + 1 := by
    have : (m : Int) * step < ((n : Int) + 1) * step := by omega
    exact lt_of_mul_lt_mul_right this (le_of_lt hs0)
  have h2 : (n : Int) ≤ m := by
    rcases hn with h0 | h0
    · subst h0; simp
    · have : (n : Int) * step ≤ (m : Int) * step := by omega
      exact le_of_mul_le_mul_right this hs0
  have e : n = m := by omega
  subst e
  exact ⟨st, h, hrp, hen⟩

/-- Claim C28.  In exact arithmetic and for every pitch buffer, when `corrlen` is
a multiple of `ndec` (as it is for both variants): after the pass of the coarse
loop of `g711plc_findpitch` for the lag `j = m * ndec`, the running energy is the
sum of `r[j + i]^2` over `i = 0, ndec, ..., corrlen - ndec`, and after the pass of
the fine loop for the lag `j0 + m`, entered at the lag `j0`, it is the sum of
`r[j0 + m + i]^2` over `i = 0 .. corrlen - 1`.  The first two parts give the sums
that the loops start from. -/
theorem running_energy (E : Env) (lc : LowcFE) (K : Nat) (hn : 1 ≤ lc.ndec)
    (hK : lc.corrlen = K * lc.ndec) :
    (∀ rp, energy_corr_sum lc rp (lc.pitchbufend - lc.corrlen) lc.ndec
      = some (win_energy lc rp lc.ndec,
          win_corr lc rp (lc.pitchbufend - lc.corrlen) lc.ndec)) ∧
    (∀ rp, energy_corr_sum lc rp (lc.pitchbufend - lc.corrlen) 1
      = some (win_energy lc rp 1, win_corr lc rp (lc.pitchbufend - lc.corrlen) 1)) ∧
    (∀ (c0 : Float) (m : Nat), ∃ st : Search,
      strideLoop (search_step E lc (lc.pitchbufend - lc.corrlen) lc.ndec lc.ndec true) lc.ndec
        (m * lc.ndec + 1) (m * lc.ndec + 1).toNat lc.ndec
        { energy := win_energy lc (lc.pitchbufend - lc.corrbuflen) lc.ndec,
          rp := lc.pitchbufend - lc.corrbuflen, bestcorr := c0, bestmatch := 0 } = some st ∧
      st.rp = lc.pitchbufend - lc.corrbuflen + m * lc.ndec ∧
      st.energy = forLoop (fun i acc => acc
        + lc.pitchbuf.get (lc.pitchbufend - lc.corrbuflen + m * lc.ndec + i * lc.ndec)
          * lc.pitchbuf.get (lc.pitchbufend - lc.corrbuflen + m * lc.ndec + i * lc.ndec)) K 0) ∧
    (∀ (c0 : Float) (j0 : Int) (m : Nat), 0 ≤ j0 → ∃ st : Search,
      strideLoop (search_step E lc (lc.pitchbufend - lc.corrlen) 1 1 false) 1
        (j0 + m + 1) (j0 + m + 1).toNat (j0 + 1)
        { energy := win_energy lc (lc.pitchbufend - lc.corrbuflen + j0) 1,
          rp := lc.pitchbufend - lc.corrbuflen + j0, bestcorr := c0, bestmatch := j0 }
        = some st ∧
      st.rp = lc.pitchbufend - lc.corrbuflen + j0 + m ∧
      st.energy = forLoop (fun i acc => acc
        + lc.pitchbuf.get (lc.pitchbufend - lc.corrbuflen + j0 + m + i)
          * lc.pitchbuf.get (lc.pitchbufend - lc.corrbuflen + j0 + m + i))
        lc.corrlen.toNat 0) := by
  have hc0 : 0 ≤ lc.corrlen := by
    rw [hK]; exact mul_nonneg (by omega) (by omega)
  refine ⟨fun rp => energy_corr_sum_eq lc rp _ lc.ndec hn,
    fun rp => energy_corr_sum_eq lc rp _ 1 (le_refl _), fun c0 m => ?_, fun c0 j0 m hj => ?_⟩
  · have hm : 0 ≤ (m : Int) * lc.ndec := mul_nonneg (by omega) (by omega)
    obtain ⟨st, h, hrp, hen⟩ := search_loop_energy E lc (lc.pitchbufend - lc.corrbuflen)
      lc.ndec lc.ndec 0 true c0 hn hn m (m * lc.ndec + 1).toNat (by omega)
    rw [zero_add, zero_add] at h
    refine ⟨st, h, hrp, ?_⟩
    rw [hen, run_energy_eq lc _ lc.ndec K hn hK]
    unfold win_energy
    rw [hK, stride_sum_mul _ lc.ndec K hn]
  · obtain ⟨st, h, hrp, hen⟩ := search_loop_energy E lc (lc.pitchbufend - lc.corrbuflen + j0)
      1 1 j0 false c0 (le_refl _) (le_refl _) m (j0 + m + 1).toNat (by omega)
    rw [mul_one] at h hrp
    refine ⟨st, h, hrp, ?_⟩
    rw [hen, run_energy_one lc _ hc0]
    unfold win_energy
    rw [stride_sum_one]

theorem running_energy_witness :
    ∃ lc, cvsd_g711plc_construct plain blank = some lc ∧ ∃ st : Search,
      strideLoop (search_step plain { lc with history := tone400 }
          (lc.pitchbufend - lc.corrlen) 2 2 true) 2
        (((40 : Nat) : Int) * 2 + 1) (((40 : Nat) : Int) * 2 + 1).toNat 2
        { energy := win_energy { lc with history := tone400 }
            (lc.pitchbufend - lc.corrbuflen) 2,
          rp := lc.pitchbufend - lc.corrbuflen, bestcorr := 0, bestmatch := 0 } = some st ∧
      st.rp = lc.pitchbufend - lc.corrbuflen + ((40 : Nat) : Int) * 2 := by
  obtain ⟨lc, hc, g1, g2, g3, g4, g5, g6, g7, g8, _⟩ := cvsd_construct_fields plain blank
  obtain ⟨st, hst⟩ : ∃ st : LowcFE, st = { lc with history := tone400 } := ⟨_, rfl⟩
  have e1 : st.ndec = 2 := by rw [hst]; exact g6
  have e2 : st.corrlen = ((80 : Nat) : Int) * st.ndec := by
    rw [e1, hst]; show lc.corrlen = _; omega
  obtain ⟨s, h1, h2, _⟩ := (running_energy plain st 80 (by omega) e2).2.2.1 0 40
  rw [e1] at h1 h2
  subst hst
  exact ⟨lc, hc, s, h1, h2⟩

/-! ## The offset into the pitch buffer -/

theorem getfespeech_loop_poffset :
    ∀ (fuel : Nat) (lc : LowcFE) (out : Arr short) (oi sz : Int) (r : LowcFE × Arr short),
      0 ≤ sz → 0 ≤ lc.poffset → lc.poffset < lc.pitchblen →
      g711plc_getfespeech_loop fuel lc out oi sz = some r →
      0 ≤ r.1.poffset ∧ r.1.poffset < r.1.pitchblen ∧ r.1.pitchblen = lc.pitchblen := by
  intro fuel
  induction fuel with
  | zero =>
    intro lc out oi sz r _ h0 h1 h
    unfold g711plc_getfespeech_loop at h
    split at h
    · exact absurd h (by simp)
    · obtain rfl : (lc, out) = r := by simpa using h
      exact ⟨h0, h1, rfl⟩
  | succ f ih =>
    intro lc out oi sz r hsz h0 h1 h
    unfold g711plc_getfespeech_loop at h
    split at h
    · rename_i hne
      simp only [Option.bind_eq_some] at h
      obtain ⟨out1, _, h2⟩ := h
      by_cases hc : lc.pitchblen - lc.poffset > sz
      · simp only [if_pos hc] at h2
        have hne' : ¬ (lc.poffset + sz = lc.pitchblen) := by omega
        simp only [if_neg hne'] at h2
        obtain ⟨a, b, c⟩ := ih { lc with poffset := lc.poffset + sz } out1 _ _ r (by omega)
          (by show 0 ≤ lc.poffset + sz; omega)
          (by show lc.poffset + sz < lc.pitchblen; omega) h2
        exact ⟨a, b, c⟩
      · simp only [if_neg hc] at h2
        have he : lc.poffset + (lc.pitchblen - lc.poffset) = lc.pitchblen := by omega
        simp only [if_pos he] at h2
        obtain ⟨a, b, c⟩ := ih { lc with poffset := 0 } out1 _ _ r (by omega)
          (by show (0 : Int) ≤ 0; omega)
          (by show (0 : Int) < lc.pitchblen; omega) h2
        exact ⟨a, b, c⟩
    · obtain rfl : (lc, out) = r := by simpa using h
      exact ⟨h0, h1, rfl⟩

theorem getfespeech_poffset (lc : LowcFE) (out : Arr short) (sz : Int)
    (r : LowcFE × Arr short) (hsz : 0 ≤ sz) (h0 : 0 ≤ lc.poffset)
    (h1 : lc.poffset < lc.pitchblen) (h : g711plc_getfespeech lc out sz = some r) :
    0 ≤ r.1.poffset ∧ r.1.poffset < r.1.pitchblen ∧ r.1.pitchblen = lc.pitchblen :=
  getfespeech_loop_poffset _ lc out 0 sz r hsz h0 h1 h

theorem whileLoop_some_exit {σ : Type} (cond : σ → Bool) (body : σ → σ) :
    ∀ (fuel : Nat) (s r : σ), whileLoop cond body fuel s = some r → cond r = false := by
  intro fuel
  induction fuel with
  | zero =>
    intro s r h
    cases hc : cond s <;> simp [whileLoop, hc] at h
    subst h; exact hc
  | succ f ih =>
    intro s r h
    cases hc : cond s <;> simp [whileLoop, hc] at h
    · subst h; exact hc
    · exact ih _ r h

theorem whileLoop_some_inv_cond {σ : Type} (cond : σ → Bool) (body : σ → σ) (P : σ → Prop)
    (hbody : ∀ s, cond s = true → P s → P (body s)) :
    ∀ (fuel : Nat) (s r : σ), whileLoop cond body fuel s = some r → P s → P r := by
  intro fuel
  induction fuel with
  | zero =>
    intro s r h hp
    cases hc : cond s <;> simp [whileLoop, hc] at h
    subst h; exact hp
  | succ f ih =>
    intro s r h hp
    cases hc : cond s <;> simp [whileLoop, hc] at h
    · subst h; exact hp
    · exact ih _ r h (hbody s hc hp)

theorem dofe_first_poffset (E : Env) (lc : LowcFE) (out : Arr short) (ce : Float)
    (r : LowcFE × Arr short) (hn : 1 ≤ lc.ndec) (hd : 0 ≤ lc.pitchdiff)
    (hm : 0 < lc.pitch_max - lc.pitchdiff) (hF : 0 ≤ lc.framesz)
    (h : dofe_first E lc out ce = some r) :
    0 ≤ r.1.poffset ∧ r.1.poffset < r.1.pitchblen := by
  obtain ⟨p, q, hp0, hp1, hfp⟩ := first_pitch E
    { lc with pitchbuf := g711plc_convertsf lc.history 0 lc.pitchbuf 0 lc.historylen } hn hd
  have hp0' : lc.pitch_max - lc.pitchdiff ≤ p := hp0
  unfold dofe_first at h
  simp only [] at h hfp
  rw [hfp] at h
  simp only [Option.some_bind, Option.bind_eq_some] at h
  obtain ⟨hist, _, r1, hr1, hr⟩ := h
  obtain ⟨a, b, _⟩ := getfespeech_poffset _ _ _ _ hF (by show (0 : Int) ≤ 0; omega)
    (by show (0 : Int) < p; omega) hr1
  obtain rfl : _ = r := by simpa using hr
  exact ⟨a, b⟩

theorem dofe_extend_poffset (lc : LowcFE) (out : Arr short) (r : LowcFE × Arr short)
    (hF : 0 ≤ lc.framesz) (hp : 0 < lc.pitch) (hb : lc.pitch ≤ lc.pitchblen)
    (h0 : 0 ≤ lc.poffset) (h : dofe_extend lc out = some r) :
    0 ≤ r.1.poffset ∧ r.1.poffset < r.1.pitchblen := by
  unfold dofe_extend at h
  simp only [Option.bind_eq_some] at h
  obtain ⟨r1, hr1, lc2, hlc2, r3, hr3, out4, _, out5, _, hr⟩ := h
  have h1 := getfespeech_some _ _ _ _ hr1
  have h2 : lc2 = { lc with poffset := lc2.poffset } ∧ 0 ≤ lc2.poffset := by
    refine whileLoop_some_inv_cond _ _
      (fun s => s = { lc with poffset := s.poffset } ∧ 0 ≤ s.poffset)
      (fun s hc hs => ?_) _ _ _ hlc2 ?_
    · have hc' : s.pitch < s.poffset := by simpa using hc
      have e : s.pitch = lc.pitch := by rw [hs.1]
      constructor
      · rw [hs.1]
      · show 0 ≤ s.poffset - s.pitch
        omega
    · constructor
      · rw [h1]
      · exact h0
  have h3 : ¬ (lc2.pitch < lc2.poffset) := by
    have := whileLoop_some_exit _ _ _ _ _ hlc2
    simpa using this
  have e2 : lc2.pitch = lc.pitch := by rw [h2.1]
  have e3 : lc2.pitchblen = lc.pitchblen := by rw [h2.1]
  have e4 : lc2.framesz = lc.framesz := by rw [h2.1]
  obtain ⟨a, b, _⟩ := getfespeech_poffset _ _ _ _ (by show 0 ≤ lc2.framesz; omega)
    (by show 0 ≤ lc2.poffset; exact h2.2)
    (by show lc2.poffset < lc2.pitchblen + lc2.pitch; omega) hr3
  obtain rfl : _ = r := by simpa using hr
  exact ⟨a, b⟩

theorem dofe_regular_poffset (E : Env) (lc : LowcFE) (out : Arr short) (ce : Float)
    (r : LowcFE × Arr short) (hF : 0 ≤ lc.framesz) (h0 : 0 ≤ lc.poffset)
    (h1 : lc.poffset < lc.pitchblen) (h : dofe_regular E lc out ce = some r) :
    0 ≤ r.1.poffset ∧ r.1.poffset < r.1.pitchblen := by
  unfold dofe_regular at h
  simp only [Option.bind_eq_some] at h
  obtain ⟨r1, hr1, r2, hr2, out3, _, hr⟩ := h
  obtain ⟨a, b, _⟩ := getfespeech_poffset _ _ _ _ hF h0 h1 hr1
  have h2 : r2.1 = { r1.1 with alpha := r2.1.alpha } := by
    split at hr2
    · split at hr2
      · simp only [Option.bind_eq_some] at hr2
        obtain ⟨o, _, ho⟩ := hr2
        obtain rfl : _ = r2 := by simpa using ho
        rfl
      · obtain rfl : _ = r2 := by simpa using hr2
        rfl
    · obtain rfl : _ = r2 := by simpa using hr2
      rfl
  obtain rfl : _ = r := by simpa using hr
  simp only []
  rw [h2]
  exact ⟨a, b⟩

/-- A call of `g711plc_dofe` that returns leaves `0 ≤ poffset < pitchblen`. -/
theorem dofe_poffset_some (E : Env) (lc : LowcFE) (out : Arr short) (rnd : Int → Float)
    (r : LowcFE × Arr short) (hn : 1 ≤ lc.ndec) (hd : 0 ≤ lc.pitchdiff)
    (hm : 0 < lc.pitch_max - lc.pitchdiff) (hF : 0 ≤ lc.framesz)
    (hJ : lc.erasecnt ≠ 0 →
      0 < lc.pitch ∧ lc.pitch ≤ lc.pitchblen ∧ 0 ≤ lc.poffset ∧ lc.poffset < lc.pitchblen)
    (h : g711plc_dofe E lc out rnd = some r) :
    0 ≤ r.1.poffset ∧ r.1.poffset < r.1.pitchblen := by
  unfold g711plc_dofe at h
  simp only [Option.bind_eq_some] at h
  obtain ⟨r0, hr0, hr⟩ := h
  have key : 0 ≤ r0.1.poffset ∧ r0.1.poffset < r0.1.pitchblen := by
    split at hr0
    · exact dofe_first_poffset E lc out _ r0 hn hd hm hF hr0
    · rename_i h0
      obtain ⟨j1, j2, j3, j4⟩ := hJ h0
      split at hr0
      · split at hr0
        · simp only [Option.bind_eq_some] at hr0
          obtain ⟨g, _, hg⟩ := hr0
          obtain rfl : _ = r0 := by simpa using hg
          exact ⟨j3, j4⟩
        · exact dofe_regular_poffset E lc out _ r0 hF j3 j4 hr0
      · split at hr0
        · exact dofe_extend_poffset lc out r0 hF j1 j2 j3 hr0
        · split at hr0
          · obtain rfl : _ = r0 := by simpa using hr0
            exact ⟨j3, j4⟩
          · exact dofe_regular_poffset E lc out _ r0 hF j3 j4 hr0
  obtain rfl : _ = r := by simpa using hr
  exact key

theorem poffset_run (E : Env) (fs : List Frame) :
    ∀ (lc : LowcFE) (r : LowcFE × List (Arr short)),
      1 ≤ lc.ndec → lc.pitchdiff = lc.pitch_max - lc.pitch_min → 0 < lc.pitch_min →
      lc.pitch_min ≤ lc.pitch_max → lc.poverlapmax = lc.pitch_max / 4 → 0 ≤ lc.framesz →
      0 ≤ lc.erasecnt →
      (0 < lc.erasecnt →
        PitchOK lc ∧ lc.pitch ≤ lc.pitchblen ∧ 0 ≤ lc.poffset ∧ lc.poffset < lc.pitchblen) →
      plc_run E lc fs = some r →
      (0 < r.1.erasecnt →
        PitchOK r.1 ∧ r.1.pitch ≤ r.1.pitchblen ∧ 0 ≤ r.1.poffset ∧
          r.1.poffset < r.1.pitchblen) := by
  induction fs with
  | nil =>
    intro lc r _ _ _ _ _ _ _ hJ h
    obtain rfl : (lc, []) = r := by simpa [plc_run] using h
    exact hJ
  | cons f fs ih =>
    intro lc r hn hd hm0 hm hq hF he hJ h
    simp only [plc_run, Option.bind_eq_some] at h
    obtain ⟨r1, h1, r2, h2, h3⟩ := h
    obtain rfl : (r2.1, r1.2 :: r2.2) = r := by simpa using h3
    obtain ⟨k1, k2, k3⟩ := plc_frame_some E lc f r1 hn hd hm hq (fun h => (hJ h).1) he h1
    obtain ⟨c1, c2, c3, c4, c5, c6, c7, c8, c9, c10, c11, c12, c13, c14, c15⟩ :=
      consts_eq r1.1 lc k1
    have he1 : 0 ≤ r1.1.erasecnt := by rw [k2]; split <;> omega
    refine ih r1.1 r2 (by omega) (by omega) (by omega) (by omega) (by omega) (by omega) he1
      (fun hpos => ?_) h2
    have hP := k3 hpos
    cases f with
    | good s =>
      obtain ⟨_, z⟩ := addtohistory_some E lc s r1 h1
      omega
    | lost out rnd =>
      have h1' : g711plc_dofe E lc out rnd = some r1 := h1
      obtain ⟨_, _, d3, d4⟩ := dofe_some E lc out rnd r1 hn (by omega) h1'
      obtain ⟨b1, b2, b3, b4⟩ := dofe_blen_some E lc out rnd r1 hn (by omega) h1'
      obtain ⟨q1, q2, q3, q4⟩ := hP
      have hJ' : lc.erasecnt ≠ 0 →
          0 < lc.pitch ∧ lc.pitch ≤ lc.pitchblen ∧ 0 ≤ lc.poffset ∧
            lc.poffset < lc.pitchblen := by
        intro hne
        obtain ⟨⟨p1, _⟩, p2, p3, p4⟩ := hJ (by omega)
        exact ⟨by omega, p2, p3, p4⟩
      obtain ⟨o1, o2⟩ := dofe_poffset_some E lc out rnd r1 hn (by omega) (by omega) hF hJ' h1'
      refine ⟨⟨q1, q2, q3, q4⟩, ?_, o1, o2⟩
      by_cases h0 : lc.erasecnt = 0
      · rw [(b1 h0).1]
      · obtain ⟨e1, _⟩ := d4 h0
        obtain ⟨_, p2, _⟩ := hJ' h0
        cases hcn : E.COMFORT_NOISE with
        | true =>
          rw [(b4 h0 hcn).1, e1]; exact p2
        | false =>
          by_cases h12 : lc.erasecnt = 1 ∨ lc.erasecnt = 2
          · rw [(b2 h0 hcn h12).1, e1]; omega
          · rw [(b3 h0 hcn h12).1, e1]; exact p2

/-- Claim C26.  For either variant, every build and every state with
`erasecnt > 0` reached from the constructed state by a stream of calls:
`pitch ≤ pitchblen ≤ 3 * pitch`, `0 ≤ poffset < pitchblen` and
`3 * pitch + poverlap ≤ historylen`; the pitch buffer ends at `historylen` and
the drawn part starts at `pitchbufend - pitchblen`, so the indices
`pitchbufstart + i` for `i < pitchblen` that `g711plc_getfespeech` reads and the
indices from `pitchbufstart - poverlap` to `pitchbufend` of the overlap-add lie
in `[0, historylen)`, and `historylen ≤ HISTORYLEN_MAX`. -/
theorem pitch_buffer_bounds (E : Env) (lc0 lc : LowcFE)
    (hc : cvsd_g711plc_construct E lc0 = some lc ∨ msbc_g711plc_construct E lc0 = some lc)
    (fs : List Frame) (r : LowcFE × List (Arr short)) (hr : plc_run E lc fs = some r)
    (he : 0 < r.1.erasecnt) :
    r.1.pitch ≤ r.1.pitchblen ∧ r.1.pitchblen ≤ 3 * r.1.pitch ∧
    0 ≤ r.1.poffset ∧ r.1.poffset < r.1.pitchblen ∧
    3 * r.1.pitch + r.1.poverlap ≤ r.1.historylen ∧
    r.1.pitchbufend = r.1.historylen ∧ r.1.pitchbufstart = r.1.pitchbufend - r.1.pitchblen ∧
    0 ≤ r.1.pitchbufstart - r.1.poverlap ∧
    (∀ i, 0 ≤ i → i < r.1.pitchblen →
      0 ≤ r.1.pitchbufstart + i ∧ r.1.pitchbufstart + i < r.1.historylen) ∧
    (∀ i, r.1.pitchbufstart - r.1.poverlap ≤ i → i < r.1.pitchbufend →
      0 ≤ i ∧ i < r.1.historylen) ∧
    r.1.historylen ≤ HISTORYLEN_MAX := by
  obtain ⟨f1, f2, f3, f4, f5, f6⟩ := constructed_fields E lc0 lc hc
  obtain ⟨hf, _, hp⟩ := reached_fields E lc0 lc hc fs r hr
  have hm0 : 0 < lc.pitch_min ∧ 0 ≤ lc.framesz := by
    rcases hc with hc | hc
    · obtain ⟨lc', h', g1, g2, g3, g4, g5, g6, g7, g8, g9, g10, g11, _⟩ :=
        cvsd_construct_fields E lc0
      rw [hc] at h'
      obtain rfl : lc = lc' := by simpa using h'
      constructor <;> omega
    · obtain ⟨lc', h', g1, g2, g3, g4, g5, g6, g7, g8, g9, g10, g11, _⟩ :=
        msbc_construct_fields E lc0
      rw [hc] at h'
      obtain rfl : lc = lc' := by simpa using h'
      constructor <;> omega
  obtain ⟨⟨p1, p2, p3, p4⟩, q1, q2, q3⟩ := poffset_run E fs lc r (by omega) f2 hm0.1 f3 f4
    hm0.2 (by omega) (fun h => by omega) hr he
  obtain ⟨_, _, _, hb⟩ := blen_run E fs lc r (by omega) f6 (by omega) (fun h => by omega) hr
  obtain ⟨b1, b2, b3⟩ := hb (by omega)
  have hb3 : r.1.pitchblen ≤ 3 * r.1.pitch := by
    cases hcn : E.COMFORT_NOISE with
    | true => rw [b2 hcn]; omega
    | false =>
      rw [b1 hcn]
      have hp0 : 0 ≤ r.1.pitch := by
        rcases hf with ⟨g1, _⟩ | ⟨g1, _⟩ <;> omega
      have : min r.1.erasecnt 3 ≤ 3 := min_le_right _ _
      nlinarith
  unfold HISTORYLEN_MAX
  rcases hf with ⟨g1, g2, g3, g4, g5, g6, g7, g8, g9, g10, g11, g12⟩ |
    ⟨g1, g2, g3, g4, g5, g6, g7, g8, g9, g10, g11, g12⟩ <;>
  · refine ⟨q1, hb3, q2, q3, by omega, by omega, b3, by omega, fun i h0 h1 => ?_,
      fun i h0 h1 => ?_, by omega⟩
    · constructor <;> omega
    · constructor <;> omega

theorem pitch_buffer_bounds_witness :
    ∃ lc r, cvsd_g711plc_construct plain blank = some lc ∧
      plc_run plain lc [Frame.good ramp, Frame.lost (Arr.const 0) (fun _ => 0)] = some r ∧
      r.1.erasecnt = 1 ∧ r.1.pitch ≤ r.1.pitchblen ∧ r.1.pitchblen ≤ 3 * r.1.pitch ∧
      0 ≤ r.1.poffset ∧ r.1.poffset < r.1.pitchblen ∧
      3 * r.1.pitch + r.1.poverlap ≤ r.1.historylen := by
  obtain ⟨lc, r, hc, hr, he⟩ := ramp_run
  obtain ⟨h1, h2, h3, h4, h5, _⟩ :=
    pitch_buffer_bounds plain blank lc (Or.inl hc) _ r hr (by omega)
  exact ⟨lc, r, hc, hr, he, h1, h2, h3, h4, h5⟩

/-! ## The size test of `fft_init` -/

theorem nat_land_pred (n : Nat) : n &&& (n - 1) = 0 ↔ n = 0 ∨ ∃ k : Nat, n = 2 ^ k := by
  induction n using Nat.strong_induction_on with
  | _ n ih =>
    rcases Nat.eq_zero_or_pos n with h0 | hpos
    · subst h0; simp
    rcases Nat.even_or_odd' n with ⟨m, hm | hm⟩
    · /- n = 2 * m, m ≥ 1 -/
      have hm1 : 1 ≤ m := by omega
      have e1 : n = Nat.bit false m := by rw [Nat.bit_val]; simp [hm]
      have e2 : n - 1 = Nat.bit true (m - 1) := by rw [Nat.bit_val]; simp; omega
      rw [e2]
      nth_rewrite 1 [e1]
      rw [Nat.land_bit, Bool.false_and]
      have e3 : Nat.bit false (m &&& (m - 1)) = 0 ↔ m &&& (m - 1) = 0 := by
        rw [Nat.bit_val]; simp
      rw [e3, ih m (by omega)]
      constructor
      · rintro (h | ⟨k, hk⟩)
        · omega
        · right; exact ⟨k + 1, by rw [hm, hk, pow_succ]; ring⟩
      · rintro (h | ⟨k, hk⟩)
        · omega
        · right
          cases k with
          | zero => simp at hk; omega
          | succ k => exact ⟨k, by rw [pow_succ] at hk; omega⟩
    · /- n = 2 * m + 1 -/
      have e1 : n = Nat.bit true m := by rw [Nat.bit_val]; simp [hm]
      have e2 : n - 1 = Nat.bit false m := by rw [Nat.bit_val]; simp; omega
      rw [e2]
      nth_rewrite 1 [e1]
      rw [Nat.land_bit, Bool.and_false, Nat.and_self]
      have e3 : Nat.bit false m = 0 ↔ m = 0 := by rw [Nat.bit_val]; simp
      rw [e3]
      constructor
      · intro h; right; exact ⟨0, by rw [hm, h]; rfl⟩
      · rintro (h | ⟨k, hk⟩)
        · omega
        · cases k with
          | zero => simp at hk; omega
          | succ k => rw [pow_succ] at hk; omega

theorem int_land_pred (size : Int) :
    Int.land size (size - 1) = 0 ↔ size = 0 ∨ ∃ k : Nat, size = 2 ^ k := by
  rcases Int.lt_or_le size 0 with hneg | h0
  · obtain ⟨a, ha⟩ : ∃ a : Nat, size = Int.negSucc a := ⟨(-size - 1).toNat, by
      rw [Int.negSucc_eq]; omega⟩
    have e : size - 1 = Int.negSucc (a + 1) := by rw [ha, Int.negSucc_eq, Int.negSucc_eq]; push_cast; ring
    rw [e, ha]
    constructor
    · intro h
      simp only [Int.land] at h
      exact absurd h (by simp)
    · rintro (h | ⟨k, hk⟩)
      · exact absurd h (by simp)
      · have : (0 : Int) < 2 ^ k := by positivity
        rw [← ha] at hk
        omega
  · rcases Int.lt_or_le 0 size with hpos | hz
    · obtain ⟨a, ha⟩ : ∃ a : Nat, size = (a : Int) := ⟨size.toNat, by omega⟩
      have ha1 : 1 ≤ a := by omega
      have e : size - 1 = ((a - 1 : Nat) : Int) := by rw [ha]; omega
      rw [e, ha]
      have : Int.land (a : Int) ((a - 1 : Nat) : Int) = ((a &&& (a - 1) : Nat) : Int) := rfl
      rw [this]
      constructor
      · intro h
        have h' : a &&& (a - 1) = 0 := by exact_mod_cast h
        rcases (nat_land_pred a).1 h' with h | ⟨k, hk⟩
        · omega
        · right; exact ⟨k, by rw [hk]; push_cast; rfl⟩
      · rintro (h | ⟨k, hk⟩)
        · omega
        · have : a = 2 ^ k := by exact_mod_cast hk
          exact_mod_cast (nat_land_pred a).2 (Or.inr ⟨k, this⟩)
    · have : size = 0 := by omega
      subst this
      constructor
      · intro _; left; rfl
      · intro _
        show Int.land (Int.ofNat 0) (Int.negSucc 0) = 0
        simp only [Int.land]
        simp [Nat.ldiff]

theorem fft_init_isSome {R : Type} [Field R] (M : FMath R) (size : Int) :
    (fft_init M size).isSome = true ↔ Int.land size (size - 1) = 0 := by
  unfold fft_init
  by_cases h : Int.land size (size - 1) = 0
  · simp [h]
  · simp [h]

theorem carry_zero_none (fuel : Nat) :
    whileLoop (fun s : Int × Int => decide (s.1 ≥ s.2)) (fun s => (s.1 - s.2, s.2 / 2)) fuel
      (0, 0) = none := by
  induction fuel with
  | zero => rfl
  | succ f ih =>
    show (if decide ((0 : Int) ≥ 0) = true then
      whileLoop (fun s : Int × Int => decide (s.1 ≥ s.2)) (fun s => (s.1 - s.2, s.2 / 2)) f
        ((0 : Int) - 0, (0 : Int) / 2) else some (0, 0)) = none
    rw [if_pos (by decide)]
    exact ih

/-- Claim C21.  `fft_init` returns a handler exactly for the sizes with
`size & (size - 1) == 0`: the powers of two and also 0, no negative size (above
`INT_MIN`, where the test is defined).  For `size = 0` it returns a handler of
size 0, and `fft_execute` with that handler does not return: the loop of
`bit_reverse` runs up to `n - 1 = 2^32 - 1` and its inner loop
`while (j >= k)` is entered with `j = k = 0`, which no number of passes ends. -/
theorem fft_init_accepts_zero {R : Type} [Field R] (M : FMath R) :
    (∀ size : Int, (fft_init M size).isSome = true ↔ size = 0 ∨ ∃ k : Nat, size = 2 ^ k) ∧
    (∀ size : Int, size < 0 → fft_init M size = none) ∧
    (∃ h, fft_init M 0 = some h ∧ h.size = 0) ∧
    (∀ io_buffer is_inverse, fft_execute (fft_init M 0) io_buffer is_inverse = none) ∧
    (∀ fuel, whileLoop (fun s : Int × Int => decide (s.1 ≥ s.2))
      (fun s => (s.1 - s.2, s.2 / 2)) fuel ((0 : Int) / 2, (0 : Int) / 2) = none) := by
  have h0 : Int.land 0 (0 - 1) = 0 := (int_land_pred 0).2 (Or.inl rfl)
  refine ⟨fun size => ?_, fun size hs => ?_, ?_, fun io inv => ?_, fun fuel => carry_zero_none fuel⟩
  · rw [fft_init_isSome, int_land_pred]
  · have : ¬ (fft_init M size).isSome = true := by
      rw [fft_init_isSome, int_land_pred]
      rintro (h | ⟨k, hk⟩)
      · omega
      · have : (0 : Int) < 2 ^ k := by positivity
        omega
    simpa using this
  · unfold fft_init
    rw [if_neg (by rw [h0]; simp)]
    exact ⟨_, rfl, rfl⟩
  · unfold fft_init
    rw [if_neg (by rw [h0]; simp)]
    unfold fft_execute
    simp only []
    have hb : bit_reverse_carry ((0 : Int) % 4294967296 / 2) ((0 : Int) % 4294967296 / 2)
        = none := carry_zero_none 33
    unfold bit_reverse
    have e : (((0 : Int) % 4294967296 - 1) % 4294967296).toNat = 4294967294 + 1 := by decide
    rw [e]
    unfold strideLoop
    rw [if_pos (by decide)]
    simp only [hb, Option.none_bind, Option.bind_none, if_neg (show ¬ ((1 : Int) < 0 % 4294967296 / 2) by decide)]

/-! ## The callers of the transform in `plc.c` -/

theorem fft_init_frame {R : Type} [Field R] (M : FMath R) : fft_init M FRAME_SIZE = none := by
  unfold fft_init
  rw [if_pos (by decide)]

theorem unvoiced_buffer_get {R : Type} [Field R] (frame : Arr short) (j : Int) :
    (unvoiced_buffer frame : Arr R).get j
      = if 0 ≤ j ∧ j < 2 * FRAME_SIZE ∧ j % 2 = 0 then ((frame.get (j / 2) : Int) : R) / 32768
        else 0 := by
  unfold unvoiced_buffer
  have key : ∀ n : Nat,
      (forLoop (fun i (fft_buf : Arr R) =>
        fft_buf.set (2 * i) (((frame.get i : Int) : R) / 32768)) n (Arr.const 0)).get j
      = if 0 ≤ j ∧ j < 2 * (n : Int) ∧ j % 2 = 0 then ((frame.get (j / 2) : Int) : R) / 32768
        else 0 := by
    intro n
    induction n with
    | zero =>
      rw [if_neg (by push_cast; omega)]
      rfl
    | succ n ih =>
      simp only [forLoop, Arr.get_set]
      by_cases hj : j = 2 * (n : Int)
      · rw [if_pos hj, if_pos (by push_cast; omega)]
        have : j / 2 = n := by omega
        rw [this]
      · rw [if_neg hj, ih]
        by_cases hc : 0 ≤ j ∧ j < 2 * (n : Int) ∧ j % 2 = 0
        · rw [if_pos hc, if_pos (by push_cast; omega)]
        · rw [if_neg hc, if_neg (by push_cast; omega)]
  have e : ((FRAME_SIZE.toNat : Nat) : Int) = FRAME_SIZE := by decide
  rw [key, e]

/-- Claim C29.  The size `FRAME_SIZE = 60` is not a power of two, so in
`is_unvoiced` the call `fft_init(FRAME_SIZE)` returns `NULL` and `fft_execute`
returns at once, leaving the buffer as it is: the spectral flatness and the
decision are computed from the samples of the frame over 32768 in the even cells
and 0 in the odd cells, not from a spectrum. -/
theorem unvoiced_untransformed {R : Type} [LinearOrderedField R] (M : FMath R)
    (frame : Arr short) :
    FRAME_SIZE = 60 ∧ (∀ k : Nat, FRAME_SIZE ≠ 2 ^ k) ∧
    fft_init M FRAME_SIZE = none ∧
    (∀ io_buffer is_inverse,
      fft_execute (fft_init M FRAME_SIZE) io_buffer is_inverse = some io_buffer) ∧
    is_unvoiced M frame = some (unvoiced_decision M frame (unvoiced_buffer frame)) ∧
    (∀ i, 0 ≤ i → i < FRAME_SIZE →
      (unvoiced_buffer frame : Arr R).get (2 * i) = ((frame.get i : Int) : R) / 32768 ∧
      (unvoiced_buffer frame : Arr R).get (2 * i + 1) = 0) := by
  refine ⟨rfl, fun k hk => ?_, fft_init_frame M, fun io inv => ?_, ?_, fun i h0 h1 => ?_⟩
  · have h := (fft_init_isSome M FRAME_SIZE).2
      ((int_land_pred FRAME_SIZE).2 (Or.inr ⟨k, hk⟩))
    rw [fft_init_frame M] at h
    simp at h
  · rw [fft_init_frame M]
    rfl
  · unfold is_unvoiced
    rw [fft_init_frame M]
    rfl
  · rw [unvoiced_buffer_get, unvoiced_buffer_get, if_pos (by omega), if_neg (by omega)]
    have : 2 * i / 2 = i := by omega
    rw [this]
    exact ⟨rfl, rfl⟩

/-- The window of `noise_shaping` is 0 at `i = 0` as soon as `cosf(0) = 1`. -/
theorem window_zero {R : Type} [Field R] (M : FMath R) (fft_size : Int)
    (h : M.cosf 0 = 1) : noise_shaping_window M fft_size 0 = 0 := by
  unfold noise_shaping_window
  simp only [Int.cast_zero, mul_zero, zero_div, h]
  ring

/-- Claim C24.  With the cosine of the real numbers and `M_PI = π`, the divisor
`window[i]` of the last loop of `noise_shaping` is 0 for `i = 0` and for
`i = FRAME_SIZE - 1 = 59`, and non-zero for the other `i` of the frame: the
division `fft_buf[2 * i] / window[i]` divides by zero for the first and the last
sample of every frame. -/
theorem inverse_window_zero :
    noise_shaping_window
      (⟨Real.cos, Real.sin, Real.sqrt, Real.log, Real.exp, fun x y => x ^ y, Real.pi⟩ :
        FMath ℝ) FRAME_SIZE 0 = 0 ∧
    noise_shaping_window
      (⟨Real.cos, Real.sin, Real.sqrt, Real.log, Real.exp, fun x y => x ^ y, Real.pi⟩ :
        FMath ℝ) FRAME_SIZE 59 = 0 ∧
    (∀ i : Int, 0 < i → i < 59 →
      noise_shaping_window
        (⟨Real.cos, Real.sin, Real.sqrt, Real.log, Real.exp, fun x y => x ^ y, Real.pi⟩ :
          FMath ℝ) FRAME_SIZE i ≠ 0) ∧
    (∀ fft_buf : Arr ℝ,
      noise_shaping_recovered
        (⟨Real.cos, Real.sin, Real.sqrt, Real.log, Real.exp, fun x y => x ^ y, Real.pi⟩ :
          FMath ℝ) fft_buf 0 = fft_buf.get 0 / 0) := by
  have w0 := window_zero
    (⟨Real.cos, Real.sin, Real.sqrt, Real.log, Real.exp, fun x y => x ^ y, Real.pi⟩ : FMath ℝ)
    FRAME_SIZE Real.cos_zero
  refine ⟨w0, ?_, fun i h0 h1 => ?_, fun fft_buf => ?_⟩
  · unfold noise_shaping_window FRAME_SIZE
    have e : (2 * Real.pi * ((59 : Int) : ℝ) / (((60 - 1 : Int) : Int) : ℝ)) = 2 * Real.pi := by
      push_cast
      field_simp
    simp only [e, Real.cos_two_pi]
    ring
  · unfold noise_shaping_window FRAME_SIZE
    intro h
    have hc : Real.cos (2 * Real.pi * (i : ℝ) / (((60 - 1 : Int) : Int) : ℝ)) = 1 := by
      simp only [] at h
      linarith
    rw [Real.cos_eq_one_iff] at hc
    obtain ⟨n, hn⟩ := hc
    have hpi : Real.pi ≠ 0 := Real.pi_ne_zero
    have e : (n : ℝ) * 59 = (i : ℝ) := by
      have h59 : (((60 - 1 : Int) : Int) : ℝ) = 59 := by norm_num
      rw [h59] at hn
      field_simp at hn
      have : Real.pi * ((n : ℝ) * 59 * 2) = Real.pi * ((i : ℝ) * 2) := by linarith
      have := mul_left_cancel₀ hpi this
      linarith
    have e' : n * 59 = i := by exact_mod_cast e
    omega
  · unfold noise_shaping_recovered
    rw [w0]
    simp

/-! ## Bit reversal -/

theorem bitrev_lt (t i : Nat) : bitrev t i < 2 ^ t := by
  induction t generalizing i with
  | zero => simp [bitrev]
  | succ t ih =>
    unfold bitrev
    have h1 : i % 2 < 2 := Nat.mod_lt _ (by norm_num)
    have h2 := ih (i / 2)
    have h3 : 2 ^ t * (i % 2) ≤ 2 ^ t := by
      calc 2 ^ t * (i % 2) ≤ 2 ^ t * 1 := Nat.mul_le_mul_left _ (by omega)
        _ = 2 ^ t := by ring
    rw [pow_succ]
    omega

theorem bitrev_zero (t : Nat) : bitrev t 0 = 0 := by
  induction t with
  | zero => rfl
  | succ t ih => simp [bitrev, ih]

theorem bitrev_even (t b : Nat) : bitrev (t + 1) (2 * b) = bitrev t b := by
  have e : bitrev (t + 1) (2 * b) = 2 ^ t * (2 * b % 2) + bitrev t (2 * b / 2) := rfl
  rw [e]
  have h1 : 2 * b % 2 = 0 := by omega
  have h2 : 2 * b / 2 = b := by omega
  rw [h1, h2]; simp

theorem bitrev_odd (t b : Nat) : bitrev (t + 1) (2 * b + 1) = 2 ^ t + bitrev t b := by
  have e : bitrev (t + 1) (2 * b + 1)
      = 2 ^ t * ((2 * b + 1) % 2) + bitrev t ((2 * b + 1) / 2) := rfl
  rw [e]
  have h1 : (2 * b + 1) % 2 = 1 := by omega
  have h2 : (2 * b + 1) / 2 = b := by omega
  rw [h1, h2]; simp

/-- The other recursion of the bit reversal: the lowest digit of the result is
the highest digit of the argument. -/
theorem bitrev_high (t i : Nat) :
    bitrev (t + 1) i = 2 * bitrev t (i % 2 ^ t) + i / 2 ^ t % 2 := by
  induction t generalizing i with
  | zero =>
    simp [bitrev, Nat.mod_one]
  | succ t ih =>
    have e : bitrev (t + 1 + 1) i = 2 ^ (t + 1) * (i % 2) + bitrev (t + 1) (i / 2) := rfl
    rw [e, ih (i / 2)]
    have e2 : bitrev (t + 1) (i % 2 ^ (t + 1))
        = 2 ^ t * (i % 2 ^ (t + 1) % 2) + bitrev t (i % 2 ^ (t + 1) / 2) := rfl
    rw [e2]
    have h1 : i % 2 ^ (t + 1) % 2 = i % 2 := by
      rw [pow_succ, Nat.mod_mul_left_mod]
    have h2 : i % 2 ^ (t + 1) / 2 = i / 2 % 2 ^ t := by
      rw [pow_succ, mul_comm, Nat.mod_mul_right_div_self]
    have h3 : i / 2 / 2 ^ t = i / 2 ^ (t + 1) := by
      rw [Nat.div_div_eq_div_mul, pow_succ, mul_comm]
    rw [h1, h2, h3, pow_succ]
    ring

theorem bitrev_bitrev (t i : Nat) (h : i < 2 ^ t) : bitrev t (bitrev t i) = i := by
  induction t generalizing i with
  | zero => simp at h; subst h; rfl
  | succ t ih =>
    rw [bitrev_high]
    have e : bitrev (t + 1) i = 2 ^ t * (i % 2) + bitrev t (i / 2) := rfl
    have hlt := bitrev_lt t (i / 2)
    have hi2 : i / 2 < 2 ^ t := by rw [pow_succ] at h; omega
    have hm : i % 2 < 2 := Nat.mod_lt _ (by norm_num)
    have h1 : bitrev (t + 1) i % 2 ^ t = bitrev t (i / 2) := by
      rw [e, Nat.mul_add_mod, Nat.mod_eq_of_lt hlt]
    have h2 : bitrev (t + 1) i / 2 ^ t = i % 2 := by
      rw [e, Nat.mul_add_div (by positivity), Nat.div_eq_of_lt hlt]
      simp
    rw [h1, h2, ih _ hi2, Nat.mod_mod]
    omega

/-- The inner loop of `bit_reverse` turns the reversal of `i` into that of
`i + 1`: it ends with `j + k` equal to it. -/
theorem carry_spec :
    ∀ (t i fuel : Nat), t ≤ fuel → i + 1 < 2 ^ t →
      ∃ jk : Int × Int,
        whileLoop (fun s : Int × Int => decide (s.1 ≥ s.2)) (fun s => (s.1 - s.2, s.2 / 2)) fuel
          ((bitrev t i : Int), (2 : Int) ^ t / 2) = some jk ∧
        jk.1 + jk.2 = (bitrev t (i + 1) : Int) := by
  intro t
  induction t with
  | zero => intro i fuel _ h; simp at h
  | succ t ih =>
    intro i fuel hf hi
    have hk : (2 : Int) ^ (t + 1) / 2 = 2 ^ t := by
      rw [pow_succ]; simp
    rw [hk]
    rcases Nat.even_or_odd' i with ⟨b, hb | hb⟩
    · /- the highest digit of the reversal is 0 -/
      subst hb
      have hlt := bitrev_lt t b
      have hc : ¬ ((bitrev (t + 1) (2 * b) : Int) ≥ 2 ^ t) := by
        rw [bitrev_even]
        have : ((bitrev t b : Nat) : Int) < ((2 ^ t : Nat) : Int) := by exact_mod_cast hlt
        push_cast at this
        omega
      refine ⟨((bitrev (t + 1) (2 * b) : Int), 2 ^ t), ?_, ?_⟩
      · cases fuel with
        | zero => simp [whileLoop, hc]
        | succ f => simp [whileLoop, hc]
      · simp only []
        rw [bitrev_even, bitrev_odd]
        push_cast
        ring
    · /- the highest digit is 1: it is cleared and the carry goes on -/
      subst hb
      have hb1 : b + 1 < 2 ^ t := by rw [pow_succ] at hi; omega
      have ht : 1 ≤ t := by
        rcases Nat.eq_zero_or_pos t with h | h
        · subst h; simp at hb1
        · exact h
      obtain ⟨f, rfl⟩ : ∃ f, fuel = f + 1 := ⟨fuel - 1, by omega⟩
      obtain ⟨jk, h1, h2⟩ := ih b f (by omega) hb1
      have hc : ((bitrev (t + 1) (2 * b + 1) : Int) ≥ 2 ^ t) := by
        rw [bitrev_odd]; push_cast; omega
      refine ⟨jk, ?_, ?_⟩
      · have e : (((bitrev (t + 1) (2 * b + 1) : Nat) : Int) - 2 ^ t, (2 : Int) ^ t / 2)
            = (((bitrev t b : Nat) : Int), (2 : Int) ^ t / 2) := by
          rw [bitrev_odd]; push_cast; simp
        simp only [whileLoop, decide_eq_true hc, if_true, e]
        exact h1
      · rw [h2]
        have : 2 * b + 1 + 1 = 2 * (b + 1) := by ring
        rw [this, bitrev_even]

/-- One pass of the loop of `bit_reverse` on one array: after the passes below
`i + 1`, the cells `p` with `min p (bitrev t p) ≤ i` hold the value of the cell
`bitrev t p`. -/
theorem swap_step {α : Type} (x a : Arr α) (t i : Nat) (hin : i < 2 ^ t)
    (ha : ∀ p : Nat, p < 2 ^ t →
      a.get p = if min p (bitrev t p) < i then x.get (bitrev t p) else x.get p)
    (hout : ∀ q : Int, q < 0 ∨ 2 ^ t ≤ q → a.get q = x.get q) :
    (∀ p : Nat, p < 2 ^ t →
      (if (i : Int) < (bitrev t i : Int)
        then (a.set i (a.get (bitrev t i))).set (bitrev t i) (a.get i) else a).get p
        = if min p (bitrev t p) < i + 1 then x.get (bitrev t p) else x.get p) ∧
    (∀ q : Int, q < 0 ∨ 2 ^ t ≤ q →
      (if (i : Int) < (bitrev t i : Int)
        then (a.set i (a.get (bitrev t i))).set (bitrev t i) (a.get i) else a).get q
        = x.get q) := by
  have hj := bitrev_lt t i
  have hjj := bitrev_bitrev t i hin
  have hji : ((bitrev t i : Nat) : Int) < 2 ^ t := by exact_mod_cast hj
  have hii : ((i : Nat) : Int) < 2 ^ t := by exact_mod_cast hin
  constructor
  · intro p hp
    have hpp := bitrev_bitrev t p hp
    have hrp := bitrev_lt t p
    by_cases hc : (i : Int) < (bitrev t i : Int)
    · rw [if_pos hc]
      have hc' : i < bitrev t i := by exact_mod_cast hc
      simp only [Arr.get_set]
      by_cases h1 : p = bitrev t i
      · rw [if_pos (by rw [h1])]
        have e : bitrev t p = i := by rw [h1, hjj]
        rw [ha i hin, if_neg (by omega), e, if_pos (by omega)]
      · rw [if_neg (by intro h; exact h1 (by exact_mod_cast h))]
        by_cases h2 : p = i
        · rw [if_pos (by rw [h2]), ha _ hj, hjj, if_neg (by omega), h2, if_pos (by omega)]
        · rw [if_neg (by intro h; exact h2 (by exact_mod_cast h)), ha p hp]
          have h3 : bitrev t p ≠ i := by
            intro h; apply h1; rw [← h, hpp]
          by_cases h4 : min p (bitrev t p) < i
          · rw [if_pos h4, if_pos (by omega)]
          · rw [if_neg h4, if_neg (by omega)]
    · rw [if_neg hc]
      have hc' : bitrev t i ≤ i := by
        have : ¬ (i < bitrev t i) := fun h => hc (by exact_mod_cast h)
        omega
      rw [ha p hp]
      by_cases h4 : min p (bitrev t p) < i
      · rw [if_pos h4, if_pos (by omega)]
      · rw [if_neg h4]
        by_cases h5 : min p (bitrev t p) < i + 1
        · rw [if_pos h5]
          have h6 : p = i ∨ bitrev t p = i := by omega
          have h7 : p = i := by
            rcases h6 with h | h
            · exact h
            · have : p = bitrev t i := by rw [← h, hpp]
              omega
          have h8 : bitrev t p = p := by
            rw [h7]
            have : i ≤ bitrev t i := by
              have := h7 ▸ h4
              omega
            omega
          rw [h8]
        · rw [if_neg h5]
  · intro q hq
    by_cases hc : (i : Int) < (bitrev t i : Int)
    · rw [if_pos hc]
      simp only [Arr.get_set]
      rw [if_neg (by omega), if_neg (by omega)]
      exact hout q hq
    · rw [if_neg hc]
      exact hout q hq

/-- The function `bit_reverse` on arrays of `n = 2 ^ t` cells returns, and puts
into each cell `p < n` the value of the cell `bitrev t p`; the other cells are
left as they are. -/
theorem bit_reverse_spec {R : Type} (real imag : Arr R) (t : Nat) (ht : t ≤ 31) :
    ∃ st : Arr R × Arr R, bit_reverse real imag ((2 : Int) ^ t) = some st ∧
      (∀ p : Nat, p < 2 ^ t → st.1.get p = real.get (bitrev t p) ∧
        st.2.get p = imag.get (bitrev t p)) ∧
      (∀ q : Int, q < 0 ∨ 2 ^ t ≤ q → st.1.get q = real.get q ∧ st.2.get q = imag.get q) := by
  have hpow : (2 : Int) ^ t ≤ 2 ^ 31 := pow_le_pow_right₀ (by norm_num) ht
  have hpos : (0 : Int) < 2 ^ t := by positivity
  have hb : ((2 : Int) ^ t - 1) % 4294967296 = 2 ^ t - 1 := by
    apply Int.emod_eq_of_lt <;> omega
  unfold bit_reverse
  rw [hb]
  obtain ⟨s', i', h, ⟨k, hk, hk1, hk2, hj, hr1, hr2, hi1, hi2⟩, hbd⟩ := strideLoop_inv
    (fun i (st : BitRev R) =>
      (bit_reverse_carry
        (if i < st.j then
          ({ real := (st.real.set i (st.real.get st.j)).set st.j (st.real.get i),
             imag := (st.imag.set i (st.imag.get st.j)).set st.j (st.imag.get i),
             j := st.j } : BitRev R)
        else st).j ((2 : Int) ^ t / 2)).bind (fun jk =>
        some ({ real := (if i < st.j then
                  ({ real := (st.real.set i (st.real.get st.j)).set st.j (st.real.get i),
                     imag := (st.imag.set i (st.imag.get st.j)).set st.j (st.imag.get i),
                     j := st.j } : BitRev R)
                else st).real,
                imag := (if i < st.j then
                  ({ real := (st.real.set i (st.real.get st.j)).set st.j (st.real.get i),
                     imag := (st.imag.set i (st.imag.get st.j)).set st.j (st.imag.get i),
                     j := st.j } : BitRev R)
                else st).imag,
                j := jk.1 + jk.2 } : BitRev R)))
    1 ((2 : Int) ^ t - 1)
    (fun i st => ∃ k : Nat, i = k ∧ 1 ≤ k ∧ (k + 1 ≤ 2 ^ t ∨ k = 1) ∧
      (k < 2 ^ t → st.j = bitrev t k) ∧
      (∀ p : Nat, p < 2 ^ t →
        st.real.get p = if min p (bitrev t p) < k then real.get (bitrev t p) else real.get p) ∧
      (∀ q : Int, q < 0 ∨ 2 ^ t ≤ q → st.real.get q = real.get q) ∧
      (∀ p : Nat, p < 2 ^ t →
        st.imag.get p = if min p (bitrev t p) < k then imag.get (bitrev t p) else imag.get p) ∧
      (∀ q : Int, q < 0 ∨ 2 ^ t ≤ q → st.imag.get q = imag.get q))
    (le_refl _)
    (by
      intro i st hi ⟨k, hk, hk1, _, hj, hr1, hr2, hi1, hi2⟩
      subst hk
      have hkn : k + 1 < 2 ^ t := by
        have : ((k : Int) + 1) < 2 ^ t := by omega
        exact_mod_cast this
      have hj' := hj (by omega)
      obtain ⟨jk, hc1, hc2⟩ := carry_spec t k 33 (by omega) hkn
      obtain ⟨a1, a2⟩ := swap_step real st.real t k (by omega) hr1 hr2
      obtain ⟨b1, b2⟩ := swap_step imag st.imag t k (by omega) hi1 hi2
      have ej : (if (k : Int) < st.j then
          ({ real := (st.real.set k (st.real.get st.j)).set st.j (st.real.get k),
             imag := (st.imag.set k (st.imag.get st.j)).set st.j (st.imag.get k),
             j := st.j } : BitRev R)
          else st).j = bitrev t k := by
        split_ifs <;> exact hj'
      have er : (if (k : Int) < st.j then
          ({ real := (st.real.set k (st.real.get st.j)).set st.j (st.real.get k),
             imag := (st.imag.set k (st.imag.get st.j)).set st.j (st.imag.get k),
             j := st.j } : BitRev R)
          else st).real = (if (k : Int) < (bitrev t k : Int)
            then (st.real.set k (st.real.get (bitrev t k))).set (bitrev t k) (st.real.get k)
            else st.real) := by
        rw [hj']; split_ifs <;> rfl
      have ei : (if (k : Int) < st.j then
          ({ real := (st.real.set k (st.real.get st.j)).set st.j (st.real.get k),
             imag := (st.imag.set k (st.imag.get st.j)).set st.j (st.imag.get k),
             j := st.j } : BitRev R)
          else st).imag = (if (k : Int) < (bitrev t k : Int)
            then (st.imag.set k (st.imag.get (bitrev t k))).set (bitrev t k) (st.imag.get k)
            else st.imag) := by
        rw [hj']; split_ifs <;> rfl
      beta_reduce
      rw [ej, er, ei]
      unfold bit_reverse_carry
      rw [hc1]
      refine ⟨_, rfl, k + 1, by push_cast; ring, by omega, Or.inl (by omega), fun _ => ?_,
        a1, a2, b1, b2⟩
      exact hc2)
    ((2 : Int) ^ t - 1).toNat 1 { real := real, imag := imag, j := (2 : Int) ^ t / 2 }
    (by omega)
    ⟨1, rfl, le_refl _, Or.inr rfl, fun h1 => by
        obtain ⟨u, rfl⟩ : ∃ u, t = u + 1 := by
          rcases Nat.eq_zero_or_pos t with h | h
          · subst h; simp at h1
          · exact ⟨t - 1, by omega⟩
        show (2 : Int) ^ (u + 1) / 2 = _
        have e : bitrev (u + 1) 1 = 2 ^ u := by
          have := bitrev_odd u 0
          simpa [bitrev_zero] using this
        rw [e, pow_succ]; push_cast; simp,
      fun p hp => by
        by_cases h : min p (bitrev t p) < 1
        · rw [if_pos h]
          have h0 : p = 0 := by
            rcases Nat.lt_or_ge p 1 with h1 | h1
            · omega
            · have h2 : bitrev t p = 0 := by omega
              have := bitrev_bitrev t p hp
              rw [h2, bitrev_zero] at this
              omega
          rw [h0, bitrev_zero]
        · rw [if_neg h],
      fun q _ => rfl,
      fun p hp => by
        by_cases h : min p (bitrev t p) < 1
        · rw [if_pos h]
          have h0 : p = 0 := by
            rcases Nat.lt_or_ge p 1 with h1 | h1
            · omega
            · have h2 : bitrev t p = 0 := by omega
              have := bitrev_bitrev t p hp
              rw [h2, bitrev_zero] at this
              omega
          rw [h0, bitrev_zero]
        · rw [if_neg h],
      fun q _ => rfl⟩
  subst hk
  have hk' : 2 ^ t ≤ k + 1 := by
    have : (2 : Int) ^ t ≤ (k : Int) + 1 := by omega
    exact_mod_cast this
  refine ⟨(s'.real, s'.imag),
    congrArg (fun o : Option (BitRev R) => o.bind (fun st => some (st.real, st.imag))) h,
    fun p hp => ?_, fun q hq => ⟨hr2 q hq, hi2 q hq⟩⟩
  have hrp := bitrev_lt t p
  have key : min p (bitrev t p) < k ∨ bitrev t p = p := by
    by_cases h : min p (bitrev t p) < k
    · exact Or.inl h
    · right
      rcases hk2 with h2 | h2
      · omega
      · subst h2
        have : 2 ^ t ≤ 2 := hk'
        have hp0 : min p (bitrev t p) = 0 ∨ (p = 1 ∧ bitrev t p = 1) := by omega
        rcases hp0 with h0 | h0
        · exact absurd (by omega) h
        · omega
  constructor
  · rw [hr1 p hp]
    rcases key with h | h
    · rw [if_pos h]
    · split_ifs <;> rw [h]
  · rw [hi1 p hp]
    rcases key with h | h
    · rw [if_pos h]
    · split_ifs <;> rw [h]

/-! ## The butterflies as Fourier sums of blocks -/

theorem sum_range_even_odd {K : Type} [CommRing K] (f : Nat → K) (M : Nat) :
    ∑ n ∈ Finset.range (2 * M), f n
      = ∑ n ∈ Finset.range M, f (2 * n) + ∑ n ∈ Finset.range M, f (2 * n + 1) := by
  induction M with
  | zero => simp
  | succ M ih =>
    have e : 2 * (M + 1) = 2 * M + 1 + 1 := by ring
    rw [e, Finset.sum_range_succ, Finset.sum_range_succ, ih, Finset.sum_range_succ,
      Finset.sum_range_succ]
    ring

theorem blockdft_zero {K : Type} [CommRing K] (w : K) (a : Nat → K) (p : Nat) :
    blockdft w 0 a p = a p := by
  unfold blockdft
  simp [bitrev]

/-- The two results of a butterfly of the pass for blocks of `2 ^ (s + 1)` cells
are the Fourier sums of the block, given those of its two halves. -/
theorem blockdft_step {K : Type} [CommRing K] (w1 w2 : K) (s : Nat) (a : Nat → K)
    (h2 : w2 ^ 2 = w1) (hm : w2 ^ (2 ^ s) = -1) (b j : Nat) (hj : j < 2 ^ s) :
    blockdft w2 (s + 1) a (b * 2 ^ (s + 1) + j)
      = blockdft w1 s a (b * 2 ^ (s + 1) + j)
        + w2 ^ j * blockdft w1 s a (b * 2 ^ (s + 1) + j + 2 ^ s) ∧
    blockdft w2 (s + 1) a (b * 2 ^ (s + 1) + j + 2 ^ s)
      = blockdft w1 s a (b * 2 ^ (s + 1) + j)
        - w2 ^ j * blockdft w1 s a (b * 2 ^ (s + 1) + j + 2 ^ s) := by
  have hp : (0 : Nat) < 2 ^ s := by positivity
  have e0 : b * 2 ^ (s + 1) = 2 * b * 2 ^ s := by rw [pow_succ]; ring
  have d1 : (b * 2 ^ (s + 1) + j) / 2 ^ (s + 1) = b := by
    rw [Nat.add_comm, Nat.add_mul_div_right _ _ (by positivity),
      Nat.div_eq_of_lt (by rw [pow_succ]; omega)]
    simp
  have m1 : (b * 2 ^ (s + 1) + j) % 2 ^ (s + 1) = j := by
    rw [Nat.add_comm, Nat.add_mul_mod_self_right, Nat.mod_eq_of_lt (by rw [pow_succ]; omega)]
  have d2 : (b * 2 ^ (s + 1) + j + 2 ^ s) / 2 ^ (s + 1) = b := by
    rw [Nat.add_assoc, Nat.add_comm, Nat.add_mul_div_right _ _ (by positivity),
      Nat.div_eq_of_lt (by rw [pow_succ]; omega)]
    simp
  have m2 : (b * 2 ^ (s + 1) + j + 2 ^ s) % 2 ^ (s + 1) = j + 2 ^ s := by
    rw [Nat.add_assoc, Nat.add_comm, Nat.add_mul_mod_self_right,
      Nat.mod_eq_of_lt (by rw [pow_succ]; omega)]
  have d3 : (b * 2 ^ (s + 1) + j) / 2 ^ s = 2 * b := by
    rw [e0, Nat.add_comm, Nat.add_mul_div_right _ _ hp, Nat.div_eq_of_lt hj]
    simp
  have m3 : (b * 2 ^ (s + 1) + j) % 2 ^ s = j := by
    rw [e0, Nat.add_comm, Nat.add_mul_mod_self_right, Nat.mod_eq_of_lt hj]
  have d4 : (b * 2 ^ (s + 1) + j + 2 ^ s) / 2 ^ s = 2 * b + 1 := by
    have : b * 2 ^ (s + 1) + j + 2 ^ s = j + (2 * b + 1) * 2 ^ s := by rw [e0]; ring
    rw [this, Nat.add_mul_div_right _ _ hp, Nat.div_eq_of_lt hj]
    simp
  have m4 : (b * 2 ^ (s + 1) + j + 2 ^ s) % 2 ^ s = j := by
    have : b * 2 ^ (s + 1) + j + 2 ^ s = j + (2 * b + 1) * 2 ^ s := by rw [e0]; ring
    rw [this, Nat.add_mul_mod_self_right, Nat.mod_eq_of_lt hj]
  have hpow : (2 : Nat) ^ (s + 1) = 2 * 2 ^ s := by rw [pow_succ]; ring
  have hw : ∀ n : Nat, w2 ^ (2 * n) = w1 ^ n := by
    intro n; rw [pow_mul, h2]
  have hneg : ∀ n : Nat, w2 ^ (2 ^ s * (2 * n)) = 1 := by
    intro n
    rw [pow_mul, hm, pow_mul]
    simp
  have hneg' : ∀ n : Nat, w2 ^ (2 ^ s * (2 * n + 1)) = -1 := by
    intro n
    rw [pow_mul, hm, pow_succ, pow_mul]
    simp
  constructor
  · unfold blockdft
    rw [d1, m1, d3, m3, d4, m4, hpow, sum_range_even_odd, Finset.mul_sum]
    congr 1
    · apply Finset.sum_congr rfl
      intro n _
      rw [bitrev_even]
      have e1 : j * (2 * n) = 2 * (j * n) := by ring
      rw [e1, hw]
      congr 2
      ring
    · apply Finset.sum_congr rfl
      intro n _
      rw [bitrev_odd]
      have e1 : j * (2 * n + 1) = 2 * (j * n) + j := by ring
      rw [e1, pow_add, hw]
      have e2 : b * (2 * 2 ^ s) + (2 ^ s + bitrev s n) = (2 * b + 1) * 2 ^ s + bitrev s n := by
        ring
      rw [e2]
      ring
  · unfold blockdft
    rw [d2, m2, d3, m3, d4, m4, hpow, sum_range_even_odd, Finset.mul_sum, sub_eq_add_neg,
      ← Finset.sum_neg_distrib]
    congr 1
    · apply Finset.sum_congr rfl
      intro n _
      rw [bitrev_even]
      have e1 : (j + 2 ^ s) * (2 * n) = 2 * (j * n) + 2 ^ s * (2 * n) := by ring
      rw [e1, pow_add, hw, hneg, mul_one]
      congr 2
      ring
    · apply Finset.sum_congr rfl
      intro n _
      rw [bitrev_odd]
      have e1 : (j + 2 ^ s) * (2 * n + 1) = 2 * (j * n) + j + 2 ^ s * (2 * n + 1) := by ring
      rw [e1, pow_add, pow_add, hw, hneg']
      have e2 : b * (2 * 2 ^ s) + (2 ^ s + bitrev s n) = (2 * b + 1) * 2 ^ s + bitrev s n := by
        ring
      rw [e2]
      ring

/-- The Fourier sums of the one block of `2 ^ t` cells, for an array that was
put into bit-reversed order, are the Fourier sums of the array it came from. -/
theorem blockdft_full {K : Type} [CommRing K] (w : K) (t : Nat) (a x : Nat → K)
    (ha : ∀ p, p < 2 ^ t → a p = x (bitrev t p)) (p : Nat) (hp : p < 2 ^ t) :
    blockdft w t a p = dft w (2 ^ t) x p := by
  unfold blockdft dft
  rw [Nat.div_eq_of_lt hp, Nat.mod_eq_of_lt hp]
  apply Finset.sum_congr rfl
  intro n hn
  have hn' : n < 2 ^ t := Finset.mem_range.mp hn
  rw [zero_mul, zero_add, ha _ (bitrev_lt t n), bitrev_bitrev t n hn']

/-! ## The loops of `fft_execute` on the complex numbers -/

theorem butterfly_cx (handler : FFTHandler ℝ) (is_inverse : Bool) (m : Int) (mh i j : Nat)
    (hmh : 1 ≤ mh) (st : Arr ℝ × Arr ℝ) (p : Nat) :
    cx (butterfly handler is_inverse m mh (i : Int) (j : Int) st) p
      = if p = i + j + mh then
          cx st (i + j) - twiddle handler is_inverse (handler.size / m * j) * cx st (i + j + mh)
        else if p = i + j then
          cx st (i + j) + twiddle handler is_inverse (handler.size / m * j) * cx st (i + j + mh)
        else cx st p := by
  unfold twiddle
  have ne1 : ((i : Int) + j) ≠ (i : Int) + j + mh := by omega
  by_cases h1 : p = i + j + mh
  · have h1' : (p : Int) = (i : Int) + j + mh := by exact_mod_cast h1
    rw [if_pos h1]
    apply Complex.ext
    · simp only [cx, butterfly, Arr.get_set, Complex.sub_re, Complex.mul_re, h1', if_neg ne1.symm,
        if_pos, Nat.cast_add]
    · simp only [cx, butterfly, Arr.get_set, Complex.sub_im, Complex.mul_im, h1', if_neg ne1.symm,
        if_pos, Nat.cast_add]
  · have h1' : ¬ ((p : Int) = (i : Int) + j + mh) := fun h => h1 (by exact_mod_cast h)
    rw [if_neg h1]
    by_cases h2 : p = i + j
    · have h2' : (p : Int) = (i : Int) + j := by exact_mod_cast h2
      rw [if_pos h2]
      apply Complex.ext
      · simp only [cx, butterfly, Arr.get_set, Complex.add_re, Complex.mul_re, h2', if_neg ne1,
          if_pos, Nat.cast_add]
      · simp only [cx, butterfly, Arr.get_set, Complex.add_im, Complex.mul_im, h2', if_neg ne1,
          if_pos, Nat.cast_add]
    · have h2' : ¬ ((p : Int) = (i : Int) + j) := fun h => h2 (by exact_mod_cast h)
      rw [if_neg h2]
      apply Complex.ext
      · simp only [cx, butterfly, Arr.get_set, if_neg h1', if_neg h2']
      · simp only [cx, butterfly, Arr.get_set, if_neg h1', if_neg h2']

/-- The innermost loop of `fft_execute` after `J` passes, for the block that
starts at `i`. -/
theorem jloop_cx (handler : FFTHandler ℝ) (is_inverse : Bool) (m : Int) (mh i : Nat)
    (hmh : 1 ≤ mh) (st : Arr ℝ × Arr ℝ) (J : Nat) (hJ : J ≤ mh) (p : Nat) :
    cx (forLoop (fun j st => butterfly handler is_inverse m mh (i : Int) j st) J st) p
      = if i ≤ p ∧ p < i + J then
          cx st p + twiddle handler is_inverse (handler.size / m * ((p - i : Nat) : Int))
            * cx st (p + mh)
        else if i + mh ≤ p ∧ p < i + mh + J then
          cx st (p - mh)
            - twiddle handler is_inverse (handler.size / m * ((p - mh - i : Nat) : Int)) * cx st p
        else cx st p := by
  induction J generalizing p with
  | zero =>
    rw [if_neg (by omega), if_neg (by omega)]
    rfl
  | succ J ih =>
    show cx (butterfly handler is_inverse m mh (i : Int) (J : Int)
      (forLoop (fun j st => butterfly handler is_inverse m mh (i : Int) j st) J st)) p = _
    rw [butterfly_cx handler is_inverse m mh i J hmh]
    have r1 := ih (by omega) (i + J)
    rw [if_neg (by omega), if_neg (by omega)] at r1
    have r2 := ih (by omega) (i + J + mh)
    rw [if_neg (by omega), if_neg (by omega)] at r2
    rw [r1, r2]
    by_cases h1 : p = i + J + mh
    · subst h1
      rw [if_pos rfl, if_neg (show ¬ (i ≤ i + J + mh ∧ i + J + mh < i + (J + 1)) by omega),
        if_pos (show i + mh ≤ i + J + mh ∧ i + J + mh < i + mh + (J + 1) by omega)]
      have e2 : i + J + mh - mh - i = J := by omega
      have e1 : i + J + mh - mh = i + J := by omega
      rw [e2, e1]
    · rw [if_neg h1]
      by_cases h2 : p = i + J
      · subst h2
        rw [if_pos rfl, if_pos (show i ≤ i + J ∧ i + J < i + (J + 1) by omega)]
        have e2 : i + J - i = J := by omega
        rw [e2]
      · rw [if_neg h2, ih (by omega) p]
        by_cases h3 : i ≤ p ∧ p < i + J
        · rw [if_pos h3, if_pos (show i ≤ p ∧ p < i + (J + 1) by omega)]
        · rw [if_neg h3, if_neg (show ¬ (i ≤ p ∧ p < i + (J + 1)) by omega)]
          by_cases h4 : i + mh ≤ p ∧ p < i + mh + J
          · rw [if_pos h4, if_pos (show i + mh ≤ p ∧ p < i + mh + (J + 1) by omega)]
          · rw [if_neg h4, if_neg (show ¬ (i + mh ≤ p ∧ p < i + mh + (J + 1)) by omega)]

/-- One pass of the loop over `m` of `fft_execute`, for `m = 2 * mh` and
`n = B * m`: every cell below `n` gets the result of its butterfly. -/
theorem stage_cx (handler : FFTHandler ℝ) (is_inverse : Bool) (mh B : Nat) (hmh : 1 ≤ mh)
    (st : Arr ℝ × Arr ℝ) :
    ∃ st' : Arr ℝ × Arr ℝ,
      fft_stage handler is_inverse ((B * (2 * mh) : Nat) : Int) ((2 * mh : Nat) : Int) st
        = some st' ∧
      ∀ p : Nat, cx st' p =
        if p < B * (2 * mh) then
          if p % (2 * mh) < mh then
            cx st p + twiddle handler is_inverse
              (handler.size / ((2 * mh : Nat) : Int) * ((p % (2 * mh) : Nat) : Int))
              * cx st (p + mh)
          else
            cx st (p - mh) - twiddle handler is_inverse
              (handler.size / ((2 * mh : Nat) : Int) * ((p % (2 * mh) - mh : Nat) : Int))
              * cx st p
        else cx st p := by
  unfold fft_stage
  have em : ((2 * mh : Nat) : Int) / 2 = (mh : Int) := by push_cast; omega
  simp only [em, Int.toNat_ofNat]
  obtain ⟨st', i', h, ⟨b, hb, hbB, hP⟩, hbd⟩ := strideLoop_inv
    (fun i st => some (forLoop (fun j st =>
      butterfly handler is_inverse ((2 * mh : Nat) : Int) (mh : Int) i j st) mh st))
    ((2 * mh : Nat) : Int) ((B * (2 * mh) : Nat) : Int)
    (fun i s => ∃ b : Nat, i = ((b * (2 * mh) : Nat) : Int) ∧ b ≤ B ∧
      ∀ p : Nat, cx s p =
        if p < b * (2 * mh) then
          if p % (2 * mh) < mh then
            cx st p + twiddle handler is_inverse
              (handler.size / ((2 * mh : Nat) : Int) * ((p % (2 * mh) : Nat) : Int))
              * cx st (p + mh)
          else
            cx st (p - mh) - twiddle handler is_inverse
              (handler.size / ((2 * mh : Nat) : Int) * ((p % (2 * mh) - mh : Nat) : Int))
              * cx st p
        else cx st p)
    (by push_cast; omega)
    (by
      intro i s hi ⟨b, hb, hbB, hP⟩
      subst hb
      have hbB' : b < B := by
        have h1 : b * (2 * mh) < B * (2 * mh) := by exact_mod_cast hi
        exact lt_of_mul_lt_mul_right h1 (Nat.zero_le _)
      refine ⟨_, rfl, b + 1, by push_cast; ring, by omega, fun p => ?_⟩
      rw [jloop_cx handler is_inverse _ mh (b * (2 * mh)) hmh s mh (le_refl _) p]
      have hexp : (b + 1) * (2 * mh) = b * (2 * mh) + mh + mh := by ring
      by_cases h1 : b * (2 * mh) ≤ p ∧ p < b * (2 * mh) + mh
      · rw [if_pos h1, if_pos (show p < (b + 1) * (2 * mh) by omega)]
        have hm : p % (2 * mh) = p - b * (2 * mh) := by
          obtain ⟨r, hr⟩ : ∃ r, p = r + b * (2 * mh) := ⟨p - b * (2 * mh), by omega⟩
          rw [hr, Nat.add_mul_mod_self_right, Nat.mod_eq_of_lt (by omega)]
          omega
        rw [if_pos (show p % (2 * mh) < mh by omega), hm, hP p,
          if_neg (show ¬ (p < b * (2 * mh)) by omega), hP (p + mh),
          if_neg (show ¬ (p + mh < b * (2 * mh)) by omega)]
      · rw [if_neg h1]
        by_cases h2 : b * (2 * mh) + mh ≤ p ∧ p < b * (2 * mh) + mh + mh
        · rw [if_pos h2, if_pos (show p < (b + 1) * (2 * mh) by omega)]
          have hm : p % (2 * mh) = p - b * (2 * mh) := by
            obtain ⟨r, hr⟩ : ∃ r, p = r + b * (2 * mh) := ⟨p - b * (2 * mh), by omega⟩
            rw [hr, Nat.add_mul_mod_self_right, Nat.mod_eq_of_lt (by omega)]
            omega
          have e : p - mh - b * (2 * mh) = p % (2 * mh) - mh := by omega
          rw [if_neg (show ¬ (p % (2 * mh) < mh) by omega), e, hP p,
            if_neg (show ¬ (p < b * (2 * mh)) by omega), hP (p - mh),
            if_neg (show ¬ (p - mh < b * (2 * mh)) by omega)]
        · rw [if_neg h2, hP p]
          by_cases h3 : p < b * (2 * mh)
          · rw [if_pos h3, if_pos (show p < (b + 1) * (2 * mh) by omega)]
          · rw [if_neg h3, if_neg (show ¬ (p < (b + 1) * (2 * mh)) by omega)])
    (B * (2 * mh)) 0 st (by omega)
    ⟨0, by simp, Nat.zero_le _, fun p => by rw [if_neg (by omega)]⟩
  have hbe : b = B := by
    have h1 : B * (2 * mh) ≤ b * (2 * mh) := by
      have : ((B * (2 * mh) : Nat) : Int) ≤ ((b * (2 * mh) : Nat) : Int) := by omega
      exact_mod_cast this
    have : B ≤ b := le_of_mul_le_mul_right h1 (by omega)
    omega
  subst hbe
  exact ⟨st', h, hP⟩

/-- The pass of `fft_execute` for blocks of `2 ^ (s + 1)` cells turns the Fourier
sums of the blocks of `2 ^ s` cells into those of the blocks of `2 ^ (s + 1)`
cells, when the twiddle factors are the powers of `Ω` and `Ω ^ (2 ^ t / 2) = -1`. -/
theorem stage_blockdft (handler : FFTHandler ℝ) (is_inverse : Bool) (t s : Nat) (hs : s < t)
    (hsize : handler.size = ((2 ^ t : Nat) : Int)) (Ω : ℂ)
    (htw : ∀ q : Nat, q < 2 ^ t → twiddle handler is_inverse (q : Int) = Ω ^ q)
    (hΩ : Ω ^ (2 ^ (t - 1)) = -1) (a : Nat → ℂ) (st : Arr ℝ × Arr ℝ)
    (hst : ∀ p : Nat, p < 2 ^ t → cx st p = blockdft (Ω ^ (2 ^ (t - s))) s a p) :
    ∃ st' : Arr ℝ × Arr ℝ,
      fft_stage handler is_inverse ((2 ^ t : Nat) : Int) ((2 ^ (s + 1) : Nat) : Int) st
        = some st' ∧
      (∀ p : Nat, p < 2 ^ t → cx st' p = blockdft (Ω ^ (2 ^ (t - (s + 1)))) (s + 1) a p) ∧
      (∀ p : Nat, 2 ^ t ≤ p → cx st' p = cx st p) := by
  have hB : 2 ^ (t - (s + 1)) * (2 * 2 ^ s) = 2 ^ t := by
    rw [← pow_succ', ← pow_add]
    congr 1
    omega
  have hm : 2 * 2 ^ s = 2 ^ (s + 1) := by rw [pow_succ]; ring
  obtain ⟨st', h, hP⟩ := stage_cx handler is_inverse (2 ^ s) (2 ^ (t - (s + 1)))
    (Nat.one_le_two_pow) st
  rw [hB, hm] at h
  refine ⟨st', h, fun p hp => ?_, fun p hp => ?_⟩
  · have hdiv : handler.size / ((2 * 2 ^ s : Nat) : Int) = ((2 ^ (t - (s + 1)) : Nat) : Int) := by
      rw [hsize, ← hB]
      push_cast
      rw [Int.mul_ediv_cancel _ (by positivity)]
    have h2 : (Ω ^ (2 ^ (t - (s + 1)))) ^ 2 = Ω ^ (2 ^ (t - s)) := by
      rw [← pow_mul, ← pow_succ]
      congr 2
      omega
    have hmm : (Ω ^ (2 ^ (t - (s + 1)))) ^ (2 ^ s) = -1 := by
      rw [← pow_mul, ← pow_add, ← hΩ]
      congr 2
      omega
    have hp2 : (0 : Nat) < 2 ^ (s + 1) := by positivity
    obtain ⟨b, r, hr, hbr⟩ : ∃ b r, r < 2 ^ (s + 1) ∧ p = b * 2 ^ (s + 1) + r :=
      ⟨p / 2 ^ (s + 1), p % 2 ^ (s + 1), Nat.mod_lt _ hp2, by
        rw [mul_comm]; exact (Nat.div_add_mod p _).symm⟩
    have hmod : p % (2 * 2 ^ s) = r := by
      rw [hm, hbr, Nat.add_comm, Nat.add_mul_mod_self_right, Nat.mod_eq_of_lt hr]
    have hB2 : 2 ^ (t - (s + 1)) * 2 ^ (s + 1) = 2 ^ t := by rw [← hm]; exact hB
    have hblock : b * 2 ^ (s + 1) + 2 ^ (s + 1) ≤ 2 ^ t := by
      have hb : b < 2 ^ (t - (s + 1)) := by
        by_contra hge
        have : 2 ^ (t - (s + 1)) * 2 ^ (s + 1) ≤ b * 2 ^ (s + 1) :=
          Nat.mul_le_mul_right _ (by omega)
        rw [hB2] at this
        omega
      have : (b + 1) * 2 ^ (s + 1) ≤ 2 ^ (t - (s + 1)) * 2 ^ (s + 1) :=
        Nat.mul_le_mul_right _ (by omega)
      rw [hB2] at this
      linarith
    have hpw : (2 : Nat) ^ (s + 1) = 2 ^ s + 2 ^ s := by rw [pow_succ]; ring
    rw [hP p, hB, if_pos hp, hmod, hdiv]
    by_cases hrl : r < 2 ^ s
    · rw [if_pos hrl]
      have hq : ((2 ^ (t - (s + 1)) : Nat) : Int) * (r : Int)
          = ((2 ^ (t - (s + 1)) * r : Nat) : Int) := by push_cast; ring
      have hql : 2 ^ (t - (s + 1)) * r < 2 ^ t := by
        calc 2 ^ (t - (s + 1)) * r < 2 ^ (t - (s + 1)) * (2 * 2 ^ s) :=
              Nat.mul_lt_mul_of_pos_left (by omega) (by positivity)
          _ = 2 ^ t := hB
      rw [hq, htw _ hql, pow_mul, hst p hp, hst (p + 2 ^ s) (by omega), hbr]
      exact ((blockdft_step _ _ s a h2 hmm b r hrl).1).symm
    · rw [if_neg hrl]
      obtain ⟨j, hj⟩ : ∃ j, r = j + 2 ^ s := ⟨r - 2 ^ s, by omega⟩
      have hjl : j < 2 ^ s := by omega
      have e1 : r - 2 ^ s = j := by omega
      have hq : ((2 ^ (t - (s + 1)) : Nat) : Int) * (j : Int)
          = ((2 ^ (t - (s + 1)) * j : Nat) : Int) := by push_cast; ring
      have hql : 2 ^ (t - (s + 1)) * j < 2 ^ t := by
        calc 2 ^ (t - (s + 1)) * j < 2 ^ (t - (s + 1)) * (2 * 2 ^ s) :=
              Nat.mul_lt_mul_of_pos_left (by omega) (by positivity)
          _ = 2 ^ t := hB
      have e2 : p - 2 ^ s = b * 2 ^ (s + 1) + j := by omega
      have e3 : p = b * 2 ^ (s + 1) + j + 2 ^ s := by omega
      rw [e1, hq, htw _ hql, pow_mul, hst p hp, hst (p - 2 ^ s) (by omega), e2, e3]
      exact ((blockdft_step _ _ s a h2 hmm b j hjl).2).symm
  · rw [hP p, hB, if_neg (by omega)]

/-- The loop over `m` of `fft_execute` for `n = 2 ^ t`, entered with `m = 2 ^ (s + 1)`:
it returns, and a property that every pass carries from `s` to `s + 1` holds at `t`
when it ends. -/
theorem doublingLoop_pow {σ : Type} (body : Int → σ → Option σ) (t : Nat) (ht : t ≤ 30)
    (P : Nat → σ → Prop)
    (hbody : ∀ (s : Nat) (st : σ), s < t → P s st →
      ∃ st', body ((2 ^ (s + 1) : Nat) : Int) st = some st' ∧ P (s + 1) st') :
    ∀ (d s fuel : Nat) (st : σ), s + d = t → d ≤ fuel → P s st →
      ∃ st', doublingLoop body ((2 ^ t : Nat) : Int) fuel ((2 ^ (s + 1) : Nat) : Int) st
        = some st' ∧ P t st' := by
  intro d
  induction d with
  | zero =>
    intro s fuel st hs _ hp
    have e : s = t := by omega
    subst e
    have hc : ¬ (((2 ^ (s + 1) : Nat) : Int) ≤ ((2 ^ s : Nat) : Int)) := by
      have : 2 ^ s < 2 ^ (s + 1) := Nat.pow_lt_pow_right (by norm_num) (by omega)
      omega
    refine ⟨st, ?_, hp⟩
    cases fuel with
    | zero => simp only [doublingLoop, if_neg hc]
    | succ f => simp only [doublingLoop, if_neg hc]
  | succ d ih =>
    intro s fuel st hs hf hp
    obtain ⟨f, rfl⟩ : ∃ f, fuel = f + 1 := ⟨fuel - 1, by omega⟩
    have hc : ((2 ^ (s + 1) : Nat) : Int) ≤ ((2 ^ t : Nat) : Int) := by
      have : 2 ^ (s + 1) ≤ 2 ^ t := Nat.pow_le_pow_right (by norm_num) (by omega)
      exact_mod_cast this
    obtain ⟨st1, h1, hp1⟩ := hbody s st (by omega) hp
    obtain ⟨st', h2, hp2⟩ := ih (s + 1) f st1 (by omega) (by omega) hp1
    have hmod : ((2 ^ (s + 1) : Nat) : Int) * 2 % 4294967296 = ((2 ^ (s + 1 + 1) : Nat) : Int) := by
      have h31 : 2 ^ (s + 1 + 1) ≤ 2 ^ 31 := Nat.pow_le_pow_right (by norm_num) (by omega)
      have e : ((2 ^ (s + 1) : Nat) : Int) * 2 = ((2 ^ (s + 1 + 1) : Nat) : Int) := by
        push_cast; ring
      rw [e]
      apply Int.emod_eq_of_lt
      · positivity
      · have : ((2 ^ (s + 1 + 1) : Nat) : Int) ≤ ((2 ^ 31 : Nat) : Int) := by exact_mod_cast h31
        omega
    refine ⟨st', ?_, hp2⟩
    simp only [doublingLoop, if_pos hc, h1, Option.some_bind, hmod]
    exact h2

/-- The loop of `fft_execute` that splits the interleaved buffer. -/
theorem split_loop_get {R : Type} (f g : Int → R) (n : Nat) (s0 : Arr R × Arr R) (j : Int) :
    (forLoop (fun i (st : Arr R × Arr R) => (st.1.set i (f i), st.2.set i (g i))) n s0).1.get j
        = (if 0 ≤ j ∧ j < n then f j else s0.1.get j) ∧
    (forLoop (fun i (st : Arr R × Arr R) => (st.1.set i (f i), st.2.set i (g i))) n s0).2.get j
        = (if 0 ≤ j ∧ j < n then g j else s0.2.get j) := by
  induction n with
  | zero => simp only [forLoop]; constructor <;> rw [if_neg] <;> push_cast <;> omega
  | succ m ih =>
    simp only [forLoop, Arr.get_set, ih.1, ih.2]
    by_cases h1 : j = m
    · subst h1; simp
    · simp only [h1, if_false]
      have e : (0 ≤ j ∧ j < ((m + 1 : Nat) : Int)) ↔ (0 ≤ j ∧ j < (m : Int)) := by
        push_cast; omega
      simp only [e, and_self]

/-- The loop of `fft_execute` that scales the result of the inverse transform. -/
theorem scale_loop_get {R : Type} [Field R] (c : R) (n : Nat) (s0 : Arr R × Arr R) (j : Int) :
    (forLoop (fun i (st : Arr R × Arr R) =>
        (st.1.set i (st.1.get i * c), st.2.set i (st.2.get i * c))) n s0).1.get j
        = (if 0 ≤ j ∧ j < n then s0.1.get j * c else s0.1.get j) ∧
    (forLoop (fun i (st : Arr R × Arr R) =>
        (st.1.set i (st.1.get i * c), st.2.set i (st.2.get i * c))) n s0).2.get j
        = (if 0 ≤ j ∧ j < n then s0.2.get j * c else s0.2.get j) := by
  induction n generalizing j with
  | zero => simp only [forLoop]; constructor <;> rw [if_neg] <;> push_cast <;> omega
  | succ m ih =>
    simp only [forLoop, Arr.get_set]
    by_cases h1 : j = m
    · subst h1
      rw [(ih (m : Int)).1, (ih (m : Int)).2]
      simp
    · simp only [h1, if_false]
      rw [(ih j).1, (ih j).2]
      have e : (0 ≤ j ∧ j < ((m + 1 : Nat) : Int)) ↔ (0 ≤ j ∧ j < (m : Int)) := by
        push_cast; omega
      simp only [e, and_self]

/-- The loop of `fft_execute` that writes the result back, interleaved. -/
theorem pack_loop_get {R : Type} (f g : Int → R) (n : Nat) (io : Arr R) (q : Int) :
    (forLoop (fun i (io : Arr R) => (io.set (2 * i) (f i)).set (2 * i + 1) (g i)) n io).get q
      = if 0 ≤ q ∧ q < 2 * n then (if q % 2 = 0 then f (q / 2) else g (q / 2))
        else io.get q := by
  induction n with
  | zero => simp only [forLoop]; rw [if_neg]; push_cast; omega
  | succ m ih =>
    simp only [forLoop, Arr.get_set, ih]
    by_cases h1 : q = 2 * (m : Int) + 1
    · rw [if_pos h1, if_pos (by push_cast; omega), if_neg (by omega)]
      congr 1
      omega
    · rw [if_neg h1]
      by_cases h0 : q = 2 * (m : Int)
      · rw [if_pos h0, if_pos (by push_cast; omega), if_pos (by omega)]
        congr 1
        omega
      · rw [if_neg h0]
        have e : (0 ≤ q ∧ q < 2 * ((m + 1 : Nat) : Int)) ↔ (0 ≤ q ∧ q < 2 * (m : Int)) := by
          push_cast; omega
        simp only [e]

/-- The function `fft_execute` for a handler of size `2 ^ t` whose butterfly factors
are the powers of a root `Ω` with `Ω ^ (2 ^ t / 2) = -1`: the call returns, cell `p`
of the result holds the Fourier sum of the input for `Ω` at `p` (over `2 ^ t` for the
inverse transform), and the cells outside the `2 ^ t` complex values are left as
they are. -/
theorem fft_execute_dft (handler : FFTHandler ℝ) (is_inverse : Bool) (t : Nat) (ht : t ≤ 30)
    (hsize : handler.size = ((2 ^ t : Nat) : Int)) (Ω : ℂ)
    (htw : ∀ q : Nat, q < 2 ^ t → twiddle handler is_inverse (q : Int) = Ω ^ q)
    (hΩ : 1 ≤ t → Ω ^ (2 ^ (t - 1)) = -1) (io : Arr ℝ) :
    ∃ out : Arr ℝ, fft_execute (some handler) io is_inverse = some out ∧
      (∀ p : Nat, p < 2 ^ t → cbuf out p
        = (if is_inverse then 1 / ((2 ^ t : Nat) : ℂ) else 1) * dft Ω (2 ^ t) (cbuf io) p) ∧
      (∀ q : Int, q < 0 ∨ 2 * 2 ^ t ≤ q → out.get q = io.get q) := by
  unfold fft_execute
  simp only [hsize, Int.toNat_ofNat]
  have hN : ((2 ^ t : Nat) : Int) = (2 : Int) ^ t := by push_cast; rfl
  have hst0 := fun j => split_loop_get (fun i => io.get (2 * i)) (fun i => io.get (2 * i + 1))
    (2 ^ t) (Arr.const 0, Arr.const 0) j
  generalize forLoop (fun i (st : Arr ℝ × Arr ℝ) =>
    (st.1.set i (io.get (2 * i)), st.2.set i (io.get (2 * i + 1)))) (2 ^ t)
    (Arr.const 0, Arr.const 0) = st0 at hst0 ⊢
  obtain ⟨st1, h1, hin, -⟩ := bit_reverse_spec st0.1 st0.2 t (by omega)
  rw [← hN] at h1
  rw [h1]
  simp only [Option.some_bind]
  obtain ⟨st2, h2, hP2⟩ := doublingLoop_pow
    (fun m st => fft_stage handler is_inverse ((2 ^ t : Nat) : Int) m st) t ht
    (fun s st => ∀ p : Nat, p < 2 ^ t → cx st p = blockdft (Ω ^ (2 ^ (t - s))) s (cx st1) p)
    (fun s st hs hp => by
      obtain ⟨st', h, hq, -⟩ := stage_blockdft handler is_inverse t s hs hsize Ω htw
        (hΩ (by omega)) (cx st1) st hp
      exact ⟨st', h, hq⟩)
    t 0 32 st1 (by omega) (by omega) (fun p _ => (blockdft_zero _ _ p).symm)
  have e2 : ((2 ^ (0 + 1) : Nat) : Int) = 2 := by norm_num
  rw [e2] at h2
  rw [h2]
  simp only [Option.some_bind]
  have hdft : ∀ p : Nat, p < 2 ^ t → cx st2 p = dft Ω (2 ^ t) (cbuf io) p := by
    intro p hp
    have h := hP2 p hp
    rw [Nat.sub_self, pow_zero, pow_one] at h
    rw [h]
    apply blockdft_full Ω t (cx st1) (cbuf io) _ p hp
    intro r hr
    have hb := bitrev_lt t r
    unfold cx cbuf
    rw [(hin r hr).1, (hin r hr).2, (hst0 _).1, (hst0 _).2,
      if_pos ⟨by positivity, by exact_mod_cast hb⟩, if_pos ⟨by positivity, by exact_mod_cast hb⟩]
  have hsc := fun j => scale_loop_get (1 / ((((2 ^ t : Nat) : Int) : ℝ))) (2 ^ t) st2 j
  generalize hst3 : (if is_inverse = true then
      forLoop (fun i (st : Arr ℝ × Arr ℝ) =>
        (st.1.set i (st.1.get i * (1 / ((((2 ^ t : Nat) : Int) : ℝ)))),
          st.2.set i (st.2.get i * (1 / ((((2 ^ t : Nat) : Int) : ℝ)))))) (2 ^ t) st2
      else st2) = st3
  have h3 : ∀ p : Nat, p < 2 ^ t → cx st3 p
      = (if is_inverse then 1 / ((2 ^ t : Nat) : ℂ) else 1) * dft Ω (2 ^ t) (cbuf io) p := by
    intro p hp
    rw [← hdft p hp, ← hst3]
    cases is_inverse with
    | false => simp
    | true =>
      have ec : (1 / ((2 ^ t : Nat) : ℂ)) = (((1 / ((((2 ^ t : Nat) : Int) : ℝ))) : ℝ) : ℂ) := by
        push_cast
        ring_nf
      simp only [if_true]
      unfold cx
      have hpr : (0 : Int) ≤ (p : Int) ∧ (p : Int) < ((2 ^ t : Nat) : Int) :=
        ⟨by positivity, by exact_mod_cast hp⟩
      rw [(hsc p).1, (hsc p).2, if_pos hpr, if_pos hpr, ec]
      generalize (1 / ((((2 ^ t : Nat) : Int) : ℝ))) = c
      apply Complex.ext
      · simp only [Complex.mul_re, Complex.ofReal_re, Complex.ofReal_im]
        ring
      · simp only [Complex.mul_im, Complex.ofReal_re, Complex.ofReal_im]
        ring
  have hpack := fun q => pack_loop_get (fun i => st3.1.get i) (fun i => st3.2.get i) (2 ^ t) io q
  refine ⟨_, rfl, fun p hp => ?_, fun q hq => ?_⟩
  · rw [← h3 p hp]
    unfold cbuf cx
    have hp' : (p : Int) < ((2 ^ t : Nat) : Int) := by exact_mod_cast hp
    have hq0 : (0 : Int) ≤ 2 * (p : Int) ∧ 2 * (p : Int) < 2 * ((2 ^ t : Nat) : Int) :=
      ⟨by positivity, by omega⟩
    have hq1 : (0 : Int) ≤ 2 * (p : Int) + 1 ∧ 2 * (p : Int) + 1 < 2 * ((2 ^ t : Nat) : Int) :=
      ⟨by positivity, by omega⟩
    have hm0 : 2 * (p : Int) % 2 = 0 := by omega
    have hm1 : ¬ ((2 * (p : Int) + 1) % 2 = 0) := by omega
    have hd0 : 2 * (p : Int) / 2 = p := by omega
    have hd1 : (2 * (p : Int) + 1) / 2 = p := by omega
    rw [hpack, hpack, if_pos hq0, if_pos hq1, if_pos hm0, if_neg hm1, hd0, hd1]
  · rw [hpack, if_neg]
    push_cast
    omega

/-- The handler that `fft_init` returns for the size `2 ^ t` over the real
numbers: its size and its tables. -/
theorem fft_init_real (t : Nat) (ht : t ≤ 30) :
    ∃ h : FFTHandler ℝ,
      fft_init (⟨Real.cos, Real.sin, Real.sqrt, Real.log, Real.exp, fun x y => x ^ y, Real.pi⟩ :
        FMath ℝ) ((2 : Int) ^ t) = some h ∧
      h.size = ((2 ^ t : Nat) : Int) ∧
      ∀ q : Nat, q < 2 ^ t →
        h.twiddle_real.get q = Real.cos (-2 * Real.pi * (q : ℝ) / (2 : ℝ) ^ t) ∧
        h.twiddle_imag.get q = Real.sin (-2 * Real.pi * (q : ℝ) / (2 : ℝ) ^ t) := by
  have hland : Int.land ((2 : Int) ^ t) ((2 : Int) ^ t - 1) = 0 :=
    (int_land_pred _).2 (Or.inr ⟨t, rfl⟩)
  have hpow : (2 : Int) ^ t ≤ 2 ^ 30 := pow_le_pow_right₀ (by norm_num) ht
  have hpos : (0 : Int) < 2 ^ t := by positivity
  have hmod : (2 : Int) ^ t % 4294967296 = ((2 ^ t : Nat) : Int) := by
    rw [Int.emod_eq_of_lt (by omega) (by omega)]
    push_cast
    rfl
  have hnat : ((2 : Int) ^ t).toNat = 2 ^ t := by
    have : (2 : Int) ^ t = ((2 ^ t : Nat) : Int) := by push_cast; rfl
    rw [this, Int.toNat_ofNat]
  unfold fft_init
  rw [if_neg (by rw [hland]; simp)]
  refine ⟨_, rfl, hmod, fun q hq => ?_⟩
  have hq' : (0 : Int) ≤ (q : Int) ∧ (q : Int) < ((2 ^ t : Nat) : Int) :=
    ⟨by positivity, by exact_mod_cast hq⟩
  have hl := split_loop_get
    (fun k : Int => Real.cos (-2 * Real.pi * (k : ℝ) / (((2 : Int) ^ t : Int) : ℝ)))
    (fun k : Int => Real.sin (-2 * Real.pi * (k : ℝ) / (((2 : Int) ^ t : Int) : ℝ)))
    (2 ^ t) (Arr.const 0, Arr.const 0) (q : Int)
  rw [if_pos hq', if_pos hq'] at hl
  simp only [hnat]
  rw [hl.1, hl.2]
  push_cast
  exact ⟨rfl, rfl⟩

/-- The factors of the butterflies for tables that hold the cosine and the sine
of `-2 π q / N`: the forward transform multiplies with the powers of
`exp (2 π i / N)`, the inverse transform with the powers of `exp (-2 π i / N)`. -/
theorem twiddle_exp (h : FFTHandler ℝ) (N q : Nat)
    (hre : h.twiddle_real.get q = Real.cos (-2 * Real.pi * (q : ℝ) / (N : ℝ)))
    (him : h.twiddle_imag.get q = Real.sin (-2 * Real.pi * (q : ℝ) / (N : ℝ))) :
    twiddle h false q = Complex.exp (2 * Real.pi * Complex.I / (N : ℂ)) ^ q ∧
    twiddle h true q = Complex.exp (-(2 * Real.pi * Complex.I / (N : ℂ))) ^ q := by
  have e1 : (q : ℂ) * (2 * Real.pi * Complex.I / (N : ℂ))
      = ((2 * Real.pi * (q : ℝ) / (N : ℝ) : ℝ) : ℂ) * Complex.I := by
    push_cast
    ring
  have e2 : (q : ℂ) * (-(2 * Real.pi * Complex.I / (N : ℂ)))
      = ((-2 * Real.pi * (q : ℝ) / (N : ℝ) : ℝ) : ℂ) * Complex.I := by
    push_cast
    ring
  have e3 : -2 * Real.pi * (q : ℝ) / (N : ℝ) = -(2 * Real.pi * (q : ℝ) / (N : ℝ)) := by ring
  constructor
  · rw [← Complex.exp_nat_mul, e1]
    unfold twiddle
    rw [hre, him, e3, Real.cos_neg, Real.sin_neg]
    apply Complex.ext
    · rw [Complex.exp_ofReal_mul_I_re]
    · rw [Complex.exp_ofReal_mul_I_im]
      simp
  · rw [← Complex.exp_nat_mul, e2]
    unfold twiddle
    rw [hre, him]
    apply Complex.ext
    · rw [Complex.exp_ofReal_mul_I_re]
    · rw [Complex.exp_ofReal_mul_I_im]
      simp

/-- The two roots `exp (± 2 π i / N)` for `N = 2 ^ t`, raised to `N / 2`, are `-1`. -/
theorem exp_half_turn (t : Nat) (ht : 1 ≤ t) :
    Complex.exp (2 * Real.pi * Complex.I / ((2 ^ t : Nat) : ℂ)) ^ (2 ^ (t - 1)) = -1 ∧
    Complex.exp (-(2 * Real.pi * Complex.I / ((2 ^ t : Nat) : ℂ))) ^ (2 ^ (t - 1)) = -1 := by
  obtain ⟨s, rfl⟩ : ∃ s, t = s + 1 := ⟨t - 1, by omega⟩
  have h2 : ((2 : ℂ) ^ s) ≠ 0 := pow_ne_zero _ (by norm_num)
  have e1 : ((2 ^ (s + 1 - 1) : Nat) : ℂ) * (2 * Real.pi * Complex.I / ((2 ^ (s + 1) : Nat) : ℂ))
      = Real.pi * Complex.I := by
    push_cast
    rw [pow_succ]
    field_simp
    ring
  have e2 : ((2 ^ (s + 1 - 1) : Nat) : ℂ)
      * (-(2 * Real.pi * Complex.I / ((2 ^ (s + 1) : Nat) : ℂ))) = -(Real.pi * Complex.I) := by
    rw [mul_neg, e1]
  constructor
  · rw [← Complex.exp_nat_mul, e1, Complex.exp_pi_mul_I]
  · rw [← Complex.exp_nat_mul, e2, Complex.exp_neg, Complex.exp_pi_mul_I]
    norm_num

/-- The function `fft_execute` with the handler of `fft_init` for the size
`N = 2 ^ t`, over the real numbers: the call returns; the forward transform leaves
in cell `p` the Fourier sum for the root `exp (2 π i / N)`, the inverse transform
the Fourier sum for the root `exp (-2 π i / N)` over `N`; the cells outside the
`N` complex values are left as they are. -/
theorem fft_execute_real (t : Nat) (ht : t ≤ 30) (x : Arr ℝ) (is_inverse : Bool) :
    ∃ out : Arr ℝ,
      fft_execute (fft_init (⟨Real.cos, Real.sin, Real.sqrt, Real.log, Real.exp,
        fun x y => x ^ y, Real.pi⟩ : FMath ℝ) ((2 : Int) ^ t)) x is_inverse = some out ∧
      (∀ p : Nat, p < 2 ^ t → cbuf out p
        = (if is_inverse then 1 / ((2 ^ t : Nat) : ℂ) else 1)
          * dft (if is_inverse then Complex.exp (-(2 * Real.pi * Complex.I / ((2 ^ t : Nat) : ℂ)))
              else Complex.exp (2 * Real.pi * Complex.I / ((2 ^ t : Nat) : ℂ)))
            (2 ^ t) (cbuf x) p) ∧
      (∀ q : Int, q < 0 ∨ 2 * 2 ^ t ≤ q → out.get q = x.get q) := by
  obtain ⟨h, hi, hsize, htab⟩ := fft_init_real t ht
  rw [hi]
  have hc : ((2 : ℝ) ^ t) = (((2 ^ t : Nat) : Nat) : ℝ) := by push_cast; rfl
  apply fft_execute_dft h is_inverse t ht hsize
  · intro q hq
    obtain ⟨hre, him⟩ := htab q hq
    rw [hc] at hre him
    cases is_inverse with
    | false => exact (twiddle_exp h (2 ^ t) q hre him).1
    | true => exact (twiddle_exp h (2 ^ t) q hre him).2
  · intro h1
    cases is_inverse with
    | false => exact (exp_half_turn t h1).1
    | true => exact (exp_half_turn t h1).2

theorem Arr.ext_get {α : Type} (a b : Arr α) (h : ∀ q, a.get q = b.get q) : a = b := by
  cases a
  cases b
  congr
  funext q
  exact h q

/-- Two Fourier sums in a row, for a root `w` of order `N` and its inverse, give
`N` times the values they started from. -/
theorem dft_round_trip {K : Type} [Field K] (w w' : K) (N : Nat) (hww : w * w' = 1)
    (hN : w ^ N = 1) (hprim : ∀ d, 0 < d → d < N → w ^ d ≠ 1) (x : Nat → K) (p : Nat)
    (hp : p < N) : dft w' N (dft w N x) p = (N : K) * x p := by
  have hN' : w' ^ N = 1 := by
    have : (w * w') ^ N = 1 := by rw [hww, one_pow]
    rwa [mul_pow, hN, one_mul] at this
  have hprim' : ∀ d, 0 < d → d < N → w' ^ d ≠ 1 := by
    intro d h0 h1 h
    have : (w * w') ^ d = 1 := by rw [hww, one_pow]
    rw [mul_pow, h, mul_one] at this
    exact hprim d h0 h1 this
  have key : ∀ m, m < N → m ≠ p → ∑ n ∈ Finset.range N, (w ^ m * w' ^ p) ^ n = 0 := by
    intro m hm hmp
    have hz : (w ^ m * w' ^ p) ^ N = 1 := by
      rw [mul_pow, ← pow_mul, ← pow_mul, mul_comm m N, mul_comm p N, pow_mul, pow_mul, hN, hN',
        one_pow, one_pow, one_mul]
    have hz1 : w ^ m * w' ^ p ≠ 1 := by
      rcases Nat.lt_or_gt_of_ne hmp with hlt | hgt
      · obtain ⟨d, rfl⟩ : ∃ d, p = m + d := ⟨p - m, by omega⟩
        rw [pow_add, ← mul_assoc, ← mul_pow, hww, one_pow, one_mul]
        exact hprim' d (by omega) (by omega)
      · obtain ⟨d, rfl⟩ : ∃ d, m = p + d := ⟨m - p, by omega⟩
        rw [pow_add, mul_comm (w ^ p), mul_assoc, ← mul_pow, hww, one_pow, mul_one]
        exact hprim d (by omega) (by omega)
    have hg := mul_geom_sum (w ^ m * w' ^ p) N
    rw [hz, sub_self] at hg
    rcases mul_eq_zero.1 hg with h | h
    · exact absurd (sub_eq_zero.1 h) hz1
    · exact h
  unfold dft
  have e : ∀ n ∈ Finset.range N, (∑ m ∈ Finset.range N, x m * w ^ (n * m)) * w' ^ (p * n)
      = ∑ m ∈ Finset.range N, x m * (w ^ m * w' ^ p) ^ n := by
    intro n _
    rw [Finset.sum_mul]
    apply Finset.sum_congr rfl
    intro m _
    rw [mul_pow, ← pow_mul, ← pow_mul, mul_comm m n, mul_assoc]
  rw [Finset.sum_congr rfl e, Finset.sum_comm]
  rw [Finset.sum_eq_single p]
  · rw [← Finset.mul_sum, ← mul_pow, hww, one_pow]
    simp
    ring
  · intro m hm hmp
    rw [← Finset.mul_sum, key m (Finset.mem_range.1 hm) hmp, mul_zero]
  · intro h
    exact absurd (Finset.mem_range.2 hp) h

/-- The root `exp (2 π i / N)` has the inverse `exp (-2 π i / N)` and the order `N`. -/
theorem exp_root_facts (N : Nat) (hN : N ≠ 0) :
    Complex.exp (2 * Real.pi * Complex.I / (N : ℂ))
      * Complex.exp (-(2 * Real.pi * Complex.I / (N : ℂ))) = 1 ∧
    Complex.exp (2 * Real.pi * Complex.I / (N : ℂ)) ^ N = 1 ∧
    ∀ d, 0 < d → d < N → Complex.exp (2 * Real.pi * Complex.I / (N : ℂ)) ^ d ≠ 1 := by
  have hp := Complex.isPrimitiveRoot_exp N hN
  refine ⟨?_, hp.pow_eq_one, fun d h0 h1 => hp.pow_ne_one_of_pos_of_lt h0 h1⟩
  rw [← Complex.exp_add, add_neg_cancel, Complex.exp_zero]

/-- Claim C22.  Over the real numbers, with the cosine and the sine of the real
numbers and `M_PI = π`, for every size `N = 2 ^ t` that an `int` holds
(`t ≤ 30`, so 1, 2, 4, ..., 512, ..., `2 ^ 30`) and every buffer `x`: `fft_execute`
with `is_inverse = false` returns a buffer `X`, and `fft_execute` on `X` with
`is_inverse = true` returns the buffer `x` itself. -/
theorem fft_round_trip (t : Nat) (ht : t ≤ 30) (x : Arr ℝ) :
    ∃ X : Arr ℝ,
      fft_execute (fft_init (⟨Real.cos, Real.sin, Real.sqrt, Real.log, Real.exp,
        fun x y => x ^ y, Real.pi⟩ : FMath ℝ) ((2 : Int) ^ t)) x false = some X ∧
      fft_execute (fft_init (⟨Real.cos, Real.sin, Real.sqrt, Real.log, Real.exp,
        fun x y => x ^ y, Real.pi⟩ : FMath ℝ) ((2 : Int) ^ t)) X true = some x := by
  obtain ⟨X, hX, hXin, hXout⟩ := fft_execute_real t ht x false
  obtain ⟨Y, hY, hYin, hYout⟩ := fft_execute_real t ht X true
  refine ⟨X, hX, ?_⟩
  rw [hY]
  congr 1
  have hN0 : (2 ^ t : Nat) ≠ 0 := by positivity
  obtain ⟨hww, hN, hprim⟩ := exp_root_facts (2 ^ t) hN0
  have hc : ∀ p : Nat, p < 2 ^ t → cbuf Y p = cbuf x p := by
    intro p hp
    rw [hYin p hp]
    simp only [if_true]
    have e : dft (Complex.exp (-(2 * Real.pi * Complex.I / ((2 ^ t : Nat) : ℂ)))) (2 ^ t) (cbuf X) p
        = dft (Complex.exp (-(2 * Real.pi * Complex.I / ((2 ^ t : Nat) : ℂ)))) (2 ^ t)
            (dft (Complex.exp (2 * Real.pi * Complex.I / ((2 ^ t : Nat) : ℂ))) (2 ^ t) (cbuf x)) p := by
      unfold dft
      apply Finset.sum_congr rfl
      intro n hn
      have h := hXin n (Finset.mem_range.1 hn)
      simp only [Bool.false_eq_true, if_false, one_mul] at h
      rw [h]
      rfl
    rw [e, dft_round_trip _ _ (2 ^ t) hww hN hprim (cbuf x) p hp, ← mul_assoc,
      one_div, inv_mul_cancel₀ (by exact_mod_cast hN0), one_mul]
  apply Arr.ext_get
  intro q
  by_cases hq : q < 0 ∨ 2 * 2 ^ t ≤ q
  · rw [hYout q hq, hXout q hq]
  · obtain ⟨p, hp⟩ : ∃ p : Nat, q = 2 * (p : Int) ∨ q = 2 * (p : Int) + 1 :=
      ⟨(q / 2).toNat, by omega⟩
    have hpl : p < 2 ^ t := by
      have : (p : Int) < 2 ^ t := by omega
      exact_mod_cast this
    have h := hc p hpl
    unfold cbuf at h
    rcases hp with rfl | rfl
    · exact congrArg Complex.re h
    · exact congrArg Complex.im h

theorem fft_round_trip_witness :
    9 ≤ 30 ∧ ∃ X : Arr ℝ,
      fft_execute (fft_init (⟨Real.cos, Real.sin, Real.sqrt, Real.log, Real.exp,
        fun x y => x ^ y, Real.pi⟩ : FMath ℝ) ((2 : Int) ^ 9)) (Arr.const 1) false = some X ∧
      fft_execute (fft_init (⟨Real.cos, Real.sin, Real.sqrt, Real.log, Real.exp,
        fun x y => x ^ y, Real.pi⟩ : FMath ℝ) ((2 : Int) ^ 9)) X true = some (Arr.const 1) :=
  ⟨by decide, fft_round_trip 9 (by decide) (Arr.const 1)⟩

/-- The Fourier sum for the root `exp a`, written with the exponential. -/
theorem dft_exp (a : ℂ) (N : Nat) (x : Nat → ℂ) (k : Nat) :
    dft (Complex.exp a) N x k
      = ∑ n ∈ Finset.range N, x n * Complex.exp (a * (k : ℂ) * (n : ℂ)) := by
  unfold dft
  apply Finset.sum_congr rfl
  intro n _
  rw [← Complex.exp_nat_mul]
  congr 2
  push_cast
  ring

theorem exp_quarter_turn :
    Complex.exp (Real.pi / 2 * Complex.I) = Complex.I ∧
    Complex.exp (-(Real.pi / 2 * Complex.I)) = -Complex.I := by
  have h : Complex.exp (Real.pi / 2 * Complex.I) = Complex.I := by
    rw [Complex.exp_mul_I, Complex.cos_pi_div_two, Complex.sin_pi_div_two]
    simp
  refine ⟨h, ?_⟩
  rw [Complex.exp_neg, h, Complex.inv_I]

/-- The direction of the two transforms of `fft_execute` for the size `2 ^ t`,
over the real numbers: the tables hold `exp (-2 π i k / N)`, the forward transform
multiplies with the conjugates and returns the sums with `exp (+2 π i k n / N)`,
the inverse transform multiplies with the table itself and returns the sums with
`exp (-2 π i k n / N)` over `N`. -/
theorem fft_direction (t : Nat) (x : Arr ℝ) (ht : t ≤ 30) :
    ∃ (h : FFTHandler ℝ) (X Y : Arr ℝ),
      fft_init (⟨Real.cos, Real.sin, Real.sqrt, Real.log, Real.exp, fun x y => x ^ y, Real.pi⟩ :
        FMath ℝ) ((2 : Int) ^ t) = some h ∧
      (∀ k : Nat, k < 2 ^ t →
        (⟨h.twiddle_real.get k, h.twiddle_imag.get k⟩ : ℂ)
          = Complex.exp (-(2 * Real.pi * Complex.I * (k : ℂ) / (2 : ℂ) ^ t)) ∧
        twiddle h false k = Complex.exp (2 * Real.pi * Complex.I * (k : ℂ) / (2 : ℂ) ^ t) ∧
        twiddle h true k = Complex.exp (-(2 * Real.pi * Complex.I * (k : ℂ) / (2 : ℂ) ^ t))) ∧
      fft_execute (some h) x false = some X ∧
      (∀ k : Nat, k < 2 ^ t → cbuf X k = ∑ n ∈ Finset.range (2 ^ t),
        cbuf x n * Complex.exp (2 * Real.pi * Complex.I * (k : ℂ) * (n : ℂ) / (2 : ℂ) ^ t)) ∧
      fft_execute (some h) x true = some Y ∧
      (∀ k : Nat, k < 2 ^ t → cbuf Y k = 1 / (2 : ℂ) ^ t * ∑ n ∈ Finset.range (2 ^ t),
        cbuf x n * Complex.exp (-(2 * Real.pi * Complex.I * (k : ℂ) * (n : ℂ) / (2 : ℂ) ^ t))) := by
  obtain ⟨h, hi, hsize, htab⟩ := fft_init_real t ht
  obtain ⟨X, hX, hXin, -⟩ := fft_execute_real t ht x false
  obtain ⟨Y, hY, hYin, -⟩ := fft_execute_real t ht x true
  rw [hi] at hX hY
  have hc : ((2 : ℝ) ^ t) = (((2 ^ t : Nat) : Nat) : ℝ) := by push_cast; rfl
  have hcc : (((2 ^ t : Nat) : Nat) : ℂ) = (2 : ℂ) ^ t := by push_cast; rfl
  refine ⟨h, X, Y, hi, fun k hk => ?_, hX, fun k hk => ?_, hY, fun k hk => ?_⟩
  · obtain ⟨hre, him⟩ := htab k hk
    rw [hc] at hre him
    obtain ⟨hf, hv⟩ := twiddle_exp h (2 ^ t) k hre him
    rw [← Complex.exp_nat_mul, hcc] at hf hv
    have e1 : 2 * Real.pi * Complex.I * (k : ℂ) / (2 : ℂ) ^ t
        = (k : ℂ) * (2 * Real.pi * Complex.I / (2 : ℂ) ^ t) := by ring
    have e2 : -(2 * Real.pi * Complex.I * (k : ℂ) / (2 : ℂ) ^ t)
        = (k : ℂ) * (-(2 * Real.pi * Complex.I / (2 : ℂ) ^ t)) := by ring
    rw [e1, ← mul_neg]
    refine ⟨?_, hf, hv⟩
    rw [← hv]
    unfold twiddle
    simp
  · have h1 := hXin k hk
    simp only [Bool.false_eq_true, if_false, one_mul] at h1
    rw [h1, dft_exp, hcc]
    apply Finset.sum_congr rfl
    intro n _
    congr 2
    ring
  · have h1 := hYin k hk
    simp only [if_true] at h1
    rw [h1, dft_exp, hcc]
    congr 1
    apply Finset.sum_congr rfl
    intro n _
    congr 2
    ring

/-- Claim C30.  The forward transform of `fft_execute` multiplies with the
conjugates of the precomputed factors, and the inverse transform with the factors
themselves.  For `N = 4` and the input `x = (0, 1, 0, 0)`: the table holds
`exp (-2 π i / 4) = -i` at index 1, the forward transform multiplies with `+i`
and returns `X[1] = +i`, where the sum of `x[n] * exp (-2 π i n / 4)` is `-i`.
For every size `N = 2 ^ t` with `t ≤ 30` and every input `x`: the table holds
`exp (-2 π i k / N)`; `fft_execute` with `is_inverse = false` returns the sums of
`x[n] * exp (+2 π i k n / N)`, and with `is_inverse = true` it returns `1 / N`
times the sums of `x[n] * exp (-2 π i k n / N)`. -/
theorem forward_conjugate_twiddles :
    (∃ (h : FFTHandler ℝ) (X : Arr ℝ),
      fft_init (⟨Real.cos, Real.sin, Real.sqrt, Real.log, Real.exp, fun x y => x ^ y, Real.pi⟩ :
        FMath ℝ) 4 = some h ∧
      h.twiddle_real.get 1 = 0 ∧ h.twiddle_imag.get 1 = -1 ∧
      twiddle h false 1 = Complex.I ∧ twiddle h true 1 = -Complex.I ∧
      fft_execute (some h) ((Arr.const 0).set 2 1) false = some X ∧
      cbuf X 1 = Complex.I ∧
      ∑ n ∈ Finset.range 4, cbuf ((Arr.const 0).set 2 1) n
        * Complex.exp (-(2 * Real.pi * Complex.I * 1 * (n : ℂ) / 4)) = -Complex.I) ∧
    (∀ (t : Nat) (x : Arr ℝ), t ≤ 30 →
      ∃ (h : FFTHandler ℝ) (X Y : Arr ℝ),
        fft_init (⟨Real.cos, Real.sin, Real.sqrt, Real.log, Real.exp, fun x y => x ^ y, Real.pi⟩ :
          FMath ℝ) ((2 : Int) ^ t) = some h ∧
        (∀ k : Nat, k < 2 ^ t →
          (⟨h.twiddle_real.get k, h.twiddle_imag.get k⟩ : ℂ)
            = Complex.exp (-(2 * Real.pi * Complex.I * (k : ℂ) / (2 : ℂ) ^ t)) ∧
          twiddle h false k = Complex.exp (2 * Real.pi * Complex.I * (k : ℂ) / (2 : ℂ) ^ t) ∧
          twiddle h true k = Complex.exp (-(2 * Real.pi * Complex.I * (k : ℂ) / (2 : ℂ) ^ t))) ∧
        fft_execute (some h) x false = some X ∧
        (∀ k : Nat, k < 2 ^ t → cbuf X k = ∑ n ∈ Finset.range (2 ^ t),
          cbuf x n * Complex.exp (2 * Real.pi * Complex.I * (k : ℂ) * (n : ℂ) / (2 : ℂ) ^ t)) ∧
        fft_execute (some h) x true = some Y ∧
        (∀ k : Nat, k < 2 ^ t → cbuf Y k = 1 / (2 : ℂ) ^ t * ∑ n ∈ Finset.range (2 ^ t),
          cbuf x n
            * Complex.exp (-(2 * Real.pi * Complex.I * (k : ℂ) * (n : ℂ) / (2 : ℂ) ^ t)))) := by
  refine ⟨?_, fft_direction⟩
  obtain ⟨h, X, Y, hi, htab, hX, hXin, -, -⟩ :=
    fft_direction 2 ((Arr.const 0).set 2 1) (by decide)
  have c0 : cbuf ((Arr.const (0 : ℝ)).set 2 1) 0 = 0 := by
    apply Complex.ext <;> simp [cbuf]
  have c1 : cbuf ((Arr.const (0 : ℝ)).set 2 1) 1 = 1 := by
    apply Complex.ext <;> simp [cbuf]
  have c2 : cbuf ((Arr.const (0 : ℝ)).set 2 1) 2 = 0 := by
    apply Complex.ext <;> simp [cbuf]
  have c3 : cbuf ((Arr.const (0 : ℝ)).set 2 1) 3 = 0 := by
    apply Complex.ext <;> simp [cbuf]
  have q1 : 2 * (Real.pi : ℂ) * Complex.I * ((1 : Nat) : ℂ) / (2 : ℂ) ^ 2
      = Real.pi / 2 * Complex.I := by
    push_cast
    ring
  have q2 : 2 * (Real.pi : ℂ) * Complex.I * 1 * 1 / (2 : ℂ) ^ 2
      = Real.pi / 2 * Complex.I := by
    ring
  have q3 : 2 * (Real.pi : ℂ) * Complex.I * 1 * 1 / 4
      = Real.pi / 2 * Complex.I := by
    ring
  obtain ⟨ht, hf, hv⟩ := htab 1 (by decide)
  rw [q1, exp_quarter_turn.2] at ht hv
  rw [q1, exp_quarter_turn.1] at hf
  have hx1 := hXin 1 (by decide)
  have e4 : (2 : Nat) ^ 2 = 4 := by decide
  rw [e4] at hx1
  simp only [Finset.sum_range_succ, Finset.sum_range_zero, c0, c1, c2, c3, zero_mul, one_mul,
    zero_add, add_zero, Nat.cast_one] at hx1
  rw [q2, exp_quarter_turn.1] at hx1
  refine ⟨h, X, ?_, ?_, ?_, hf, hv, hX, hx1, ?_⟩
  · rw [← hi]
    norm_num
  · have := congrArg Complex.re ht
    simpa using this
  · have := congrArg Complex.im ht
    simpa using this
  · simp only [Finset.sum_range_succ, Finset.sum_range_zero, c0, c1, c2, c3, zero_mul, one_mul,
      zero_add, add_zero, Nat.cast_one]
    rw [q3, exp_quarter_turn.2]

/-! ## The pitch search in an arithmetic with rounding -/

theorem corr_sum_fl_eq (fl : Float → Float) (lc : LowcFE) (rp l step : Int) (hs : 1 ≤ step) :
    corr_sum_fl fl lc rp l step = some (win_corr_fl fl lc rp l step) := by
  unfold corr_sum_fl win_corr_fl stride_sum_fl
  exact strideLoop_sum
    (fun i corr => fl (corr + fl (lc.pitchbuf.get (rp + i) * lc.pitchbuf.get (l + i))))
    step lc.corrlen hs lc.corrlen.toNat (by omega) 0

theorem energy_corr_sum_fl_eq (fl : Float → Float) (lc : LowcFE) (rp l step : Int)
    (hs : 1 ≤ step) :
    energy_corr_sum_fl fl lc rp l step
      = some (win_energy_fl fl lc rp step, win_corr_fl fl lc rp l step) := by
  unfold energy_corr_sum_fl win_corr_fl win_energy_fl stride_sum_fl
  rw [strideLoop_sum (fun i (ec : Float × Float) =>
      (fl (ec.1 + fl (lc.pitchbuf.get (rp + i) * lc.pitchbuf.get (rp + i))),
       fl (ec.2 + fl (lc.pitchbuf.get (rp + i) * lc.pitchbuf.get (l + i)))))
    step lc.corrlen hs lc.corrlen.toNat (by omega) (0, 0)]
  exact congrArg some (forLoop_pair
    (fun m e => fl (e + fl (lc.pitchbuf.get (rp + m * step) * lc.pitchbuf.get (rp + m * step))))
    (fun m c => fl (c + fl (lc.pitchbuf.get (rp + m * step) * lc.pitchbuf.get (l + m * step))))
    _ 0 0)

/-- A search loop of `g711plc_findpitch`, in every arithmetic, ends on a pass
whose score, as the loop computes it, is maximal: the last such pass when the
comparison is `>=`, the first when it is `>`. -/
theorem search_loop_fl_spec (fl : Float → Float) (E : Env) (lc : LowcFE)
    (rp0 step istep j0 kk : Int) (ge : Bool)
    (hs : 1 ≤ step) (hi : 1 ≤ istep) (fuel : Nat) (hf : kk + 1 - (j0 + step) ≤ fuel) :
    ∃ (st : Search) (n b : Nat),
      strideLoop (search_step_fl fl E lc (lc.pitchbufend - lc.corrlen) step istep ge) step
        (kk + 1) fuel (j0 + step)
        { energy := win_energy_fl fl lc rp0 istep, rp := rp0,
          bestcorr := search_score_fl fl E lc rp0 step istep 0, bestmatch := j0 } = some st ∧
      st.bestmatch = j0 + b * step ∧ b ≤ n ∧ kk < j0 + ((n : Int) + 1) * step ∧
      (n = 0 ∨ j0 + n * step ≤ kk) ∧
      (∀ m, m ≤ n →
        search_score_fl fl E lc rp0 step istep m ≤ search_score_fl fl E lc rp0 step istep b) ∧
      (ge = true → ∀ m, b < m → m ≤ n →
        search_score_fl fl E lc rp0 step istep m < search_score_fl fl E lc rp0 step istep b) ∧
      (ge = false → ∀ m, m < b →
        search_score_fl fl E lc rp0 step istep m < search_score_fl fl E lc rp0 step istep b) := by
  obtain ⟨st, i', h, ⟨n, b, hi', -, -, hbm, -, hbn, hn, hmax, hge, hgt⟩, hb⟩ := strideLoop_inv
    (search_step_fl fl E lc (lc.pitchbufend - lc.corrlen) step istep ge) step (kk + 1)
    (fun i st => ∃ n b : Nat, i = j0 + ((n : Int) + 1) * step ∧ st.rp = rp0 + n * step ∧
      st.energy = run_energy_fl fl lc rp0 step istep n ∧ st.bestmatch = j0 + b * step ∧
      st.bestcorr = search_score_fl fl E lc rp0 step istep b ∧ b ≤ n ∧
      (n = 0 ∨ j0 + n * step ≤ kk) ∧
      (∀ m, m ≤ n →
        search_score_fl fl E lc rp0 step istep m ≤ search_score_fl fl E lc rp0 step istep b) ∧
      (ge = true → ∀ m, b < m → m ≤ n →
        search_score_fl fl E lc rp0 step istep m < search_score_fl fl E lc rp0 step istep b) ∧
      (ge = false → ∀ m, m < b →
        search_score_fl fl E lc rp0 step istep m < search_score_fl fl E lc rp0 step istep b)) hs
    (by
      intro i st hik ⟨n, b, hin, hrp, hen, hbm, hbc, hbn, hn, hmax, hge, hgt⟩
      have hsc : scaled_fl fl E lc
          (fl (fl (st.energy - fl (lc.pitchbuf.get st.rp * lc.pitchbuf.get st.rp))
            + fl (lc.pitchbuf.get (st.rp + lc.corrlen) * lc.pitchbuf.get (st.rp + lc.corrlen))))
          (win_corr_fl fl lc (st.rp + step) (lc.pitchbufend - lc.corrlen) istep)
          = search_score_fl fl E lc rp0 step istep (n + 1) := by
        unfold search_score_fl
        rw [hrp, hen]
        have : rp0 + (n : Int) * step + step = rp0 + ((n + 1 : Nat) : Int) * step := by
          push_cast; ring
        rw [this]; rfl
      have hen' : fl (fl (st.energy - fl (lc.pitchbuf.get st.rp * lc.pitchbuf.get st.rp))
            + fl (lc.pitchbuf.get (st.rp + lc.corrlen) * lc.pitchbuf.get (st.rp + lc.corrlen)))
          = run_energy_fl fl lc rp0 step istep (n + 1) := by
        rw [hrp, hen]; rfl
      have hrp' : st.rp + step = rp0 + ((n + 1 : Nat) : Int) * step := by
        rw [hrp]; push_cast; ring
      have hi2 : i + step = j0 + (((n + 1 : Nat) : Int) + 1) * step := by
        rw [hin]; push_cast; ring
      have hi3 : i = j0 + ((n + 1 : Nat) : Int) * step := by
        rw [hin]; push_cast; ring
      have hn' : (n + 1 = 0 ∨ j0 + ((n + 1 : Nat) : Int) * step ≤ kk) :=
        Or.inr (by rw [← hi3]; omega)
      unfold search_step_fl
      simp only [corr_sum_fl_eq fl lc _ _ istep hi, Option.some_bind, hsc, hbc]
      cases ge
      · simp only [Bool.false_eq_true, if_false]
        by_cases hc : search_score_fl fl E lc rp0 step istep (n + 1)
            > search_score_fl fl E lc rp0 step istep b
        · rw [if_pos hc]
          refine ⟨_, rfl, n + 1, n + 1, hi2, hrp', hen', hi3, rfl, le_refl _, hn', ?_, ?_, ?_⟩
          · intro m hm
            rcases Nat.lt_or_ge m (n + 1) with h | h
            · exact le_of_lt (lt_of_le_of_lt (hmax m (by omega)) hc)
            · have : m = n + 1 := by omega
              rw [this]
          · intro h; cases h
          · intro _ m hm
            exact lt_of_le_of_lt (hmax m (by omega)) hc
        · rw [if_neg hc]
          refine ⟨_, rfl, n + 1, b, hi2, hrp', hen', hbm, rfl, by omega, hn', ?_, ?_,
            fun _ => hgt rfl⟩
          · intro m hm
            rcases Nat.lt_or_ge m (n + 1) with h | h
            · exact hmax m (by omega)
            · have : m = n + 1 := by omega
              rw [this]; exact not_lt.mp hc
          · intro h; cases h
      · simp only [if_true]
        by_cases hc : search_score_fl fl E lc rp0 step istep (n + 1)
            ≥ search_score_fl fl E lc rp0 step istep b
        · rw [if_pos hc]
          refine ⟨_, rfl, n + 1, n + 1, hi2, hrp', hen', hi3, rfl, le_refl _, hn', ?_, ?_, ?_⟩
          · intro m hm
            rcases Nat.lt_or_ge m (n + 1) with h | h
            · exact le_trans (hmax m (by omega)) hc
            · have : m = n + 1 := by omega
              rw [this]
          · intro _ m h1 h2; omega
          · intro h; cases h
        · rw [if_neg hc]
          have hc' := not_le.mp hc
          refine ⟨_, rfl, n + 1, b, hi2, hrp', hen', hbm, rfl, by omega, hn', ?_, ?_, ?_⟩
          · intro m hm
            rcases Nat.lt_or_ge m (n + 1) with h | h
            · exact hmax m (by omega)
            · have : m = n + 1 := by omega
              rw [this]; exact le_of_lt hc'
          · intro _ m h1 h2
            rcases Nat.lt_or_ge m (n + 1) with h | h
            · exact hge rfl m h1 (by omega)
            · have : m = n + 1 := by omega
              rw [this]; exact hc'
          · intro h; cases h)
    fuel (j0 + step)
    { energy := win_energy_fl fl lc rp0 istep, rp := rp0,
      bestcorr := search_score_fl fl E lc rp0 step istep 0, bestmatch := j0 } hf
    ⟨0, 0, by simp, by simp, rfl, by simp, rfl, le_refl _, Or.inl rfl,
      fun m hm => by rw [Nat.le_zero.mp hm], fun _ m h1 h2 => by omega,
      fun _ m hm => by omega⟩
  exact ⟨st, n, b, h, hbm, hbn, by omega, hn, hmax, hge, hgt⟩

theorem search_score_fl_zero (fl : Float → Float) (E : Env) (lc : LowcFE) (rp0 step istep : Int) :
    search_score_fl fl E lc rp0 step istep 0
      = scaled_fl fl E lc (win_energy_fl fl lc rp0 istep)
          (win_corr_fl fl lc rp0 (lc.pitchbufend - lc.corrlen) istep) := by
  unfold search_score_fl run_energy_fl
  simp only [Nat.cast_zero, zero_mul, add_zero]

/-- The two searches of `g711plc_findpitch`, in every arithmetic: the function
returns; the coarse search ends on the last lag of its grid whose score is
maximal, and the fine search on the first lag of its window, the lags within
`ndec - 1` of the coarse winner that lie in the search range, whose score, as
the loop computes it, is maximal. -/
theorem findpitch_fl_spec (fl : Float → Float) (E : Env) (lc : LowcFE) (hn : 1 ≤ lc.ndec)
    (hd : 0 ≤ lc.pitchdiff) :
    ∃ best b : Int, findpitch_coarse_fl fl E lc = some best ∧ 0 ≤ best ∧ best ≤ lc.pitchdiff ∧
      g711plc_findpitch_fl fl E lc = some (lc.pitch_max - b) ∧
      max 0 (best - (lc.ndec - 1)) ≤ b ∧ b ≤ min lc.pitchdiff (best + (lc.ndec - 1)) ∧
      (∀ j, max 0 (best - (lc.ndec - 1)) ≤ j → j ≤ min lc.pitchdiff (best + (lc.ndec - 1)) →
        fine_loop_score fl E lc (max 0 (best - (lc.ndec - 1))) j
          ≤ fine_loop_score fl E lc (max 0 (best - (lc.ndec - 1))) b) ∧
      (∀ j, max 0 (best - (lc.ndec - 1)) ≤ j → j < b →
        fine_loop_score fl E lc (max 0 (best - (lc.ndec - 1))) j
          < fine_loop_score fl E lc (max 0 (best - (lc.ndec - 1))) b) := by
  obtain ⟨st, n, b, h, hbm, hbn, hk, hn0, -, -, -⟩ := search_loop_fl_spec fl E lc
    (lc.pitchbufend - lc.corrbuflen) lc.ndec lc.ndec 0 lc.pitchdiff true hn hn
    (lc.pitchdiff + 1).toNat (by omega)
  rw [search_score_fl_zero, zero_add] at h
  have hb0 : 0 ≤ st.bestmatch := by
    rw [hbm, zero_add]; exact mul_nonneg (by omega) (by omega)
  have hb1 : st.bestmatch ≤ lc.pitchdiff := by
    rcases hn0 with h0 | h0
    · subst h0
      have : b = 0 := by omega
      subst this
      rw [hbm]; simpa using hd
    · have : (b : Int) * lc.ndec ≤ n * lc.ndec :=
        mul_le_mul_of_nonneg_right (by exact_mod_cast hbn) (by omega)
      omega
  obtain ⟨j, hj⟩ : ∃ j, j = max 0 (st.bestmatch - (lc.ndec - 1)) := ⟨_, rfl⟩
  obtain ⟨k, hk'⟩ : ∃ k, k = min lc.pitchdiff (st.bestmatch + (lc.ndec - 1)) := ⟨_, rfl⟩
  have hj0 : 0 ≤ j ∧ j ≤ st.bestmatch := by rw [hj]; constructor <;> omega
  have hk0 : st.bestmatch ≤ k ∧ k ≤ lc.pitchdiff := by rw [hk']; constructor <;> omega
  obtain ⟨st2, n2, b2, h2, hbm2, hbn2, hk2, hn2, hmax2, -, hgt2⟩ := search_loop_fl_spec fl E lc
    (lc.pitchbufend - lc.corrbuflen + j) 1 1 j k false (le_refl _) (le_refl _)
    (k + 1).toNat (by omega)
  rw [search_score_fl_zero] at h2
  simp only [mul_one] at hbm2 hk2 hn2
  have hn2' : j + n2 ≤ k := by
    rcases hn2 with h0 | h0
    · subst h0; simp only [Nat.cast_zero, add_zero]; omega
    · exact h0
  have ej : (if st.bestmatch - (lc.ndec - 1) < 0 then 0 else st.bestmatch - (lc.ndec - 1)) = j := by
    rw [hj]; split_ifs <;> omega
  have ek : (if st.bestmatch + (lc.ndec - 1) > lc.pitchdiff then lc.pitchdiff
      else st.bestmatch + (lc.ndec - 1)) = k := by
    rw [hk']; split_ifs <;> omega
  have hsc : ∀ m : Nat, search_score_fl fl E lc (lc.pitchbufend - lc.corrbuflen + j) 1 1 m
      = fine_loop_score fl E lc j (j + m) := by
    intro m
    unfold fine_loop_score
    have : (j + (m : Int) - j).toNat = m := by omega
    rw [this]
  refine ⟨st.bestmatch, j + b2, ?_, hb0, hb1, ?_, ?_, ?_, ?_, ?_⟩
  · unfold findpitch_coarse_fl
    simp only [energy_corr_sum_fl_eq fl lc _ _ lc.ndec hn, Option.some_bind]
    rw [h]
    simp only [Option.some_bind]
  · unfold g711plc_findpitch_fl
    simp only [energy_corr_sum_fl_eq fl lc _ _ lc.ndec hn, Option.some_bind]
    rw [h]
    simp only [Option.some_bind, ej, ek, energy_corr_sum_fl_eq fl lc _ _ 1 (le_refl _)]
    rw [h2]
    simp only [Option.some_bind, hbm2]
  · rw [← hj]; omega
  · rw [← hk']; omega
  · intro i hi0 hi1
    rw [← hj] at hi0 ⊢
    rw [← hk'] at hi1
    have := hmax2 (i - j).toNat (by omega)
    rw [hsc, hsc] at this
    have e : j + (((i - j).toNat : Nat) : Int) = i := by omega
    rwa [e] at this
  · intro i hi0 hi1
    rw [← hj] at hi0 ⊢
    have := hgt2 rfl (i - j).toNat (by omega)
    rw [hsc, hsc] at this
    have e : j + (((i - j).toNat : Nat) : Int) = i := by omega
    rwa [e] at this

/-- With the rounding that changes nothing, the functions with rounding are the
functions of exact arithmetic. -/
theorem findpitch_fl_id (E : Env) (lc : LowcFE) :
    g711plc_findpitch_fl (fun x => x) E lc = g711plc_findpitch E lc ∧
    findpitch_coarse_fl (fun x => x) E lc = findpitch_coarse E lc ∧
    (∀ rp0 step istep m,
      search_score_fl (fun x => x) E lc rp0 step istep m = search_score E lc rp0 step istep m) := by
  refine ⟨rfl, rfl, fun rp0 step istep m => ?_⟩
  have hrun : ∀ m, run_energy_fl (fun x => x) lc rp0 step istep m
      = run_energy lc rp0 step istep m := by
    intro m
    induction m with
    | zero => rfl
    | succ m ih =>
      unfold run_energy_fl run_energy
      rw [ih]
  unfold search_score_fl search_score
  rw [hrun]
  rfl

/-- With the rounding that changes nothing, `g711plc_addtohistory`,
`g711plc_overlapaddatend` and `lpc_analysis` with rounding are the functions of
exact arithmetic. -/
theorem addtohistory_fl_id (E : Env) (lc : LowcFE) (s f : Arr short) (cnt size : Int)
    (coeff : Arr Float) :
    g711plc_addtohistory_fl (fun x => x) E lc s = g711plc_addtohistory E lc s ∧
    g711plc_overlapaddatend_fl (fun x => x) lc s f cnt = g711plc_overlapaddatend lc s f cnt ∧
    lpc_analysis_fl (fun x => x) s size coeff = lpc_analysis s size coeff :=
  ⟨rfl, rfl, rfl⟩

/-! ## The overlap add at the end of an erasure, in an arithmetic with rounding -/

theorem end_gain_fl_bounds (fl : Float → Float) (hfl : Rounding fl) (lc : LowcFE)
    (he : 1 ≤ lc.erasecnt) (ha : 0 ≤ lc.attenfac) :
    0 ≤ end_gain_fl fl lc ∧ end_gain_fl fl lc ≤ 1 := by
  have f0 : fl 0 = 0 := by
    have := hfl.int16 0 (by norm_num) (by norm_num)
    simpa using this
  have f1 : fl 1 = 1 := by
    have := hfl.int16 1 (by norm_num) (by norm_num)
    simpa using this
  have h1 : (0 : Float) ≤ ((lc.erasecnt - 1 : Int) : Float) := by
    have : 0 ≤ lc.erasecnt - 1 := by omega
    exact_mod_cast this
  have h2 : 0 ≤ fl (((lc.erasecnt - 1 : Int) : Float) * lc.attenfac) := by
    have := hfl.mono _ _ (mul_nonneg h1 ha)
    rwa [f0] at this
  have h3 : fl (1 - fl (((lc.erasecnt - 1 : Int) : Float) * lc.attenfac)) ≤ 1 := by
    have := hfl.mono (1 - fl (((lc.erasecnt - 1 : Int) : Float) * lc.attenfac)) 1 (by linarith)
    rwa [f1] at this
  unfold end_gain_fl
  split
  · exact ⟨le_refl _, by norm_num⟩
  · rename_i h
    push_neg at h
    exact ⟨h, h3⟩

theorem end_gain_fl_eq_max (fl : Float → Float) (lc : LowcFE) :
    end_gain_fl fl lc
      = max 0 (fl (1 - fl (((lc.erasecnt - 1 : Int) : Float) * lc.attenfac))) := by
  unfold end_gain_fl
  split_ifs with h
  · rw [max_eq_left (le_of_lt h)]
  · rw [max_eq_right (not_lt.mp h)]

/-- A 16-bit sample times a gain between 0 and 1, rounded, converts to `short`. -/
theorem gain_mul_inRange (fl : Float → Float) (hfl : Rounding fl) (g : Float) (f : Int)
    (hg0 : 0 ≤ g) (hg1 : g ≤ 1) (hf0 : -32768 ≤ f) (hf1 : f ≤ 32767) :
    inRange (fl (g * (f : Float))) := by
  have a1 := hfl.int16 (-32768) (by norm_num) (by norm_num)
  have a2 := hfl.int16 32767 (by norm_num) (by norm_num)
  have hf0' : (-32768 : Float) ≤ (f : Float) := by exact_mod_cast hf0
  have hf1' : (f : Float) ≤ 32767 := by exact_mod_cast hf1
  have b1 : (((-32768 : Int)) : Float) ≤ g * (f : Float) := by
    push_cast
    by_cases hs : (0 : Float) ≤ (f : Float)
    · have := mul_nonneg hg0 hs
      linarith
    · push_neg at hs
      have : (f : Float) ≤ g * (f : Float) := by
        have := mul_le_mul_of_nonpos_right hg1 (le_of_lt hs)
        linarith
      linarith
  have b2 : g * (f : Float) ≤ ((32767 : Int) : Float) := by
    push_cast
    by_cases hs : (0 : Float) ≤ (f : Float)
    · have := mul_le_mul_of_nonneg_right hg1 hs
      linarith
    · push_neg at hs
      have := mul_nonpos_of_nonneg_of_nonpos hg0 (le_of_lt hs)
      linarith
  have c1 := hfl.mono _ _ b1
  have c2 := hfl.mono _ _ b2
  rw [a1] at c1
  rw [a2] at c2
  apply inRange_of_bounds
  · push_cast at c1
    exact c1
  · push_cast at c2
    linarith

/-- The function `g711plc_overlapaddatend`, in an arithmetic with rounding: it has
a result when the scaled samples below `sbcrt` convert to `short`, and the samples
below `sbcrt` of the result are the samples of `f` times the gain, rounded and
truncated. -/
theorem overlapaddatend_fl_spec (fl : Float → Float) (lc : LowcFE) (s f : Arr short) (cnt : Int)
    (hr : ∀ i, 0 ≤ i → i < lc.sbcrt → inRange (fl (end_gain_fl fl lc * (f.get i : Float)))) :
    ∃ s', g711plc_overlapaddatend_fl fl lc s f cnt = some s' ∧
      ∀ j, 0 ≤ j → j < lc.sbcrt →
        s'.get j = trunc (fl (end_gain_fl fl lc * (f.get j : Float))) := by
  unfold g711plc_overlapaddatend_fl
  simp only []
  obtain ⟨s1, hs1, hv1⟩ := forLoopM_set_spec
    (fun i => fl (end_gain_fl fl lc * (f.get i : Float))) 0
    lc.sbcrt.toNat s (fun i h0 h1 => hr i h0 (by omega))
  simp only [zero_add, sub_zero] at hs1 hv1
  have hg : (if fl (1 - fl (((lc.erasecnt - 1 : Int) : Float) * lc.attenfac)) < 0 then (0 : Float)
      else fl (1 - fl (((lc.erasecnt - 1 : Int) : Float) * lc.attenfac))) = end_gain_fl fl lc :=
    rfl
  rw [hg, hs1]
  simp only [Option.some_bind]
  obtain ⟨st, hst, h3⟩ := forLoopM_inv
    (fun (ii : Int) (st : Ola short) =>
      (toShort (clamp16 (fl (fl (st.lw * (f.get (lc.sbcrt + ii) : Float))
          + fl (st.rw * (st.o.get (lc.sbcrt + ii) : Float)))))).bind
        (fun v => some (Ola.mk (st.o.set (lc.sbcrt + ii) v)
          (fl (st.lw - fl (fl (1 / ((cnt - lc.sbcrt : Int) : Float)) * end_gain_fl fl lc)))
          (fl (st.rw + fl (1 / ((cnt - lc.sbcrt : Int) : Float)))))))
    (fun _ st => ∀ j, j < lc.sbcrt → st.o.get j = s1.get j)
    (cnt - lc.sbcrt).toNat
    (Ola.mk s1 (fl (fl (1 - fl (1 / ((cnt - lc.sbcrt : Int) : Float))) * end_gain_fl fl lc))
      (fl (1 / ((cnt - lc.sbcrt : Int) : Float))))
    (fun j _ => rfl)
    (fun k st hk h3 => by
      refine ⟨Ola.mk (st.o.set (lc.sbcrt + k) (trunc (clamp16
          (fl (fl (st.lw * (f.get (lc.sbcrt + k) : Float))
            + fl (st.rw * (st.o.get (lc.sbcrt + k) : Float)))))))
          (fl (st.lw - fl (fl (1 / ((cnt - lc.sbcrt : Int) : Float)) * end_gain_fl fl lc)))
          (fl (st.rw + fl (1 / ((cnt - lc.sbcrt : Int) : Float)))), ?_, ?_⟩
      · show (toShort _).bind _ = _
        rw [toShort_of_inRange _ (inRange_clamp16 _)]; rfl
      · intro j hj
        simp only [Arr.get_set]
        rw [if_neg (by omega)]
        exact h3 j hj)
  refine ⟨st.o, by rw [hst]; rfl, fun j hj0 hj1 => ?_⟩
  rw [h3 j hj1, hv1, if_pos ⟨hj0, by omega⟩]

/-- The first good frame after an erasure, in an arithmetic with rounding, for a
state with `sbcrt < olen`: the call has a result when the scaled samples below
`sbcrt` convert to `short`, and the samples below `sbcrt` of the frame committed
to the end of the history are the samples drawn from the pitch buffer times the
gain, rounded and truncated. -/
theorem addtohistory_fl_end (fl : Float → Float) (hfl : Rounding fl) (E : Env) (lc : LowcFE)
    (s : Arr short) (hF : 0 ≤ lc.framesz) (hs0 : 0 ≤ lc.sbcrt) (hsF : lc.sbcrt ≤ lc.framesz)
    (ho : lc.sbcrt ≤ end_olen lc) (ha : 0 ≤ lc.attenfac)
    (he : 1 ≤ lc.erasecnt) (hp0 : 0 ≤ lc.poffset) (hp1 : lc.poffset < lc.pitchblen)
    (hr : ∀ j, 0 ≤ j → j < lc.pitchblen →
      inRange (lc.pitchbuf.get (lc.pitchbufstart + j))) :
    ∃ r, g711plc_addtohistory_fl fl E lc s = some r ∧ r.1.erasecnt = 0 ∧
      ∀ i, 0 ≤ i → i < lc.sbcrt →
        r.1.history.get (lc.historylen - lc.framesz + i) =
          trunc (fl (end_gain_fl fl lc * ((trunc (lc.pitchbuf.get
            (lc.pitchbufstart + (lc.poffset + i) % lc.pitchblen)) : Int) : Float))) := by
  obtain ⟨hg0, hg1⟩ := end_gain_fl_bounds fl hfl lc he ha
  obtain ⟨f, hf, hfv⟩ := getfespeech_spec lc (Arr.const 0) (end_olen lc) (by omega) hp0 hp1 hr
  have hfr : ∀ i, 0 ≤ i → i < end_olen lc → -32768 ≤ f.get i ∧ f.get i ≤ 32767 := by
    intro i hi0 hi1
    rw [hfv, if_pos ⟨hi0, hi1⟩]
    exact hr _ (Int.emod_nonneg _ (by omega)) (Int.emod_lt_of_pos _ (by omega))
  obtain ⟨s', hs', hsv⟩ := overlapaddatend_fl_spec fl
    { lc with poffset := (lc.poffset + end_olen lc) % lc.pitchblen } s f (end_olen lc)
    (fun i hi0 hi1 => by
      have hi1' : i < lc.sbcrt := hi1
      have hb := hfr i hi0 (by omega)
      exact gain_mul_inRange fl hfl _ (f.get i) hg0 hg1 hb.1 hb.2)
  have hsv' : ∀ i, 0 ≤ i → i < lc.sbcrt → s'.get i =
      trunc (fl (end_gain_fl fl lc * ((trunc (lc.pitchbuf.get
        (lc.pitchbufstart + (lc.poffset + i) % lc.pitchblen)) : Int) : Float))) := by
    intro i hi0 hi1
    rw [hsv i hi0 hi1, hfv, if_pos ⟨hi0, by omega⟩]
    rfl
  have hbranch : (if lc.erasecnt ≠ 0 then
        (g711plc_getfespeech lc (Arr.const 0) (end_olen lc)).bind (fun r =>
          (g711plc_overlapaddatend_fl fl r.1 s r.2 (end_olen lc)).bind (fun s =>
            some ({ r.1 with erasecnt := 0 }, s)))
      else some (lc, s)) =
      some ({ lc with poffset := (lc.poffset + end_olen lc) % lc.pitchblen, erasecnt := 0 },
        s') := by
    rw [if_pos (by omega), hf]
    simp only [Option.some_bind]
    rw [hs']
    rfl
  have htail : ∀ (st : LowcFE), st.framesz = lc.framesz → st.historylen = lc.historylen →
      ∀ i, 0 ≤ i → i < lc.framesz →
        (g711plc_savespeech st s').1.history.get (lc.historylen - lc.framesz + i) = s'.get i := by
    intro st h1 h2 i hi0 hi1
    rw [savespeech_history_get st s' (by omega), h1, h2, if_neg (by omega), if_pos (by omega)]
    congr 1
    omega
  cases hcn : E.COMFORT_NOISE
  · refine ⟨g711plc_savespeech
      { lc with poffset := (lc.poffset + end_olen lc) % lc.pitchblen, erasecnt := 0 } s', (by
        unfold g711plc_addtohistory_fl
        simp only []
        have hb := hbranch
        unfold end_olen at hb
        rw [hb, hcn]
        simp only [Option.some_bind, Bool.false_eq_true, if_false]
        rfl), rfl, fun i hi0 hi1 => ?_⟩
    exact (htail _ rfl rfl i hi0 (by omega)).trans (hsv' i hi0 hi1)
  · refine ⟨g711plc_savespeech
      { lc with
        poffset := (lc.poffset + end_olen lc) % lc.pitchblen, erasecnt := 0,
        cng := { lc.cng with
          lpc_coeff := lpc_analysis_fl fl s' lc.framesz lc.cng.lpc_coeff } } s', (by
        unfold g711plc_addtohistory_fl
        simp only []
        have hb := hbranch
        unfold end_olen at hb
        rw [hb, hcn]
        simp only [Option.some_bind, if_true]
        rfl), rfl, fun i hi0 hi1 => ?_⟩
    exact (htail _ rfl rfl i hi0 (by omega)).trans (hsv' i hi0 hi1)

/-! ## The periodic draw on the states that streams reach -/

/-- In a build without comfort noise and with `fading_count = 10`, after every
stream of calls on a freshly constructed state whose good frames are 16-bit
frames, while an erasure lasts: `0 ≤ poffset < pitchblen`, and the pitch buffer
holds, between `pitchbufstart` and `pitchbufstart + pitchblen`, samples that
truncate to 16-bit values, so the periodic draw is defined. -/
theorem draw_defined (E : Env) (hcn : E.COMFORT_NOISE = false) (hfc : E.fading_count = 10)
    (lc0 : LowcFE) (fs : List Frame) :
    ((∀ s, Frame.good s ∈ fs → ∀ j, 0 ≤ j → j < 60 → -32768 ≤ s.get j ∧ s.get j ≤ 32767) →
      ∃ lc r, cvsd_g711plc_construct E lc0 = some lc ∧ plc_run E lc fs = some r ∧
        (1 ≤ r.1.erasecnt → 0 ≤ r.1.poffset ∧ r.1.poffset < r.1.pitchblen ∧
          ∀ j, 0 ≤ j → j < r.1.pitchblen →
            -32768 ≤ trunc (r.1.pitchbuf.get (r.1.pitchbufstart + j)) ∧
              trunc (r.1.pitchbuf.get (r.1.pitchbufstart + j)) ≤ 32767)) ∧
    ((∀ s, Frame.good s ∈ fs → ∀ j, 0 ≤ j → j < 120 → -32768 ≤ s.get j ∧ s.get j ≤ 32767) →
      ∃ lc r, msbc_g711plc_construct E lc0 = some lc ∧ plc_run E lc fs = some r ∧
        (1 ≤ r.1.erasecnt → 0 ≤ r.1.poffset ∧ r.1.poffset < r.1.pitchblen ∧
          ∀ j, 0 ≤ j → j < r.1.pitchblen →
            -32768 ≤ trunc (r.1.pitchbuf.get (r.1.pitchbufstart + j)) ∧
              trunc (r.1.pitchbuf.get (r.1.pitchbufstart + j)) ≤ 32767)) := by
  constructor
  · intro hs
    obtain ⟨lc, r, hc, h1, h2, _⟩ := cvsd_run_int16 E hcn hfc lc0 fs hs
    refine ⟨lc, r, hc, h1, fun he => ?_⟩
    obtain ⟨_, d2, d3, d4⟩ := Inv.draw (closed_int16 E) h2 he
    exact ⟨d2, d3, d4⟩
  · intro hs
    obtain ⟨lc, r, hc, h1, h2, _⟩ := msbc_run_int16 E hcn hfc lc0 fs hs
    refine ⟨lc, r, hc, h1, fun he => ?_⟩
    obtain ⟨_, d2, d3, d4⟩ := Inv.draw (closed_int16 E) h2 he
    exact ⟨d2, d3, d4⟩

/-! ## The frame that ends an erasure, in an arithmetic with rounding -/

/-- Claim C11.  For the mSBC variant (`sbcrt = 36`, `framesz = 120`,
`eoverlapincr = 48`), in every build and in the arithmetic of `Float` with any
rounding that keeps the order and the 16-bit integers: in a state in which an
erasure lasts (`erasecnt ≥ 1`, `attenfac ≥ 0`, the pitch buffer holding samples
that truncate to 16-bit values), `g711plc_addtohistory` has a result for every
frame `s`, and the samples `0 .. 35` of the frame it commits to the end of the
history are `trunc(gain * f[i])`, where `gain` is
`max(0, 1 - (erasecnt - 1) * attenfac)` as the code computes it from the stored
`attenfac`, `f[i]` is the sample `i` of the periodic draw from the pitch buffer,
and every operation is rounded; they are the same for every frame `s`. -/
theorem reconvergence_replacement (fl : Float → Float) (hfl : Rounding fl) (E : Env)
    (lc : LowcFE) (s : Arr short) (hsb : lc.sbcrt = 36) (hF : lc.framesz = 120)
    (hinc : lc.eoverlapincr = 48) (ha : 0 ≤ lc.attenfac)
    (he : 1 ≤ lc.erasecnt) (hpo : 0 ≤ lc.poverlap) (hp0 : 0 ≤ lc.poffset)
    (hp1 : lc.poffset < lc.pitchblen)
    (hr : ∀ j, 0 ≤ j → j < lc.pitchblen →
      -32768 ≤ trunc (lc.pitchbuf.get (lc.pitchbufstart + j)) ∧
        trunc (lc.pitchbuf.get (lc.pitchbufstart + j)) ≤ 32767) :
    ∃ r, g711plc_addtohistory_fl fl E lc s = some r ∧
      (∀ i, 0 ≤ i → i < 36 →
        r.1.history.get (lc.historylen - lc.framesz + i) =
          trunc (fl (max 0 (fl (1 - fl (((lc.erasecnt - 1 : Int) : Float) * lc.attenfac))) *
            ((trunc (lc.pitchbuf.get
              (lc.pitchbufstart + (lc.poffset + i) % lc.pitchblen)) : Int) : Float)))) ∧
      (∀ s', ∃ r', g711plc_addtohistory_fl fl E lc s' = some r' ∧
        ∀ i, 0 ≤ i → i < 36 →
          r'.1.history.get (lc.historylen - lc.framesz + i) =
            r.1.history.get (lc.historylen - lc.framesz + i)) := by
  have ho : lc.sbcrt ≤ end_olen lc := by
    unfold end_olen
    have hm : 0 ≤ (lc.erasecnt + 1 - 1) * lc.eoverlapincr := mul_nonneg (by omega) (by omega)
    split <;> omega
  have key : ∀ s, ∃ r, g711plc_addtohistory_fl fl E lc s = some r ∧
      ∀ i, 0 ≤ i → i < 36 →
        r.1.history.get (lc.historylen - lc.framesz + i) =
          trunc (fl (max 0 (fl (1 - fl (((lc.erasecnt - 1 : Int) : Float) * lc.attenfac))) *
            ((trunc (lc.pitchbuf.get
              (lc.pitchbufstart + (lc.poffset + i) % lc.pitchblen)) : Int) : Float))) := by
    intro s
    obtain ⟨r, h1, _, h3⟩ := addtohistory_fl_end fl hfl E lc s (by omega) (by omega) (by omega)
      ho ha he hp0 hp1 hr
    refine ⟨r, h1, fun i hi0 hi1 => ?_⟩
    rw [h3 i hi0 (by omega), end_gain_fl_eq_max]
  obtain ⟨r, h1, h2⟩ := key s
  refine ⟨r, h1, h2, fun s' => ?_⟩
  obtain ⟨r', h1', h2'⟩ := key s'
  exact ⟨r', h1', fun i hi0 hi1 => by rw [h2' i hi0 hi1, h2 i hi0 hi1]⟩

theorem reconvergence_replacement_witness :
    (∃ lc r r2, msbc_g711plc_construct plain blank = some lc ∧
      plc_run plain lc (List.replicate 7 (Frame.good (Arr.const 6000)) ++
        List.replicate 2 (Frame.lost (Arr.const 0) (fun _ => 0))) = some r ∧
      r.1.erasecnt = 2 ∧ r.1.sbcrt = 36 ∧
      g711plc_addtohistory_fl (fun x => x) plain r.1 ramp = some r2 ∧
      r2.1.history.get (780 - 120 + 35) = 4800) ∧
    (∃ r2, g711plc_addtohistory_fl (fun x => x) plain
        { blank with
          sbcrt := 36, framesz := 120, eoverlapincr := 48, historylen := 780, poverlapmax := 60,
          attenfac := 13421773 / 67108864, erasecnt := 4, poverlap := 20, pitch := 80,
          pitchblen := 80, pitchbufstart := 700, pitchbufend := 780, pitchbuf := Arr.const 5 }
        ramp = some r2 ∧
      r2.1.history.get (780 - 120 + 0) = 1) := by
  constructor
  · obtain ⟨lc, r, hc, hr, inv, hg, hF, hL, hP, haf, hai, he, t⟩ :=
      msbc_6000 (List.replicate 2 (Frame.lost (Arr.const 0) (fun _ => 0)))
        (fun f hf => by rw [List.eq_of_mem_replicate hf]; rfl)
    have he' : r.1.erasecnt = 2 := by
      rw [he]
      rfl
    obtain ⟨f1, f2, f3, f4, f5, f6⟩ := constructed_fields plain blank lc (Or.inr hc)
    obtain ⟨k1, _⟩ := fresh_run_some plain lc _ r f1 f2 f3 f4 f5 hr
    obtain ⟨lc', h', g1, g2, g3, g4, g5, g6, g7, g8, g9, g10, g11, g12, g13, g14, _⟩ :=
      msbc_construct_fields plain blank
    rw [hc] at h'
    obtain rfl : lc = lc' := by simpa using h'
    obtain ⟨c1, c2, c3, c4, c5, c6, c7, c8, c9, c10, c11, c12, c13, c14, c15⟩ :=
      consts_eq r.1 lc k1
    have hsb : r.1.sbcrt = 36 := by omega
    obtain ⟨d1, d2, d3, d4⟩ := Inv.draw
      (closed_const plain 6000 (by constructor <;> norm_num) rfl rfl) inv (by omega)
    obtain ⟨r2, h2, h3, _⟩ := reconvergence_replacement (fun x => x)
      ⟨fun _ _ h => h, fun _ _ _ => rfl⟩ plain r.1 ramp hsb hF (by omega)
      inv.params.attenfac (by omega) (by omega) d2 d3 d4
    refine ⟨lc, r, r2, hc, hr, he', hsb, h2, ?_⟩
    have b := inv.burst (by omega)
    have pr := inv.params
    have hidx : r.1.pitchbuf.get (r.1.pitchbufstart + (r.1.poffset + 35) % r.1.pitchblen) =
        ((6000 : short) : Float) := by
      have h1 := pr.pitch_min
      have h2 := b.pitch_lo
      have h3 := b.pitch_hi
      have h5 := b.blen_hi
      have h6 := b.start
      have h7 := pr.pitchbufend
      have h8 := pr.historylen
      have h10 := b.blen_lo
      have h11 := pr.poverlapmax
      have hm0 : 0 ≤ (r.1.poffset + 35) % r.1.pitchblen := Int.emod_nonneg _ (by omega)
      have hm1 : (r.1.poffset + 35) % r.1.pitchblen < r.1.pitchblen :=
        Int.emod_lt_of_pos _ (by omega)
      exact b.pitchbuf _ (by omega) (by omega)
    have := h3 35 (by decide) (by decide)
    rw [hL, hF] at this
    rw [this, hidx, he', haf, trunc_intCast]
    rw [show max (0 : Float) (1 - ((2 - 1 : Int) : Float) * (2 / 10)) * ((6000 : short) : Float)
      = ((4800 : Int) : Float) from by norm_num]
    exact trunc_intCast 4800
  · obtain ⟨st, hst⟩ : ∃ st : LowcFE, st =
        { blank with
          sbcrt := 36, framesz := 120, eoverlapincr := 48, historylen := 780, poverlapmax := 60,
          attenfac := 13421773 / 67108864, erasecnt := 4, poverlap := 20, pitch := 80,
          pitchblen := 80, pitchbufstart := 700, pitchbufend := 780, pitchbuf := Arr.const 5 } :=
      ⟨_, rfl⟩
    have e1 : st.sbcrt = 36 := by rw [hst]
    have e2 : st.framesz = 120 := by rw [hst]
    have e3 : st.eoverlapincr = 48 := by rw [hst]
    have e4 : st.attenfac = 13421773 / 67108864 := by rw [hst]
    have e5 : st.erasecnt = 4 := by rw [hst]
    have e6 : st.poverlap = 20 := by rw [hst]
    have e7 : st.poffset = 0 := by rw [hst]; rfl
    have e8 : st.pitchblen = 80 := by rw [hst]
    have e9 : ∀ j, st.pitchbuf.get j = 5 := by rw [hst]; intro j; rfl
    have e10 : st.historylen = 780 := by rw [hst]
    have t5 : trunc (5 : Float) = 5 := by
      have := trunc_intCast 5
      simpa using this
    obtain ⟨r2, h2, h3, _⟩ := reconvergence_replacement (fun x => x)
      ⟨fun _ _ h => h, fun _ _ _ => rfl⟩ plain st ramp e1 e2 e3 (by rw [e4]; norm_num)
      (by omega) (by omega) (by omega) (by omega)
      (fun j _ _ => by rw [e9, t5]; constructor <;> norm_num)
    have h := h3 0 (by decide) (by decide)
    rw [e10, e2, e9, t5, e5, e4] at h
    subst hst
    refine ⟨r2, h2, ?_⟩
    rw [h]
    have : max (0 : Float) (1 - ((4 - 1 : Int) : Float) * (13421773 / 67108864)) * ((5 : Int) : Float)
        = 134217725 / 67108864 := by norm_num
    rw [this]
    unfold trunc
    rw [if_pos (by norm_num)]
    rw [Int.floor_eq_iff]
    constructor <;> norm_num

/-! ## The fine search and the range of the pitch, in an arithmetic with rounding -/

/-- The coarse search of `g711plc_findpitch`, in every arithmetic, ends on the
last lag of its grid `0, ndec, 2 * ndec, ...` whose score, as the loop computes
it, is maximal. -/
theorem findpitch_coarse_fl_spec (fl : Float → Float) (E : Env) (lc : LowcFE)
    (hn : 1 ≤ lc.ndec) (hd : 0 ≤ lc.pitchdiff) :
    ∃ n b : Nat, findpitch_coarse_fl fl E lc = some (b * lc.ndec) ∧ b ≤ n ∧
      n * lc.ndec ≤ lc.pitchdiff ∧ lc.pitchdiff < ((n : Int) + 1) * lc.ndec ∧
      (∀ m, m ≤ n →
        search_score_fl fl E lc (lc.pitchbufend - lc.corrbuflen) lc.ndec lc.ndec m
          ≤ search_score_fl fl E lc (lc.pitchbufend - lc.corrbuflen) lc.ndec lc.ndec b) ∧
      (∀ m, b < m → m ≤ n →
        search_score_fl fl E lc (lc.pitchbufend - lc.corrbuflen) lc.ndec lc.ndec m
          < search_score_fl fl E lc (lc.pitchbufend - lc.corrbuflen) lc.ndec lc.ndec b) := by
  obtain ⟨st, n, b, h, hbm, hbn, hk, hn0, hmax, hge, -⟩ := search_loop_fl_spec fl E lc
    (lc.pitchbufend - lc.corrbuflen) lc.ndec lc.ndec 0 lc.pitchdiff true hn hn
    (lc.pitchdiff + 1).toNat (by omega)
  rw [search_score_fl_zero, zero_add] at h
  refine ⟨n, b, ?_, hbn, ?_, by omega, hmax, hge rfl⟩
  · unfold findpitch_coarse_fl
    simp only [energy_corr_sum_fl_eq fl lc _ _ lc.ndec hn, Option.some_bind]
    rw [h]
    simp only [Option.some_bind, hbm, zero_add]
  · rcases hn0 with h0 | h0
    · subst h0; simpa using hd
    · omega

theorem stride_sum_fl_zero (fl : Float → Float) (h0 : fl 0 = 0) (f : Int → Float)
    (step bound : Int) (hs : 1 ≤ step) (hf : ∀ i, 0 ≤ i → i < bound → f i = 0) :
    stride_sum_fl fl f step bound = 0 := by
  unfold stride_sum_fl
  refine forLoop_inv _ (fun _ acc => acc = 0) _ 0 rfl ?_
  intro k acc hk hacc
  have hk' : (k : Int) < (bound + step - 1) / step := by omega
  have h1 : ((k : Int) + 1) * step ≤ bound + step - 1 :=
    (Int.le_ediv_iff_mul_le (by omega)).1 (by omega)
  have h2 : (k : Int) * step < bound := by
    have : ((k : Int) + 1) * step = k * step + step := by ring
    omega
  have h3 : (0 : Int) ≤ k * step := mul_nonneg (by omega) (by omega)
  simp only [hacc, hf _ h3 h2, h0, add_zero]

/-- On a pitch buffer that holds zeros up to `hi`, in an arithmetic that rounds 0
to 0, every score that a search loop computes for a window below `hi` is
`fl (0 / sqrt ...)`, which is 0. -/
theorem search_score_fl_zeros (fl : Float → Float) (h0 : fl 0 = 0) (E : Env) (lc : LowcFE)
    (hi : Int) (hz : ∀ j, 0 ≤ j → j < hi → lc.pitchbuf.get j = 0)
    (rp0 step istep : Int) (hs : 1 ≤ step) (his : 1 ≤ istep) (hrp : 0 ≤ rp0)
    (hc : 0 ≤ lc.corrlen) (m : Nat) (hm : rp0 + m * step + lc.corrlen ≤ hi) :
    search_score_fl fl E lc rp0 step istep m = 0 := by
  have hms : ∀ k : Nat, k ≤ m → (k : Int) * step ≤ m * step := fun k hk =>
    mul_le_mul_of_nonneg_right (by exact_mod_cast hk) (by omega)
  have hk0 : ∀ k : Nat, (0 : Int) ≤ k * step := fun k => mul_nonneg (by omega) (by omega)
  have hwe : win_energy_fl fl lc rp0 istep = 0 := by
    unfold win_energy_fl
    apply stride_sum_fl_zero fl h0 _ _ _ his
    intro i hi0 hi1
    have := hk0 m
    rw [hz (rp0 + i) (by omega) (by omega), mul_zero]
  have hrun : ∀ k : Nat, k ≤ m → run_energy_fl fl lc rp0 step istep k = 0 := by
    intro k
    induction k with
    | zero => intro _; exact hwe
    | succ k ih =>
      intro hk
      have hk1 := hms k (by omega)
      have hk2 : ((k : Int) + 1) * step ≤ m * step :=
        mul_le_mul_of_nonneg_right (by exact_mod_cast hk) (by omega)
      have hk3 := hk0 k
      have e : ((k : Int) + 1) * step = k * step + step := by ring
      rw [e] at hk2
      unfold run_energy_fl
      rw [ih (by omega), hz (rp0 + k * step) (by omega) (by omega),
        hz (rp0 + k * step + lc.corrlen) (by omega) (by omega)]
      simp only [mul_zero, h0, sub_zero, add_zero]
  have hwc : win_corr_fl fl lc (rp0 + m * step) (lc.pitchbufend - lc.corrlen) istep = 0 := by
    unfold win_corr_fl
    apply stride_sum_fl_zero fl h0 _ _ _ his
    intro i hi0 hi1
    have := hk0 m
    rw [hz (rp0 + m * step + i) (by omega) (by omega), zero_mul]
  unfold search_score_fl scaled_fl
  rw [hrun m (le_refl _), hwc]
  simp only [zero_div, h0]

/-- Claim C16, as it holds: in the arithmetic of `Float` with any rounding, the
fine search of `g711plc_findpitch` returns the first lag of the fine window
`[best - (ndec - 1), best + (ndec - 1)]`, clipped to `[0, pitchdiff]`, whose
score is maximal, where `best` is the coarse winner and the score of a lag is the
one the loop computes: the correlation over the square root of the running
energy, floored at `corrminpower`.  When no lag of the window scores strictly
more than `best`, the lag returned is at most `best` and scores as much, and it
is `best` exactly when every earlier lag of the window scores strictly less; when
all the scores of the window are equal it is the first lag of the window.  In
exact arithmetic the scores that the loop computes are the full-stride scores
summed directly. -/
theorem fine_search_first_max (fl : Float → Float) (E : Env) (lc : LowcFE)
    (hn : 1 ≤ lc.ndec) (hd : 0 ≤ lc.pitchdiff) :
    ∃ best b : Int, findpitch_coarse_fl fl E lc = some best ∧ 0 ≤ best ∧ best ≤ lc.pitchdiff ∧
      g711plc_findpitch_fl fl E lc = some (lc.pitch_max - b) ∧
      max 0 (best - (lc.ndec - 1)) ≤ b ∧ b ≤ min lc.pitchdiff (best + (lc.ndec - 1)) ∧
      (∀ j, max 0 (best - (lc.ndec - 1)) ≤ j → j ≤ min lc.pitchdiff (best + (lc.ndec - 1)) →
        fine_loop_score fl E lc (max 0 (best - (lc.ndec - 1))) j
          ≤ fine_loop_score fl E lc (max 0 (best - (lc.ndec - 1))) b) ∧
      (∀ j, max 0 (best - (lc.ndec - 1)) ≤ j → j < b →
        fine_loop_score fl E lc (max 0 (best - (lc.ndec - 1))) j
          < fine_loop_score fl E lc (max 0 (best - (lc.ndec - 1))) b) ∧
      ((∀ j, max 0 (best - (lc.ndec - 1)) ≤ j → j ≤ min lc.pitchdiff (best + (lc.ndec - 1)) →
          ¬ fine_loop_score fl E lc (max 0 (best - (lc.ndec - 1))) best
            < fine_loop_score fl E lc (max 0 (best - (lc.ndec - 1))) j) →
        b ≤ best ∧
        fine_loop_score fl E lc (max 0 (best - (lc.ndec - 1))) b
          = fine_loop_score fl E lc (max 0 (best - (lc.ndec - 1))) best ∧
        (b = best ↔ ∀ j, max 0 (best - (lc.ndec - 1)) ≤ j → j < best →
          fine_loop_score fl E lc (max 0 (best - (lc.ndec - 1))) j
            < fine_loop_score fl E lc (max 0 (best - (lc.ndec - 1))) best)) ∧
      ((∀ j, max 0 (best - (lc.ndec - 1)) ≤ j → j ≤ min lc.pitchdiff (best + (lc.ndec - 1)) →
          fine_loop_score fl E lc (max 0 (best - (lc.ndec - 1))) j
            = fine_loop_score fl E lc (max 0 (best - (lc.ndec - 1))) best) →
        b = max 0 (best - (lc.ndec - 1))) ∧
      (0 ≤ lc.corrlen → ∀ j, max 0 (best - (lc.ndec - 1)) ≤ j →
        fine_loop_score (fun x => x) E lc (max 0 (best - (lc.ndec - 1))) j
          = fine_score E lc j) := by
  obtain ⟨best, b, hco, hb0, hb1, hfp, hlo, hhi, hmax, hfirst⟩ :=
    findpitch_fl_spec fl E lc hn hd
  have hwl : max 0 (best - (lc.ndec - 1)) ≤ best := by omega
  have hwh : best ≤ min lc.pitchdiff (best + (lc.ndec - 1)) := by omega
  refine ⟨best, b, hco, hb0, hb1, hfp, hlo, hhi, hmax, hfirst, ?_, ?_, ?_⟩
  · intro hno
    have h1 : fine_loop_score fl E lc (max 0 (best - (lc.ndec - 1))) b
        = fine_loop_score fl E lc (max 0 (best - (lc.ndec - 1))) best :=
      le_antisymm (not_lt.mp (hno b hlo hhi)) (hmax best hwl hwh)
    have h2 : b ≤ best := by
      by_contra hgt
      have := hfirst best hwl (by omega)
      rw [h1] at this
      exact lt_irrefl _ this
    refine ⟨h2, h1, ?_, ?_⟩
    · intro e j hj0 hj1
      have := hfirst j hj0 (by omega)
      rwa [e] at this
    · intro hall
      by_contra hne
      have := hall b hlo (by omega)
      rw [h1] at this
      exact lt_irrefl _ this
  · intro hall
    by_contra hne
    have h1 := hfirst _ (le_refl _) (by omega)
    rw [hall _ (le_refl _) (by omega), hall b hlo hhi] at h1
    exact lt_irrefl _ h1
  · intro hc j hj
    unfold fine_loop_score
    rw [(findpitch_fl_id E lc).2.2, search_score_one E lc _ hc]
    congr 1
    omega

theorem fine_search_first_max_witness :
    ∃ lc best b, cvsd_g711plc_construct plain blank = some lc ∧
      findpitch_coarse_fl (fun x => x) plain { lc with
          history := tone400,
          pitchbuf := g711plc_convertsf tone400 0 lc.pitchbuf 0 lc.historylen } = some best ∧
      0 ≤ best ∧ best ≤ 80 ∧
      g711plc_findpitch_fl (fun x => x) plain { lc with
          history := tone400,
          pitchbuf := g711plc_convertsf tone400 0 lc.pitchbuf 0 lc.historylen } = some (120 - b) ∧
      max 0 (best - 1) ≤ b ∧ b ≤ min 80 (best + 1) ∧
      (∀ j, max 0 (best - 1) ≤ j → j < b →
        fine_loop_score (fun x => x) plain { lc with
          history := tone400,
          pitchbuf := g711plc_convertsf tone400 0 lc.pitchbuf 0 lc.historylen } (max 0 (best - 1)) j
          < fine_loop_score (fun x => x) plain { lc with
          history := tone400,
          pitchbuf := g711plc_convertsf tone400 0 lc.pitchbuf 0 lc.historylen }
              (max 0 (best - 1)) b) := by
  obtain ⟨lc, hc, g1, g2, g3, g4, g5, g6, g7, g8, g9, g10, g11, g12, g13, g14, _⟩ :=
    cvsd_construct_fields plain blank
  obtain ⟨st, hst⟩ : ∃ st : LowcFE, st = { lc with
          history := tone400,
          pitchbuf := g711plc_convertsf tone400 0 lc.pitchbuf 0 lc.historylen } := ⟨_, rfl⟩
  have e1 : st.ndec = 2 := by rw [hst]; exact g6
  have e2 : st.pitchdiff = 80 := by rw [hst]; exact g3
  have e3 : st.pitch_max = 120 := by rw [hst]; exact g2
  obtain ⟨best, b, h1, h2, h3, h4, h5, h6, -, h8, -⟩ :=
    fine_search_first_max (fun x => x) plain st (by omega) (by omega)
  rw [e1] at h5 h6 h8
  rw [e2] at h3 h6
  rw [e3] at h4
  have e4 : (2 : Int) - 1 = 1 := by norm_num
  rw [e4] at h5 h6 h8
  subst hst
  exact ⟨lc, best, b, hc, h1, h2, h3, h4, h5, h6, h8⟩

/-- Claim C16, as stated, fails.  On the history of a freshly constructed CVSD
state, which is all zeros, in every arithmetic that rounds 0 to 0: the coarse
winner is the lag 80, the two lags 79 and 80 of the fine window score the same,
yet the lag returned is 79: the pitch is 41, not `pitch_max - 80 = 40`. -/
theorem fine_search_first_max_counterexample :
    ∃ lc, cvsd_g711plc_construct plain blank = some lc ∧
      lc.ndec = 2 ∧ lc.pitchdiff = 80 ∧ lc.pitch_max - 80 = 40 ∧
      ∀ fl : Float → Float, fl 0 = 0 →
        findpitch_coarse_fl fl plain
          { lc with pitchbuf := g711plc_convertsf lc.history 0 lc.pitchbuf 0 lc.historylen }
          = some 80 ∧
        fine_loop_score fl plain
          { lc with pitchbuf := g711plc_convertsf lc.history 0 lc.pitchbuf 0 lc.historylen }
          79 79
          = fine_loop_score fl plain
            { lc with pitchbuf := g711plc_convertsf lc.history 0 lc.pitchbuf 0 lc.historylen }
            79 80 ∧
        g711plc_findpitch_fl fl plain
          { lc with pitchbuf := g711plc_convertsf lc.history 0 lc.pitchbuf 0 lc.historylen }
          = some 41 := by
  obtain ⟨lc, hc, g1, g2, g3, g4, g5, g6, g7, g8, g9, g10, g11, g12, g13, g14, g15, g16, g17⟩ :=
    cvsd_construct_fields plain blank
  have hpb : ∀ j, 0 ≤ j → j < 390 →
      (g711plc_convertsf lc.history 0 lc.pitchbuf 0 lc.historylen).get j = 0 := by
    intro j h0 h1
    rw [g711plc_convertsf_get, if_pos (by omega), zero_add, sub_zero, g17 j h0 h1]
    rfl
  obtain ⟨st, hst⟩ : ∃ st : LowcFE, st =
      { lc with pitchbuf := g711plc_convertsf lc.history 0 lc.pitchbuf 0 lc.historylen } :=
    ⟨_, rfl⟩
  have e1 : st.ndec = 2 := by rw [hst]; exact g6
  have e2 : st.pitchdiff = 80 := by rw [hst]; exact g3
  have e3 : st.pitch_max = 120 := by rw [hst]; exact g2
  have e4 : st.corrlen = 160 := by rw [hst]; exact g7
  have e5 : st.corrbuflen = 280 := by rw [hst]; exact g8
  have e7 : st.pitchbufend = 390 := by rw [hst]; exact g16
  have e8 : ∀ j, 0 ≤ j → j < 390 → st.pitchbuf.get j = 0 := by rw [hst]; exact hpb
  refine ⟨lc, hc, g6, g3, by omega, fun fl h0 => ?_⟩
  rw [← hst]
  have hzero : ∀ (rp0 step istep : Int) (m : Nat), 1 ≤ step → 1 ≤ istep → 0 ≤ rp0 →
      rp0 + m * step + 160 ≤ 390 → search_score_fl fl plain st rp0 step istep m = 0 := by
    intro rp0 step istep m hs his hrp hm
    exact search_score_fl_zeros fl h0 plain st 390 e8 rp0 step istep hs his hrp
      (by rw [e4]; norm_num) m (by rw [e4]; exact hm)
  obtain ⟨n, b, hco, hbn, hn1, hn2, -, hlast⟩ :=
    findpitch_coarse_fl_spec fl plain st (by omega) (by omega)
  rw [e1] at hco hn1 hn2 hlast
  rw [e2] at hn1 hn2
  rw [e7, e5] at hlast
  have hn40 : n = 40 := by omega
  have hb40 : b = 40 := by
    by_contra hne
    have hlt : b < n := by omega
    have := hlast n hlt (le_refl _)
    rw [hzero _ _ _ n (by norm_num) (by norm_num) (by norm_num) (by rw [hn40]; norm_num),
      hzero _ _ _ b (by norm_num) (by norm_num) (by norm_num) (by omega)] at this
    exact lt_irrefl _ this
  have hco80 : findpitch_coarse_fl fl plain st = some 80 := by
    rw [hco, hb40]
    norm_num
  obtain ⟨best, b2, hco2, -, -, hfp, hlo, hhi, -, hfirst⟩ :=
    findpitch_fl_spec fl plain st (by omega) (by omega)
  rw [hco80] at hco2
  obtain rfl : (80 : Int) = best := by simpa using hco2
  rw [e1] at hlo hhi hfirst
  rw [e2] at hhi
  have e9 : max (0 : Int) (80 - (2 - 1)) = 79 := by norm_num
  have e10 : min (80 : Int) (80 + (2 - 1)) = 80 := by norm_num
  rw [e9] at hlo hfirst
  rw [e10] at hhi
  have hs79 : ∀ j, 79 ≤ j → j ≤ 80 → fine_loop_score fl plain st 79 j = 0 := by
    intro j hj0 hj1
    unfold fine_loop_score
    rw [e7, e5]
    apply hzero _ _ _ _ (by norm_num) (by norm_num) (by norm_num)
    have : (((j - 79).toNat : Nat) : Int) ≤ 1 := by omega
    omega
  have hb79 : b2 = 79 := by
    by_contra hne
    have := hfirst 79 (le_refl _) (by omega)
    rw [hs79 79 (le_refl _) (by norm_num), hs79 b2 hlo hhi] at this
    exact lt_irrefl _ this
  refine ⟨hco80, ?_, ?_⟩
  · rw [hs79 79 (le_refl _) (by norm_num), hs79 80 (by norm_num) (le_refl _)]
  · rw [hfp, e3, hb79]
    norm_num

end PLC
